import Mathlib

/-! # A shallow embedding of the mukar-scheme interpreter

The C++ sources (`object.h`, `object.cpp`, `scheme.h`, `scheme.cpp`, `parser.cpp`,
`tokenizer.cpp`) are translated function by function.

* An `Object*` is a `Ptr`: `none` is `nullptr`, `some a` the address of a heap object.
* The process-wide `Heap` singleton is an explicit value threaded through every
  operation.  Its `data_` vector is a list of slots in vector order; the slot records
  the address of the owned object, so that `swap`/`pop_back` move objects inside the
  vector without changing their addresses.  `Make` hands out the address `next`.
* A thrown exception is an `Except.error`; recursion and unbounded loops take a fuel
  argument and report `Err.OutOfFuel` when it is exhausted.
* `int64_t` is an `Int` kept in range by `wrap64`.
* `std::unordered_map` is an association list with unique keys, in insertion order; the
  properties below hold for every order of the entries.
* A `unique_ptr` slot of `data_` is never null once `Make` has returned, so the test
  `data_[i] == nullptr` of the sweep has no counterpart.
-/

namespace Scheme

/-- The three exception classes of `error.h`, plus the two outcomes that are not
exceptions: behaviour the C++ standard leaves undefined (dereferencing a null or
dangling pointer, `front()` of an empty vector, machine division by zero) and
exhaustion of the fuel of the model. -/
inductive Err
  | SyntaxError
  | NameError
  | RuntimeError
  | Undefined
  | OutOfFuel
  deriving DecidableEq, Repr

/-- An `Object*`. -/
abbrev Ptr := Option Nat

/-- The stateless subclasses of `Functor` (every one except `Lambda`). -/
inductive Builtin
  | Quote | IsPair | IsNull | IsList | List | Cons | Car | Cdr | ListRef | ListTail
  | IsNumber | EqualTo | Greater | Less | GreaterEqual | LessEqual
  | Plus | Minus | Multiplies | Divides | Max | Min | Abs
  | IsBoolean | Not | And | Or
  | Define | IsSymbol | Set | SetCar | SetCdr | If | CreateLambda
  deriving DecidableEq, Repr

/-- The subclasses of `Object` with their data members (`used_` is kept in the slot). -/
inductive Object
  | Number (value_ : Int)
  | Boolean (value_ : Bool)
  | Symbol (name_ : String)
  | Cell (first_ second_ : Ptr)
  | NameSpace (data_ : List (String × Ptr)) (upper_ : Ptr)
  | Functor (kind : Builtin)
  | Lambda (arg_names_ body_ : List Ptr) (scope_ : Ptr)
  deriving DecidableEq, Repr

/-- One element of `Heap::data_`: the owned object, its address and its `used_` flag. -/
structure Slot where
  addr : Nat
  used_ : Bool
  obj : Object
  deriving DecidableEq, Repr

/-- The arena `Heap`: the vector `data_` and the next address `Make` will hand out. -/
structure Heap where
  data_ : List Slot
  next : Nat
  deriving DecidableEq, Repr

namespace Heap

/-- The slot of the object at address `a`, if that object is alive. -/
def find (h : Heap) (a : Nat) : Option Slot :=
  h.data_.find? (fun s => s.addr == a)

/-- Dereference an address. -/
def obj? (h : Heap) (a : Nat) : Option Object :=
  (h.find a).map Slot.obj

/-- `Object::GetMark` of the object at `a` (false when there is none). -/
def GetMark (h : Heap) (a : Nat) : Bool :=
  match h.find a with
  | some s => s.used_
  | none => false

/-- Write the `used_` flag of the object at `a`. -/
def setMark (h : Heap) (a : Nat) (b : Bool) : Heap :=
  { h with data_ := h.data_.map (fun s => if s.addr = a then { s with used_ := b } else s) }

/-- Overwrite the data members of the object at `a`. -/
def update (h : Heap) (a : Nat) (o : Object) : Heap :=
  { h with data_ := h.data_.map (fun s => if s.addr = a then { s with obj := o } else s) }

/-- `Heap::Make<T>(args...)`: append a new object to `data_` and return its address. -/
def Make (h : Heap) (o : Object) : Heap × Nat :=
  ({ data_ := h.data_ ++ [{ addr := h.next, used_ := false, obj := o }], next := h.next + 1 },
   h.next)

/-- `Heap::Size`. -/
def Size (h : Heap) : Nat := h.data_.length

/-- `Heap::Clear`. -/
def Clear (h : Heap) : Heap := { h with data_ := [] }

end Heap

/-- `Is<Number>(obj)`. -/
def IsNumber (h : Heap) (p : Ptr) : Bool :=
  match p with
  | some a => (match h.obj? a with | some (.Number _) => true | _ => false)
  | none => false

/-- `Is<Boolean>(obj)`. -/
def IsBoolean (h : Heap) (p : Ptr) : Bool :=
  match p with
  | some a => (match h.obj? a with | some (.Boolean _) => true | _ => false)
  | none => false

/-- `Is<Symbol>(obj)`. -/
def IsSymbol (h : Heap) (p : Ptr) : Bool :=
  match p with
  | some a => (match h.obj? a with | some (.Symbol _) => true | _ => false)
  | none => false

/-- `Is<Cell>(obj)`. -/
def IsCell (h : Heap) (p : Ptr) : Bool :=
  match p with
  | some a => (match h.obj? a with | some (.Cell _ _) => true | _ => false)
  | none => false

/-- `Is<Functor>(obj)`: a builtin or a `Lambda`. -/
def IsFunctor (h : Heap) (p : Ptr) : Bool :=
  match p with
  | some a =>
    (match h.obj? a with
     | some (.Functor _) => true
     | some (.Lambda _ _ _) => true
     | _ => false)
  | none => false

/-! ## Mark and sweep (`object.h`) -/

/-- The guarded call `if (p != nullptr && !p->GetMark()) p->Mark();`. -/
def markPtr (mark : Heap → Nat → Except Err Heap) (h : Heap) (p : Ptr) : Except Err Heap :=
  match p with
  | none => .ok h
  | some a => if h.GetMark a then .ok h else mark h a

/-- The unguarded call `if (upper_ != nullptr) upper_->Mark();` of `NameSpace::Mark`. -/
def markUpper (mark : Heap → Nat → Except Err Heap) (h : Heap) (p : Ptr) : Except Err Heap :=
  match p with
  | none => .ok h
  | some u => mark h u

/-- A loop of guarded calls over a vector of pointers (or the values of a map). -/
def markList (mark : Heap → Nat → Except Err Heap) : Heap → List Ptr → Except Err Heap
  | h, [] => .ok h
  | h, p :: ps =>
    match markPtr mark h p with
    | .ok h1 => markList mark h1 ps
    | .error e => .error e

/-- The virtual `Mark()`: `Object::Mark`, `Cell::Mark`, `NameSpace::Mark`, `Lambda::Mark`.
`NameSpace::Mark` calls `upper_->Mark()` without looking at the flag of `upper_`. -/
def Mark : Nat → Heap → Nat → Except Err Heap
  | 0, _, _ => .error .OutOfFuel
  | fuel + 1, h, a =>
    match h.obj? a with
    | none => .error .Undefined
    | some o =>
      let h0 := h.setMark a true
      match o with
      | .Cell first_ second_ =>
        match markPtr (Mark fuel) h0 first_ with
        | .ok h1 => markPtr (Mark fuel) h1 second_
        | .error e => .error e
      | .NameSpace data_ upper_ =>
        match markUpper (Mark fuel) h0 upper_ with
        | .ok h1 => markList (Mark fuel) h1 (data_.map Prod.snd)
        | .error e => .error e
      | .Lambda arg_names_ body_ scope_ =>
        match markList (Mark fuel) h0 arg_names_ with
        | .ok h1 =>
          match markList (Mark fuel) h1 body_ with
          | .ok h2 => markPtr (Mark fuel) h2 scope_
          | .error e => .error e
        | .error e => .error e
      | _ => .ok h0

/-- The body of the inner `while`: `std::swap(data_[i], data_.back()); data_.pop_back();`. -/
def swapPop (data : List Slot) (i : Nat) : List Slot :=
  match data.getLast? with
  | none => data
  | some last => (data.set i last).dropLast

/-- The sweep loops of `RemoveTrash` as one state machine on `(i, data_)`: at `i` an
unmarked object is swapped with the back and popped (the inner `while`), a marked one is
stepped over (the outer `for`).  Each step shrinks `data_.size() - i`. -/
def sweep : Nat → Nat → List Slot → List Slot
  | 0, _, data => data
  | fuel + 1, i, data =>
    match data.get? i with
    | none => data
    | some s => if s.used_ then sweep fuel (i + 1) data else sweep fuel i (swapPop data i)

/-- `Heap::RemoveTrash(start)`. -/
def Heap.RemoveTrash (fuel : Nat) (h : Heap) (start : Nat) : Except Err Heap :=
  let h0 : Heap := { h with data_ := h.data_.map (fun s => { s with used_ := false }) }
  match Mark fuel h0 start with
  | .ok h1 => .ok { h1 with data_ := sweep h1.data_.length 0 h1.data_ }
  | .error e => .error e

/-! ## Duplication (`Copy`, `Cell::Copy`, `NameSpace::Copy`, `Lambda::Copy`) -/

/-- `NameSpace::Set` on the map itself: `data_[name] = obj`. -/
def mapSet : List (String × Ptr) → String → Ptr → List (String × Ptr)
  | [], name, obj => [(name, obj)]
  | (k, v) :: rest, name, obj =>
    if k = name then (k, obj) :: rest else (k, v) :: mapSet rest name obj

/-- `NameSpace::Set(name, obj)` on the frame at address `scope`. -/
def NameSpace.Set (h : Heap) (scope : Ptr) (name : String) (obj : Ptr) : Except Err Heap :=
  match scope with
  | none => .error .Undefined
  | some a =>
    match h.obj? a with
    | some (.NameSpace data_ upper_) => .ok (h.update a (.NameSpace (mapSet data_ name obj) upper_))
    | _ => .error .Undefined

/-- `CopyVector`: duplicate every element, front to back. -/
def CopyVector (copy : Heap → Ptr → Except Err (Heap × Ptr)) :
    Heap → List Ptr → Except Err (Heap × List Ptr)
  | h, [] => .ok (h, [])
  | h, p :: ps =>
    match copy h p with
    | .ok (h1, q) =>
      match CopyVector copy h1 ps with
      | .ok (h2, qs) => .ok (h2, q :: qs)
      | .error e => .error e
    | .error e => .error e

/-- The loop of `NameSpace::Copy`: `res->Set(key, value_->Copy())` for every binding.
The call `value_->Copy()` is a member call, undefined on a null value. -/
def copyBindings (copy : Heap → Ptr → Except Err (Heap × Ptr)) (res : Nat) :
    Heap → List (String × Ptr) → Except Err Heap
  | h, [] => .ok h
  | h, (key, value_) :: rest =>
    match value_ with
    | none => .error .Undefined
    | some v =>
      match copy h (some v) with
      | .ok (h1, q) =>
        match NameSpace.Set h1 (some res) key q with
        | .ok h2 => copyBindings copy res h2 rest
        | .error e => .error e
      | .error e => .error e

/-- The free function `Copy(Object*)` of `scheme.cpp` together with the virtual
`Object::Copy` it dispatches to. -/
def Copy : Nat → Heap → Ptr → Except Err (Heap × Ptr)
  | _, h, none => .ok (h, none)
  | 0, _, some _ => .error .OutOfFuel
  | fuel + 1, h, some a =>
    match h.obj? a with
    | none => .error .Undefined
    | some (.Number value_) => .ok ((h.Make (.Number value_)).1, some (h.Make (.Number value_)).2)
    | some (.Boolean value_) =>
      .ok ((h.Make (.Boolean value_)).1, some (h.Make (.Boolean value_)).2)
    | some (.Symbol name_) => .ok ((h.Make (.Symbol name_)).1, some (h.Make (.Symbol name_)).2)
    | some (.Functor kind) => .ok ((h.Make (.Functor kind)).1, some (h.Make (.Functor kind)).2)
    | some (.Cell first_ second_) =>
      -- auto res = Heap::Instance()->Make<Cell>(nullptr, nullptr);
      let h0 := (h.Make (.Cell none none)).1
      let res := (h.Make (.Cell none none)).2
      -- if (this == first_) res->GetFirst() = res; else res->GetFirst() = ::Copy(first_);
      match (if first_ = some a then .ok (h0, some res) else Copy fuel h0 first_) with
      | .error e => .error e
      | .ok (h1, f) =>
        let h2 := h1.update res (.Cell f none)
        -- if (this == second_) res->GetSecond() = res; else res->GetSecond() = ::Copy(second_);
        match (if second_ = some a then .ok (h2, some res) else Copy fuel h2 second_) with
        | .error e => .error e
        | .ok (h3, s) => .ok (h3.update res (.Cell f s), some res)
    | some (.NameSpace data_ upper_) =>
      let h0 := (h.Make (.NameSpace [] upper_)).1
      let res := (h.Make (.NameSpace [] upper_)).2
      match copyBindings (Copy fuel) res h0 data_ with
      | .error e => .error e
      | .ok h1 => .ok (h1, some res)
    | some (.Lambda arg_names_ body_ scope_) =>
      let h0 := (h.Make (.Lambda [] [] none)).1
      let res := (h.Make (.Lambda [] [] none)).2
      match CopyVector (Copy fuel) h0 arg_names_ with
      | .error e => .error e
      | .ok (h1, args) =>
        match CopyVector (Copy fuel) h1 body_ with
        | .error e => .error e
        | .ok (h2, body) =>
          -- res->scope_ = As<NameSpace>(scope_->Copy());
          match scope_ with
          | none => .error .Undefined
          | some sc =>
            match Copy fuel h2 (some sc) with
            | .error e => .error e
            | .ok (h3, sc1) => .ok (h3.update res (.Lambda args body sc1), some res)

/-! ## Environments (`NameSpace::Get`) -/

/-- `NameSpace::Get(name)`: the loop `while (cur != nullptr)` over the `upper_` chain.
The C++ returns a reference into the map of the owning frame; the model returns the
address of that frame together with the bound value. -/
def NameSpace.Get : Nat → Heap → Ptr → String → Except Err (Nat × Ptr)
  | _, _, none, _ => .error .NameError
  | 0, _, some _, _ => .error .OutOfFuel
  | fuel + 1, h, some cur, name =>
    match h.obj? cur with
    | some (.NameSpace data_ upper_) =>
      match data_.lookup name with
      | some v => .ok (cur, v)
      | none => NameSpace.Get fuel h upper_ name
    | _ => .error .Undefined

/-! ## Printing (`Interpreter::GetString`) -/

/-- `res.back() = c`. -/
def setBack (res : String) (c : Char) : String :=
  ⟨res.data.dropLast ++ [c]⟩

/-- The loop condition text `As<Cell>(object)->GetSecond() == object` guarded by
`Is<Cell>(object)`. -/
def isSelfTail (h : Heap) (object : Ptr) : Bool :=
  match object with
  | some a => (match h.obj? a with | some (.Cell _ second_) => second_ == some a | _ => false)
  | none => false

/-- The `do { ... } while (...)` loop of `GetString` and the code after it.  `a` is the
cell `object` points to on entry to the loop body. -/
def GetStringLoop (getString : Ptr → Except Err String) (h : Heap) :
    Nat → Nat → String → Except Err String
  | 0, _, _ => .error .OutOfFuel
  | fuel + 1, a, res =>
    match h.obj? a with
    | some (.Cell first_ second_) =>
      match (if first_ = some a then .ok (res ++ "\x7bselfref\x7d ")
             else (getString first_).map (fun s => res ++ (s ++ " "))) with
      | .error e => .error e
      | .ok res1 =>
        -- object = cell->GetSecond();
        if IsCell h second_ && !isSelfTail h second_ then
          match second_ with
          | some b => GetStringLoop getString h fuel b res1
          | none => .error .Undefined
        else if second_ ≠ none then
          if IsCell h second_ && isSelfTail h second_ then
            .ok (setBack (res1 ++ ". \x7bselfref\x7d ") ')')
          else
            match getString second_ with
            | .ok s => .ok (setBack (res1 ++ (". " ++ s ++ " ")) ')')
            | .error e => .error e
        else .ok (setBack res1 ')')
    | _ => .error .Undefined

/-- `GetFunctorName` of each builtin class. -/
def Builtin.GetFunctorName : Builtin → String
  | .Quote => "[quote]" | .IsPair => "[pair?]" | .IsNull => "[null?]" | .IsList => "[list?]"
  | .List => "[list]" | .Cons => "[cons]" | .Car => "[car]" | .Cdr => "[cdr]"
  | .ListRef => "[list-ref]" | .ListTail => "[list-tail]" | .IsNumber => "[number?]"
  | .EqualTo => "[=]" | .Greater => "[>]" | .Less => "[<]" | .GreaterEqual => "[>=]"
  | .LessEqual => "[<=]" | .Plus => "[+]" | .Minus => "[-]" | .Multiplies => "[*]"
  | .Divides => "[/]" | .Max => "[max]" | .Min => "[min]" | .Abs => "[abs]"
  | .IsBoolean => "[boolean?]" | .Not => "[not]" | .And => "[and]" | .Or => "[or]"
  | .Define => "[define]" | .IsSymbol => "[symbol?]" | .Set => "[set!]"
  | .SetCar => "[set-car!]" | .SetCdr => "[set-cdr!]" | .If => "[if]"
  | .CreateLambda => "[create-lambda]"

/-- `Interpreter::GetString(object)`. -/
def GetString : Nat → Heap → Ptr → Except Err String
  | _, _, none => .ok "()"
  | 0, _, some _ => .error .OutOfFuel
  | fuel + 1, h, some a =>
    match h.obj? a with
    | none => .error .Undefined
    | some (.Number value_) => .ok (toString value_)
    | some (.Boolean value_) => .ok (if value_ then "#t" else "#f")
    | some (.Symbol name_) => .ok name_
    | some (.Cell _ _) => GetStringLoop (GetString fuel h) h (fuel + 1) a "("
    | some (.Functor kind) => .ok kind.GetFunctorName
    | some (.Lambda _ _ _) => .ok "[create-lambda]"
    | some (.NameSpace _ _) => .error .RuntimeError

/-! ## Helpers of `object.cpp` -/

/-- The evaluator handed to a functor: `Calc(object, scope)`. -/
abbrev CalcFn := Heap → Ptr → Ptr → Except Err (Heap × Ptr)

/-- The duplicator handed to a functor: `Copy(object)`. -/
abbrev CopyFn := Heap → Ptr → Except Err (Heap × Ptr)

/-- Reduce an integer to the range of `int64_t` (two's complement wrap-around). -/
def wrap64 (x : Int) : Int := (x + 2 ^ 63) % 2 ^ 64 - 2 ^ 63

/-- `ToVector(obj)`: the elements of a proper list, `RuntimeError` on an improper one. -/
def ToVector : Nat → Heap → Ptr → Except Err (List Ptr)
  | 0, _, _ => .error .OutOfFuel
  | fuel + 1, h, obj =>
    match obj with
    | none => .ok []
    | some a =>
      match h.obj? a with
      | some (.Cell first_ second_) =>
        match ToVector fuel h second_ with
        | .ok rest => .ok (first_ :: rest)
        | .error e => .error e
      | _ => .error .RuntimeError

/-- The loop of `FromVector`, on the vector read from the back. -/
def fromBack : Heap → List Ptr → Ptr → Heap × Ptr
  | h, [], right => (h, right)
  | h, x :: xs, right => fromBack (h.Make (.Cell x right)).1 xs (some (h.Make (.Cell x right)).2)

/-- `FromVector(vec)`: build a proper list, allocating the last cell first. -/
def FromVector (h : Heap) (vec : List Ptr) : Heap × Ptr :=
  fromBack h vec.reverse none

/-- `RequiresOnlyXArguments`. -/
def RequiresOnlyXArguments (a : List Ptr) (x : Nat) : Except Err Unit :=
  if a.length ≠ x then .error .RuntimeError else .ok ()

/-- `RequiresOnlyXArgumentsS`. -/
def RequiresOnlyXArgumentsS (a : List Ptr) (x : Nat) : Except Err Unit :=
  if a.length ≠ x then .error .SyntaxError else .ok ()

/-- `RequiresOnlyLRArgumentsS`. -/
def RequiresOnlyLRArgumentsS (a : List Ptr) (l r : Nat) : Except Err Unit :=
  if a.length < l ∨ a.length > r then .error .SyntaxError else .ok ()

/-- `RequiresMinimumXArguments`. -/
def RequiresMinimumXArguments (a : List Ptr) (x : Nat) : Except Err Unit :=
  if a.length < x then .error .RuntimeError else .ok ()

/-- `RequiresMinimumXArgumentsS`. -/
def RequiresMinimumXArgumentsS (a : List Ptr) (x : Nat) : Except Err Unit :=
  if a.length < x then .error .SyntaxError else .ok ()

/-- `RequiresValidIndex(a, x)` with `x` already converted to `size_t`. -/
def RequiresValidIndex (a : List Ptr) (x : Nat) : Except Err Unit :=
  if a.length ≤ x then .error .RuntimeError else .ok ()

/-- `CalcVector(a, scope)`: evaluate every element in place, front to back. -/
def CalcVector (eval : CalcFn) : Heap → List Ptr → Ptr → Except Err (Heap × List Ptr)
  | h, [], _ => .ok (h, [])
  | h, x :: xs, scope =>
    match eval h x scope with
    | .ok (h1, v) =>
      match CalcVector eval h1 xs scope with
      | .ok (h2, vs) => .ok (h2, v :: vs)
      | .error e => .error e
    | .error e => .error e

/-- `CopyAndCalcVector(a, scope)`. -/
def CopyAndCalcVector (eval : CalcFn) (copy : CopyFn) (h : Heap) (a : List Ptr) (scope : Ptr) :
    Except Err (Heap × List Ptr) :=
  match CopyVector copy h a with
  | .ok (h1, vec) => CalcVector eval h1 vec scope
  | .error e => .error e

/-- `TrueObject()`. -/
def TrueObject (h : Heap) : Heap × Ptr :=
  ((h.Make (.Boolean true)).1, some (h.Make (.Boolean true)).2)

/-- `FalseObject()`. -/
def FalseObject (h : Heap) : Heap × Ptr :=
  ((h.Make (.Boolean false)).1, some (h.Make (.Boolean false)).2)

/-- `Condition(val)`. -/
def Condition (h : Heap) (val : Bool) : Heap × Ptr :=
  if val then TrueObject h else FalseObject h

/-- `Heap::Instance()->Make<Number>(res)` as a functor result. -/
def MakeNumber (h : Heap) (res : Int) : Heap × Ptr :=
  ((h.Make (.Number res)).1, some (h.Make (.Number res)).2)

/-- `RequireType<Cell>(obj)` followed by reading both fields. -/
def GetCell (h : Heap) (obj : Ptr) : Except Err (Nat × Ptr × Ptr) :=
  match obj with
  | some a =>
    (match h.obj? a with
     | some (.Cell first_ second_) => .ok (a, first_, second_)
     | _ => .error .RuntimeError)
  | none => .error .RuntimeError

/-- `Get<Number>(obj)`: `RequireType<Number>` then `GetValue()`. -/
def GetNumber (h : Heap) (obj : Ptr) : Except Err Int :=
  match obj with
  | some a => (match h.obj? a with | some (.Number v) => .ok v | _ => .error .RuntimeError)
  | none => .error .RuntimeError

/-- `Get<Symbol>(obj)`: `RequireType<Symbol>` then `GetName()`. -/
def GetSymbol (h : Heap) (obj : Ptr) : Except Err String :=
  match obj with
  | some a => (match h.obj? a with | some (.Symbol n) => .ok n | _ => .error .RuntimeError)
  | none => .error .RuntimeError

/-- `CalcAndGet<Number>(obj, scope)`. -/
def CalcAndGetNumber (eval : CalcFn) (h : Heap) (obj scope : Ptr) : Except Err (Heap × Int) :=
  match eval h obj scope with
  | .ok (h1, v) => (GetNumber h1 v).map (fun n => (h1, n))
  | .error e => .error e

/-- `IsListHelper(obj)`. -/
def IsListHelper : Nat → Heap → Ptr → Except Err Bool
  | 0, _, _ => .error .OutOfFuel
  | fuel + 1, h, obj =>
    match obj with
    | none => .ok true
    | some a =>
      match h.obj? a with
      | some (.Cell _ second_) => IsListHelper fuel h second_
      | _ => .ok false

/-- `ToBool(obj)`: only `Boolean(false)` is false. -/
def ToBool (h : Heap) (obj : Ptr) : Bool :=
  match obj with
  | some a => (match h.obj? a with | some (.Boolean false) => false | _ => true)
  | none => true

/-- The loop of `CalcNumberListToBool` after the first operand. -/
def numberListToBoolLoop (eval : CalcFn) (func : Int → Int → Bool) (scope : Ptr) :
    Heap → Int → List Ptr → Except Err (Heap × Bool)
  | h, _, [] => .ok (h, true)
  | h, prev, x :: xs =>
    match CalcAndGetNumber eval h x scope with
    | .ok (h1, cur) =>
      if !func prev cur then .ok (h1, false) else numberListToBoolLoop eval func scope h1 cur xs
    | .error e => .error e

/-- `CalcNumberListToBool<Functor>(vec, scope)`. -/
def CalcNumberListToBool (eval : CalcFn) (func : Int → Int → Bool) (h : Heap) (vec : List Ptr)
    (scope : Ptr) : Except Err (Heap × Bool) :=
  match vec with
  | [] => .ok (h, true)
  | x :: xs =>
    match CalcAndGetNumber eval h x scope with
    | .ok (h1, prev) => numberListToBoolLoop eval func scope h1 prev xs
    | .error e => .error e

/-- The fold `result = func(result, Get<Number>(elem))`. -/
def foldNumbers (func : Int → Int → Except Err Int) (h : Heap) :
    Int → List Ptr → Except Err Int
  | result, [] => .ok result
  | result, elem :: rest =>
    match GetNumber h elem with
    | .ok cur =>
      (match func result cur with
       | .ok r => foldNumbers func h r rest
       | .error e => .error e)
    | .error e => .error e

/-- `CalcNumberListToInt<Functor>(vec, scope, neutral)`. -/
def CalcNumberListToInt (eval : CalcFn) (func : Int → Int → Except Err Int) (h : Heap)
    (vec : List Ptr) (scope : Ptr) (neutral : Int) : Except Err (Heap × Int) :=
  match CalcVector eval h vec scope with
  | .ok (h1, vals) => (foldNumbers func h1 neutral vals).map (fun r => (h1, r))
  | .error e => .error e

/-- `CalcIrrevNumberListToInt<Functor>(vec, scope, neutral)`. -/
def CalcIrrevNumberListToInt (eval : CalcFn) (func : Int → Int → Except Err Int) (h : Heap)
    (vec : List Ptr) (scope : Ptr) (neutral : Int) : Except Err (Heap × Int) :=
  match CalcVector eval h vec scope with
  | .ok (h1, vals) =>
    (match vals with
     | [] => .error .Undefined
     | [x] =>
       (match GetNumber h1 x with
        | .ok v => (func neutral v).map (fun r => (h1, r))
        | .error e => .error e)
     | x :: rest =>
       (match GetNumber h1 x with
        | .ok v => (foldNumbers func h1 v rest).map (fun r => (h1, r))
        | .error e => .error e))
  | .error e => .error e

/-- `std::plus<int64_t>`. -/
def plus64 (a b : Int) : Except Err Int := .ok (wrap64 (a + b))

/-- `std::minus<int64_t>`. -/
def minus64 (a b : Int) : Except Err Int := .ok (wrap64 (a - b))

/-- `std::multiplies<int64_t>`. -/
def multiplies64 (a b : Int) : Except Err Int := .ok (wrap64 (a * b))

/-- `std::divides<int64_t>`: truncating division; a zero divisor and `LLONG_MIN / -1` are
undefined. -/
def divides64 (a b : Int) : Except Err Int :=
  if b = 0 then .error .Undefined
  else if a = -(2 ^ 63) ∧ b = -1 then .error .Undefined
  else .ok (Int.tdiv a b)

/-- `MaxFunctor<int64_t>`. -/
def max64 (a b : Int) : Except Err Int := .ok (if a < b then b else a)

/-- `MinFunctor<int64_t>`. -/
def min64 (a b : Int) : Except Err Int := .ok (if b < a then b else a)

/-- `DefineHelper(name, obj, scope)`. -/
def DefineHelper (h : Heap) (name obj scope : Ptr) : Except Err Heap :=
  match GetSymbol h name with
  | .ok n => NameSpace.Set h scope n obj
  | .error e => .error e

/-- `Heap::Instance()->Make<Lambda>(args, body, scope)`: the slot of the closure is
appended first, and the constructor of `Lambda` then makes the closure's own frame. -/
def MakeLambda (h : Heap) (args body : List Ptr) (scope : Ptr) : Heap × Nat :=
  ({ data_ := h.data_ ++
      [{ addr := h.next, used_ := false, obj := .Lambda args body (some (h.next + 1)) },
       { addr := h.next + 1, used_ := false, obj := .NameSpace [] scope }],
     next := h.next + 2 },
   h.next)

/-- `CreateLambdaHelper(arg_names, body, scope)`. -/
def CreateLambdaHelper (h : Heap) (arg_names body : List Ptr) (scope : Ptr) :
    Except Err (Heap × Ptr) :=
  if arg_names.all (fun elem => IsSymbol h elem) then
    .ok ((MakeLambda h arg_names body scope).1, some (MakeLambda h arg_names body scope).2)
  else .error .SyntaxError

/-! ## The functors: `operator()(obj, scope)` of every class -/

/-- `Quote::operator()`. -/
def Quote.call (fuel : Nat) (h : Heap) (obj : Ptr) : Except Err (Heap × Ptr) := do
  let vec ← ToVector fuel h obj
  RequiresOnlyXArguments vec 1
  match vec with
  | [x] => pure (h, x)
  | _ => .error .Undefined

/-- The shape shared by `IsPair`, `IsNull`, `IsNumber`, `IsBoolean`, `IsSymbol`:
exactly one operand, evaluated, then `Condition(test)`. -/
def predicateCall (test : Heap → Ptr → Bool) (eval : CalcFn) (fuel : Nat) (h : Heap)
    (obj scope : Ptr) : Except Err (Heap × Ptr) := do
  let vec ← ToVector fuel h obj
  RequiresOnlyXArguments vec 1
  let (h1, vals) ← CalcVector eval h vec scope
  match vals with
  | [x] => pure (Condition h1 (test h1 x))
  | _ => .error .Undefined

/-- `IsList::operator()`. -/
def IsList.call (eval : CalcFn) (fuel : Nat) (h : Heap) (obj scope : Ptr) :
    Except Err (Heap × Ptr) := do
  let vec ← ToVector fuel h obj
  RequiresOnlyXArguments vec 1
  let (h1, vals) ← CalcVector eval h vec scope
  match vals with
  | [x] =>
    let b ← IsListHelper fuel h1 x
    pure (Condition h1 b)
  | _ => .error .Undefined

/-- `List::operator()`. -/
def List.call (eval : CalcFn) (fuel : Nat) (h : Heap) (obj scope : Ptr) :
    Except Err (Heap × Ptr) := do
  let vec ← ToVector fuel h obj
  let (h1, vals) ← CalcVector eval h vec scope
  pure (FromVector h1 vals)

/-- `Cons::operator()`. -/
def Cons.call (eval : CalcFn) (fuel : Nat) (h : Heap) (obj scope : Ptr) :
    Except Err (Heap × Ptr) := do
  let vec ← ToVector fuel h obj
  RequiresOnlyXArguments vec 2
  let (h1, vals) ← CalcVector eval h vec scope
  match vals with
  | [x, y] => pure ((h1.Make (.Cell x y)).1, some (h1.Make (.Cell x y)).2)
  | _ => .error .Undefined

/-- `Car::operator()`. -/
def Car.call (eval : CalcFn) (fuel : Nat) (h : Heap) (obj scope : Ptr) :
    Except Err (Heap × Ptr) := do
  let vec ← ToVector fuel h obj
  RequiresOnlyXArguments vec 1
  let (h1, vals) ← CalcVector eval h vec scope
  match vals with
  | [x] =>
    let (_, first_, _) ← GetCell h1 x
    pure (h1, first_)
  | _ => .error .Undefined

/-- `Cdr::operator()`. -/
def Cdr.call (eval : CalcFn) (fuel : Nat) (h : Heap) (obj scope : Ptr) :
    Except Err (Heap × Ptr) := do
  let vec ← ToVector fuel h obj
  RequiresOnlyXArguments vec 1
  let (h1, vals) ← CalcVector eval h vec scope
  match vals with
  | [x] =>
    let (_, _, second_) ← GetCell h1 x
    pure (h1, second_)
  | _ => .error .Undefined

/-- `ListRef::operator()`.  The index reaches `RequiresValidIndex` converted to `size_t`. -/
def ListRef.call (eval : CalcFn) (fuel : Nat) (h : Heap) (obj scope : Ptr) :
    Except Err (Heap × Ptr) := do
  let args ← ToVector fuel h obj
  RequiresOnlyXArguments args 2
  let (h1, vals) ← CalcVector eval h args scope
  match vals with
  | [l, n] =>
    let vec ← ToVector fuel h1 l
    let v ← GetNumber h1 n
    RequiresValidIndex vec (v % 2 ^ 64).toNat
    match vec.get? (v % 2 ^ 64).toNat with
    | some x => pure (h1, x)
    | none => .error .Undefined
  | _ => .error .Undefined

/-- The `for` loop of `ListTail::operator()`. -/
def listTailLoop (h : Heap) : Nat → Ptr → Except Err Ptr
  | 0, cur => .ok cur
  | steps + 1, cur =>
    match GetCell h cur with
    | .ok (_, _, second_) => listTailLoop h steps second_
    | .error e => .error e

/-- `ListTail::operator()`. -/
def ListTail.call (eval : CalcFn) (fuel : Nat) (h : Heap) (obj scope : Ptr) :
    Except Err (Heap × Ptr) := do
  let args ← ToVector fuel h obj
  RequiresOnlyXArguments args 2
  let (h1, vals) ← CalcVector eval h args scope
  match vals with
  | [l, n] =>
    let steps ← GetNumber h1 n
    let cur ← listTailLoop h1 steps.toNat l
    pure (h1, cur)
  | _ => .error .Undefined

/-- `EqualTo`, `Greater`, `Less`, `GreaterEqual`, `LessEqual`: `operator()`. -/
def compareCall (func : Int → Int → Bool) (eval : CalcFn) (fuel : Nat) (h : Heap)
    (obj scope : Ptr) : Except Err (Heap × Ptr) := do
  let args ← ToVector fuel h obj
  let (h1, b) ← CalcNumberListToBool eval func h args scope
  pure (Condition h1 b)

/-- `Plus::operator()` and `Multiplies::operator()`. -/
def foldCall (func : Int → Int → Except Err Int) (neutral : Int) (eval : CalcFn) (fuel : Nat)
    (h : Heap) (obj scope : Ptr) : Except Err (Heap × Ptr) := do
  let args ← ToVector fuel h obj
  let (h1, res) ← CalcNumberListToInt eval func h args scope neutral
  pure (MakeNumber h1 res)

/-- `Max::operator()` and `Min::operator()`. -/
def foldCall1 (func : Int → Int → Except Err Int) (neutral : Int) (eval : CalcFn) (fuel : Nat)
    (h : Heap) (obj scope : Ptr) : Except Err (Heap × Ptr) := do
  let args ← ToVector fuel h obj
  RequiresMinimumXArguments args 1
  let (h1, res) ← CalcNumberListToInt eval func h args scope neutral
  pure (MakeNumber h1 res)

/-- `Minus::operator()` and `Divides::operator()`. -/
def irrevCall (func : Int → Int → Except Err Int) (neutral : Int) (eval : CalcFn) (fuel : Nat)
    (h : Heap) (obj scope : Ptr) : Except Err (Heap × Ptr) := do
  let args ← ToVector fuel h obj
  RequiresMinimumXArguments args 1
  let (h1, res) ← CalcIrrevNumberListToInt eval func h args scope neutral
  pure (MakeNumber h1 res)

/-- `Abs::operator()`; `std::abs(LLONG_MIN)` is undefined. -/
def Abs.call (eval : CalcFn) (fuel : Nat) (h : Heap) (obj scope : Ptr) :
    Except Err (Heap × Ptr) := do
  let args ← ToVector fuel h obj
  RequiresOnlyXArguments args 1
  match args with
  | [x] =>
    let (h1, v) ← CalcAndGetNumber eval h x scope
    if v = -(2 ^ 63) then .error .Undefined else pure (MakeNumber h1 (if v < 0 then -v else v))
  | _ => .error .Undefined

/-- `Not::operator()`. -/
def Not.call (eval : CalcFn) (fuel : Nat) (h : Heap) (obj scope : Ptr) :
    Except Err (Heap × Ptr) := do
  let args ← ToVector fuel h obj
  RequiresOnlyXArguments args 1
  let (h1, vals) ← CalcVector eval h args scope
  match vals with
  | [x] =>
    pure ((h1.Make (.Boolean (!ToBool h1 x))).1, some (h1.Make (.Boolean (!ToBool h1 x))).2)
  | _ => .error .Undefined

/-- The loop of `And::operator()`; `last` is `args.back()` once every element is evaluated. -/
def andLoop (eval : CalcFn) (scope : Ptr) : Heap → List Ptr → Ptr → Except Err (Heap × Ptr)
  | h, [], last => .ok (h, last)
  | h, elem :: rest, _ =>
    match eval h elem scope with
    | .ok (h1, v) => if !ToBool h1 v then .ok (FalseObject h1) else andLoop eval scope h1 rest v
    | .error e => .error e

/-- `And::operator()`. -/
def And.call (eval : CalcFn) (fuel : Nat) (h : Heap) (obj scope : Ptr) :
    Except Err (Heap × Ptr) := do
  let args ← ToVector fuel h obj
  if args.isEmpty then pure (TrueObject h) else andLoop eval scope h args none

/-- The loop of `Or::operator()`; `temp` counts the operands evaluated so far. -/
def orLoop (eval : CalcFn) (scope : Ptr) (size : Nat) :
    Heap → Nat → List Ptr → Except Err (Heap × Ptr)
  | h, _, [] => .ok (FalseObject h)
  | h, temp, elem :: rest =>
    match eval h elem scope with
    | .ok (h1, v) =>
      if ToBool h1 v then
        if temp + 1 = size then .ok (h1, v) else .ok (TrueObject h1)
      else orLoop eval scope size h1 (temp + 1) rest
    | .error e => .error e

/-- `Or::operator()`. -/
def Or.call (eval : CalcFn) (fuel : Nat) (h : Heap) (obj scope : Ptr) :
    Except Err (Heap × Ptr) := do
  let args ← ToVector fuel h obj
  orLoop eval scope args.length h 0 args

/-- `Define::operator()`. -/
def Define.call (eval : CalcFn) (copy : CopyFn) (fuel : Nat) (h : Heap) (obj scope : Ptr) :
    Except Err (Heap × Ptr) := do
  let args ← ToVector fuel h obj
  RequiresMinimumXArgumentsS args 2
  match args with
  | front :: rest =>
    if IsSymbol h front then
      RequiresOnlyXArgumentsS args 2
      match rest.getLast? with
      | some back =>
        let (h1, v) ← eval h back scope
        let (h2, c) ← copy h1 v
        let h3 ← DefineHelper h2 front c scope
        pure (h3, front)
      | none => .error .Undefined
    else
      let isList ← IsListHelper fuel h front
      if isList then
        let arg_names ← ToVector fuel h front
        match arg_names with
        | name :: names =>
          let (h1, lam) ← CreateLambdaHelper h names rest scope
          let h2 ← DefineHelper h1 name lam scope
          pure (h2, name)
        | [] => .error .Undefined
      else .error .SyntaxError
  | [] => .error .Undefined

/-- `Set::operator()`.  In `scope->Get(..) = ::Copy(Calc(..))` the right operand is
evaluated before the left one. -/
def Set.call (eval : CalcFn) (copy : CopyFn) (fuel : Nat) (h : Heap) (obj scope : Ptr) :
    Except Err (Heap × Ptr) := do
  let args ← ToVector fuel h obj
  RequiresOnlyXArgumentsS args 2
  match args with
  | [front, back] =>
    let name ← GetSymbol h front
    let (_, prev) ← NameSpace.Get fuel h scope name
    let (h1, v) ← eval h back scope
    let (h2, c) ← copy h1 v
    let name2 ← GetSymbol h2 front
    let (owner, _) ← NameSpace.Get fuel h2 scope name2
    let h3 ← NameSpace.Set h2 (some owner) name2 c
    pure (h3, prev)
  | _ => .error .Undefined

/-- `SetCar::operator()`. -/
def SetCar.call (eval : CalcFn) (copy : CopyFn) (fuel : Nat) (h : Heap) (obj scope : Ptr) :
    Except Err (Heap × Ptr) := do
  let args ← ToVector fuel h obj
  RequiresOnlyXArgumentsS args 2
  let (h1, vals) ← CalcVector eval h args scope
  match vals with
  | [front, back] =>
    let (a, prev, second_) ← GetCell h1 front
    if front = back then
      pure (h1.update a (.Cell back second_), prev)
    else
      let (h2, c) ← copy h1 back
      -- As<Cell>(args[0])->GetFirst() = c, on the cell as it is after the copy
      let (_, _, second2) ← GetCell h2 front
      pure (h2.update a (.Cell c second2), prev)
  | _ => .error .Undefined

/-- `SetCdr::operator()`. -/
def SetCdr.call (eval : CalcFn) (copy : CopyFn) (fuel : Nat) (h : Heap) (obj scope : Ptr) :
    Except Err (Heap × Ptr) := do
  let args ← ToVector fuel h obj
  RequiresOnlyXArgumentsS args 2
  let (h1, vals) ← CalcVector eval h args scope
  match vals with
  | [front, back] =>
    let (a, first_, prev) ← GetCell h1 front
    if front = back then
      pure (h1.update a (.Cell first_ back), prev)
    else
      let (h2, c) ← copy h1 back
      let (_, first2, _) ← GetCell h2 front
      pure (h2.update a (.Cell first2 c), prev)
  | _ => .error .Undefined

/-- `If::operator()`. -/
def If.call (eval : CalcFn) (fuel : Nat) (h : Heap) (obj scope : Ptr) :
    Except Err (Heap × Ptr) := do
  let args ← ToVector fuel h obj
  RequiresOnlyLRArgumentsS args 2 3
  match args with
  | cond :: thenBranch :: rest =>
    let (h1, c) ← eval h cond scope
    if ToBool h1 c then eval h1 thenBranch scope
    else
      match rest with
      | [elseBranch] => eval h1 elseBranch scope
      | _ => pure (h1, none)
  | _ => .error .Undefined

/-- The loop `DefineHelper(arg_names_[i], args[i], newscope)` of `Lambda::operator()`. -/
def bindArgs (newscope : Ptr) : Heap → List Ptr → List Ptr → Except Err Heap
  | h, name :: names, arg :: args =>
    match DefineHelper h name arg newscope with
    | .ok h1 => bindArgs newscope h1 names args
    | .error e => .error e
  | h, _, _ => .ok h

/-- `Lambda::operator()`, called on the closure object at address `self`. -/
def Lambda.call (eval : CalcFn) (copy : CopyFn) (fuel : Nat) (h : Heap) (self : Nat)
    (obj scope : Ptr) : Except Err (Heap × Ptr) :=
  match h.obj? self with
  | some (.Lambda arg_names_ body_ scope_) => do
    let args ← ToVector fuel h obj
    RequiresOnlyXArguments args arg_names_.length
    -- args = CopyAndCalcVector(args, scope);   (commented out in the source)
    let (h1, vals) ← CalcVector eval h args scope
    let newscope := scope_
    let h2 ← bindArgs newscope h1 arg_names_ vals
    let (h3, copy_body) ← CopyAndCalcVector eval copy h2 body_ newscope
    match copy_body.getLast? with
    | some r => pure (h3, r)
    | none => .error .Undefined
  | _ => .error .Undefined

/-- `CreateLambda::operator()`. -/
def CreateLambda.call (fuel : Nat) (h : Heap) (obj scope : Ptr) : Except Err (Heap × Ptr) := do
  let body ← ToVector fuel h obj
  RequiresMinimumXArgumentsS body 2
  match body with
  | front :: rest =>
    let args ← ToVector fuel h front
    RequiresMinimumXArgumentsS rest 1
    CreateLambdaHelper h args rest scope
  | [] => .error .Undefined

/-- Virtual dispatch of `operator()` over the builtin classes. -/
def Builtin.call (kind : Builtin) (eval : CalcFn) (copy : CopyFn) (fuel : Nat) (h : Heap)
    (obj scope : Ptr) : Except Err (Heap × Ptr) :=
  match kind with
  | .Quote => Quote.call fuel h obj
  | .IsPair => predicateCall Scheme.IsCell eval fuel h obj scope
  | .IsNull => predicateCall (fun _ p => p == none) eval fuel h obj scope
  | .IsList => IsList.call eval fuel h obj scope
  | .List => List.call eval fuel h obj scope
  | .Cons => Cons.call eval fuel h obj scope
  | .Car => Car.call eval fuel h obj scope
  | .Cdr => Cdr.call eval fuel h obj scope
  | .ListRef => ListRef.call eval fuel h obj scope
  | .ListTail => ListTail.call eval fuel h obj scope
  | .IsNumber => predicateCall Scheme.IsNumber eval fuel h obj scope
  | .EqualTo => compareCall (fun a b => a == b) eval fuel h obj scope
  | .Greater => compareCall (fun a b => decide (a > b)) eval fuel h obj scope
  | .Less => compareCall (fun a b => decide (a < b)) eval fuel h obj scope
  | .GreaterEqual => compareCall (fun a b => decide (a ≥ b)) eval fuel h obj scope
  | .LessEqual => compareCall (fun a b => decide (a ≤ b)) eval fuel h obj scope
  | .Plus => foldCall plus64 0 eval fuel h obj scope
  | .Minus => irrevCall minus64 0 eval fuel h obj scope
  | .Multiplies => foldCall multiplies64 1 eval fuel h obj scope
  | .Divides => irrevCall divides64 1 eval fuel h obj scope
  | .Max => foldCall1 max64 (-(2 ^ 63)) eval fuel h obj scope
  | .Min => foldCall1 min64 (2 ^ 63 - 1) eval fuel h obj scope
  | .Abs => Abs.call eval fuel h obj scope
  | .IsBoolean => predicateCall Scheme.IsBoolean eval fuel h obj scope
  | .Not => Not.call eval fuel h obj scope
  | .And => And.call eval fuel h obj scope
  | .Or => Or.call eval fuel h obj scope
  | .Define => Define.call eval copy fuel h obj scope
  | .IsSymbol => predicateCall Scheme.IsSymbol eval fuel h obj scope
  | .Set => Set.call eval copy fuel h obj scope
  | .SetCar => SetCar.call eval copy fuel h obj scope
  | .SetCdr => SetCdr.call eval copy fuel h obj scope
  | .If => If.call eval fuel h obj scope
  | .CreateLambda => CreateLambda.call fuel h obj scope

/-- `(*As<Functor>(func))(args, scope)`: virtual dispatch on the functor object. -/
def Apply (eval : CalcFn) (copy : CopyFn) (fuel : Nat) (h : Heap) (func args scope : Ptr) :
    Except Err (Heap × Ptr) :=
  match func with
  | some f =>
    (match h.obj? f with
     | some (.Functor kind) => kind.call eval copy fuel h args scope
     | some (.Lambda _ _ _) => Lambda.call eval copy fuel h f args scope
     | _ => .error .Undefined)
  | none => .error .Undefined

/-- `Calc(object, scope)` of `scheme.cpp`.  For a null `object` the source builds a
`RuntimeError` without throwing it and falls through to the final `throw`. -/
def Calc : Nat → Heap → Ptr → Ptr → Except Err (Heap × Ptr)
  | 0, _, _, _ => .error .OutOfFuel
  | fuel + 1, h, object, scope =>
    match object with
    | none => .error .RuntimeError
    | some a =>
      match h.obj? a with
      | some (.Number _) => .ok (h, some a)
      | some (.Boolean _) => .ok (h, some a)
      | some (.Symbol name_) =>
        (match NameSpace.Get (fuel + 1) h scope name_ with
         | .ok (_, res) => .ok (h, res)
         | .error e => .error e)
      | some (.Cell first_ _) =>
        (match Calc fuel h first_ scope with
         | .ok (h1, func) =>
           -- auto args = (As<Cell>(object))->GetSecond();
           (match h1.obj? a with
            | some (.Cell _ args) =>
              if !IsFunctor h1 func then .error .RuntimeError
              else
                (match Copy fuel h1 func with
                 | .ok (h2, func1) => Apply (Calc fuel) (Copy fuel) fuel h2 func1 args scope
                 | .error e => .error e)
            | _ => .error .Undefined)
         | .error e => .error e)
      | _ => .error .RuntimeError

/-! ## Tokenizer (`tokenizer.h`, `tokenizer.cpp`) -/

/-- The alternatives of the variant `Token`. -/
inductive Token
  | DummyToken
  | ConstantToken (value : Int)
  | BracketOPEN
  | BracketCLOSE
  | SymbolToken (name : String)
  | QuoteToken
  | DotToken
  | BooleanToken (value : Bool)
  deriving DecidableEq, Repr

/-- A `Tokenizer`: the unread characters of the stream and the current token. -/
structure Tokenizer where
  in_ : List Char
  cur_token_ : Token
  deriving DecidableEq, Repr

/-- `std::isspace` in the C locale. -/
def isspace (c : Char) : Bool :=
  c.toNat = 32 || (9 ≤ c.toNat && c.toNat ≤ 13)

/-- `std::isdigit`. -/
def isdigit (c : Char) : Bool :=
  48 ≤ c.toNat && c.toNat ≤ 57

/-- `std::isgraph` in the C locale. -/
def isgraph (c : Char) : Bool :=
  33 ≤ c.toNat && c.toNat ≤ 126

/-- `MaybeGoodChar(c)`: graphic and none of `(`, `)`, the quote character, `.`. -/
def MaybeGoodChar (c : Char) : Bool :=
  isgraph c && c.toNat != 40 && c.toNat != 41 && c.toNat != 39 && c.toNat != 46

/-- `IsSymbol(str)` of `tokenizer.cpp`: the text has neither `#` nor a double quote. -/
def IsSymbolText (str : List Char) : Bool :=
  str.all (fun c => c.toNat != 35 && c.toNat != 34)

/-- The value of a run of decimal digits. -/
def digitsValue (ds : List Char) : Nat :=
  ds.foldl (fun acc c => 10 * acc + (c.toNat - 48)) 0

/-- `std::stoll(s)` on an optional sign followed by digits; a value outside `int64_t`
throws `std::out_of_range`, which nothing catches. -/
def stoll (s : List Char) : Except Err Int :=
  let v : Int :=
    match s with
    | c :: ds =>
      if c.toNat = 45 then -(digitsValue ds : Int)
      else if c.toNat = 43 then (digitsValue ds : Int)
      else (digitsValue (c :: ds) : Int)
    | [] => 0
  if v < -(2 ^ 63) ∨ 2 ^ 63 - 1 < v then .error .Undefined else .ok v

/-- `isdigit(in_->peek())`. -/
def peekIsDigit (rest : List Char) : Bool :=
  match rest with
  | c :: _ => isdigit c
  | [] => false

/-- `Tokenizer::Next`. -/
def Tokenizer.Next (t : Tokenizer) : Except Err Tokenizer :=
  match t.in_.dropWhile isspace with
  | [] => .ok { in_ := [], cur_token_ := .DummyToken }
  | c :: rest =>
    if c.toNat = 40 then .ok { in_ := rest, cur_token_ := .BracketOPEN }
    else if c.toNat = 41 then .ok { in_ := rest, cur_token_ := .BracketCLOSE }
    else if c.toNat = 46 then .ok { in_ := rest, cur_token_ := .DotToken }
    else if c.toNat = 39 then .ok { in_ := rest, cur_token_ := .QuoteToken }
    else if ((c.toNat = 43 || c.toNat = 45) && peekIsDigit rest) || isdigit c then
      match stoll (c :: rest.takeWhile isdigit) with
      | .ok v => .ok { in_ := rest.dropWhile isdigit, cur_token_ := .ConstantToken v }
      | .error e => .error e
    else
      let s := c :: rest.takeWhile MaybeGoodChar
      let rest1 := rest.dropWhile MaybeGoodChar
      if s = ['#', 't'] then .ok { in_ := rest1, cur_token_ := .BooleanToken true }
      else if s = ['#', 'f'] then .ok { in_ := rest1, cur_token_ := .BooleanToken false }
      else if IsSymbolText s then .ok { in_ := rest1, cur_token_ := .SymbolToken ⟨s⟩ }
      else .error .SyntaxError

/-- The constructor `Tokenizer(std::istream* in)`. -/
def Tokenizer.new (str : String) : Except Err Tokenizer :=
  Tokenizer.Next { in_ := str.data, cur_token_ := .DummyToken }

/-- `Tokenizer::IsEnd`. -/
def Tokenizer.IsEnd (t : Tokenizer) : Bool :=
  t.cur_token_ = .DummyToken

/-- `Tokenizer::GetToken`. -/
def Tokenizer.GetToken (t : Tokenizer) : Except Err Token :=
  if t.IsEnd then .error .SyntaxError else .ok t.cur_token_

/-! ## Parser (`parser.cpp`) -/

/-- The reader handed to `ReadList`: `Read(tokenizer)`. -/
abbrev ReadFn := Heap → Tokenizer → Except Err (Heap × Tokenizer × Ptr)

/-- The `while` loop of `ReadList`; returns the vector `list` and the flag `is_pair`,
leaving the tokenizer on the token that ended the loop. -/
def ReadListLoop (read : ReadFn) :
    Nat → Heap → Tokenizer → List Ptr → Except Err (Heap × Tokenizer × List Ptr × Bool)
  | 0, _, _, _ => .error .OutOfFuel
  | fuel + 1, h, t, list =>
    match t.GetToken with
    | .error e => .error e
    | .ok cur_token =>
      if cur_token = .BracketCLOSE then .ok (h, t, list, false)
      else if cur_token = .DotToken then
        match t.Next with
        | .error e => .error e
        | .ok t1 =>
          match read h t1 with
          | .error e => .error e
          | .ok (h1, t2, x) =>
            match t2.GetToken with
            | .error e => .error e
            | .ok _ => .ok (h1, t2, list ++ [x], true)
      else
        match read h t with
        | .error e => .error e
        | .ok (h1, t1, x) => ReadListLoop read fuel h1 t1 (list ++ [x])

/-- `ReadList(tokenizer)`. -/
def ReadList (read : ReadFn) (fuel : Nat) (h : Heap) (t : Tokenizer) :
    Except Err (Heap × Tokenizer × Ptr) := do
  let cur_token ← t.GetToken
  if cur_token = .BracketCLOSE then
    let t1 ← t.Next
    pure (h, t1, none)
  else
    let (h1, t1, x) ← read h t
    let (h2, t2, list, is_pair) ← ReadListLoop read fuel h1 t1 [x]
    let cur ← t2.GetToken
    if cur ≠ .BracketCLOSE then .error .SyntaxError
    else
      let t3 ← t2.Next
      if is_pair then
        match list.reverse with
        | right :: revInit =>
          let r := fromBack h2 revInit right
          pure (r.1, t3, r.2)
        | [] => .error .Undefined
      else
        let r := fromBack h2 list.reverse none
        pure (r.1, t3, r.2)

/-- `Read(tokenizer)`. -/
def Read : Nat → Heap → Tokenizer → Except Err (Heap × Tokenizer × Ptr)
  | 0, _, _ => .error .OutOfFuel
  | fuel + 1, h, t =>
    match t.GetToken with
    | .error e => .error e
    | .ok cur_token =>
      match t.Next with
      | .error e => .error e
      | .ok t1 =>
        match cur_token with
        | .BracketOPEN => ReadList (Read fuel) fuel h t1
        | .BracketCLOSE => .error .SyntaxError
        | .QuoteToken =>
          let h1 := (h.Make (.Symbol "quote")).1
          let first := (h.Make (.Symbol "quote")).2
          (match Read fuel h1 t1 with
           | .error e => .error e
           | .ok (h2, t2, obj) =>
             let h3 := (h2.Make (.Cell obj none)).1
             let second := (h2.Make (.Cell obj none)).2
             .ok ((h3.Make (.Cell (some first) (some second))).1, t2,
                  some (h3.Make (.Cell (some first) (some second))).2))
        | .DotToken => .error .SyntaxError
        | .SymbolToken name => .ok ((h.Make (.Symbol name)).1, t1, some (h.Make (.Symbol name)).2)
        | .BooleanToken value =>
          .ok ((h.Make (.Boolean value)).1, t1, some (h.Make (.Boolean value)).2)
        | .ConstantToken value =>
          .ok ((h.Make (.Number value)).1, t1, some (h.Make (.Number value)).2)
        | .DummyToken => .error .SyntaxError

/-! ## The interpreter (`scheme.h`, `scheme.cpp`) -/

/-- An `Interpreter`: the heap singleton and `global_namespace_`. -/
structure Interpreter where
  heap : Heap
  global_namespace_ : Nat
  deriving DecidableEq, Repr

/-- The bindings the constructor installs, in source order. -/
def globalBindings : List (String × Builtin) :=
  [("quote", .Quote), ("pair?", .IsPair), ("null?", .IsNull), ("list?", .IsList),
   ("list", .List), ("cons", .Cons), ("car", .Car), ("cdr", .Cdr), ("list-ref", .ListRef),
   ("list-tail", .ListTail), ("=", .EqualTo), (">", .Greater), ("<", .Less),
   (">=", .GreaterEqual), ("<=", .LessEqual), ("+", .Plus), ("-", .Minus),
   ("*", .Multiplies), ("/", .Divides), ("max", .Max), ("min", .Min), ("abs", .Abs),
   ("boolean?", .IsBoolean), ("number?", .IsNumber), ("not", .Not), ("and", .And),
   ("or", .Or), ("define", .Define), ("symbol?", .IsSymbol), ("set!", .Set),
   ("set-car!", .SetCar), ("set-cdr!", .SetCdr), ("if", .If), ("lambda", .CreateLambda)]

/-- One statement `global_namespace_->Set(name, Heap::Instance()->Make<T>())`. -/
def seedGlobal (g : Nat) (h : Heap) (b : String × Builtin) : Heap :=
  match NameSpace.Set (h.Make (.Functor b.2)).1 (some g) b.1 (some (h.Make (.Functor b.2)).2) with
  | .ok h1 => h1
  | .error _ => h

/-- The constructor `Interpreter()` on an empty heap. -/
def Interpreter.new : Interpreter :=
  let h0 : Heap := { data_ := [], next := 0 }
  { heap := globalBindings.foldl (seedGlobal (h0.Make (.NameSpace [] none)).2)
      (h0.Make (.NameSpace [] none)).1,
    global_namespace_ := (h0.Make (.NameSpace [] none)).2 }

/-- `Interpreter::Run(str)`: the answer and the interpreter after the collection. -/
def Interpreter.Run (fuel : Nat) (self : Interpreter) (str : String) :
    Except Err (Interpreter × String) := do
  let tokenizer ← Tokenizer.new str
  let (h1, t1, object) ← Read fuel self.heap tokenizer
  if !t1.IsEnd then .error .SyntaxError
  else
    let (h2, v) ← Calc fuel h1 object (some self.global_namespace_)
    let answer ← GetString fuel h2 v
    let h3 ← h2.RemoveTrash fuel self.global_namespace_
    pure ({ self with heap := h3 }, answer)

/-- A session: `Run` on each line in turn, collecting the answers; it stops at the first
line that throws. -/
def Interpreter.RunAll (fuel : Nat) : Interpreter → List String → Except Err (List String)
  | _, [] => .ok []
  | self, str :: rest =>
    match self.Run fuel str with
    | .ok (self1, answer) =>
      (match Interpreter.RunAll fuel self1 rest with
       | .ok answers => .ok (answer :: answers)
       | .error e => .error e)
    | .error e => .error e

end Scheme
/-! # Definitions used to state the properties

Reachability in the heap, well-formedness conditions, the relations the proofs carry
through `Mark` and `Copy`, finite shapes of values, and the concrete heaps the theorems are
instantiated at. -/

namespace Scheme

/-! ## The object graph -/

/-- The pointers an object holds: the fields of a pair, the parent and bound values of an
environment, the parameters, body and frame of a closure. -/
def Object.pointers : Object → List Ptr
  | .Cell first_ second_ => [first_, second_]
  | .NameSpace data_ upper_ => upper_ :: data_.map Prod.snd
  | .Lambda arg_names_ body_ scope_ => arg_names_ ++ (body_ ++ [scope_])
  | _ => []

/-- The object at `a` holds a pointer to `b`. -/
def Heap.Edge (h : Heap) (a b : Nat) : Prop :=
  ∃ o, h.obj? a = some o ∧ some b ∈ o.pointers

/-- The addresses reachable from `root` along pointers. -/
inductive Heap.Reach (h : Heap) (root : Nat) : Nat → Prop
  | refl : Heap.Reach h root root
  | step {a b : Nat} : Heap.Reach h root a → h.Edge a b → Heap.Reach h root b

/-- Distinct objects have distinct addresses. -/
def Heap.Distinct (h : Heap) : Prop := (h.data_.map Slot.addr).Nodup

/-- No object of the heap holds a dangling pointer. -/
def Heap.Closed (h : Heap) : Prop :=
  ∀ s ∈ h.data_, ∀ p ∈ s.obj.pointers, p.all (fun b => (h.obj? b).isSome) = true

/-- Parent links of environments strictly decrease `rank`: the `upper_` chains are acyclic. -/
def Heap.upperRanked (rank : Nat → Nat) (h : Heap) : Bool :=
  h.data_.all (fun s =>
    match s.obj with
    | .NameSpace _ (some u) => decide (rank u < rank s.addr)
    | _ => true)

instance (h : Heap) : Decidable h.Distinct := by unfold Heap.Distinct; infer_instance
instance (h : Heap) : Decidable h.Closed := by unfold Heap.Closed; infer_instance

/-- The same object at the same address, its flag at least as high. -/
def SlotLE (s s1 : Slot) : Prop :=
  s1.addr = s.addr ∧ s1.obj = s.obj ∧ (s.used_ = true → s1.used_ = true)

/-- Marking relation between two heaps: the same slots in the same order, flags only raised. -/
def MarkLE (h h1 : Heap) : Prop :=
  h1.next = h.next ∧ List.Forall₂ SlotLE h.data_ h1.data_

/-- The number of objects whose flag is clear. -/
def Heap.unmarked (h : Heap) : Nat := (h.data_.filter (fun s => !s.used_)).length

/-- From `h` to `h1` flags were only raised, every raised flag lies in `S`, and every
object whose flag was raised has all its successors flagged in `h1`. -/
def Grow (h h1 : Heap) (S : Nat → Prop) : Prop :=
  MarkLE h h1 ∧
  (∀ x, h1.GetMark x = true → h.GetMark x = true ∨ S x) ∧
  (∀ x, h1.GetMark x = true → h.GetMark x = false → ∀ y, h.Edge x y → h1.GetMark y = true)

/-- What a call `p->Mark()` on the object at `a` establishes. -/
def MarkPost (h : Heap) (a : Nat) (h1 : Heap) : Prop :=
  Grow h h1 (h.Reach a) ∧ h1.GetMark a = true ∧ ∀ y, h.Edge a y → h1.GetMark y = true

/-- A heap in which the global frame (address 0) binds `p` to a pair whose second field is
the pair itself and `f` to a closure whose own frame has the global frame as parent; the
number at address 3 is garbage. -/
def cyclicHeap : Heap :=
  { data_ :=
      [{ addr := 0, used_ := false, obj := .NameSpace [("p", some 1), ("f", some 4)] none },
       { addr := 1, used_ := true, obj := .Cell (some 2) (some 1) },
       { addr := 2, used_ := false, obj := .Number 1 },
       { addr := 3, used_ := true, obj := .Number 7 },
       { addr := 4, used_ := false, obj := .Lambda [] [some 2] (some 5) },
       { addr := 5, used_ := false, obj := .NameSpace [] (some 0) }],
    next := 6 }

/-- Every live object lies below the allocation counter: what `Make` returns is new. -/
def Heap.Fresh (h : Heap) : Prop := ∀ s ∈ h.data_, s.addr < h.next

instance (h : Heap) : Decidable h.Fresh := by unfold Heap.Fresh; infer_instance

/-- The heap `h1` extends `h`: it may hold more objects, and every address handed out
before `h.next` holds in `h1` what it holds in `h`. -/
def Ext (h h1 : Heap) : Prop :=
  h.next ≤ h1.next ∧ h1.Fresh ∧ ∀ a, a < h.next → h1.obj? a = h.obj? a

/-- What `Copy(p)` establishes: the heap is extended, the result is null exactly when `p`
is, and otherwise it is the address of an object made during the call. -/
def CopyPost (h : Heap) (p : Ptr) (h1 : Heap) (q : Ptr) : Prop :=
  Ext h h1 ∧ (∀ b, q = some b → h.next ≤ b ∧ (h1.obj? b).isSome = true) ∧
    (p = none → q = none) ∧ (q = none → p = none)

/-! ## Values as finite shapes -/

/-- The finite unfolding of a value built from atoms, builtins, closures, the empty list
and pairs, in which a field that points back at the pair holding it is the leaf `selfref`
and a closure is the leaf `closure`, whatever it holds. -/
inductive Shape
  | null
  | number (value_ : Int)
  | boolean (value_ : Bool)
  | symbol (name_ : String)
  | functor (kind : Builtin)
  | closure
  | selfref
  | cell (first second : Shape)
  deriving DecidableEq, Repr

/-- The leaf that stands for a direct self-reference. -/
def Shape.isSelf : Shape → Bool
  | .selfref => true
  | _ => false

/-- The shape has no closure in it. -/
def Shape.plain : Shape → Bool
  | .closure => false
  | .cell first second => first.plain && second.plain
  | _ => true

/-- The number of nodes of a shape. -/
def Shape.size : Shape → Nat
  | .cell first second => first.size + second.size + 1
  | _ => 1

/-- The pointer `p` of heap `h` unfolds to the shape `t`, through objects whose addresses
are at least `lo`.  A field equal to the address of its own pair must be `selfref` and
nothing else may be: the only cycles are direct self-references. -/
def rep (lo : Nat) (h : Heap) : Ptr → Shape → Bool
  | none, .null => true
  | some a, .number v => decide (lo ≤ a) && decide (h.obj? a = some (.Number v))
  | some a, .boolean v => decide (lo ≤ a) && decide (h.obj? a = some (.Boolean v))
  | some a, .symbol v => decide (lo ≤ a) && decide (h.obj? a = some (.Symbol v))
  | some a, .functor v => decide (lo ≤ a) && decide (h.obj? a = some (.Functor v))
  | some a, .closure =>
    decide (lo ≤ a) &&
      (match h.obj? a with
       | some (.Lambda _ _ _) => true
       | _ => false)
  | some a, .cell tf ts =>
    decide (lo ≤ a) &&
      (match h.obj? a with
       | some (.Cell f s) =>
         (if f = some a then tf.isSelf else rep lo h f tf) &&
           (if s = some a then ts.isSelf else rep lo h s ts)
       | _ => false)
  | _, _ => false

/-- The text `GetString` produces for a shape (first component) and, for a pair, the text
its loop appends after the opening bracket (second component). -/
def Shape.print : Shape → String × String
  | .null => ("()", "")
  | .number v => (toString v, "")
  | .boolean v => (if v then "#t" else "#f", "")
  | .symbol v => (v, "")
  | .functor v => (v.GetFunctorName, "")
  | .closure => ("[create-lambda]", "")
  | .selfref => ("", "")
  | .cell tf ts =>
    let elem := if tf.isSelf then "\x7bselfref\x7d " else (Shape.print tf).1 ++ " "
    let tail :=
      match ts with
      | .null => ""
      | .selfref => ". \x7bselfref\x7d "
      | .cell _ ts2 => if ts2.isSelf then ". \x7bselfref\x7d " else (Shape.print ts).2
      | _ => ". " ++ (Shape.print ts).1 ++ " "
    (setBack ("(" ++ (elem ++ tail)) ')', elem ++ tail)

/-- The printed form of a shape. -/
def Shape.render (t : Shape) : String := t.print.1

/-- The text of the elements of a pair, as accumulated by the loop of `GetString`. -/
def Shape.spine (t : Shape) : String := t.print.2

/-- Two pairs that point at each other through their second fields: a cycle that is not a
direct self-reference. -/
def twoCycleHeap : Heap :=
  { data_ :=
      [{ addr := 0, used_ := false, obj := .Cell none (some 1) },
       { addr := 1, used_ := false, obj := .Cell none (some 0) }],
    next := 2 }

/-- The environment chain that starts at `scope` consists of exactly the frames `frames`
(address and bindings of each, innermost first) and ends in a null parent. -/
def chain (h : Heap) : Ptr → List (Nat × List (String × Ptr)) → Bool
  | none, [] => true
  | some a, (b, d) :: rest =>
    decide (a = b) &&
      (match h.obj? a with
       | some (.NameSpace data_ upper_) => decide (data_ = d) && chain h upper_ rest
       | _ => false)
  | _, _ => false

/-- A heap with a global frame (address 0) binding `x` and `y` and a local frame
(address 1) whose parent is the global frame and which binds `x` again. -/
def scopeHeap : Heap :=
  { data_ :=
      [{ addr := 0, used_ := false, obj := .NameSpace [("x", some 2), ("y", some 3)] none },
       { addr := 1, used_ := false, obj := .NameSpace [("x", some 4)] (some 0) },
       { addr := 2, used_ := false, obj := .Number 1 },
       { addr := 3, used_ := false, obj := .Number 2 },
       { addr := 4, used_ := false, obj := .Number 3 }],
    next := 5 }

/-- The contract of `set-car!` (`car = true`) and `set-cdr!` (`car = false`) once the two
operands have evaluated, in heap `h1`, to `c` and `r`; `res` is what the form returns.
* If `c` is not a pair the form fails with `RuntimeError`.
* If `r` is the pair `c` itself, the field is set to `r` and nothing else changes.
* Otherwise the field is set to the result `d` of `Copy(r)`: a new object (or null when `r`
  is null); the other field of `c` and every other object of `h1` stay as they are.
In both cases the form returns what the field held before. -/
def SetFieldContract (car : Bool) (n : Nat) (h1 : Heap) (c r : Ptr)
    (res : Except Err (Heap × Ptr)) : Prop :=
  (IsCell h1 c = false → res = .error .RuntimeError) ∧
  (∀ a first second, c = some a → h1.obj? a = some (.Cell first second) →
    (r = c →
      res = .ok (h1.update a (if car then .Cell r second else .Cell first r),
        if car then first else second)) ∧
    (r ≠ c → ∀ h2 d, Copy n h1 r = .ok (h2, d) →
      ∃ h3, res = .ok (h3, if car then first else second) ∧
        h3.obj? a = some (if car then .Cell d second else .Cell first d) ∧
        (∀ x, x ≠ a → h3.obj? x = h2.obj? x) ∧
        (∀ x, x < h1.next → x ≠ a → h3.obj? x = h1.obj? x) ∧
        (r = none → d = none) ∧
        (∀ b, d = some b → h1.obj? b = none ∧ (h3.obj? b).isSome = true)) ∧
    (r ≠ c → ∀ e, Copy n h1 r = .error e → res = .error e))

/-- A heap holding the global frame (address 0) that binds `p` to the pair `(1 . 2)` and
the operand list `(p 10)` of a `set-car!` or `set-cdr!` (address 4). -/
def setFieldHeap : Heap :=
  { data_ :=
      [{ addr := 0, used_ := false, obj := .NameSpace [("p", some 1)] none },
       { addr := 1, used_ := false, obj := .Cell (some 2) (some 3) },
       { addr := 2, used_ := false, obj := .Number 1 },
       { addr := 3, used_ := false, obj := .Number 2 },
       { addr := 4, used_ := false, obj := .Cell (some 5) (some 6) },
       { addr := 5, used_ := false, obj := .Symbol "p" },
       { addr := 6, used_ := false, obj := .Cell (some 7) none },
       { addr := 7, used_ := false, obj := .Number 10 }],
    next := 8 }

/-- What the argument binding of a closure call establishes.  The operands evaluated, in
heap `h1`, to `vals`; the closure has parameters named `ns`, body `body` and frame `s` with
bindings `d` and parent `u`; `res` is what the call returns.  The frame receives the
evaluated operands themselves, nothing is allocated for them and no other object changes;
the body is then duplicated and evaluated in that frame. -/
def BindsArgumentsThemselves (eval : CalcFn) (copy : CopyFn) (h1 : Heap) (s : Nat)
    (d : List (String × Ptr)) (u : Ptr) (ns : List String) (vals body : List Ptr)
    (res : Except Err (Heap × Ptr)) : Prop :=
  ∃ h2, h2.obj? s =
        some (.NameSpace ((ns.zip vals).foldl (fun d nv => mapSet d nv.1 nv.2) d) u) ∧
    (∀ x, x ≠ s → h2.obj? x = h1.obj? x) ∧
    h2.next = h1.next ∧ h2.data_.length = h1.data_.length ∧
    res =
      (match CopyAndCalcVector eval copy h2 body (some s) with
       | .ok (h3, copy_body) =>
         (match copy_body.getLast? with
          | some r => .ok (h3, r)
          | none => .error .Undefined)
       | .error e => .error e)

/-- A heap holding a global frame (address 0) that binds `x` to the list `(1 2)`, the
closure `(lambda (l) (set-car! l 9))` (address 5, own frame at address 7) and the operand
list `(x)` of a call (address 15). -/
def callHeap : Heap :=
  { data_ :=
      [{ addr := 0, used_ := false,
         obj := .NameSpace [("x", some 1), ("f", some 5), ("set-car!", some 14)] none },
       { addr := 1, used_ := false, obj := .Cell (some 2) (some 3) },
       { addr := 2, used_ := false, obj := .Number 1 },
       { addr := 3, used_ := false, obj := .Cell (some 4) none },
       { addr := 4, used_ := false, obj := .Number 2 },
       { addr := 5, used_ := false, obj := .Lambda [some 6] [some 8] (some 7) },
       { addr := 6, used_ := false, obj := .Symbol "l" },
       { addr := 7, used_ := false, obj := .NameSpace [] (some 0) },
       { addr := 8, used_ := false, obj := .Cell (some 9) (some 10) },
       { addr := 9, used_ := false, obj := .Symbol "set-car!" },
       { addr := 10, used_ := false, obj := .Cell (some 11) (some 12) },
       { addr := 11, used_ := false, obj := .Symbol "l" },
       { addr := 12, used_ := false, obj := .Cell (some 13) none },
       { addr := 13, used_ := false, obj := .Number 9 },
       { addr := 14, used_ := false, obj := .Functor .SetCar },
       { addr := 15, used_ := false, obj := .Cell (some 16) none },
       { addr := 16, used_ := false, obj := .Symbol "x" }],
    next := 17 }

/-- What `(define y x)` establishes when `x` evaluates to `X` in heap `h`, the frame `g`
is the current scope and `h3` is the heap after the definition.  The frame binds the name
of `ysym` to a value `Y` that did not exist in `h` (null when `X` is), its other bindings
and every other object of `h` are as before; and after any later `set-car!` or `set-cdr!`
whose first operand evaluates to an object `Z` that did not exist in `h` (the value of `y`,
or any pair made since), every object of `h` other than the frame is still as it was, the
frame is as the definition left it, and `X` prints as it did. -/
def IndependentBinding (n2 fuel2 : Nat) (h h3 : Heap) (g : Nat) (ysym X : Ptr) : Prop :=
  ∃ yname Y d u,
    GetSymbol h ysym = .ok yname ∧ h.obj? g = some (.NameSpace d u) ∧
    h3.obj? g = some (.NameSpace (mapSet d yname Y) u) ∧
    (∀ name, name ≠ yname → (mapSet d yname Y).lookup name = d.lookup name) ∧
    (∀ a, a < h.next → a ≠ g → h3.obj? a = h.obj? a) ∧
    (X = none → Y = none) ∧
    (∀ b, Y = some b → h.obj? b = none ∧ (h3.obj? b).isSome = true) ∧
    ∀ (eval2 : CalcFn) (obj2 e1 e2 Z R : Ptr) (h5 : Heap) (prev : Ptr),
      (∀ c, Z = some c → h.obj? c = none) →
      ToVector fuel2 h3 obj2 = .ok [e1, e2] →
      CalcVector eval2 h3 [e1, e2] (some g) = .ok (h3, [Z, R]) →
      (SetCar.call eval2 (Copy n2) fuel2 h3 obj2 (some g) = .ok (h5, prev) ∨
        SetCdr.call eval2 (Copy n2) fuel2 h3 obj2 (some g) = .ok (h5, prev)) →
      (∀ a, a < h.next → a ≠ g → h5.obj? a = h.obj? a) ∧ h5.obj? g = h3.obj? g ∧
      ∀ t k, rep 0 h X t = true → t.size ≤ k →
        GetString k h X = .ok t.render ∧ GetString k h5 X = .ok t.render

/-- A heap holding a global frame (address 0) that binds `x` to the list `(1 2)` and the
operand list `(y x)` of a `define` (address 5). -/
def bindHeap : Heap :=
  { data_ :=
      [{ addr := 0, used_ := false, obj := .NameSpace [("x", some 1)] none },
       { addr := 1, used_ := false, obj := .Cell (some 2) (some 3) },
       { addr := 2, used_ := false, obj := .Number 1 },
       { addr := 3, used_ := false, obj := .Cell (some 4) none },
       { addr := 4, used_ := false, obj := .Number 2 },
       { addr := 5, used_ := false, obj := .Cell (some 6) (some 7) },
       { addr := 6, used_ := false, obj := .Symbol "y" },
       { addr := 7, used_ := false, obj := .Cell (some 8) none },
       { addr := 8, used_ := false, obj := .Symbol "x" }],
    next := 9 }

/-- The result of `(define y x)` in `bindHeap`. -/
def bindHeapDefined : Heap × Ptr :=
  match Define.call (Calc 5) (Copy 5) 5 bindHeap (some 5) (some 0) with
  | .ok r => r
  | .error _ => (bindHeap, none)

end Scheme
/-! # Definitions used to state the properties of the special forms and builtins

Operand evaluation read off the specification, and the concrete heaps the theorems are
instantiated at. -/

namespace Scheme

/-- A heap with a global frame (address 0) binding `x` and `y`, a local frame (address 1)
whose parent is the global frame and which binds `x` again, and the operand list `(y 7)`
of a `set!` or `define` (address 5). -/
def assignHeap : Heap :=
  { data_ :=
      [{ addr := 0, used_ := false, obj := .NameSpace [("x", some 2), ("y", some 3)] none },
       { addr := 1, used_ := false, obj := .NameSpace [("x", some 4)] (some 0) },
       { addr := 2, used_ := false, obj := .Number 1 },
       { addr := 3, used_ := false, obj := .Number 2 },
       { addr := 4, used_ := false, obj := .Number 3 },
       { addr := 5, used_ := false, obj := .Cell (some 6) (some 7) },
       { addr := 6, used_ := false, obj := .Symbol "y" },
       { addr := 7, used_ := false, obj := .Cell (some 8) none },
       { addr := 8, used_ := false, obj := .Number 7 }],
    next := 9 }

/-- What `(set! name expr)` establishes on an environment chain.  `frames` is the chain of
`scope` before the call; `expr` evaluates to `v` in heap `h1`, where the chain is
`frames1` (the same frames when evaluating `expr` rebinds nothing), and `Copy(v)` gives
`c` in heap `h2`; `res` is what the form returns.  With `(b1, d1)` the innermost frame
of `frames1` that binds `name`, the chain afterwards is `frames1` with the bindings of that
frame replaced by `mapSet d1 name c`: the frame binds `name` to `c`, its keys and its other
bindings are as before, every other object is as `Copy` left it, and the form returns the
value `prev` that `name` had when the form was entered. -/
def AssignsInnermost (h1 h2 : Heap) (scope : Ptr) (name : String) (c : Ptr)
    (frames frames1 : List (Nat × List (String × Ptr))) (res : Except Err (Heap × Ptr)) :
    Prop :=
  ∀ pre b d post prev pre1 b1 d1 post1 old,
    frames = pre ++ (b, d) :: post → (∀ f ∈ pre, f.2.lookup name = none) →
    d.lookup name = some prev →
    frames1 = pre1 ++ (b1, d1) :: post1 → (∀ f ∈ pre1, f.2.lookup name = none) →
    d1.lookup name = some old →
    ∃ h3, res = .ok (h3, prev) ∧
      chain h3 scope (pre1 ++ (b1, mapSet d1 name c) :: post1) = true ∧
      (mapSet d1 name c).lookup name = some c ∧
      (mapSet d1 name c).map Prod.fst = d1.map Prod.fst ∧
      (∀ m, m ≠ name → (mapSet d1 name c).lookup m = d1.lookup m) ∧
      (∀ a, a ≠ b1 → h3.obj? a = h2.obj? a) ∧
      (∀ a, a < h1.next → a ≠ b1 → h3.obj? a = h1.obj? a)

/-- Evaluate the operands `xs` left to right, each in the heap the one before it left, as
long as every value passes `test` (applied in the heap its evaluation left).  The result
is the heap after the last operand, or `none` when an evaluation fails or a value does not
pass. -/
def evalWhile (eval : CalcFn) (scope : Ptr) (test : Heap → Ptr → Bool) :
    Heap → List Ptr → Option Heap
  | h, [] => some h
  | h, x :: xs =>
    match eval h x scope with
    | .ok (h1, v) => if test h1 v then evalWhile eval scope test h1 xs else none
    | .error _ => none

/-- A heap with an empty global frame (address 0), the atoms `0`, `1`, `#f` and the unbound
symbol `u` (addresses 1 to 4), and operand lists built from them: `(u)` at 5, `(1 u)` at 6,
`(0 1 u)` at 7, `(#f 1 u)` at 8, `(1)` at 9, `(#f 1)` at 10, `(#f u)` at 11, `(1 #f u)` at
12 and `(0 1)` at 13. -/
def branchHeap : Heap :=
  { data_ :=
      [{ addr := 0, used_ := false, obj := .NameSpace [] none },
       { addr := 1, used_ := false, obj := .Number 0 },
       { addr := 2, used_ := false, obj := .Number 1 },
       { addr := 3, used_ := false, obj := .Boolean false },
       { addr := 4, used_ := false, obj := .Symbol "u" },
       { addr := 5, used_ := false, obj := .Cell (some 4) none },
       { addr := 6, used_ := false, obj := .Cell (some 2) (some 5) },
       { addr := 7, used_ := false, obj := .Cell (some 1) (some 6) },
       { addr := 8, used_ := false, obj := .Cell (some 3) (some 6) },
       { addr := 9, used_ := false, obj := .Cell (some 2) none },
       { addr := 10, used_ := false, obj := .Cell (some 3) (some 9) },
       { addr := 11, used_ := false, obj := .Cell (some 3) (some 5) },
       { addr := 12, used_ := false, obj := .Cell (some 2) (some 11) },
       { addr := 13, used_ := false, obj := .Cell (some 1) (some 9) }],
    next := 14 }

/-- A heap with an empty global frame (address 0), the atoms `10`, `3`, `2`, `#t` and `4`
(addresses 1 to 4 and 10), and operand lists built from them: `(2)` at 5, `(3 2)` at 6,
`(10 3 2)` at 7, `(#t)` at 8, `(10 #t)` at 9, `(4 2)` at 11 and `(10)` at 12. -/
def numberHeap : Heap :=
  { data_ :=
      [{ addr := 0, used_ := false, obj := .NameSpace [] none },
       { addr := 1, used_ := false, obj := .Number 10 },
       { addr := 2, used_ := false, obj := .Number 3 },
       { addr := 3, used_ := false, obj := .Number 2 },
       { addr := 4, used_ := false, obj := .Boolean true },
       { addr := 5, used_ := false, obj := .Cell (some 3) none },
       { addr := 6, used_ := false, obj := .Cell (some 2) (some 5) },
       { addr := 7, used_ := false, obj := .Cell (some 1) (some 6) },
       { addr := 8, used_ := false, obj := .Cell (some 4) none },
       { addr := 9, used_ := false, obj := .Cell (some 1) (some 8) },
       { addr := 10, used_ := false, obj := .Number 4 },
       { addr := 11, used_ := false, obj := .Cell (some 10) (some 5) },
       { addr := 12, used_ := false, obj := .Cell (some 1) none }],
    next := 13 }

/-- Every quotient of the left fold `((a / b1) / ...) / bk` is defined in 64-bit
arithmetic: no divisor is zero and no step divides the least 64-bit integer by `-1`. -/
def quotientsDefined : Int → List Int → Bool
  | _, [] => true
  | a, b :: bs =>
    decide (b ≠ 0) && !(decide (a = -(2 ^ 63)) && decide (b = -1)) &&
      quotientsDefined (Int.tdiv a b) bs

/-- Evaluate the operands `xs` left to right, each in the heap the one before it left, and
read each value as an integer as soon as it is evaluated: the integers `n1, ..., nk` the
operands evaluate to, or `none` when an evaluation fails or a value is not an integer. -/
def evalNumbers (eval : CalcFn) (scope : Ptr) : Heap → List Ptr → Option (List Int)
  | _, [] => some []
  | h, x :: xs =>
    match CalcAndGetNumber eval h x scope with
    | .ok (h1, n) => (evalNumbers eval scope h1 xs).map (fun ns => n :: ns)
    | .error _ => none

/-- A heap with a global frame (address 0) binding `car`, `cdr` and `cons` to their
builtins (addresses 1 to 3), the atoms `7` and `8` (addresses 4 and 5), the expression
`(cons 7 8)` at 9, `(car (cons 7 8))` at 12 and `(cdr (cons 7 8))` at 14. -/
def consHeap : Heap :=
  { data_ :=
      [{ addr := 0, used_ := false,
         obj := .NameSpace [("car", some 1), ("cdr", some 2), ("cons", some 3)] none },
       { addr := 1, used_ := false, obj := .Functor .Car },
       { addr := 2, used_ := false, obj := .Functor .Cdr },
       { addr := 3, used_ := false, obj := .Functor .Cons },
       { addr := 4, used_ := false, obj := .Number 7 },
       { addr := 5, used_ := false, obj := .Number 8 },
       { addr := 6, used_ := false, obj := .Cell (some 5) none },
       { addr := 7, used_ := false, obj := .Cell (some 4) (some 6) },
       { addr := 8, used_ := false, obj := .Symbol "cons" },
       { addr := 9, used_ := false, obj := .Cell (some 8) (some 7) },
       { addr := 10, used_ := false, obj := .Cell (some 9) none },
       { addr := 11, used_ := false, obj := .Symbol "car" },
       { addr := 12, used_ := false, obj := .Cell (some 11) (some 10) },
       { addr := 13, used_ := false, obj := .Symbol "cdr" },
       { addr := 14, used_ := false, obj := .Cell (some 13) (some 10) }],
    next := 15 }

end Scheme
namespace Scheme

/-- The pointer `p` is a proper list whose elements, in order, are `vec`. -/
def listOf (h : Heap) : Ptr → List Ptr → Bool
  | none, [] => true
  | some a, x :: xs =>
    (match h.obj? a with
     | some (.Cell first_ second_) => decide (first_ = x) && listOf h second_ xs
     | _ => false)
  | _, _ => false

/-- The value reached from `p` after following `k` links through the second field of a
pair, if there are that many. -/
def followSecond (h : Heap) : Nat → Ptr → Option Ptr
  | 0, p => some p
  | k + 1, some a =>
    (match h.obj? a with
     | some (.Cell _ second_) => followSecond h k second_
     | _ => none)
  | _ + 1, none => none

/-- A heap with a global frame (address 0) binding `l` to the list `(10 3 2)` (address 7,
its tails at 6 and 5, its elements at 1, 2 and 3), the symbol `l` (address 8), the numbers
`1`, `-1` and `4` (addresses 9, 12 and 15) and the operand lists `(l 1)` at 11, `(l 3)` at
14, `(l -1)` at 17, `(l 4)` at 19 and `(l 2)` at 21. -/
def listHeap : Heap :=
  { data_ :=
      [{ addr := 0, used_ := false, obj := .NameSpace [("l", some 7)] none },
       { addr := 1, used_ := false, obj := .Number 10 },
       { addr := 2, used_ := false, obj := .Number 3 },
       { addr := 3, used_ := false, obj := .Number 2 },
       { addr := 5, used_ := false, obj := .Cell (some 3) none },
       { addr := 6, used_ := false, obj := .Cell (some 2) (some 5) },
       { addr := 7, used_ := false, obj := .Cell (some 1) (some 6) },
       { addr := 8, used_ := false, obj := .Symbol "l" },
       { addr := 9, used_ := false, obj := .Number 1 },
       { addr := 10, used_ := false, obj := .Cell (some 9) none },
       { addr := 11, used_ := false, obj := .Cell (some 8) (some 10) },
       { addr := 12, used_ := false, obj := .Number (-1) },
       { addr := 13, used_ := false, obj := .Cell (some 2) none },
       { addr := 14, used_ := false, obj := .Cell (some 8) (some 13) },
       { addr := 15, used_ := false, obj := .Number 4 },
       { addr := 16, used_ := false, obj := .Cell (some 12) none },
       { addr := 17, used_ := false, obj := .Cell (some 8) (some 16) },
       { addr := 18, used_ := false, obj := .Cell (some 15) none },
       { addr := 19, used_ := false, obj := .Cell (some 8) (some 18) },
       { addr := 20, used_ := false, obj := .Cell (some 3) none },
       { addr := 21, used_ := false, obj := .Cell (some 8) (some 20) }],
    next := 22 }

end Scheme
namespace Scheme

/-- A heap with a global frame (address 0) binding `p` to a pair whose second field is the
pair itself (address 1), the symbol `p` (address 3), the number `0` (address 5) and the
operand lists `(p)` at 4 and `(p 0)` at 7. -/
def selfTailHeap : Heap :=
  { data_ :=
      [{ addr := 0, used_ := false, obj := .NameSpace [("p", some 1)] none },
       { addr := 1, used_ := false, obj := .Cell (some 2) (some 1) },
       { addr := 2, used_ := false, obj := .Number 1 },
       { addr := 3, used_ := false, obj := .Symbol "p" },
       { addr := 4, used_ := false, obj := .Cell (some 3) none },
       { addr := 5, used_ := false, obj := .Number 0 },
       { addr := 6, used_ := false, obj := .Cell (some 5) none },
       { addr := 7, used_ := false, obj := .Cell (some 3) (some 6) }],
    next := 8 }

end Scheme
namespace Scheme

/-- A heap with an empty global frame (address 0) and the operand lists of
`(define (f x) (u x))` at address 12 and of `(lambda (x) (u x))` at address 14, where `u` is
unbound: the symbols `f`, `x`, `u`, `x` at 1, 2, 3 and 4, the body `(u x)` at 6, the list
of bodies at 7, the head `(f x)` at 9 and the parameter list `(x)` at 8. -/
def closureHeap : Heap :=
  { data_ :=
      [{ addr := 0, used_ := false, obj := .NameSpace [] none },
       { addr := 1, used_ := false, obj := .Symbol "f" },
       { addr := 2, used_ := false, obj := .Symbol "x" },
       { addr := 3, used_ := false, obj := .Symbol "u" },
       { addr := 4, used_ := false, obj := .Symbol "x" },
       { addr := 5, used_ := false, obj := .Cell (some 4) none },
       { addr := 6, used_ := false, obj := .Cell (some 3) (some 5) },
       { addr := 7, used_ := false, obj := .Cell (some 6) none },
       { addr := 8, used_ := false, obj := .Cell (some 2) none },
       { addr := 9, used_ := false, obj := .Cell (some 1) (some 8) },
       { addr := 12, used_ := false, obj := .Cell (some 9) (some 7) },
       { addr := 14, used_ := false, obj := .Cell (some 8) (some 7) }],
    next := 15 }

end Scheme
namespace Scheme

/-- The objects no evaluation step overwrites, relative to a set `P` of protected
environments: every object that is neither a pair nor an environment, and the environments
at the addresses in `P`. -/
def Object.stable (P : Nat → Prop) (a : Nat) : Object → Prop
  | .Cell _ _ => False
  | .NameSpace _ _ => P a
  | _ => True

/-- The protected environments `P` are sealed off in `h`: they are allocated, and none of
them is the parent of an environment of `h`, so that no environment chain passes through
them. -/
def Sealed (P : Nat → Prop) (h : Heap) : Prop :=
  h.Fresh ∧ (∀ a, P a → a < h.next) ∧
    ∀ a d u, h.obj? a = some (.NameSpace d (some u)) → ¬ P u

/-- From `h` to `h1` the stable objects are kept as they are, and the protected
environments stay sealed off. -/
def Keeps (P : Nat → Prop) (h h1 : Heap) : Prop :=
  Sealed P h1 ∧ h.next ≤ h1.next ∧
    ∀ a o, h.obj? a = some o → o.stable P a → h1.obj? a = some o

/-- An evaluator that keeps the stable objects whenever it is not run in a protected
environment. -/
def EvalKeeps (P : Nat → Prop) (eval : CalcFn) : Prop :=
  ∀ h obj scope h1 v, Sealed P h → (∀ a, scope = some a → ¬ P a) →
    eval h obj scope = .ok (h1, v) → Keeps P h h1

/-- A duplicator that keeps the stable objects. -/
def CopyKeeps (P : Nat → Prop) (copy : CopyFn) : Prop :=
  ∀ h p h1 q, Sealed P h → copy h p = .ok (h1, q) → Keeps P h h1

/-- Every parent pointer of an environment of `h` satisfies `Q` (and no object of `h` sits
at or after the next address to be handed out). -/
def Uppers (Q : Nat → Prop) (h : Heap) : Prop :=
  h.Fresh ∧ ∀ a d u, h.obj? a = some (.NameSpace d (some u)) → Q u

/-- The executable form of `Uppers`: the test `Q` passes on the parent pointer of every
environment stored in `h`. -/
def Heap.parentsAll (h : Heap) (Q : Nat → Bool) : Bool :=
  h.data_.all (fun sl =>
    match sl.obj with
    | .NameSpace _ (some u) => Q u
    | _ => true)

end Scheme
namespace Scheme

/-- A heap holding a global frame (address 0) that binds `square` to the closure
`(lambda (x) (* x x))` (address 1, parameter at 2, own empty frame at 3, body at 4) and `*`
to the builtin (address 9), and the call `(square 5)` at address 11. -/
def squareHeap : Heap :=
  { data_ :=
      [{ addr := 0, used_ := false, obj := .NameSpace [("square", some 1), ("*", some 9)] none },
       { addr := 1, used_ := false, obj := .Lambda [some 2] [some 4] (some 3) },
       { addr := 2, used_ := false, obj := .Symbol "x" },
       { addr := 3, used_ := false, obj := .NameSpace [] (some 0) },
       { addr := 4, used_ := false, obj := .Cell (some 5) (some 6) },
       { addr := 5, used_ := false, obj := .Symbol "*" },
       { addr := 6, used_ := false, obj := .Cell (some 7) (some 8) },
       { addr := 7, used_ := false, obj := .Symbol "x" },
       { addr := 8, used_ := false, obj := .Cell (some 10) none },
       { addr := 9, used_ := false, obj := .Functor .Multiplies },
       { addr := 10, used_ := false, obj := .Symbol "x" },
       { addr := 11, used_ := false, obj := .Cell (some 12) (some 13) },
       { addr := 12, used_ := false, obj := .Symbol "square" },
       { addr := 13, used_ := false, obj := .Cell (some 14) none },
       { addr := 14, used_ := false, obj := .Number 5 }],
    next := 15 }

/-- The heap `squareHeap` after the evaluator has duplicated the closure at address 1: the
duplicate is at address 15, its parameter at 16, its body at 17 and its own frame at 23. -/
def squareCopied : Heap :=
  match Copy 10 squareHeap (some 1) with
  | .ok r => r.1
  | .error _ => squareHeap

/-- The heap and the values after the duplicated body of the closure has been evaluated
in the frame 23 of `squareCopied`, in which `x` is bound to the number at address 14. -/
def squareResult : Heap × List Ptr :=
  match CopyAndCalcVector (Calc 10) (Copy 10)
      (squareCopied.update 23 (.NameSpace [("x", some 14)] (some 0))) [some 17] (some 23) with
  | .ok r => r
  | .error _ => (squareHeap, [])

end Scheme
namespace Scheme

/-- A heap holding a global frame (address 0) that binds `f` to the closure
`(lambda (x) (define y x) y)` (address 1, parameter at 2, own empty frame at 3, body
expressions at 4 and 10) and `define` to the builtin (address 9), and the call `(f 1)` at
address 12. -/
def invokeHeap : Heap :=
  { data_ :=
      [{ addr := 0, used_ := false, obj := .NameSpace [("f", some 1), ("define", some 9)] none },
       { addr := 1, used_ := false, obj := .Lambda [some 2] [some 4, some 10] (some 3) },
       { addr := 2, used_ := false, obj := .Symbol "x" },
       { addr := 3, used_ := false, obj := .NameSpace [] (some 0) },
       { addr := 4, used_ := false, obj := .Cell (some 5) (some 6) },
       { addr := 5, used_ := false, obj := .Symbol "define" },
       { addr := 6, used_ := false, obj := .Cell (some 7) (some 8) },
       { addr := 7, used_ := false, obj := .Symbol "y" },
       { addr := 8, used_ := false, obj := .Cell (some 11) none },
       { addr := 9, used_ := false, obj := .Functor .Define },
       { addr := 10, used_ := false, obj := .Symbol "y" },
       { addr := 11, used_ := false, obj := .Symbol "x" },
       { addr := 12, used_ := false, obj := .Cell (some 13) (some 14) },
       { addr := 13, used_ := false, obj := .Symbol "f" },
       { addr := 14, used_ := false, obj := .Cell (some 15) none },
       { addr := 15, used_ := false, obj := .Number 1 }],
    next := 16 }

/-- The heap and the value after the call `(f 1)` of `invokeHeap` has been evaluated in the
global frame. -/
def invokeResult : Heap × Ptr :=
  match Calc 12 invokeHeap (some 12) (some 0) with
  | .ok r => r
  | .error _ => (invokeHeap, none)

end Scheme
namespace Scheme

/-- The value pointers of an object: the fields of a pair, the values bound in an
environment, the parameters and the body expressions of a closure. -/
def Object.vals : Object → List Ptr
  | .Cell first_ second_ => [first_, second_]
  | .NameSpace data_ _ => data_.map Prod.snd
  | .Lambda arg_names_ body_ _ => arg_names_ ++ body_
  | _ => []

/-- The own frame of a closure. -/
def Object.own : Object → Ptr
  | .Lambda _ _ scope_ => scope_
  | _ => none

/-- The pointers `Copy` follows, the duplication edges: the value pointers and the own
frame of a closure, but not the parent of an environment. -/
def Object.dups (o : Object) : List Ptr := o.own :: o.vals

/-- The object is a pair. -/
def Object.isCell : Object → Bool
  | .Cell _ _ => true
  | _ => false

/-- The rank `r` strictly decreases along every duplication edge of `h` other than the
pointer of a pair to itself. -/
def Ranked (r : Nat → Nat) (h : Heap) : Prop :=
  ∀ a o y, h.obj? a = some o → some y ∈ o.dups → r y < r a ∨ (y = a ∧ o.isCell = true)

/-- The only cycles of `h` along duplication edges are pointers of a pair to itself. -/
def Heap.SelfRefOnly (h : Heap) : Prop := ∃ r, Ranked r h

/-- From address `N` on, every duplication edge of `h` other than the pointer of a pair to
itself leads to a higher address. -/
def AddrInc (N : Nat) (h : Heap) : Prop :=
  ∀ a o y, h.obj? a = some o → N ≤ a → some y ∈ o.dups → a < y ∨ (y = a ∧ o.isCell = true)

/-- The invariant of the evaluator, relative to a set `P` of hidden addresses (the frames
evaluation runs in and the duplicates of the closures being invoked): addresses are
distinct and below `next`, duplication edges stay below `next` and have only pair
self-references as cycles, no value pointer leads to a hidden address, only a hidden
closure has a hidden own frame, no own frame is a pair, and the parent of every
environment is hidden. -/
structure Good (P : Nat → Prop) (h : Heap) : Prop where
  fresh : h.Fresh
  distinct : h.Distinct
  below : ∀ a o y, h.obj? a = some o → some y ∈ o.dups → y < h.next
  ranked : h.SelfRefOnly
  noRef : ∀ a o y, h.obj? a = some o → some y ∈ o.vals → ¬ P y
  ownClosed : ∀ a o y, h.obj? a = some o → o.own = some y → P y → P a
  ownNotCell : ∀ a o y, h.obj? a = some o → o.own = some y →
    ∀ f s, h.obj? y ≠ some (.Cell f s)
  upperIn : ∀ a d u, h.obj? a = some (.NameSpace d (some u)) → P u
  inHeap : ∀ a, P a → a < h.next

/-- A pointer that may be stored as a value: null, or an allocated address that is not
hidden. -/
def Val (P : Nat → Prop) (h : Heap) (v : Ptr) : Prop :=
  ∀ a, v = some a → ¬ P a ∧ a < h.next

/-- From `(P, h)` to `(P1, h1)`: the invariant holds at the end, and the hidden set has
grown by addresses handed out since `h` only. -/
def Grows (P : Nat → Prop) (h : Heap) (P1 : Nat → Prop) (h1 : Heap) : Prop :=
  Good P1 h1 ∧ (∀ a, P a → P1 a) ∧ (∀ a, P1 a → P a ∨ h.next ≤ a) ∧ h.next ≤ h1.next

/-- The outcome of an evaluation step that returns the pointer `v`. -/
def Out (P : Nat → Prop) (h h1 : Heap) (v : Ptr) : Prop :=
  ∃ P1, Grows P h P1 h1 ∧ Val P1 h1 v

/-- The outcome of an evaluation step that returns the pointers `vs`. -/
def Outs (P : Nat → Prop) (h h1 : Heap) (vs : List Ptr) : Prop :=
  ∃ P1, Grows P h P1 h1 ∧ ∀ v ∈ vs, Val P1 h1 v

/-- An evaluator that keeps the invariant when run on a storable expression in a hidden
frame, and returns a storable value. -/
def EvalGood (eval : CalcFn) : Prop :=
  ∀ P h obj scope h1 v, Good P h → Val P h obj → (∀ a, scope = some a → P a) →
    eval h obj scope = .ok (h1, v) → Out P h h1 v

/-- A duplicator that keeps the invariant, changes no existing object, returns the next
free address (for a non-null argument), and makes objects whose duplication edges lead
upwards; the duplicate is a pair only if the original is. -/
def CopyGood (copy : CopyFn) : Prop :=
  ∀ P h p h1 q, Good P h → copy h p = .ok (h1, q) →
    Good P h1 ∧ Ext h h1 ∧ AddrInc h.next h1 ∧
      (∀ b, q = some b → b = h.next ∧ b < h1.next) ∧
      (∀ a b f s, p = some a → q = some b → h1.obj? b = some (.Cell f s) →
        ∃ f0 s0, h.obj? a = some (.Cell f0 s0))

/-! ## The heap an evaluation leaves behind

`main` catches `SyntaxError`, `NameError` and `RuntimeError` and goes on with the next
line: the heap is then as the throw left it, and nothing was collected.  For every
function of the parser and of the evaluator, the functions below give the heap at the
moment the call exits, by `return` or by `throw`.  Undefined behaviour and exhaustion of
the fuel are no exceptions and nothing goes on after them; where only they can stop a step
(a duplication, the collection), the heap before the step stands in. -/

/-- The heap an evaluation exits with, as a function of the heap, the expression and the
frame. -/
abbrev ExitFn := Heap → Ptr → Ptr → Heap

/-- The heap a parse exits with, as a function of the heap and the tokenizer. -/
abbrev ReadExitFn := Heap → Tokenizer → Heap

/-- The heap after a step that either returns a new heap or stops in `h`. -/
def heapOr {α : Type} (r : Except Err (Heap × α)) (h : Heap) : Heap :=
  match r with
  | .ok (h1, _) => h1
  | .error _ => h

/-- The exit of one evaluation `eval h obj scope`: the heap it returns, or the heap it
threw in. -/
def evalExit (evalH : ExitFn) (eval : CalcFn) (h : Heap) (obj scope : Ptr) : Heap :=
  match eval h obj scope with
  | .ok (h1, _) => h1
  | .error _ => evalH h obj scope

/-- The exit of `CalcVector(a, scope)`: after the last element, or where an element
threw. -/
def CalcVector.exitHeap (evalH : ExitFn) (eval : CalcFn) : Heap → List Ptr → Ptr → Heap
  | h, [], _ => h
  | h, x :: xs, scope =>
    match eval h x scope with
    | .ok (h1, _) => CalcVector.exitHeap evalH eval h1 xs scope
    | .error _ => evalH h x scope

/-- The exit of a functor that reads its operands with `ToVector`, checks their number
with `check` and evaluates them with `CalcVector` before it does anything else; `call` is
the outcome of the functor.  A throw of `ToVector` or of the check leaves `h`, a throw
inside an operand leaves what that evaluation left, and a throw after the operands (a
check on the values, which allocates nothing) leaves the heap the operands were evaluated
in. -/
def operandsExit (evalH : ExitFn) (eval : CalcFn) (fuel : Nat) (h : Heap) (obj scope : Ptr)
    (check : List Ptr → Except Err Unit) (call : Except Err (Heap × Ptr)) : Heap :=
  match call with
  | .ok (h2, _) => h2
  | .error _ =>
    match ToVector fuel h obj with
    | .error _ => h
    | .ok vec =>
      match check vec with
      | .error _ => h
      | .ok _ =>
        match CalcVector eval h vec scope with
        | .ok (h1, _) => h1
        | .error _ => CalcVector.exitHeap evalH eval h vec scope

/-- The exit of the loop of `CalcNumberListToBool`. -/
def numberListToBoolLoop.exitHeap (evalH : ExitFn) (eval : CalcFn) (func : Int → Int → Bool)
    (scope : Ptr) : Heap → Int → List Ptr → Heap
  | h, _, [] => h
  | h, prev, x :: xs =>
    match CalcAndGetNumber eval h x scope with
    | .ok (h1, cur) =>
      if !func prev cur then h1
      else numberListToBoolLoop.exitHeap evalH eval func scope h1 cur xs
    | .error _ => evalExit evalH eval h x scope

/-- The exit of `CalcNumberListToBool`: operands are evaluated and checked one by one. -/
def CalcNumberListToBool.exitHeap (evalH : ExitFn) (eval : CalcFn) (func : Int → Int → Bool)
    (h : Heap) (vec : List Ptr) (scope : Ptr) : Heap :=
  match vec with
  | [] => h
  | x :: xs =>
    match CalcAndGetNumber eval h x scope with
    | .ok (h1, prev) => numberListToBoolLoop.exitHeap evalH eval func scope h1 prev xs
    | .error _ => evalExit evalH eval h x scope

/-- The exit of the comparisons. -/
def compareCall.exitHeap (func : Int → Int → Bool) (evalH : ExitFn) (eval : CalcFn)
    (fuel : Nat) (h : Heap) (obj scope : Ptr) : Heap :=
  match compareCall func eval fuel h obj scope with
  | .ok (h2, _) => h2
  | .error _ =>
    match ToVector fuel h obj with
    | .error _ => h
    | .ok args => CalcNumberListToBool.exitHeap evalH eval func h args scope

/-- The exit of `Abs::operator()`. -/
def Abs.exitHeap (evalH : ExitFn) (eval : CalcFn) (fuel : Nat) (h : Heap) (obj scope : Ptr) :
    Heap :=
  match Abs.call eval fuel h obj scope with
  | .ok (h2, _) => h2
  | .error _ =>
    match ToVector fuel h obj with
    | .error _ => h
    | .ok args =>
      match RequiresOnlyXArguments args 1 with
      | .error _ => h
      | .ok _ =>
        match args with
        | [x] => evalExit evalH eval h x scope
        | _ => h

/-- The exit of the loop of `And::operator()`. -/
def andLoop.exitHeap (evalH : ExitFn) (eval : CalcFn) (scope : Ptr) : Heap → List Ptr → Heap
  | h, [] => h
  | h, elem :: rest =>
    match eval h elem scope with
    | .ok (h1, v) =>
      if !ToBool h1 v then (FalseObject h1).1 else andLoop.exitHeap evalH eval scope h1 rest
    | .error _ => evalH h elem scope

/-- The exit of `And::operator()`. -/
def And.exitHeap (evalH : ExitFn) (eval : CalcFn) (fuel : Nat) (h : Heap) (obj scope : Ptr) :
    Heap :=
  match And.call eval fuel h obj scope with
  | .ok (h2, _) => h2
  | .error _ =>
    match ToVector fuel h obj with
    | .error _ => h
    | .ok args => andLoop.exitHeap evalH eval scope h args

/-- The exit of the loop of `Or::operator()`. -/
def orLoop.exitHeap (evalH : ExitFn) (eval : CalcFn) (scope : Ptr) (size : Nat) :
    Heap → Nat → List Ptr → Heap
  | h, _, [] => (FalseObject h).1
  | h, temp, elem :: rest =>
    match eval h elem scope with
    | .ok (h1, v) =>
      if ToBool h1 v then
        if temp + 1 = size then h1 else (TrueObject h1).1
      else orLoop.exitHeap evalH eval scope size h1 (temp + 1) rest
    | .error _ => evalH h elem scope

/-- The exit of `Or::operator()`. -/
def Or.exitHeap (evalH : ExitFn) (eval : CalcFn) (fuel : Nat) (h : Heap) (obj scope : Ptr) :
    Heap :=
  match Or.call eval fuel h obj scope with
  | .ok (h2, _) => h2
  | .error _ =>
    match ToVector fuel h obj with
    | .error _ => h
    | .ok args => orLoop.exitHeap evalH eval scope args.length h 0 args

/-- The exit of `Define::operator()`.  In the variable form the throws before the
evaluation of the value leave `h`, and after the duplication only `DefineHelper` is left;
in the function form everything before `CreateLambdaHelper` returns leaves `h`, and
`DefineHelper` throws with the closure already made. -/
def Define.exitHeap (evalH : ExitFn) (eval : CalcFn) (copy : CopyFn) (fuel : Nat) (h : Heap)
    (obj scope : Ptr) : Heap :=
  match Define.call eval copy fuel h obj scope with
  | .ok (h3, _) => h3
  | .error _ =>
    match ToVector fuel h obj with
    | .error _ => h
    | .ok args =>
      match RequiresMinimumXArgumentsS args 2 with
      | .error _ => h
      | .ok _ =>
        match args with
        | front :: rest =>
          if IsSymbol h front then
            match RequiresOnlyXArgumentsS args 2 with
            | .error _ => h
            | .ok _ =>
              match rest.getLast? with
              | some back =>
                match eval h back scope with
                | .error _ => evalH h back scope
                | .ok (h1, v) => heapOr (copy h1 v) h1
              | none => h
          else
            match IsListHelper fuel h front with
            | .ok true =>
              match ToVector fuel h front with
              | .ok (_ :: names) => heapOr (CreateLambdaHelper h names rest scope) h
              | _ => h
            | _ => h
        | [] => h

/-- The exit of `Set::operator()`: the name is looked up before the value is evaluated,
and after the duplication nothing allocates. -/
def Set.exitHeap (evalH : ExitFn) (eval : CalcFn) (copy : CopyFn) (fuel : Nat) (h : Heap)
    (obj scope : Ptr) : Heap :=
  match Set.call eval copy fuel h obj scope with
  | .ok (h3, _) => h3
  | .error _ =>
    match ToVector fuel h obj with
    | .error _ => h
    | .ok args =>
      match RequiresOnlyXArgumentsS args 2 with
      | .error _ => h
      | .ok _ =>
        match args with
        | [front, back] =>
          match GetSymbol h front with
          | .error _ => h
          | .ok name =>
            match NameSpace.Get fuel h scope name with
            | .error _ => h
            | .ok _ =>
              match eval h back scope with
              | .error _ => evalH h back scope
              | .ok (h1, v) => heapOr (copy h1 v) h1
        | _ => h

/-- The exit of `SetCar::operator()` and of `SetCdr::operator()`, whose outcome is
`call`: both operands are evaluated, the first is required to be a pair, and unless the two
values are the same pointer the second is duplicated before the field is written. -/
def setFieldExit (evalH : ExitFn) (eval : CalcFn) (copy : CopyFn) (fuel : Nat) (h : Heap)
    (obj scope : Ptr) (call : Except Err (Heap × Ptr)) : Heap :=
  match call with
  | .ok (h3, _) => h3
  | .error _ =>
    match ToVector fuel h obj with
    | .error _ => h
    | .ok args =>
      match RequiresOnlyXArgumentsS args 2 with
      | .error _ => h
      | .ok _ =>
        match CalcVector eval h args scope with
        | .error _ => CalcVector.exitHeap evalH eval h args scope
        | .ok (h1, vals) =>
          match vals with
          | [front, back] =>
            match GetCell h1 front with
            | .error _ => h1
            | .ok _ => if front = back then h1 else heapOr (copy h1 back) h1
          | _ => h1

/-- The exit of `If::operator()`. -/
def If.exitHeap (evalH : ExitFn) (eval : CalcFn) (fuel : Nat) (h : Heap) (obj scope : Ptr) :
    Heap :=
  match If.call eval fuel h obj scope with
  | .ok (h2, _) => h2
  | .error _ =>
    match ToVector fuel h obj with
    | .error _ => h
    | .ok args =>
      match RequiresOnlyLRArgumentsS args 2 3 with
      | .error _ => h
      | .ok _ =>
        match args with
        | cond :: thenBranch :: rest =>
          match eval h cond scope with
          | .error _ => evalH h cond scope
          | .ok (h1, c) =>
            if ToBool h1 c then evalExit evalH eval h1 thenBranch scope
            else
              match rest with
              | [elseBranch] => evalExit evalH eval h1 elseBranch scope
              | _ => h1
        | _ => h

/-- The exit of the loop of `Lambda::operator()` that binds the parameters. -/
def bindArgs.exitHeap (newscope : Ptr) : Heap → List Ptr → List Ptr → Heap
  | h, name :: names, arg :: args =>
    match DefineHelper h name arg newscope with
    | .ok h1 => bindArgs.exitHeap newscope h1 names args
    | .error _ => h
  | h, _, _ => h

/-- The exit of `CopyAndCalcVector(a, scope)`. -/
def CopyAndCalcVector.exitHeap (evalH : ExitFn) (eval : CalcFn) (copy : CopyFn) (h : Heap)
    (a : List Ptr) (scope : Ptr) : Heap :=
  match CopyVector copy h a with
  | .ok (h1, vec) => CalcVector.exitHeap evalH eval h1 vec scope
  | .error _ => h

/-- The exit of `Lambda::operator()`, called on the closure object at address `self`. -/
def Lambda.exitHeap (evalH : ExitFn) (eval : CalcFn) (copy : CopyFn) (fuel : Nat) (h : Heap)
    (self : Nat) (obj scope : Ptr) : Heap :=
  match Lambda.call eval copy fuel h self obj scope with
  | .ok (h3, _) => h3
  | .error _ =>
    match h.obj? self with
    | some (.Lambda arg_names_ body_ scope_) =>
      match ToVector fuel h obj with
      | .error _ => h
      | .ok args =>
        match RequiresOnlyXArguments args arg_names_.length with
        | .error _ => h
        | .ok _ =>
          match CalcVector eval h args scope with
          | .error _ => CalcVector.exitHeap evalH eval h args scope
          | .ok (h1, vals) =>
            match bindArgs scope_ h1 arg_names_ vals with
            | .error _ => bindArgs.exitHeap scope_ h1 arg_names_ vals
            | .ok h2 => CopyAndCalcVector.exitHeap evalH eval copy h2 body_ scope_
    | _ => h

/-- The exit of `operator()` of each builtin class.  `Quote` never allocates, and
`CreateLambda` allocates only when it returns. -/
def Builtin.exitHeap (kind : Builtin) (evalH : ExitFn) (eval : CalcFn) (copy : CopyFn)
    (fuel : Nat) (h : Heap) (obj scope : Ptr) : Heap :=
  match kind with
  | .Quote => heapOr (Quote.call fuel h obj) h
  | .IsPair | .IsNull | .IsList | .Car | .Cdr | .IsNumber | .IsBoolean | .Not | .IsSymbol =>
    operandsExit evalH eval fuel h obj scope (fun vec => RequiresOnlyXArguments vec 1)
      (kind.call eval copy fuel h obj scope)
  | .Cons | .ListRef | .ListTail =>
    operandsExit evalH eval fuel h obj scope (fun vec => RequiresOnlyXArguments vec 2)
      (kind.call eval copy fuel h obj scope)
  | .List | .Plus | .Multiplies =>
    operandsExit evalH eval fuel h obj scope (fun _ => .ok ())
      (kind.call eval copy fuel h obj scope)
  | .Minus | .Divides | .Max | .Min =>
    operandsExit evalH eval fuel h obj scope (fun vec => RequiresMinimumXArguments vec 1)
      (kind.call eval copy fuel h obj scope)
  | .EqualTo => compareCall.exitHeap (fun a b => a == b) evalH eval fuel h obj scope
  | .Greater => compareCall.exitHeap (fun a b => decide (a > b)) evalH eval fuel h obj scope
  | .Less => compareCall.exitHeap (fun a b => decide (a < b)) evalH eval fuel h obj scope
  | .GreaterEqual => compareCall.exitHeap (fun a b => decide (a ≥ b)) evalH eval fuel h obj scope
  | .LessEqual => compareCall.exitHeap (fun a b => decide (a ≤ b)) evalH eval fuel h obj scope
  | .Abs => Abs.exitHeap evalH eval fuel h obj scope
  | .And => And.exitHeap evalH eval fuel h obj scope
  | .Or => Or.exitHeap evalH eval fuel h obj scope
  | .Define => Define.exitHeap evalH eval copy fuel h obj scope
  | .Set => Set.exitHeap evalH eval copy fuel h obj scope
  | .SetCar | .SetCdr =>
    setFieldExit evalH eval copy fuel h obj scope (kind.call eval copy fuel h obj scope)
  | .If => If.exitHeap evalH eval fuel h obj scope
  | .CreateLambda => heapOr (CreateLambda.call fuel h obj scope) h

/-- The exit of `(*As<Functor>(func))(args, scope)`. -/
def Apply.exitHeap (evalH : ExitFn) (eval : CalcFn) (copy : CopyFn) (fuel : Nat) (h : Heap)
    (func args scope : Ptr) : Heap :=
  match func with
  | some f =>
    (match h.obj? f with
     | some (.Functor kind) => kind.exitHeap evalH eval copy fuel h args scope
     | some (.Lambda _ _ _) => Lambda.exitHeap evalH eval copy fuel h f args scope
     | _ => h)
  | none => h

/-- The exit of `Calc(object, scope)`: an atom, a symbol and every throw of `Calc` itself
leave the heap as it is at that point. -/
def Calc.exitHeap : Nat → Heap → Ptr → Ptr → Heap
  | 0, h, _, _ => h
  | fuel + 1, h, object, scope =>
    match object with
    | none => h
    | some a =>
      match h.obj? a with
      | some (.Cell first_ _) =>
        (match Calc fuel h first_ scope with
         | .ok (h1, func) =>
           (match h1.obj? a with
            | some (.Cell _ args) =>
              if !IsFunctor h1 func then h1
              else
                (match Copy fuel h1 func with
                 | .ok (h2, func1) =>
                   Apply.exitHeap (Calc.exitHeap fuel) (Calc fuel) (Copy fuel) fuel h2 func1 args
                     scope
                 | .error _ => h1)
            | _ => h1)
         | .error _ => Calc.exitHeap fuel h first_ scope)
      | _ => h

/-- The exit of one `Read(tokenizer)` called from `ReadList`. -/
def readExit (readH : ReadExitFn) (read : ReadFn) (h : Heap) (t : Tokenizer) : Heap :=
  match read h t with
  | .ok (h1, _, _) => h1
  | .error _ => readH h t

/-- The exit of the `while` loop of `ReadList`. -/
def ReadListLoop.exitHeap (readH : ReadExitFn) (read : ReadFn) :
    Nat → Heap → Tokenizer → List Ptr → Heap
  | 0, h, _, _ => h
  | fuel + 1, h, t, list =>
    match t.GetToken with
    | .error _ => h
    | .ok cur_token =>
      if cur_token = .BracketCLOSE then h
      else if cur_token = .DotToken then
        match t.Next with
        | .error _ => h
        | .ok t1 => readExit readH read h t1
      else
        match read h t with
        | .error _ => readH h t
        | .ok (h1, t1, x) => ReadListLoop.exitHeap readH read fuel h1 t1 (list ++ [x])

/-- The exit of `ReadList(tokenizer)`: the cells of the list are made only once the
closing bracket was read. -/
def ReadList.exitHeap (readH : ReadExitFn) (read : ReadFn) (fuel : Nat) (h : Heap)
    (t : Tokenizer) : Heap :=
  match ReadList read fuel h t with
  | .ok (h3, _, _) => h3
  | .error _ =>
    match t.GetToken with
    | .error _ => h
    | .ok cur_token =>
      if cur_token = .BracketCLOSE then h
      else
        match read h t with
        | .error _ => readH h t
        | .ok (h1, t1, x) => ReadListLoop.exitHeap readH read fuel h1 t1 [x]

/-- The exit of `Read(tokenizer)`: a quote makes its symbol before it reads on. -/
def Read.exitHeap : Nat → Heap → Tokenizer → Heap
  | 0, h, _ => h
  | fuel + 1, h, t =>
    match Read (fuel + 1) h t with
    | .ok (h1, _, _) => h1
    | .error _ =>
      match t.GetToken with
      | .error _ => h
      | .ok cur_token =>
        match t.Next with
        | .error _ => h
        | .ok t1 =>
          match cur_token with
          | .BracketOPEN => ReadList.exitHeap (Read.exitHeap fuel) (Read fuel) fuel h t1
          | .QuoteToken => Read.exitHeap fuel (h.Make (.Symbol "quote")).1 t1
          | _ => h

/-- The heap when `Interpreter::Run(str)` exits: after the collection when it returns,
and otherwise where the tokenizer, the parser, the check for further tokens, the
evaluation or the printing threw. -/
def Interpreter.exitHeap (fuel : Nat) (self : Interpreter) (str : String) : Heap :=
  match Tokenizer.new str with
  | .error _ => self.heap
  | .ok tokenizer =>
    match Read fuel self.heap tokenizer with
    | .error _ => Read.exitHeap fuel self.heap tokenizer
    | .ok (h1, t1, object) =>
      if !t1.IsEnd then h1
      else
        match Calc fuel h1 object (some self.global_namespace_) with
        | .error _ => Calc.exitHeap fuel h1 object (some self.global_namespace_)
        | .ok (h2, v) =>
          match GetString fuel h2 v with
          | .error _ => h2
          | .ok _ =>
            match h2.RemoveTrash fuel self.global_namespace_ with
            | .ok h3 => h3
            | .error _ => h2

/-- One turn of the loop of `main`: after `Run(s)` returned, the interpreter it left; after
one of the three exceptions `main` catches, the same interpreter on the heap the throw left;
any other outcome ends the program, and the interpreter stays as it was. -/
def Interpreter.turn (fuel : Nat) (self : Interpreter) (s : String) : Interpreter :=
  match self.Run fuel s with
  | .ok (self1, _) => self1
  | .error .SyntaxError => { self with heap := self.exitHeap fuel s }
  | .error .NameError => { self with heap := self.exitHeap fuel s }
  | .error .RuntimeError => { self with heap := self.exitHeap fuel s }
  | .error _ => self

/-- An exit function that keeps the invariant when run on a storable expression in a
hidden frame, whether the evaluation returns or throws. -/
def ExitGood (evalH : ExitFn) : Prop :=
  ∀ P h obj scope, Good P h → Val P h obj → (∀ a, scope = some a → P a) →
    Out P h (evalH h obj scope) none

/-- The states the interpreter of `main` can be in between two inputs: the fresh
interpreter, what a run that returns leaves, and, after a run that threw one of the three
exceptions `main` catches, the same interpreter on the heap the throw left. -/
inductive Interpreter.Reachable : Interpreter → Prop
  | fresh : Interpreter.Reachable Interpreter.new
  | run {self self1 : Interpreter} {fuel : Nat} {str answer : String} :
      Interpreter.Reachable self → self.Run fuel str = .ok (self1, answer) →
      Interpreter.Reachable self1
  | caught {self : Interpreter} {fuel : Nat} {str : String} {e : Err} :
      Interpreter.Reachable self → self.Run fuel str = .error e →
      e = .SyntaxError ∨ e = .NameError ∨ e = .RuntimeError →
      Interpreter.Reachable { self with heap := self.exitHeap fuel str }

end Scheme
namespace Scheme

/-- A duplication edge of the heap: the object at `a` holds `y` in a field that `Copy`
follows (a pair's first or second, a closure's parameters, body or own frame, a local
binding of a frame). -/
def Heap.DupEdge (h : Heap) (a y : Nat) : Prop :=
  ∃ o, h.obj? a = some o ∧ some y ∈ o.dups

/-- The only cycles along duplication edges are direct self-references of pairs: an edge
to another object lies on no cycle, and an object with an edge to itself is a pair. -/
def Heap.OnlySelfCycles (h : Heap) : Prop :=
  (∀ a y, h.DupEdge a y → y ≠ a → ¬ Relation.ReflTransGen h.DupEdge y a) ∧
    ∀ a, h.DupEdge a a → ∃ f s, h.obj? a = some (.Cell f s)

end Scheme
namespace Scheme

/-- The objects a duplication of `p` can reach: what is reachable from `p` along duplication
edges. -/
def Heap.DupReach (h : Heap) (p : Ptr) (a : Nat) : Prop :=
  ∃ a0, p = some a0 ∧ Relation.ReflTransGen h.DupEdge a0 a

/-- The set `R` is closed under duplication edges. -/
def Heap.DupClosed (h : Heap) (R : Nat → Prop) : Prop :=
  ∀ a o y, R a → h.obj? a = some o → some y ∈ o.dups → R y

/-- The pointers `Copy` follows from the objects in `R` were handed out by the allocator:
they lead below `next`. -/
def Heap.DupsBelowOn (h : Heap) (R : Nat → Prop) : Prop :=
  ∀ a o y, R a → h.obj? a = some o → some y ∈ o.dups → y < h.next

/-- The rank `r` strictly decreases along every duplication edge that leaves an object in
`R`, other than the pointer of a pair to itself. -/
def RankedOn (r : Nat → Nat) (h : Heap) (R : Nat → Prop) : Prop :=
  ∀ a o y, R a → h.obj? a = some o → some y ∈ o.dups →
    r y < r a ∨ (y = a ∧ o.isCell = true)

/-- Among the objects in `R`, the only cycles along duplication edges are direct
self-references of pairs: an edge from an object in `R` to another object lies on no
cycle, and an object in `R` with an edge to itself is a pair. -/
def Heap.OnlySelfCyclesOn (h : Heap) (R : Nat → Prop) : Prop :=
  (∀ a y, R a → h.DupEdge a y → y ≠ a → ¬ Relation.ReflTransGen h.DupEdge y a) ∧
    ∀ a, R a → h.DupEdge a a → ∃ f s, h.obj? a = some (.Cell f s)

/-- Nothing that `Copy` dereferences in the objects in `R` is null or dangling: every
duplication edge leads to an object, no frame binds a name to the empty list
(`value_->Copy()` is a member call), and every closure has its own frame
(`scope_->Copy()`). -/
def Heap.CopySafeOn (h : Heap) (R : Nat → Prop) : Prop :=
  ∀ a o, R a → h.obj? a = some o →
    (∀ y, some y ∈ o.dups → (h.obj? y).isSome = true) ∧
      (∀ d u, o = .NameSpace d u → ∀ kv ∈ d, kv.2 ≠ none) ∧
      ∀ names body, o ≠ .Lambda names body none

/-- A heap in which the frame at address 0 binds `p` to a pair that is its own second field
and `f` to a closure, next to two pairs (addresses 6 and 7) that point at each other and
that nothing else points at. -/
def mixedHeap : Heap :=
  { data_ :=
      [{ addr := 0, used_ := false, obj := .NameSpace [("p", some 1), ("f", some 4)] none },
       { addr := 1, used_ := false, obj := .Cell (some 2) (some 1) },
       { addr := 2, used_ := false, obj := .Number 1 },
       { addr := 4, used_ := false, obj := .Lambda [some 3] [some 2] (some 5) },
       { addr := 3, used_ := false, obj := .Symbol "x" },
       { addr := 5, used_ := false, obj := .NameSpace [("y", some 1)] (some 0) },
       { addr := 6, used_ := false, obj := .Cell none (some 7) },
       { addr := 7, used_ := false, obj := .Cell none (some 6) }],
    next := 8 }

/-- The objects of `mixedHeap` that the frame at address 0 reaches. -/
def mixedPart (a : Nat) : Bool := decide (a < 6)

/-- A rank for the part of `mixedHeap` below address 6. -/
def mixedRank (a : Nat) : Nat :=
  if a = 0 then 4 else if a = 4 then 3 else if a = 5 then 2 else if a = 1 then 1 else 0

/-- A check, slot by slot, for the objects in `R`: the duplication edges lead into `R` and
below `next`, `r` decreases along each of them other than the pointer of a pair to itself,
and nothing that `Copy` dereferences is null or dangling. -/
def Heap.checkPart (R : Nat → Bool) (r : Nat → Nat) (h : Heap) : Bool :=
  h.data_.all (fun s => !R s.addr ||
    (s.obj.dups.all (fun p =>
      match p with
      | none => true
      | some y =>
        R y && decide (y < h.next) && (h.obj? y).isSome &&
          (decide (r y < r s.addr) || (y == s.addr && s.obj.isCell))) &&
    (match s.obj with
     | .NameSpace d _ => d.all (fun kv => kv.2.isSome)
     | .Lambda _ _ sc => sc.isSome
     | _ => true)))

/-- The interpreter after three lines: a list is bound to `p`, its tail is made to point
at the pair itself, and a call of a closure throws `RuntimeError` in the closure's body
(`car` of a number), which `main` catches. -/
def cyclicSession : Interpreter :=
  ((Interpreter.new.turn 40 "(define p (list 1))").turn 40 "(set-cdr! p p)").turn 40
    "((lambda (x) (car x)) 1)"

end Scheme
/-! # Properties

Everything below is proved about the definitions above. -/

namespace Scheme

/-! ## The mark phase: flags are only raised -/

theorem forall₂_SlotLE_refl (l : List Slot) : List.Forall₂ SlotLE l l := by
  induction l with
  | nil => exact List.Forall₂.nil
  | cons s l ih => exact List.Forall₂.cons ⟨rfl, rfl, id⟩ ih

theorem forall₂_SlotLE_trans {l l1 l2 : List Slot} (a : List.Forall₂ SlotLE l l1)
    (b : List.Forall₂ SlotLE l1 l2) : List.Forall₂ SlotLE l l2 := by
  induction a generalizing l2 with
  | nil => cases b; exact List.Forall₂.nil
  | cons hs _ ih =>
    cases b with
    | cons hs1 hl1 =>
      exact List.Forall₂.cons
        ⟨hs1.1.trans hs.1, hs1.2.1.trans hs.2.1, fun u => hs1.2.2 (hs.2.2 u)⟩ (ih hl1)

theorem MarkLE.refl (h : Heap) : MarkLE h h := ⟨rfl, forall₂_SlotLE_refl _⟩

theorem MarkLE.trans {h h1 h2 : Heap} (a : MarkLE h h1) (b : MarkLE h1 h2) : MarkLE h h2 :=
  ⟨b.1.trans a.1, forall₂_SlotLE_trans a.2 b.2⟩

theorem forall₂_find {l l1 : List Slot} (a : Nat) (hl : List.Forall₂ SlotLE l l1) :
    (l.find? (fun s => s.addr == a) = none ∧ l1.find? (fun s => s.addr == a) = none) ∨
    ∃ s s1, l.find? (fun s => s.addr == a) = some s ∧
      l1.find? (fun s => s.addr == a) = some s1 ∧ SlotLE s s1 := by
  induction hl with
  | nil => left; simp
  | @cons s s1 l l1 hs _ ih =>
    by_cases hsa : s.addr = a
    · right
      refine ⟨s, s1, ?_, ?_, hs⟩
      · rw [List.find?_cons_of_pos]; simp [hsa]
      · rw [List.find?_cons_of_pos]; simp [hs.1, hsa]
    · have h1a : ¬ s1.addr = a := by rw [hs.1]; exact hsa
      rw [List.find?_cons_of_neg _ (by simpa using hsa), List.find?_cons_of_neg _ (by simpa using h1a)]
      exact ih

theorem MarkLE.obj? {h h1 : Heap} (m : MarkLE h h1) (a : Nat) : h1.obj? a = h.obj? a := by
  unfold Heap.obj? Heap.find
  rcases forall₂_find a m.2 with ⟨e, e1⟩ | ⟨s, s1, e, e1, _, ho, _⟩
  · rw [e, e1]
  · rw [e, e1]; simp [ho]

theorem MarkLE.mark {h h1 : Heap} (m : MarkLE h h1) {a : Nat} (ha : h.GetMark a = true) :
    h1.GetMark a = true := by
  unfold Heap.GetMark Heap.find at *
  rcases forall₂_find a m.2 with ⟨e, e1⟩ | ⟨s, s1, e, e1, _, _, hu⟩
  · rw [e] at ha; simp at ha
  · rw [e] at ha; rw [e1]; exact hu ha

theorem forall₂_unmarked {l l1 : List Slot} (hl : List.Forall₂ SlotLE l l1) :
    (l1.filter (fun s => !s.used_)).length ≤ (l.filter (fun s => !s.used_)).length := by
  induction hl with
  | nil => simp
  | @cons s s1 l l1 hs _ ih =>
    simp only [List.filter_cons]
    cases hu : s.used_ <;> cases hu1 : s1.used_ <;> simp
    · omega
    · omega
    · have := hs.2.2 hu; simp [hu1] at this
    · omega

theorem MarkLE.unmarked {h h1 : Heap} (m : MarkLE h h1) : h1.unmarked ≤ h.unmarked :=
  forall₂_unmarked m.2

end Scheme
namespace Scheme

/-! ### Raising one flag -/

theorem forall₂_setMark (l : List Slot) (a : Nat) :
    List.Forall₂ SlotLE l (l.map (fun s => if s.addr = a then { s with used_ := true } else s)) := by
  induction l with
  | nil => exact List.Forall₂.nil
  | cons s l ih =>
    refine List.Forall₂.cons ?_ ih
    by_cases hs : s.addr = a
    · simp [hs, SlotLE]
    · simp [hs, SlotLE]

theorem MarkLE.setMark (h : Heap) (a : Nat) : MarkLE h (h.setMark a true) :=
  ⟨rfl, forall₂_setMark _ _⟩

theorem addr_setMark (s : Slot) (a : Nat) :
    (if s.addr = a then { s with used_ := true } else s).addr = s.addr := by
  split <;> rfl

theorem find_setMark (l : List Slot) (a x : Nat) :
    (l.map (fun s => if s.addr = a then { s with used_ := true } else s)).find?
        (fun s => s.addr == x) =
      (l.find? (fun s => s.addr == x)).map
        (fun s => if s.addr = a then { s with used_ := true } else s) := by
  induction l with
  | nil => rfl
  | cons s l ih =>
    by_cases hs : s.addr = x
    · rw [List.map_cons, List.find?_cons_of_pos, List.find?_cons_of_pos]
      · rfl
      · simpa using hs
      · rw [addr_setMark]; simpa using hs
    · rw [List.map_cons, List.find?_cons_of_neg, List.find?_cons_of_neg, ih]
      · simpa using hs
      · rw [addr_setMark]; simpa using hs

theorem find_addr {l : List Slot} {x : Nat} {s : Slot}
    (h : l.find? (fun s => s.addr == x) = some s) : s.addr = x := by
  have := List.find?_some h
  simpa using this

theorem GetMark_setMark_self {h : Heap} {a : Nat} (ha : (h.obj? a).isSome) :
    (h.setMark a true).GetMark a = true := by
  unfold Heap.GetMark Heap.find Heap.setMark
  unfold Heap.obj? Heap.find at ha
  simp only [find_setMark]
  cases hf : h.data_.find? (fun s => s.addr == a) with
  | none => rw [hf] at ha; simp at ha
  | some s => simp [find_addr hf]

theorem GetMark_setMark_other {h : Heap} {a x : Nat} (hx : x ≠ a) :
    (h.setMark a true).GetMark x = h.GetMark x := by
  unfold Heap.GetMark Heap.find Heap.setMark
  simp only [find_setMark]
  cases hf : h.data_.find? (fun s => s.addr == x) with
  | none => simp
  | some s =>
    have := find_addr hf
    have hne : ¬ s.addr = a := by rw [this]; exact hx
    simp [hne]

theorem forall₂_setMark_lt {l : List Slot} {a : Nat} {s : Slot}
    (hf : l.find? (fun s => s.addr == a) = some s) (hu : s.used_ = false) :
    ((l.map (fun s => if s.addr = a then { s with used_ := true } else s)).filter
        (fun s => !s.used_)).length < (l.filter (fun s => !s.used_)).length := by
  induction l with
  | nil => simp at hf
  | cons t l ih =>
    by_cases ht : t.addr = a
    · rw [List.find?_cons_of_pos _ (by simpa using ht)] at hf
      cases hf
      have := forall₂_unmarked (forall₂_setMark l a)
      simp only [List.map_cons, List.filter_cons, ht, if_true]
      simp [hu]
      omega
    · rw [List.find?_cons_of_neg _ (by simpa using ht)] at hf
      have := ih hf
      simp only [List.map_cons, List.filter_cons, ht, if_false]
      cases t.used_ <;> simp <;> omega

theorem unmarked_setMark_lt {h : Heap} {a : Nat} (ha : (h.obj? a).isSome)
    (hm : h.GetMark a = false) : (h.setMark a true).unmarked < h.unmarked := by
  unfold Heap.obj? Heap.find at ha
  unfold Heap.GetMark Heap.find at hm
  cases hf : h.data_.find? (fun s => s.addr == a) with
  | none => rw [hf] at ha; simp at ha
  | some s =>
    rw [hf] at hm
    exact forall₂_setMark_lt hf hm

/-! ### The graph does not change while marking -/

theorem MarkLE.edge {h h1 : Heap} (m : MarkLE h h1) {a b : Nat} : h1.Edge a b ↔ h.Edge a b := by
  unfold Heap.Edge
  rw [m.obj?]

theorem MarkLE.reach {h h1 : Heap} (m : MarkLE h h1) {r a : Nat} (hr : h1.Reach r a) :
    h.Reach r a := by
  induction hr with
  | refl => exact Heap.Reach.refl
  | step _ e ih => exact Heap.Reach.step ih (m.edge.mp e)

theorem Reach.head {h : Heap} {a b x : Nat} (e : h.Edge a b) (r : h.Reach b x) : h.Reach a x := by
  induction r with
  | refl => exact Heap.Reach.step Heap.Reach.refl e
  | step _ e1 ih => exact Heap.Reach.step ih e1

theorem Reach.append {h : Heap} {a b x : Nat} (r1 : h.Reach a b) (r : h.Reach b x) :
    h.Reach a x := by
  induction r with
  | refl => exact r1
  | step _ e1 ih => exact Heap.Reach.step ih e1

end Scheme
namespace Scheme

/-! ### Partial correctness of `Mark` -/

theorem Grow.same (h : Heap) (S : Nat → Prop) : Grow h h S :=
  ⟨MarkLE.refl h, fun _ hx => Or.inl hx, fun x hx hn => by rw [hx] at hn; cases hn⟩

theorem Grow.mono {h h1 : Heap} {S T : Nat → Prop} (g : Grow h h1 S) (st : ∀ x, S x → T x) :
    Grow h h1 T :=
  ⟨g.1, fun x hx => (g.2.1 x hx).imp id (st x), g.2.2⟩

theorem Grow.seq {h h1 h2 : Heap} {S : Nat → Prop} (g : Grow h h1 S) (g1 : Grow h1 h2 S) :
    Grow h h2 S := by
  refine ⟨g.1.trans g1.1, ?_, ?_⟩
  · intro x hx
    rcases g1.2.1 x hx with h1x | sx
    · exact g.2.1 x h1x
    · exact Or.inr sx
  · intro x hx hn y e
    cases h1x : h1.GetMark x with
    | true => exact g1.1.mark (g.2.2 x h1x hn y e)
    | false => exact g1.2.2 x hx h1x y (g.1.edge.mpr e)

theorem markPtr_post {mark : Heap → Nat → Except Err Heap}
    (hm : ∀ h a h1, mark h a = .ok h1 → MarkPost h a h1) {h h1 : Heap} {p : Ptr}
    (hp : markPtr mark h p = .ok h1) :
    Grow h h1 (fun x => ∃ b, p = some b ∧ h.Reach b x) ∧ ∀ b, p = some b → h1.GetMark b = true := by
  cases p with
  | none =>
    simp only [markPtr] at hp
    cases hp
    exact ⟨Grow.same _ _, fun b hb => by cases hb⟩
  | some a =>
    simp only [markPtr] at hp
    split at hp
    · cases hp
      refine ⟨Grow.same _ _, fun b hb => ?_⟩
      cases hb; assumption
    · have := hm h a h1 hp
      refine ⟨this.1.mono (fun x hx => ⟨a, rfl, hx⟩), fun b hb => ?_⟩
      cases hb; exact this.2.1

theorem markList_post {mark : Heap → Nat → Except Err Heap}
    (hm : ∀ h a h1, mark h a = .ok h1 → MarkPost h a h1) {ps : List Ptr} :
    ∀ {h h1 : Heap}, markList mark h ps = .ok h1 →
      Grow h h1 (fun x => ∃ b, some b ∈ ps ∧ h.Reach b x) ∧
        ∀ b, some b ∈ ps → h1.GetMark b = true := by
  induction ps with
  | nil =>
    intro h h1 hp
    simp only [markList] at hp
    cases hp
    exact ⟨Grow.same _ _, fun b hb => by cases hb⟩
  | cons p ps ih =>
    intro h h1 hp
    simp only [markList] at hp
    split at hp
    · rename_i h0 hp0
      have g0 := markPtr_post hm hp0
      have g1 := ih hp
      refine ⟨?_, ?_⟩
      · refine Grow.seq (g0.1.mono ?_) (g1.1.mono ?_)
        · rintro x ⟨b, rfl, hb⟩
          exact ⟨b, List.mem_cons_self _ _, hb⟩
        · rintro x ⟨b, hb, hr⟩
          exact ⟨b, List.mem_cons_of_mem _ hb, g0.1.1.reach hr⟩
      · intro b hb
        rcases List.mem_cons.mp hb with rfl | hb
        · exact g1.1.1.mark (g0.2 b rfl)
        · exact g1.2 b hb
    · cases hp

theorem markUpper_post {mark : Heap → Nat → Except Err Heap}
    (hm : ∀ h a h1, mark h a = .ok h1 → MarkPost h a h1) {h h1 : Heap} {p : Ptr}
    (hp : markUpper mark h p = .ok h1) :
    Grow h h1 (fun x => ∃ b, p = some b ∧ h.Reach b x) ∧ ∀ b, p = some b → h1.GetMark b = true := by
  cases p with
  | none =>
    simp only [markUpper] at hp
    cases hp
    exact ⟨Grow.same _ _, fun b hb => by cases hb⟩
  | some a =>
    simp only [markUpper] at hp
    have := hm h a h1 hp
    refine ⟨this.1.mono (fun x hx => ⟨a, rfl, hx⟩), fun b hb => ?_⟩
    cases hb; exact this.2.1

/-- Assemble the post-condition of a call from what the marking of the successors gives. -/
theorem MarkPost.assemble {h h1 : Heap} {a : Nat} {o : Object} (ho : h.obj? a = some o)
    (g : Grow (h.setMark a true) h1 (fun x => ∃ b, some b ∈ o.pointers ∧ h.Reach b x))
    (hs : ∀ b, some b ∈ o.pointers → h1.GetMark b = true) : MarkPost h a h1 := by
  have m0 := MarkLE.setMark h a
  have ha0 : (h.setMark a true).GetMark a = true := GetMark_setMark_self (by simp [ho])
  have hsucc : ∀ y, h.Edge a y → h1.GetMark y = true := by
    rintro y ⟨o1, ho1, hy⟩
    rw [ho] at ho1
    cases ho1
    exact hs y hy
  refine ⟨⟨m0.trans g.1, ?_, ?_⟩, g.1.mark ha0, hsucc⟩
  · intro x hx
    rcases g.2.1 x hx with h0x | ⟨b, hb, hr⟩
    · by_cases hxa : x = a
      · right; rw [hxa]; exact Heap.Reach.refl
      · left; rwa [GetMark_setMark_other hxa] at h0x
    · right
      exact Reach.head ⟨o, ho, hb⟩ hr
  · intro x hx hn y e
    by_cases hxa : x = a
    · rw [hxa] at e; exact hsucc y e
    · exact g.2.2 x hx (by rwa [GetMark_setMark_other hxa]) y (m0.edge.mpr e)

theorem Mark_post : ∀ (fuel : Nat) (h : Heap) (a : Nat) (h1 : Heap),
    Mark fuel h a = .ok h1 → MarkPost h a h1 := by
  intro fuel
  induction fuel with
  | zero => intro h a h1 hp; simp [Mark] at hp
  | succ fuel ih =>
    intro h a h1 hp
    rw [Mark] at hp
    cases ho : h.obj? a with
    | none => rw [ho] at hp; simp at hp
    | some o =>
      rw [ho] at hp
      have m0 := MarkLE.setMark h a
      cases o with
      | Cell first_ second_ =>
        simp only at hp
        split at hp
        · rename_i h2 hp1
          have g1 := markPtr_post ih hp1
          have g2 := markPtr_post ih hp
          refine MarkPost.assemble ho (Grow.seq (g1.1.mono ?_) (g2.1.mono ?_)) ?_
          · rintro x ⟨b, rfl, hb⟩
            exact ⟨b, by simp [Object.pointers], m0.reach hb⟩
          · rintro x ⟨b, rfl, hb⟩
            exact ⟨b, by simp [Object.pointers], m0.reach (g1.1.1.reach hb)⟩
          · intro b hb
            simp only [Object.pointers, List.mem_cons, List.mem_singleton] at hb
            rcases hb with hb | hb | hb
            · exact g2.1.1.mark (g1.2 b hb.symm)
            · exact g2.2 b hb.symm
            · cases hb
        · cases hp
      | NameSpace data_ upper_ =>
        simp only at hp
        split at hp
        · rename_i h2 hp1
          have g1 := markUpper_post ih hp1
          have g2 := markList_post ih hp
          refine MarkPost.assemble ho (Grow.seq (g1.1.mono ?_) (g2.1.mono ?_)) ?_
          · rintro x ⟨b, rfl, hb⟩
            exact ⟨b, by simp [Object.pointers], m0.reach hb⟩
          · rintro x ⟨b, hb, hr⟩
            exact ⟨b, by simp only [Object.pointers]; exact List.mem_cons_of_mem _ hb,
              m0.reach (g1.1.1.reach hr)⟩
          · intro b hb
            simp only [Object.pointers] at hb
            rcases List.mem_cons.mp hb with hb | hb
            · exact g2.1.1.mark (g1.2 b hb.symm)
            · exact g2.2 b hb
        · cases hp
      | Lambda arg_names_ body_ scope_ =>
        simp only at hp
        split at hp
        · rename_i h2 hp1
          split at hp
          · rename_i h3 hp2
            have g1 := markList_post ih hp1
            have g2 := markList_post ih hp2
            have g3 := markPtr_post ih hp
            refine MarkPost.assemble ho
              (Grow.seq (g1.1.mono ?_) (Grow.seq (g2.1.mono ?_) (g3.1.mono ?_))) ?_
            · rintro x ⟨b, hb, hr⟩
              exact ⟨b, by simp [Object.pointers, hb], m0.reach hr⟩
            · rintro x ⟨b, hb, hr⟩
              exact ⟨b, by simp [Object.pointers, hb], m0.reach (g1.1.1.reach hr)⟩
            · rintro x ⟨b, rfl, hr⟩
              exact ⟨b, by simp [Object.pointers], m0.reach (g1.1.1.reach (g2.1.1.reach hr))⟩
            · intro b hb
              simp only [Object.pointers, List.mem_append, List.mem_singleton] at hb
              rcases hb with hb | hb | hb
              · exact g3.1.1.mark (g2.1.1.mark (g1.2 b hb))
              · exact g3.1.1.mark (g2.2 b hb)
              · exact g3.2 b hb.symm
          · cases hp
        · cases hp
      | Number v =>
        simp only at hp
        cases hp
        exact MarkPost.assemble ho (Grow.same _ _) (fun b hb => by simp [Object.pointers] at hb)
      | Boolean v =>
        simp only at hp
        cases hp
        exact MarkPost.assemble ho (Grow.same _ _) (fun b hb => by simp [Object.pointers] at hb)
      | Symbol v =>
        simp only at hp
        cases hp
        exact MarkPost.assemble ho (Grow.same _ _) (fun b hb => by simp [Object.pointers] at hb)
      | Functor v =>
        simp only at hp
        cases hp
        exact MarkPost.assemble ho (Grow.same _ _) (fun b hb => by simp [Object.pointers] at hb)

end Scheme
namespace Scheme

/-! ### Termination of `Mark` -/

theorem budget_mono {h h1 : Heap} {R fuel : Nat} (m : MarkLE h h1)
    (hb : (R + 2) * h.unmarked < fuel) : (R + 2) * h1.unmarked < fuel :=
  lt_of_le_of_lt (Nat.mul_le_mul_left _ m.unmarked) hb

theorem markPtr_term {G : Nat → Option Object} {rank : Nat → Nat} {R fuel : Nat}
    {mark : Heap → Nat → Except Err Heap}
    (hrec : ∀ h a, (∀ x, h.obj? x = G x) → (G a).isSome →
      (R + 2) * h.unmarked + (if h.GetMark a = true then rank a + 1 else 0) < fuel →
      ∃ h1, mark h a = .ok h1)
    (h : Heap) (p : Ptr) (hG : ∀ x, h.obj? x = G x) (hp : ∀ b, p = some b → (G b).isSome)
    (hb : (R + 2) * h.unmarked < fuel) : ∃ h1, markPtr mark h p = .ok h1 := by
  cases p with
  | none => exact ⟨h, rfl⟩
  | some a =>
    simp only [markPtr]
    split
    · exact ⟨h, rfl⟩
    · rename_i hm
      refine hrec h a hG (hp a rfl) ?_
      simp only [hm]
      simpa using hb

theorem markList_term {G : Nat → Option Object} {rank : Nat → Nat} {R fuel : Nat}
    {mark : Heap → Nat → Except Err Heap}
    (hrec : ∀ h a, (∀ x, h.obj? x = G x) → (G a).isSome →
      (R + 2) * h.unmarked + (if h.GetMark a = true then rank a + 1 else 0) < fuel →
      ∃ h1, mark h a = .ok h1)
    (hpost : ∀ h a h1, mark h a = .ok h1 → MarkPost h a h1) (ps : List Ptr) :
    ∀ (h : Heap), (∀ x, h.obj? x = G x) → (∀ b, some b ∈ ps → (G b).isSome) →
      (R + 2) * h.unmarked < fuel → ∃ h1, markList mark h ps = .ok h1 := by
  induction ps with
  | nil => intro h _ _ _; exact ⟨h, rfl⟩
  | cons p ps ih =>
    intro h hG hp hb
    obtain ⟨h1, e1⟩ := markPtr_term hrec h p hG (fun b hb => hp b (by simp [hb])) hb
    have m := (markPtr_post hpost e1).1.1
    obtain ⟨h2, e2⟩ := ih h1 (fun x => (m.obj? x).trans (hG x))
      (fun b hb => hp b (List.mem_cons_of_mem _ hb)) (budget_mono m hb)
    exact ⟨h2, by simp only [markList, e1, e2]⟩

theorem Mark_terminates (G : Nat → Option Object) (rank : Nat → Nat) (R : Nat)
    (hclosed : ∀ a o, G a = some o → ∀ b, some b ∈ o.pointers → (G b).isSome)
    (hrank : ∀ a data u, G a = some (.NameSpace data (some u)) → rank u < rank a)
    (hR : ∀ a, (G a).isSome → rank a ≤ R) :
    ∀ (fuel : Nat) (h : Heap) (a : Nat), (∀ x, h.obj? x = G x) → (G a).isSome →
      (R + 2) * h.unmarked + (if h.GetMark a = true then rank a + 1 else 0) < fuel →
      ∃ h1, Mark fuel h a = .ok h1 := by
  intro fuel
  induction fuel with
  | zero => intro h a _ _ hb; omega
  | succ fuel ih =>
    intro h a hG ha hb
    have hpost := Mark_post fuel
    have m0 := MarkLE.setMark h a
    have hG0 : ∀ x, (h.setMark a true).obj? x = G x := fun x => (m0.obj? x).trans (hG x)
    have hao : (h.obj? a).isSome := by rw [hG]; exact ha
    -- the budget left once the flag of `a` is raised
    have hb0 : (R + 2) * (h.setMark a true).unmarked < fuel := by
      have hle := Nat.mul_le_mul_left (R + 2) m0.unmarked
      cases hm : h.GetMark a with
      | true => simp only [hm, if_true] at hb; omega
      | false =>
        have hlt := unmarked_setMark_lt hao hm
        have := Nat.mul_le_mul_left (R + 2) hlt
        simp only [hm] at hb
        rw [Nat.mul_succ] at this
        simp at hb
        omega
    rw [Mark]
    cases ho : h.obj? a with
    | none => rw [ho] at hao; simp at hao
    | some o =>
      have hGo : G a = some o := by rw [← hG]; exact ho
      cases o with
      | Cell first_ second_ =>
        simp only
        obtain ⟨h1, e1⟩ := markPtr_term ih _ first_ hG0
          (fun b hb => hclosed a _ hGo b (by simp [Object.pointers, hb])) hb0
        have m1 := (markPtr_post hpost e1).1.1
        obtain ⟨h2, e2⟩ := markPtr_term ih h1 second_
          (fun x => (m1.obj? x).trans (hG0 x))
          (fun b hb => hclosed a _ hGo b (by simp [Object.pointers, hb])) (budget_mono m1 hb0)
        exact ⟨h2, by simp only [e1, e2]⟩
      | NameSpace data_ upper_ =>
        simp only
        have hup : ∃ h1, markUpper (Mark fuel) (h.setMark a true) upper_ = .ok h1 := by
          cases upper_ with
          | none => exact ⟨_, rfl⟩
          | some u =>
            have hu : (G u).isSome := hclosed a _ hGo u (by simp [Object.pointers])
            have hru := hrank a data_ u hGo
            have hRu := hR u hu
            refine ih _ u hG0 hu ?_
            have hle := Nat.mul_le_mul_left (R + 2) m0.unmarked
            cases hm : h.GetMark a with
            | true =>
              simp only [hm, if_true] at hb
              split <;> omega
            | false =>
              have hlt := unmarked_setMark_lt hao hm
              have := Nat.mul_le_mul_left (R + 2) hlt
              simp only [hm] at hb
              rw [Nat.mul_succ] at this
              simp at hb
              split <;> omega
        obtain ⟨h1, e1⟩ := hup
        have m1 := (markUpper_post hpost e1).1.1
        obtain ⟨h2, e2⟩ := markList_term ih hpost (data_.map Prod.snd) h1
          (fun x => (m1.obj? x).trans (hG0 x))
          (fun b hb => hclosed a _ hGo b (by simp only [Object.pointers]; exact List.mem_cons_of_mem _ hb))
          (budget_mono m1 hb0)
        exact ⟨h2, by simp only [e1, e2]⟩
      | Lambda arg_names_ body_ scope_ =>
        simp only
        obtain ⟨h1, e1⟩ := markList_term ih hpost arg_names_ _ hG0
          (fun b hb => hclosed a _ hGo b (by simp [Object.pointers, hb])) hb0
        have m1 := (markList_post hpost e1).1.1
        obtain ⟨h2, e2⟩ := markList_term ih hpost body_ h1
          (fun x => (m1.obj? x).trans (hG0 x))
          (fun b hb => hclosed a _ hGo b (by simp [Object.pointers, hb])) (budget_mono m1 hb0)
        have m2 := (markList_post hpost e2).1.1
        obtain ⟨h3, e3⟩ := markPtr_term ih h2 scope_
          (fun x => (m2.obj? x).trans ((m1.obj? x).trans (hG0 x)))
          (fun b hb => hclosed a _ hGo b (by simp [Object.pointers, hb]))
          (budget_mono m2 (budget_mono m1 hb0))
        exact ⟨h3, by simp only [e1, e2, e3]⟩
      | Number v => exact ⟨_, rfl⟩
      | Boolean v => exact ⟨_, rfl⟩
      | Symbol v => exact ⟨_, rfl⟩
      | Functor v => exact ⟨_, rfl⟩

end Scheme
namespace Scheme

/-! ### The sweep -/

theorem swapPop_last (pre : List Slot) (s : Slot) : swapPop (pre ++ [s]) pre.length = pre := by
  simp [swapPop]

theorem swapPop_mid (pre mid : List Slot) (s l : Slot) :
    swapPop (pre ++ s :: (mid ++ [l])) pre.length = pre ++ l :: mid := by
  have e : pre ++ s :: (mid ++ [l]) = (pre ++ s :: mid) ++ [l] := by simp
  have hl : (pre ++ s :: (mid ++ [l])).getLast? = some l := by
    rw [e, List.getLast?_concat]
  have hs : (pre ++ s :: (mid ++ [l])).set pre.length l = (pre ++ l :: mid) ++ [l] := by
    rw [List.set_append_right _ _ (le_refl _)]
    simp
  simp only [swapPop, hl, hs, List.dropLast_concat]

theorem all_used_filter {d : List Slot} (h : ∀ s ∈ d, s.used_ = true) :
    d.filter (fun s => s.used_) = d :=
  List.filter_eq_self.mpr h

theorem sweep_perm : ∀ (fuel i : Nat) (d : List Slot), d.length ≤ fuel + i →
    (∀ s ∈ d.take i, s.used_ = true) → (sweep fuel i d).Perm (d.filter (fun s => s.used_)) := by
  intro fuel
  induction fuel with
  | zero =>
    intro i d hlen htake
    rw [List.take_of_length_le (by omega)] at htake
    rw [sweep, all_used_filter htake]
  | succ fuel ih =>
    intro i d hlen htake
    rw [sweep]
    cases hg : d.get? i with
    | none =>
      have : d.length ≤ i := List.get?_eq_none.mp hg
      rw [List.take_of_length_le this] at htake
      simp only [all_used_filter htake]
      exact List.Perm.refl _
    | some s =>
      have hi : i < d.length := by
        by_contra hcon
        rw [List.get?_eq_none.mpr (by omega)] at hg
        cases hg
      have hsplit : d = d.take i ++ s :: d.drop (i + 1) := by
        have := List.get?_eq_some.mp hg
        obtain ⟨hlt, hget⟩ := this
        rw [← hget]
        simp
      have hpre : (d.take i).length = i := by simp; omega
      cases hu : s.used_ with
      | true =>
        simp only [hu, if_true]
        refine ih (i + 1) d (by omega) ?_
        intro t ht
        have hg2 : d[i]? = some s := by rw [← List.get?_eq_getElem?]; exact hg
        rw [List.take_succ, hg2] at ht
        simp only [Option.toList, List.mem_append, List.mem_singleton] at ht
        rcases ht with ht | ht
        · exact htake t ht
        · rw [ht]; exact hu
      | false =>
        simp only [hu, Bool.false_eq_true, if_false]
        rcases List.eq_nil_or_concat (d.drop (i + 1)) with hnil | ⟨mid, l, hcat⟩
        · have hd : d = d.take i ++ [s] := by rw [hnil] at hsplit; exact hsplit
          have hsp : swapPop d i = d.take i := by
            conv_lhs => rw [hd]
            conv_lhs => arg 2; rw [← hpre]
            exact swapPop_last _ _
          rw [hsp]
          have hfil : d.filter (fun s => s.used_) = d.take i := by
            conv_lhs => rw [hd]
            rw [List.filter_append, all_used_filter htake]
            simp [hu]
          rw [hfil]
          refine (ih i (d.take i) (by simp) ?_).trans ?_
          · intro t ht
            exact htake t (List.mem_of_mem_take ht)
          · rw [all_used_filter htake]
        · have hd : d = d.take i ++ s :: (mid ++ [l]) := by
            rw [hcat, List.concat_eq_append] at hsplit; exact hsplit
          have hsp : swapPop d i = d.take i ++ l :: mid := by
            conv_lhs => rw [hd]
            conv_lhs => arg 2; rw [← hpre]
            exact swapPop_mid _ _ _ _
          rw [hsp]
          have hlen2 : d.length = i + (mid.length + 2) := by
            have := congrArg List.length hd
            simp only [List.length_append, List.length_cons, List.length_singleton, hpre,
              List.length_nil] at this
            omega
          refine (ih i (d.take i ++ l :: mid) ?_ ?_).trans ?_
          · simp only [List.length_append, List.length_cons, hpre]; omega
          · intro t ht
            rw [List.take_left' hpre] at ht
            exact htake t ht
          · have e1 : d.filter (fun s => s.used_) =
                (d.take i).filter (fun s => s.used_) ++ (mid ++ [l]).filter (fun s => s.used_) := by
              conv_lhs => rw [hd]
              rw [List.filter_append, List.filter_cons_of_neg (by simp [hu])]
            rw [e1, List.filter_append]
            refine List.Perm.append_left _ ?_
            have : (l :: mid).Perm (mid ++ [l]) := (List.perm_append_singleton l mid).symm
            exact this.filter _

end Scheme
namespace Scheme

/-! ### `RemoveTrash` keeps exactly the reachable objects -/

theorem find_mem {l : List Slot} {a : Nat} {s : Slot}
    (h : l.find? (fun s => s.addr == a) = some s) : s ∈ l :=
  List.mem_of_find?_eq_some h

theorem find_iff_of_nodup {l : List Slot} (hn : (l.map Slot.addr).Nodup) (a : Nat) (s : Slot) :
    l.find? (fun s => s.addr == a) = some s ↔ s ∈ l ∧ s.addr = a := by
  constructor
  · intro h
    exact ⟨find_mem h, find_addr h⟩
  · rintro ⟨hs, ha⟩
    induction l with
    | nil => cases hs
    | cons t l ih =>
      rw [List.map_cons, List.nodup_cons] at hn
      by_cases hta : t.addr = a
      · rw [List.find?_cons_of_pos _ (by simpa using hta)]
        rcases List.mem_cons.mp hs with rfl | hsl
        · rfl
        · exfalso
          apply hn.1
          rw [hta, ← ha]
          exact List.mem_map_of_mem _ hsl
      · rw [List.find?_cons_of_neg _ (by simpa using hta)]
        rcases List.mem_cons.mp hs with rfl | hsl
        · exact absurd ha hta
        · exact ih hn.2 hsl

theorem find_of_perm_filter {d d1 : List Slot} (hn : (d.map Slot.addr).Nodup)
    (hp : d1.Perm (d.filter (fun s => s.used_))) (a : Nat) :
    d1.find? (fun s => s.addr == a) =
      match d.find? (fun s => s.addr == a) with
      | some s => if s.used_ = true then some s else none
      | none => none := by
  have hn1 : (d1.map Slot.addr).Nodup := by
    have hsub : ((d.filter (fun s => s.used_)).map Slot.addr).Nodup :=
      hn.sublist ((List.filter_sublist d).map _)
    exact ((hp.map Slot.addr).nodup_iff).mpr hsub
  have hmem : ∀ t, t ∈ d1 ↔ t ∈ d ∧ t.used_ = true := by
    intro t
    rw [hp.mem_iff, List.mem_filter]
  cases hf : d.find? (fun s => s.addr == a) with
  | none =>
    simp only
    rw [List.find?_eq_none] at hf ⊢
    intro t ht
    exact hf t ((hmem t).mp ht).1
  | some s =>
    simp only
    split
    · rename_i hu
      rw [find_iff_of_nodup hn1]
      exact ⟨(hmem s).mpr ⟨find_mem hf, hu⟩, find_addr hf⟩
    · rename_i hu
      rw [List.find?_eq_none]
      intro t ht hta
      have ht2 := (hmem t).mp ht
      have : d.find? (fun s => s.addr == a) = some t :=
        (find_iff_of_nodup hn a t).mpr ⟨ht2.1, by simpa using hta⟩
      rw [hf] at this
      cases this
      exact hu ht2.2

theorem forall₂_addr {l l1 : List Slot} (hl : List.Forall₂ SlotLE l l1) :
    l1.map Slot.addr = l.map Slot.addr := by
  induction hl with
  | nil => rfl
  | cons hs _ ih => rw [List.map_cons, List.map_cons, ih, hs.1]

theorem forall₂_unmarkAll (l : List Slot) :
    List.Forall₂ SlotLE (l.map (fun s => { s with used_ := false })) l := by
  induction l with
  | nil => exact List.Forall₂.nil
  | cons s l ih =>
    refine List.Forall₂.cons ⟨rfl, rfl, ?_⟩ ih
    intro hu
    cases hu

theorem GetMark_unmarkAll (l : List Slot) (n a : Nat) :
    Heap.GetMark { data_ := l.map (fun s => { s with used_ := false }), next := n } a = false := by
  unfold Heap.GetMark Heap.find
  cases hf : (l.map (fun s : Slot => { s with used_ := false })).find? (fun s => s.addr == a) with
  | none => rfl
  | some s =>
    have := find_mem hf
    obtain ⟨t, _, rfl⟩ := List.mem_map.mp this
    rfl

theorem obj?_some_mem {h : Heap} {a : Nat} {o : Object} (ho : h.obj? a = some o) :
    ∃ s ∈ h.data_, s.addr = a ∧ s.obj = o := by
  unfold Heap.obj? Heap.find at ho
  cases hf : h.data_.find? (fun s => s.addr == a) with
  | none => rw [hf] at ho; cases ho
  | some s =>
    rw [hf] at ho
    exact ⟨s, find_mem hf, find_addr hf, by simpa using ho⟩

theorem rank_le_sum (rank : Nat → Nat) (l : List Slot) {s : Slot} (hs : s ∈ l) :
    rank s.addr ≤ (l.map (fun s => rank s.addr)).sum := by
  induction l with
  | nil => cases hs
  | cons t l ih =>
    rw [List.map_cons, List.sum_cons]
    rcases List.mem_cons.mp hs with rfl | hsl
    · omega
    · have := ih hsl
      omega

theorem MarkLE.reach_of {h h1 : Heap} (m : MarkLE h h1) {r a : Nat} (hr : h.Reach r a) :
    h1.Reach r a := by
  induction hr with
  | refl => exact Heap.Reach.refl
  | step _ e ih => exact Heap.Reach.step ih (m.edge.mpr e)

theorem Closed.isSome {h : Heap} (hc : h.Closed) {a : Nat} {o : Object}
    (ho : h.obj? a = some o) {b : Nat} (hb : some b ∈ o.pointers) : (h.obj? b).isSome = true := by
  obtain ⟨s, hs, _, rfl⟩ := obj?_some_mem ho
  have := hc s hs (some b) hb
  simpa using this

theorem upperRanked.lt {rank : Nat → Nat} {h : Heap} (hr : h.upperRanked rank = true) {a : Nat}
    {data : List (String × Ptr)} {u : Nat} (ho : h.obj? a = some (.NameSpace data (some u))) :
    rank u < rank a := by
  obtain ⟨s, hs, ha, hso⟩ := obj?_some_mem ho
  unfold Heap.upperRanked at hr
  rw [List.all_eq_true] at hr
  have := hr s hs
  rw [hso] at this
  simp only [decide_eq_true_eq] at this
  rwa [ha] at this

/-- **C1.** On a heap with distinct addresses, no dangling pointer and acyclic parent links
(`rank` decreases along `upper_`), `RemoveTrash(root)` returns for every sufficient fuel, and
the heap it leaves holds exactly the objects reachable from `root`: each reachable object is
kept with unchanged data members, each unreachable one is gone.  In particular a value bound
in the root environment is kept. -/
theorem RemoveTrash_keeps_exactly_reachable (h : Heap) (root : Nat) (rank : Nat → Nat)
    (hd : h.Distinct) (hc : h.Closed) (hr : h.upperRanked rank = true)
    (hroot : (h.obj? root).isSome = true) :
    ∃ F, ∀ fuel, F ≤ fuel → ∃ h1, h.RemoveTrash fuel root = .ok h1 ∧
      (∀ a, h.Reach root a → h1.obj? a = h.obj? a) ∧
      (∀ a, ¬ h.Reach root a → h1.obj? a = none) ∧
      (∀ data up name v, h.obj? root = some (.NameSpace data up) → (name, some v) ∈ data →
        h1.obj? v = h.obj? v) := by
  let R := (h.data_.map (fun s => rank s.addr)).sum
  let h0 : Heap := { h with data_ := h.data_.map (fun s => { s with used_ := false }) }
  have m0 : MarkLE h0 h := ⟨rfl, forall₂_unmarkAll _⟩
  have hG0 : ∀ x, h0.obj? x = h.obj? x := fun x => (m0.obj? x).symm
  have hmark0 : ∀ x, h0.GetMark x = false := fun x => GetMark_unmarkAll _ _ _
  refine ⟨(R + 2) * h0.unmarked + 1, fun fuel hfuel => ?_⟩
  obtain ⟨h1, e1⟩ := Mark_terminates h.obj? rank R
    (fun a o ho b hb => Closed.isSome hc ho hb)
    (fun a data u ho => upperRanked.lt hr ho)
    (fun a ha => by
      cases ho : h.obj? a with
      | none => rw [ho] at ha; cases ha
      | some o =>
        obtain ⟨s, hs, hsa, _⟩ := obj?_some_mem ho
        rw [← hsa]
        exact rank_le_sum rank _ hs)
    fuel h0 root hG0 hroot (by rw [hmark0]; simp; omega)
  have post := Mark_post fuel h0 root h1 e1
  have m1 : MarkLE h0 h1 := post.1.1
  have hmarked : ∀ a, h1.GetMark a = true ↔ h.Reach root a := by
    intro a
    constructor
    · intro ha
      rcases post.1.2.1 a ha with h0a | hr0
      · rw [hmark0] at h0a; cases h0a
      · exact m0.reach_of hr0
    · intro hra
      induction hra with
      | refl => exact post.2.1
      | @step x y _ e ih => exact post.1.2.2 x ih (hmark0 x) y (m0.edge.mp e)
  have hn1 : (h1.data_.map Slot.addr).Nodup := by
    rw [forall₂_addr m1.2, ← forall₂_addr m0.2]
    exact hd
  have hsweep := sweep_perm h1.data_.length 0 h1.data_ (by omega) (by simp)
  have hfind := find_of_perm_filter hn1 hsweep
  have hres : ∀ a, Heap.obj? { h1 with data_ := sweep h1.data_.length 0 h1.data_ } a =
      if h1.GetMark a = true then h.obj? a else none := by
    intro a
    have e := hfind a
    have e2 : h.obj? a = h1.obj? a := by rw [m1.obj?, hG0]
    rw [e2]
    unfold Heap.obj? Heap.find Heap.GetMark Heap.find
    simp only
    rw [e]
    cases h1.data_.find? (fun s => s.addr == a) with
    | none => simp
    | some s => cases hu : s.used_ <;> simp [hu]
  have hkeep : ∀ a, h.Reach root a →
      Heap.obj? { h1 with data_ := sweep h1.data_.length 0 h1.data_ } a = h.obj? a := by
    intro a hra
    rw [hres, if_pos ((hmarked a).mpr hra)]
  refine ⟨{ h1 with data_ := sweep h1.data_.length 0 h1.data_ }, ?_, hkeep, ?_, ?_⟩
  · show (match Mark fuel h0 root with
        | .ok h1 => Except.ok { h1 with data_ := sweep h1.data_.length 0 h1.data_ }
        | .error e => .error e) = _
    rw [e1]
  · intro a hra
    rw [hres, if_neg (fun hm => hra ((hmarked a).mp hm))]
  · intro data up name v hro hv
    refine hkeep v (Heap.Reach.step Heap.Reach.refl ⟨_, hro, ?_⟩)
    simp only [Object.pointers]
    exact List.mem_cons_of_mem _ (List.mem_map.mpr ⟨(name, some v), hv, rfl⟩)

end Scheme
namespace Scheme

/-- Witness for C1: the theorem at `cyclicHeap`, rooted at the global frame. -/
theorem RemoveTrash_keeps_exactly_reachable_witness :
    ∃ F, ∀ fuel, F ≤ fuel → ∃ h1, cyclicHeap.RemoveTrash fuel 0 = .ok h1 ∧
      (∀ a, cyclicHeap.Reach 0 a → h1.obj? a = cyclicHeap.obj? a) ∧
      (∀ a, ¬ cyclicHeap.Reach 0 a → h1.obj? a = none) ∧
      (∀ data up name v, cyclicHeap.obj? 0 = some (.NameSpace data up) →
        (name, some v) ∈ data → h1.obj? v = cyclicHeap.obj? v) :=
  RemoveTrash_keeps_exactly_reachable cyclicHeap 0 id (by decide) (by decide) (by decide)
    (by decide)

end Scheme
namespace Scheme

/-! ## Allocation and in-place writes -/

theorem find_none_of_fresh {h : Heap} (hf : h.Fresh) {a : Nat} (ha : h.next ≤ a) :
    h.find a = none := by
  unfold Heap.find
  rw [List.find?_eq_none]
  intro s hs
  have := hf s hs
  simp only [beq_iff_eq]
  omega

theorem find_Make_old (h : Heap) (o : Object) {a : Nat} (ha : a ≠ h.next) :
    (h.Make o).1.find a = h.find a := by
  unfold Heap.find Heap.Make
  simp only [List.find?_append]
  rw [List.find?_cons_of_neg _ (by simpa using ha.symm)]
  simp

theorem find_Make_new {h : Heap} (hf : h.Fresh) (o : Object) :
    (h.Make o).1.find h.next = some { addr := h.next, used_ := false, obj := o } := by
  have hn := find_none_of_fresh hf (le_refl h.next)
  unfold Heap.find at hn
  unfold Heap.find Heap.Make
  simp only [List.find?_append, hn]
  simp

theorem obj?_Make_old (h : Heap) (o : Object) {a : Nat} (ha : a ≠ h.next) :
    (h.Make o).1.obj? a = h.obj? a := by
  unfold Heap.obj?
  rw [find_Make_old h o ha]

theorem obj?_Make_new {h : Heap} (hf : h.Fresh) (o : Object) :
    (h.Make o).1.obj? h.next = some o := by
  unfold Heap.obj?
  rw [find_Make_new hf]
  rfl

theorem Fresh_Make {h : Heap} (hf : h.Fresh) (o : Object) : (h.Make o).1.Fresh := by
  intro s hs
  simp only [Heap.Make, List.mem_append, List.mem_singleton] at hs ⊢
  rcases hs with hs | rfl
  · have := hf s hs
    omega
  · simp

theorem addr_update (s : Slot) (a : Nat) (o : Object) :
    (if s.addr = a then { s with obj := o } else s).addr = s.addr := by
  split <;> rfl

theorem find_update (l : List Slot) (a x : Nat) (o : Object) :
    (l.map (fun s => if s.addr = a then { s with obj := o } else s)).find?
        (fun s => s.addr == x) =
      (l.find? (fun s => s.addr == x)).map
        (fun s => if s.addr = a then { s with obj := o } else s) := by
  induction l with
  | nil => rfl
  | cons s l ih =>
    by_cases hs : s.addr = x
    · rw [List.map_cons, List.find?_cons_of_pos, List.find?_cons_of_pos]
      · rfl
      · simpa using hs
      · rw [addr_update]; simpa using hs
    · rw [List.map_cons, List.find?_cons_of_neg, List.find?_cons_of_neg, ih]
      · simpa using hs
      · rw [addr_update]; simpa using hs

theorem obj?_update_other (h : Heap) (o : Object) {a x : Nat} (hx : x ≠ a) :
    (h.update a o).obj? x = h.obj? x := by
  unfold Heap.obj? Heap.find Heap.update
  simp only [find_update]
  cases hf : h.data_.find? (fun s => s.addr == x) with
  | none => rfl
  | some s =>
    have hne : ¬ s.addr = a := by rw [find_addr hf]; exact hx
    simp [hne]

theorem obj?_update_self {h : Heap} (o : Object) {a : Nat} (ha : (h.obj? a).isSome = true) :
    (h.update a o).obj? a = some o := by
  unfold Heap.obj? Heap.find Heap.update at *
  simp only [find_update]
  cases hf : h.data_.find? (fun s => s.addr == a) with
  | none => rw [hf] at ha; cases ha
  | some s => simp [find_addr hf]

theorem Fresh_update {h : Heap} (hf : h.Fresh) (a : Nat) (o : Object) : (h.update a o).Fresh := by
  intro s hs
  simp only [Heap.update, List.mem_map] at hs
  obtain ⟨t, ht, rfl⟩ := hs
  rw [addr_update]
  exact hf t ht

/-! ## Heap extension -/

theorem Ext.self {h : Heap} (hf : h.Fresh) : Ext h h := ⟨le_refl _, hf, fun _ _ => rfl⟩

theorem Ext.andThen {h h1 h2 : Heap} (e : Ext h h1) (e1 : Ext h1 h2) : Ext h h2 :=
  ⟨le_trans e.1 e1.1, e1.2.1, fun a ha => (e1.2.2 a (by have := e.1; omega)).trans (e.2.2 a ha)⟩

theorem Ext.alloc {h : Heap} (hf : h.Fresh) (o : Object) : Ext h (h.Make o).1 :=
  ⟨by simp [Heap.Make], Fresh_Make hf o, fun a ha => obj?_Make_old h o (by omega)⟩

theorem Ext.write {h h1 : Heap} (e : Ext h h1) {a : Nat} (ha : h.next ≤ a) (o : Object) :
    Ext h (h1.update a o) :=
  ⟨e.1, Fresh_update e.2.1 a o,
    fun x hx => (obj?_update_other h1 o (by omega)).trans (e.2.2 x hx)⟩

theorem Ext.alive {h h1 : Heap} (e : Ext h h1) {a : Nat} (ha : (h.obj? a).isSome = true)
    (hf : h.Fresh) : (h1.obj? a).isSome = true := by
  have hlt : a < h.next := by
    by_contra hcon
    have := find_none_of_fresh hf (not_lt.mp hcon)
    unfold Heap.obj? at ha
    rw [this] at ha
    cases ha
  rw [e.2.2 a hlt]
  exact ha

theorem obj?_lt_next {h : Heap} (hf : h.Fresh) {a : Nat} {o : Object} (ho : h.obj? a = some o) :
    a < h.next := by
  by_contra hcon
  have := find_none_of_fresh hf (not_lt.mp hcon)
  unfold Heap.obj? at ho
  rw [this] at ho
  cases ho

end Scheme
namespace Scheme

/-! ## `Copy` only allocates -/

theorem CopyPost.null {h : Heap} (hf : h.Fresh) : CopyPost h none h none :=
  And.intro (Ext.self hf)
    (And.intro (fun b hb => by cases hb) (And.intro (fun _ => rfl) (fun _ => rfl)))

theorem CopyPost.fresh {h h1 : Heap} {a b : Nat} (e : Ext h h1) (hb : h.next ≤ b)
    (hs : (h1.obj? b).isSome = true) : CopyPost h (some a) h1 (some b) := by
  refine And.intro e (And.intro ?_ (And.intro (fun hp => by cases hp) (fun hq => by cases hq)))
  intro c hc
  cases hc
  exact And.intro hb hs

theorem CopyPost.make {h : Heap} (hf : h.Fresh) (o : Object) (a : Nat) :
    CopyPost h (some a) (h.Make o).1 (some (h.Make o).2) := by
  refine CopyPost.fresh (Ext.alloc hf o) (le_refl _) ?_
  show ((h.Make o).1.obj? h.next).isSome = true
  rw [obj?_Make_new hf]
  rfl

theorem NameSpace.Set_eq {h h2 : Heap} {res : Nat} {key : String} {q : Ptr}
    (hs : NameSpace.Set h (some res) key q = .ok h2) :
    ∃ data up, h.obj? res = some (.NameSpace data up) ∧
      h2 = h.update res (.NameSpace (mapSet data key q) up) := by
  unfold NameSpace.Set at hs
  simp only at hs
  split at hs
  · rename_i data up ho
    cases hs
    exact ⟨data, up, ho, rfl⟩
  · cases hs

theorem CopyVector_post {copy : Heap → Ptr → Except Err (Heap × Ptr)}
    (hc : ∀ h p h1 q, h.Fresh → copy h p = .ok (h1, q) → CopyPost h p h1 q) (ps : List Ptr) :
    ∀ (h h1 : Heap) (qs : List Ptr), h.Fresh → CopyVector copy h ps = .ok (h1, qs) →
      Ext h h1 ∧ (∀ b, some b ∈ qs → h.next ≤ b) ∧ qs.length = ps.length := by
  induction ps with
  | nil =>
    intro h h1 qs hf hcv
    simp only [CopyVector] at hcv
    cases hcv
    exact ⟨Ext.self hf, fun b hb => by simp at hb, rfl⟩
  | cons p ps ih =>
    intro h h1 qs hf hcv
    simp only [CopyVector] at hcv
    split at hcv
    · rename_i h2 q e1
      split at hcv
      · rename_i h3 qs1 e2
        have c1 := hc h p h2 q hf e1
        have c2 := ih h2 h3 qs1 c1.1.2.1 e2
        have key : Ext h h3 ∧ (∀ b, some b ∈ q :: qs1 → h.next ≤ b) ∧
            (q :: qs1).length = (p :: ps).length := by
          refine ⟨c1.1.andThen c2.1, ?_, by simp [c2.2.2]⟩
          intro b hb
          rcases List.mem_cons.mp hb with hb | hb
          · exact (c1.2.1 b hb.symm).1
          · exact le_trans c1.1.1 (c2.2.1 b hb)
        cases hcv
        exact key
      · cases hcv
    · cases hcv

theorem copyBindings_post {copy : Heap → Ptr → Except Err (Heap × Ptr)}
    (hc : ∀ h p h1 q, h.Fresh → copy h p = .ok (h1, q) → CopyPost h p h1 q) (res : Nat)
    (hb : Heap) (hres : hb.next ≤ res) (data : List (String × Ptr)) :
    ∀ (h h1 : Heap), Ext hb h → (h.obj? res).isSome = true →
      copyBindings copy res h data = .ok h1 → Ext hb h1 ∧ (h1.obj? res).isSome = true := by
  induction data with
  | nil =>
    intro h h1 he hs hcb
    simp only [copyBindings] at hcb
    cases hcb
    exact ⟨he, hs⟩
  | cons kv data ih =>
    intro h h1 he hs hcb
    obtain ⟨key, value_⟩ := kv
    cases value_ with
    | none => simp [copyBindings] at hcb
    | some v =>
      simp only [copyBindings] at hcb
      split at hcb
      · rename_i h2 q e1
        split at hcb
        · rename_i h3 e2
          have c1 := hc h (some v) h2 q he.2.1 e1
          obtain ⟨d, up, ho, rfl⟩ := NameSpace.Set_eq e2
          refine ih _ h1 ((he.andThen c1.1).write hres _) ?_ hcb
          rw [obj?_update_self _ (by rw [ho]; rfl)]
          rfl
        · cases hcb
      · cases hcb

theorem Copy_post : ∀ (fuel : Nat) (h : Heap) (p : Ptr) (h1 : Heap) (q : Ptr), h.Fresh →
    Copy fuel h p = .ok (h1, q) → CopyPost h p h1 q := by
  intro fuel
  induction fuel with
  | zero =>
    intro h p h1 q hf hc
    cases p with
    | none =>
      simp only [Copy] at hc
      cases hc
      exact CopyPost.null hf
    | some a => simp [Copy] at hc
  | succ fuel ih =>
    intro h p h1 q hf hc
    cases p with
    | none =>
      simp only [Copy] at hc
      cases hc
      exact CopyPost.null hf
    | some a =>
      rw [Copy] at hc
      cases ho : h.obj? a with
      | none => rw [ho] at hc; simp at hc
      | some o =>
        rw [ho] at hc
        cases o with
        | Number v => simp only at hc; cases hc; exact CopyPost.make hf _ a
        | Boolean v => simp only at hc; cases hc; exact CopyPost.make hf _ a
        | Symbol v => simp only at hc; cases hc; exact CopyPost.make hf _ a
        | Functor v => simp only at hc; cases hc; exact CopyPost.make hf _ a
        | Cell first_ second_ =>
          simp only at hc
          have e0 : Ext h (h.Make (.Cell none none)).1 := Ext.alloc hf _
          have hres0 : ((h.Make (.Cell none none)).1.obj? h.next).isSome = true := by
            rw [obj?_Make_new hf]; rfl
          split at hc
          · cases hc
          · rename_i h2 f e1
            have x1 : Ext (h.Make (.Cell none none)).1 h2 := by
              split at e1
              · cases e1; exact Ext.self e0.2.1
              · exact (ih _ _ _ _ e0.2.1 e1).1
            have hres1 : (h2.obj? h.next).isSome = true := by
              rw [x1.2.2 h.next (by simp [Heap.Make])]; exact hres0
            have hres2 : ((h2.update h.next (.Cell f none)).obj? h.next).isSome = true := by
              rw [obj?_update_self _ hres1]; rfl
            have x2 : Ext h (h2.update h.next (.Cell f none)) := (e0.andThen x1).write (le_refl _) _
            split at hc
            · cases hc
            · rename_i h3 s e2
              have x3 : Ext (h2.update h.next (.Cell f none)) h3 := by
                split at e2
                · cases e2; exact Ext.self x2.2.1
                · exact (ih _ _ _ _ x2.2.1 e2).1
              have hres3 : (h3.obj? h.next).isSome = true := by
                rw [x3.2.2 h.next (by
                  show h.next < h2.next
                  have := x1.1
                  simp only [Heap.Make] at this
                  omega)]
                exact hres2
              have key : CopyPost h (some a) (h3.update h.next (.Cell f s)) (some h.next) := by
                refine CopyPost.fresh ((x2.andThen x3).write (le_refl _) _) (le_refl _) ?_
                rw [obj?_update_self _ hres3]; rfl
              cases hc
              exact key
        | NameSpace data_ upper_ =>
          simp only at hc
          have e0 : Ext h (h.Make (.NameSpace [] upper_)).1 := Ext.alloc hf _
          have hres0 : ((h.Make (.NameSpace [] upper_)).1.obj? h.next).isSome = true := by
            rw [obj?_Make_new hf]; rfl
          split at hc
          · cases hc
          · rename_i h2 e1
            have x1 := copyBindings_post ih h.next h (le_refl _) data_ _ h2 e0 hres0 e1
            have key : CopyPost h (some a) h2 (some h.next) := CopyPost.fresh x1.1 (le_refl _) x1.2
            cases hc
            exact key
        | Lambda arg_names_ body_ scope_ =>
          simp only at hc
          have e0 : Ext h (h.Make (.Lambda [] [] none)).1 := Ext.alloc hf _
          have hres0 : ((h.Make (.Lambda [] [] none)).1.obj? h.next).isSome = true := by
            rw [obj?_Make_new hf]; rfl
          split at hc
          · cases hc
          · rename_i h2 args e1
            have x1 := (CopyVector_post ih arg_names_ _ h2 args e0.2.1 e1).1
            split at hc
            · cases hc
            · rename_i h3 body e2
              have x2 := (CopyVector_post ih body_ _ h3 body x1.2.1 e2).1
              cases scope_ with
              | none => simp at hc
              | some sc =>
                simp only at hc
                split at hc
                · cases hc
                · rename_i h4 sc1 e3
                  have x3 := (ih _ _ _ _ x2.2.1 e3).1
                  have x123 := (x1.andThen x2).andThen x3
                  have hres4 : (h4.obj? h.next).isSome = true := by
                    rw [x123.2.2 h.next (by simp [Heap.Make])]; exact hres0
                  have key : CopyPost h (some a) (h4.update h.next (.Lambda args body sc1))
                      (some h.next) := by
                    refine CopyPost.fresh ((e0.andThen x123).write (le_refl _) _) (le_refl _) ?_
                    rw [obj?_update_self _ hres4]; rfl
                  cases hc
                  exact key

end Scheme
namespace Scheme

/-! ## Shapes: inversion and frame lemmas -/

theorem rep_selfref (lo : Nat) (h : Heap) (p : Ptr) : rep lo h p .selfref = false := by
  cases p <;> simp [rep]

theorem rep_null {lo : Nat} {h : Heap} {p : Ptr} (hr : rep lo h p .null = true) : p = none := by
  cases p with
  | none => rfl
  | some a => simp [rep] at hr

theorem rep_cell {lo : Nat} {h : Heap} {p : Ptr} {tf ts : Shape}
    (hr : rep lo h p (.cell tf ts) = true) :
    ∃ a f s, p = some a ∧ lo ≤ a ∧ h.obj? a = some (.Cell f s) ∧
      (if f = some a then tf.isSelf else rep lo h f tf) = true ∧
      (if s = some a then ts.isSelf else rep lo h s ts) = true := by
  cases p with
  | none => simp [rep] at hr
  | some a =>
    simp only [rep, Bool.and_eq_true, decide_eq_true_eq] at hr
    obtain ⟨hlo, hm⟩ := hr
    split at hm
    · rename_i f s ho
      simp only [Bool.and_eq_true] at hm
      exact ⟨a, f, s, rfl, hlo, ho, hm.1, hm.2⟩
    · cases hm

theorem rep_closure {lo : Nat} {h : Heap} {a : Nat} (hr : rep lo h (some a) .closure = true) :
    lo ≤ a ∧ ∃ args body sc, h.obj? a = some (.Lambda args body sc) := by
  simp only [rep, Bool.and_eq_true, decide_eq_true_eq] at hr
  obtain ⟨hlo, hm⟩ := hr
  split at hm
  · rename_i args body sc ho
    exact ⟨hlo, args, body, sc, ho⟩
  · cases hm

theorem rep_some {lo : Nat} {h : Heap} {p : Ptr} {t : Shape} (hr : rep lo h p t = true)
    (ht : t ≠ .null) : ∃ a, p = some a ∧ lo ≤ a ∧ (h.obj? a).isSome = true := by
  cases p with
  | none => cases t <;> simp [rep] at hr ht
  | some a =>
    refine ⟨a, rfl, ?_⟩
    cases t with
    | null => simp [rep] at hr
    | selfref => simp [rep] at hr
    | number v => simp only [rep, Bool.and_eq_true, decide_eq_true_eq] at hr; simp [hr.1, hr.2]
    | boolean v => simp only [rep, Bool.and_eq_true, decide_eq_true_eq] at hr; simp [hr.1, hr.2]
    | symbol v => simp only [rep, Bool.and_eq_true, decide_eq_true_eq] at hr; simp [hr.1, hr.2]
    | functor v => simp only [rep, Bool.and_eq_true, decide_eq_true_eq] at hr; simp [hr.1, hr.2]
    | closure =>
      obtain ⟨hlo, _, _, _, ho⟩ := rep_closure hr
      simp [hlo, ho]
    | cell tf ts =>
      obtain ⟨b, f, s, hb, hlo, ho, _, _⟩ := rep_cell hr
      cases hb
      simp [hlo, ho]

theorem rep_frame {lo : Nat} {h h1 : Heap}
    (hsame : ∀ a, lo ≤ a → (h.obj? a).isSome = true → h1.obj? a = h.obj? a) (t : Shape) :
    ∀ (p : Ptr), rep lo h p t = true → rep lo h1 p t = true := by
  induction t with
  | null => intro p hr; rw [rep_null hr]; simp [rep]
  | selfref => intro p hr; rw [rep_selfref] at hr; cases hr
  | number v =>
    intro p hr
    obtain ⟨a, rfl, hlo, hs⟩ := rep_some hr (by simp)
    simp only [rep, Bool.and_eq_true, decide_eq_true_eq] at hr ⊢
    exact ⟨hr.1, (hsame a hlo hs).trans hr.2⟩
  | boolean v =>
    intro p hr
    obtain ⟨a, rfl, hlo, hs⟩ := rep_some hr (by simp)
    simp only [rep, Bool.and_eq_true, decide_eq_true_eq] at hr ⊢
    exact ⟨hr.1, (hsame a hlo hs).trans hr.2⟩
  | symbol v =>
    intro p hr
    obtain ⟨a, rfl, hlo, hs⟩ := rep_some hr (by simp)
    simp only [rep, Bool.and_eq_true, decide_eq_true_eq] at hr ⊢
    exact ⟨hr.1, (hsame a hlo hs).trans hr.2⟩
  | functor v =>
    intro p hr
    obtain ⟨a, rfl, hlo, hs⟩ := rep_some hr (by simp)
    simp only [rep, Bool.and_eq_true, decide_eq_true_eq] at hr ⊢
    exact ⟨hr.1, (hsame a hlo hs).trans hr.2⟩
  | closure =>
    intro p hr
    obtain ⟨a, rfl, hlo, hs⟩ := rep_some hr (by simp)
    obtain ⟨_, args, body, sc, ho⟩ := rep_closure hr
    simp only [rep, Bool.and_eq_true, decide_eq_true_eq, (hsame a hlo hs).trans ho]
    exact ⟨hlo, trivial⟩
  | cell tf ts ihf ihs =>
    intro p hr
    obtain ⟨a, f, s, rfl, hlo, ho, hf, hs⟩ := rep_cell hr
    have ho1 : h1.obj? a = some (.Cell f s) := (hsame a hlo (by simp [ho])).trans ho
    simp only [rep, Bool.and_eq_true, decide_eq_true_eq, ho1]
    refine ⟨hlo, ?_, ?_⟩
    · split
      · rename_i hfa; simpa [hfa] using hf
      · rename_i hfa; simp only [hfa, if_false] at hf; exact ihf f hf
    · split
      · rename_i hsa; simpa [hsa] using hs
      · rename_i hsa; simp only [hsa, if_false] at hs; exact ihs s hs

theorem rep_mono {lo lo1 : Nat} {h : Heap} (hle : lo1 ≤ lo) (t : Shape) :
    ∀ (p : Ptr), rep lo h p t = true → rep lo1 h p t = true := by
  induction t with
  | null => intro p hr; rw [rep_null hr]; simp [rep]
  | selfref => intro p hr; rw [rep_selfref] at hr; cases hr
  | number v =>
    intro p hr
    obtain ⟨a, rfl, _, _⟩ := rep_some hr (by simp)
    simp only [rep, Bool.and_eq_true, decide_eq_true_eq] at hr ⊢
    exact ⟨le_trans hle hr.1, hr.2⟩
  | boolean v =>
    intro p hr
    obtain ⟨a, rfl, _, _⟩ := rep_some hr (by simp)
    simp only [rep, Bool.and_eq_true, decide_eq_true_eq] at hr ⊢
    exact ⟨le_trans hle hr.1, hr.2⟩
  | symbol v =>
    intro p hr
    obtain ⟨a, rfl, _, _⟩ := rep_some hr (by simp)
    simp only [rep, Bool.and_eq_true, decide_eq_true_eq] at hr ⊢
    exact ⟨le_trans hle hr.1, hr.2⟩
  | functor v =>
    intro p hr
    obtain ⟨a, rfl, _, _⟩ := rep_some hr (by simp)
    simp only [rep, Bool.and_eq_true, decide_eq_true_eq] at hr ⊢
    exact ⟨le_trans hle hr.1, hr.2⟩
  | closure =>
    intro p hr
    obtain ⟨a, rfl, _, _⟩ := rep_some hr (by simp)
    obtain ⟨hlo, args, body, sc, ho⟩ := rep_closure hr
    simp only [rep, Bool.and_eq_true, decide_eq_true_eq, ho]
    exact ⟨le_trans hle hlo, trivial⟩
  | cell tf ts ihf ihs =>
    intro p hr
    obtain ⟨a, f, s, rfl, hlo, ho, hf, hs⟩ := rep_cell hr
    simp only [rep, Bool.and_eq_true, decide_eq_true_eq, ho]
    refine ⟨le_trans hle hlo, ?_, ?_⟩
    · split
      · rename_i hfa; simpa [hfa] using hf
      · rename_i hfa; simp only [hfa, if_false] at hf; exact ihf f hf
    · split
      · rename_i hsa; simpa [hsa] using hs
      · rename_i hsa; simp only [hsa, if_false] at hs; exact ihs s hs

theorem rep_frame_ext {lo : Nat} {h h1 : Heap} (hf : h.Fresh) (e : Ext h h1) {t : Shape}
    {p : Ptr} (hr : rep lo h p t = true) : rep lo h1 p t = true := by
  refine rep_frame (fun a _ hs => ?_) t p hr
  cases ho : h.obj? a with
  | none => rw [ho] at hs; cases hs
  | some o => rw [← ho]; exact e.2.2 a (obj?_lt_next hf ho)

theorem rep_frame_update {lo : Nat} {h : Heap} {c : Nat} (o : Object) (hc : c < lo) {t : Shape}
    {p : Ptr} (hr : rep lo h p t = true) : rep lo (h.update c o) p t = true :=
  rep_frame (fun a hlo _ => obj?_update_other h o (by omega)) t p hr

end Scheme
namespace Scheme

/-! ## `GetString` prints the shape -/

theorem isSelf_eq {t : Shape} (h : t.isSelf = true) : t = .selfref := by
  cases t <;> simp [Shape.isSelf] at h ⊢

theorem rep_not_self {lo : Nat} {h : Heap} {p : Ptr} {t : Shape} (hr : rep lo h p t = true) :
    t.isSelf = false := by
  cases t with
  | selfref => rw [rep_selfref] at hr; cases hr
  | _ => rfl

theorem field_cases {lo : Nat} {h : Heap} {a : Nat} {f : Ptr} {tf : Shape}
    (hf : (if f = some a then tf.isSelf else rep lo h f tf) = true) :
    (f = some a ∧ tf = .selfref) ∨ (f ≠ some a ∧ rep lo h f tf = true ∧ tf.isSelf = false) := by
  by_cases hfa : f = some a
  · simp only [hfa, if_true] at hf
    exact Or.inl ⟨hfa, isSelf_eq hf⟩
  · simp only [hfa, if_false] at hf
    exact Or.inr ⟨hfa, hf, rep_not_self hf⟩

theorem size_pos (t : Shape) : 0 < t.size := by
  cases t <;> simp [Shape.size]

theorem spine_cell (tf ts : Shape) :
    (Shape.cell tf ts).spine =
      (if tf.isSelf then "\x7bselfref\x7d " else tf.render ++ " ") ++
        (match ts with
         | .null => ""
         | .selfref => ". \x7bselfref\x7d "
         | .cell _ ts2 => if ts2.isSelf then ". \x7bselfref\x7d " else ts.spine
         | _ => ". " ++ ts.render ++ " ") := by
  cases ts <;> rfl

theorem render_cell (tf ts : Shape) :
    (Shape.cell tf ts).render = setBack ("(" ++ (Shape.cell tf ts).spine) ')' := rfl

theorem GetStringLoop_render {lo : Nat} {h : Heap} (ef : Nat)
    (helem : ∀ u p, u.size ≤ ef → rep lo h p u = true → GetString ef h p = .ok u.render)
    (t : Shape) : ∀ (a : Nat) (res : String) (lf : Nat) (tf ts : Shape), t = .cell tf ts →
      rep lo h (some a) t = true → t.size ≤ lf → t.size ≤ ef + 1 →
      GetStringLoop (GetString ef h) h lf a res = .ok (setBack (res ++ t.spine) ')') := by
  induction t with
  | null => intro a res lf tf ts ht; cases ht
  | selfref => intro a res lf tf ts ht; cases ht
  | number v => intro a res lf tf ts ht; cases ht
  | boolean v => intro a res lf tf ts ht; cases ht
  | symbol v => intro a res lf tf ts ht; cases ht
  | functor v => intro a res lf tf ts ht; cases ht
  | closure => intro a res lf tf ts ht; cases ht
  | cell tf ts _ ihs =>
    intro a res lf tf' ts' ht hr hlf hef
    obtain ⟨b, f, s, hb, hlo, ho, hf, hs⟩ := rep_cell hr
    cases hb
    simp only [Shape.size] at hlf hef
    obtain ⟨lf1, rfl⟩ : ∃ n, lf = n + 1 := ⟨lf - 1, by omega⟩
    rw [GetStringLoop, ho]
    simp only
    -- the element
    have helem1 : (if f = some a then Except.ok (res ++ "\x7bselfref\x7d ")
        else (GetString ef h f).map (fun s => res ++ (s ++ " "))) =
        Except.ok (res ++ (if tf.isSelf then "\x7bselfref\x7d " else tf.render ++ " ")) := by
      rcases field_cases hf with ⟨hfa, htf⟩ | ⟨hfa, hrf, htf⟩
      · rw [if_pos hfa, htf]; rfl
      · rw [if_neg hfa, helem tf f (by omega) hrf, htf]; rfl
    rw [helem1]
    simp only
    rw [spine_cell, ← String.append_assoc]
    generalize res ++ (if tf.isSelf then "\x7bselfref\x7d " else tf.render ++ " ") = res1
    -- the tail
    rcases field_cases hs with ⟨hsa, hts⟩ | ⟨hsa, hrs, hts⟩
    · subst hsa
      subst hts
      have hc : IsCell h (some a) = true := by simp [IsCell, ho]
      have ht : isSelfTail h (some a) = true := by simp [isSelfTail, ho]
      simp [hc, ht]
    · have hsz : ts.size ≤ ef := by have := size_pos tf; omega
      cases ts with
      | selfref => rw [rep_selfref] at hrs; cases hrs
      | null =>
        have := rep_null hrs
        subst this
        simp [IsCell, String.append_empty]
      | number v =>
        obtain ⟨c, rfl, _, _⟩ := rep_some hrs (by simp)
        have hoc : h.obj? c = some (.Number v) := by
          simp only [rep, Bool.and_eq_true, decide_eq_true_eq] at hrs; exact hrs.2
        simp only [IsCell, hoc, helem _ _ hsz hrs]
        simp
      | boolean v =>
        obtain ⟨c, rfl, _, _⟩ := rep_some hrs (by simp)
        have hoc : h.obj? c = some (.Boolean v) := by
          simp only [rep, Bool.and_eq_true, decide_eq_true_eq] at hrs; exact hrs.2
        simp only [IsCell, hoc, helem _ _ hsz hrs]
        simp
      | symbol v =>
        obtain ⟨c, rfl, _, _⟩ := rep_some hrs (by simp)
        have hoc : h.obj? c = some (.Symbol v) := by
          simp only [rep, Bool.and_eq_true, decide_eq_true_eq] at hrs; exact hrs.2
        simp only [IsCell, hoc, helem _ _ hsz hrs]
        simp
      | functor v =>
        obtain ⟨c, rfl, _, _⟩ := rep_some hrs (by simp)
        have hoc : h.obj? c = some (.Functor v) := by
          simp only [rep, Bool.and_eq_true, decide_eq_true_eq] at hrs; exact hrs.2
        simp only [IsCell, hoc, helem _ _ hsz hrs]
        simp
      | closure =>
        obtain ⟨c, rfl, _, _⟩ := rep_some hrs (by simp)
        obtain ⟨_, args, body, sc, hoc⟩ := rep_closure hrs
        simp only [IsCell, hoc, helem _ _ hsz hrs]
        simp
      | cell tf2 ts2 =>
        obtain ⟨c, f2, s2, rfl, _, hoc, _, hs2⟩ := rep_cell hrs
        have hc : IsCell h (some c) = true := by simp [IsCell, hoc]
        rcases field_cases hs2 with ⟨hsc, hts2⟩ | ⟨hsc, _, hts2⟩
        · have ht : isSelfTail h (some c) = true := by simp [isSelfTail, hoc, hsc]
          simp only [hc, ht, hts2]
          simp [Shape.isSelf]
        · have ht : isSelfTail h (some c) = false := by simp [isSelfTail, hoc, hsc]
          simp only [hc, ht, hts2]
          simp only [Bool.not_false, Bool.and_self, if_true, Bool.false_eq_true, if_false]
          simp only [Shape.size] at hlf hef
          exact ihs c res1 lf1 tf2 ts2 rfl hrs (by simp only [Shape.size]; omega)
            (by simp only [Shape.size]; omega)

end Scheme

namespace Scheme

theorem GetString_render {lo : Nat} {h : Heap} : ∀ (fuel : Nat) (t : Shape) (p : Ptr),
    t.size ≤ fuel → rep lo h p t = true → GetString fuel h p = .ok t.render := by
  intro fuel
  induction fuel with
  | zero => intro t p hsz; have := size_pos t; omega
  | succ fuel ih =>
    intro t p hsz hr
    cases t with
    | null => rw [rep_null hr]; rfl
    | selfref => rw [rep_selfref] at hr; cases hr
    | number v =>
      obtain ⟨a, rfl, _, _⟩ := rep_some hr (by simp)
      simp only [rep, Bool.and_eq_true, decide_eq_true_eq] at hr
      simp only [GetString, hr.2]
      rfl
    | boolean v =>
      obtain ⟨a, rfl, _, _⟩ := rep_some hr (by simp)
      simp only [rep, Bool.and_eq_true, decide_eq_true_eq] at hr
      simp only [GetString, hr.2]
      rfl
    | symbol v =>
      obtain ⟨a, rfl, _, _⟩ := rep_some hr (by simp)
      simp only [rep, Bool.and_eq_true, decide_eq_true_eq] at hr
      simp only [GetString, hr.2]
      rfl
    | functor v =>
      obtain ⟨a, rfl, _, _⟩ := rep_some hr (by simp)
      simp only [rep, Bool.and_eq_true, decide_eq_true_eq] at hr
      simp only [GetString, hr.2]
      rfl
    | closure =>
      obtain ⟨a, rfl, _, _⟩ := rep_some hr (by simp)
      obtain ⟨_, args, body, sc, ho⟩ := rep_closure hr
      simp only [GetString, ho]
      rfl
    | cell tf ts =>
      obtain ⟨a, f, s, rfl, _, ho, _, _⟩ := rep_cell hr
      simp only [GetString, ho]
      rw [GetStringLoop_render fuel ih (.cell tf ts) a "(" (fuel + 1) tf ts rfl hr hsz hsz]
      rfl

end Scheme
namespace Scheme

/-! ## `Copy` rebuilds the shape from new objects -/

theorem rep_ne_of_lt {lo : Nat} {h : Heap} {q : Ptr} {t : Shape} {res : Nat}
    (hr : rep lo h q t = true) (hres : res < lo) : q ≠ some res := by
  intro hq
  subst hq
  cases t with
  | null => simp [rep] at hr
  | _ =>
    obtain ⟨a, ha, hlo, _⟩ := rep_some hr (by simp)
    cases ha
    omega

theorem Make_snd (h : Heap) (o : Object) : (h.Make o).2 = h.next := rfl

theorem Copy_shape : ∀ (t : Shape) (fuel lo : Nat) (h : Heap) (p : Ptr), h.Fresh →
    t.plain = true → t.size ≤ fuel → rep lo h p t = true →
    ∃ h1 q, Copy fuel h p = .ok (h1, q) ∧ rep h.next h1 q t = true := by
  intro t
  induction t with
  | null =>
    intro fuel lo h p _ _ _ hr
    rw [rep_null hr]
    exact ⟨h, none, by cases fuel <;> rfl, by simp [rep]⟩
  | selfref => intro fuel lo h p _ _ _ hr; rw [rep_selfref] at hr; cases hr
  | closure => intro fuel lo h p _ hp; simp [Shape.plain] at hp
  | number v =>
    intro fuel lo h p hf _ hsz hr
    obtain ⟨a, rfl, _, _⟩ := rep_some hr (by simp)
    obtain ⟨f, rfl⟩ : ∃ n, fuel = n + 1 := ⟨fuel - 1, by simp [Shape.size] at hsz; omega⟩
    simp only [rep, Bool.and_eq_true, decide_eq_true_eq] at hr
    refine ⟨_, _, by simp only [Copy, hr.2]; rfl, ?_⟩
    simp [rep, Make_snd, obj?_Make_new hf]
  | boolean v =>
    intro fuel lo h p hf _ hsz hr
    obtain ⟨a, rfl, _, _⟩ := rep_some hr (by simp)
    obtain ⟨f, rfl⟩ : ∃ n, fuel = n + 1 := ⟨fuel - 1, by simp [Shape.size] at hsz; omega⟩
    simp only [rep, Bool.and_eq_true, decide_eq_true_eq] at hr
    refine ⟨_, _, by simp only [Copy, hr.2]; rfl, ?_⟩
    simp [rep, Make_snd, obj?_Make_new hf]
  | symbol v =>
    intro fuel lo h p hf _ hsz hr
    obtain ⟨a, rfl, _, _⟩ := rep_some hr (by simp)
    obtain ⟨f, rfl⟩ : ∃ n, fuel = n + 1 := ⟨fuel - 1, by simp [Shape.size] at hsz; omega⟩
    simp only [rep, Bool.and_eq_true, decide_eq_true_eq] at hr
    refine ⟨_, _, by simp only [Copy, hr.2]; rfl, ?_⟩
    simp [rep, Make_snd, obj?_Make_new hf]
  | functor v =>
    intro fuel lo h p hf _ hsz hr
    obtain ⟨a, rfl, _, _⟩ := rep_some hr (by simp)
    obtain ⟨f, rfl⟩ : ∃ n, fuel = n + 1 := ⟨fuel - 1, by simp [Shape.size] at hsz; omega⟩
    simp only [rep, Bool.and_eq_true, decide_eq_true_eq] at hr
    refine ⟨_, _, by simp only [Copy, hr.2]; rfl, ?_⟩
    simp [rep, Make_snd, obj?_Make_new hf]
  | cell tf ts ihf ihs =>
    intro fuel lo h p hf hplain hsz hr
    simp only [Shape.plain, Bool.and_eq_true] at hplain
    obtain ⟨a, fp, sp, rfl, _, ho, hfield1, hfield2⟩ := rep_cell hr
    simp only [Shape.size] at hsz
    obtain ⟨f, rfl⟩ : ∃ n, fuel = n + 1 := ⟨fuel - 1, by omega⟩
    have hfsz : tf.size ≤ f := by omega
    have hssz : ts.size ≤ f := by omega
    have e0 : Ext h (h.Make (.Cell none none)).1 := Ext.alloc hf _
    have hn0 : (h.Make (.Cell none none)).1.next = h.next + 1 := rfl
    have hres0 : ((h.Make (.Cell none none)).1.obj? h.next).isSome = true := by
      rw [obj?_Make_new hf]; rfl
    -- the first field
    have step1 : ∃ h1 f1,
        (if fp = some a then Except.ok ((h.Make (.Cell none none)).1, some h.next)
          else Copy f (h.Make (.Cell none none)).1 fp) = Except.ok (h1, f1) ∧
        Ext (h.Make (.Cell none none)).1 h1 ∧
        ((tf.isSelf = true ∧ f1 = some h.next) ∨
          (tf.isSelf = false ∧ rep (h.next + 1) h1 f1 tf = true)) := by
      rcases field_cases hfield1 with ⟨hfa, htf⟩ | ⟨hfa, hrf, htf⟩
      · exact ⟨_, _, if_pos hfa, Ext.self e0.2.1, Or.inl ⟨by rw [htf]; rfl, rfl⟩⟩
      · obtain ⟨h1, f1, ec, hr1⟩ := ihf f lo _ fp e0.2.1 hplain.1 hfsz (rep_frame_ext hf e0 hrf)
        exact ⟨h1, f1, (if_neg hfa).trans ec, (Copy_post f _ _ _ _ e0.2.1 ec).1,
          Or.inr ⟨htf, hr1⟩⟩
    obtain ⟨h1, f1, ec1, x1, hf1⟩ := step1
    have hres1 : (h1.obj? h.next).isSome = true := by
      rw [x1.2.2 h.next (by omega)]; exact hres0
    have x2 : Ext h (h1.update h.next (.Cell f1 none)) := (e0.andThen x1).write (le_refl _) _
    have hn1 : h.next + 1 ≤ h1.next := by have := x1.1; omega
    have hres2 : ((h1.update h.next (.Cell f1 none)).obj? h.next).isSome = true := by
      rw [obj?_update_self _ hres1]; rfl
    -- the second field
    have step2 : ∃ h3 s1,
        (if sp = some a then Except.ok (h1.update h.next (.Cell f1 none), some h.next)
          else Copy f (h1.update h.next (.Cell f1 none)) sp) = Except.ok (h3, s1) ∧
        Ext (h1.update h.next (.Cell f1 none)) h3 ∧
        ((ts.isSelf = true ∧ s1 = some h.next) ∨
          (ts.isSelf = false ∧ rep (h.next + 1) h3 s1 ts = true)) := by
      rcases field_cases hfield2 with ⟨hsa, hts⟩ | ⟨hsa, hrs, hts⟩
      · exact ⟨_, _, if_pos hsa, Ext.self x2.2.1, Or.inl ⟨by rw [hts]; rfl, rfl⟩⟩
      · obtain ⟨h3, s1, ec, hr3⟩ := ihs f lo _ sp x2.2.1 hplain.2 hssz (rep_frame_ext hf x2 hrs)
        refine ⟨h3, s1, (if_neg hsa).trans ec, (Copy_post f _ _ _ _ x2.2.1 ec).1,
          Or.inr ⟨hts, rep_mono ?_ ts s1 hr3⟩⟩
        exact hn1
    obtain ⟨h3, s1, ec2, x3, hs1⟩ := step2
    have hres3 : (h3.obj? h.next).isSome = true := by
      rw [x3.2.2 h.next (by show h.next < h1.next; omega)]; exact hres2
    refine ⟨h3.update h.next (.Cell f1 s1), some h.next, ?_, ?_⟩
    · rw [Copy, ho]
      simp only [Make_snd]
      rw [ec1]
      simp only
      rw [ec2]
    · have hobj : (h3.update h.next (.Cell f1 s1)).obj? h.next = some (.Cell f1 s1) :=
        obj?_update_self _ hres3
      simp only [rep, Bool.and_eq_true, decide_eq_true_eq, hobj]
      refine ⟨le_refl _, ?_, ?_⟩
      · rcases hf1 with ⟨htf, hf1e⟩ | ⟨htf, hr1⟩
        · rw [if_pos hf1e]; exact htf
        · rw [if_neg (rep_ne_of_lt hr1 (by omega))]
          have r2 := rep_frame_update (.Cell f1 none) (Nat.lt_succ_self h.next) hr1
          have r3 := rep_frame_ext x2.2.1 x3 r2
          have r4 := rep_frame_update (.Cell f1 s1) (Nat.lt_succ_self h.next) r3
          exact rep_mono (Nat.le_succ _) tf f1 r4
      · rcases hs1 with ⟨hts, hs1e⟩ | ⟨hts, hr3⟩
        · rw [if_pos hs1e]; exact hts
        · rw [if_neg (rep_ne_of_lt hr3 (by omega))]
          have r4 := rep_frame_update (.Cell f1 s1) (Nat.lt_succ_self h.next) hr3
          exact rep_mono (Nat.le_succ _) ts s1 r4

end Scheme
namespace Scheme

/-! ## Claims on printing and duplication -/

theorem setBack_append_space (x : String) (ys : List Char) :
    setBack (x ++ ⟨ys ++ [' ']⟩) ')' = x ++ ⟨ys ++ [')']⟩ := by
  unfold setBack
  apply String.ext
  simp only [String.data_append]
  rw [← List.append_assoc, List.dropLast_concat, List.append_assoc]

theorem render_self_first : (Shape.cell .selfref .null).render = "(\x7bselfref\x7d)" := by
  decide

theorem render_self_second (tf : Shape) (hs : tf.isSelf = false) :
    (Shape.cell tf .selfref).render = "(" ++ tf.render ++ " . \x7bselfref\x7d)" := by
  rw [render_cell, spine_cell, hs]
  simp only [Bool.false_eq_true, if_false]
  have e : "(" ++ (tf.render ++ " " ++ ". \x7bselfref\x7d ") =
      ("(" ++ tf.render) ++ ⟨" . \x7bselfref\x7d".data ++ [' ']⟩ := by
    apply String.ext
    simp [String.data_append]
  rw [e, setBack_append_space]
  apply String.ext
  simp [String.data_append]

/-- **C6.** `GetString` returns on every value that unfolds to a finite shape (atoms,
builtins, closures, the empty list and pairs) in which the only cycles are direct
self-references of a pair (`rep 0 h p t`): with fuel at least the size of the shape the
result is the rendering of the shape.  A first field that is the
pair itself prints as the placeholder, and so does a second field that is the pair itself:
`({selfref})` and `(<first> . {selfref})`. -/
theorem GetString_terminates_on_self_references (h : Heap) (p : Ptr) (t : Shape)
    (hr : rep 0 h p t = true) :
    (∀ fuel, t.size ≤ fuel → GetString fuel h p = .ok t.render) ∧
      (Shape.cell .selfref .null).render = "(\x7bselfref\x7d)" ∧
      (∀ tf : Shape, tf.isSelf = false →
        (Shape.cell tf .selfref).render = "(" ++ tf.render ++ " . \x7bselfref\x7d)") :=
  ⟨fun fuel hsz => GetString_render fuel t p hsz hr, render_self_first, render_self_second⟩

/-- **C7.** Duplicating a pair `c` that unfolds to a finite closure-free shape yields a new
pair `c1`,
distinct from `c` and from every object of the heap; a field of `c` that is `c` itself
becomes `c1` itself in the copy, a field that is not becomes a duplicate of the same shape
made of new objects, and `c` keeps its fields. -/
theorem Cell_Copy_self_reference (h : Heap) (c : Nat) (f s : Ptr) (tf ts : Shape)
    (hf : h.Fresh) (ho : h.obj? c = some (.Cell f s))
    (hr : rep 0 h (some c) (.cell tf ts) = true) (hp : (Shape.cell tf ts).plain = true) :
    ∀ fuel, (Shape.cell tf ts).size ≤ fuel →
      ∃ h1 c1 f1 s1, Copy fuel h (some c) = .ok (h1, some c1) ∧
        c1 ≠ c ∧ h.obj? c1 = none ∧ h1.obj? c1 = some (.Cell f1 s1) ∧
        h1.obj? c = some (.Cell f s) ∧
        (f = some c → f1 = some c1) ∧ (s = some c → s1 = some c1) ∧
        (f ≠ some c → f1 ≠ some c1 ∧ f1 ≠ some c ∧ rep 0 h f tf = true ∧
          rep h.next h1 f1 tf = true) ∧
        (s ≠ some c → s1 ≠ some c1 ∧ s1 ≠ some c ∧ rep 0 h s ts = true ∧
          rep h.next h1 s1 ts = true) := by
  intro fuel hsz
  obtain ⟨h1, q, hc, hr1⟩ := Copy_shape _ fuel 0 h (some c) hf hp hsz hr
  have post := Copy_post fuel h (some c) h1 q hf hc
  obtain ⟨c1, f1, s1, rfl, hlo, ho1, hf1, hs1⟩ := rep_cell hr1
  obtain ⟨c0, f0, s0, hc0, _, ho0, hf0, hs0⟩ := rep_cell hr
  cases hc0
  rw [ho] at ho0
  cases ho0
  have hclt : c < h.next := obj?_lt_next hf ho
  refine ⟨h1, c1, f1, s1, hc, by omega, ?_, ho1, ?_, ?_, ?_, ?_, ?_⟩
  · unfold Heap.obj?
    rw [find_none_of_fresh hf hlo]
    rfl
  · rw [post.1.2.2 c hclt]; exact ho
  · intro hfc
    rcases field_cases hf0 with ⟨_, htf⟩ | ⟨hne, _, _⟩
    · rcases field_cases hf1 with ⟨h1e, _⟩ | ⟨_, hrf, _⟩
      · exact h1e
      · rw [htf, rep_selfref] at hrf; cases hrf
    · exact absurd hfc hne
  · intro hsc
    rcases field_cases hs0 with ⟨_, hts⟩ | ⟨hne, _, _⟩
    · rcases field_cases hs1 with ⟨h1e, _⟩ | ⟨_, hrs, _⟩
      · exact h1e
      · rw [hts, rep_selfref] at hrs; cases hrs
    · exact absurd hsc hne
  · intro hfc
    rcases field_cases hf0 with ⟨he, _⟩ | ⟨_, hrf0, hns⟩
    · exact absurd he hfc
    · rcases field_cases hf1 with ⟨_, htf⟩ | ⟨hne1, hrf1, _⟩
      · rw [htf] at hns; cases hns
      · exact ⟨hne1, rep_ne_of_lt hrf1 hclt, hrf0, hrf1⟩
  · intro hsc
    rcases field_cases hs0 with ⟨he, _⟩ | ⟨_, hrs0, hns⟩
    · exact absurd he hsc
    · rcases field_cases hs1 with ⟨_, hts⟩ | ⟨hne1, hrs1, _⟩
      · rw [hts] at hns; cases hns
      · exact ⟨hne1, rep_ne_of_lt hrs1 hclt, hrs0, hrs1⟩

/-- **C8.** For every value that unfolds to a finite closure-free shape `t` (atoms,
builtins, the empty list and pairs whose only cycles are direct self-references), `Copy`
returns a value of the
same shape, hence the same payloads and the same printed form, built only from objects
made by the call (addresses from `h.next` on), and leaves every object of the original in
place; a later write into any new object does not change what the original prints, and a
later write into any old object does not change what the copy prints. -/
theorem Copy_same_shape_and_independent (h : Heap) (v : Ptr) (t : Shape) (hf : h.Fresh)
    (hr : rep 0 h v t = true) (hp : t.plain = true) :
    ∀ fuel, t.size ≤ fuel → ∃ h1 q, Copy fuel h v = .ok (h1, q) ∧
      rep h.next h1 q t = true ∧
      GetString fuel h v = .ok t.render ∧ GetString fuel h1 q = .ok t.render ∧
      rep 0 h1 v t = true ∧ (∀ a, a < h.next → h1.obj? a = h.obj? a) ∧
      (∀ c o, h.next ≤ c → GetString fuel (h1.update c o) v = .ok t.render) ∧
      (∀ c o, c < h.next → GetString fuel (h1.update c o) q = .ok t.render) := by
  intro fuel hsz
  obtain ⟨h1, q, hc, hr1⟩ := Copy_shape t fuel 0 h v hf hp hsz hr
  have post := Copy_post fuel h v h1 q hf hc
  refine ⟨h1, q, hc, hr1, GetString_render fuel t v hsz hr, GetString_render fuel t q hsz hr1,
    rep_frame_ext hf post.1 hr, post.1.2.2, ?_, ?_⟩
  · intro c o hcl
    refine GetString_render fuel t v hsz (rep_frame (fun a _ hs => ?_) t v hr)
    cases hoa : h.obj? a with
    | none => rw [hoa] at hs; cases hs
    | some oa =>
      have hlt := obj?_lt_next hf hoa
      rw [obj?_update_other h1 o (by omega), post.1.2.2 a hlt, hoa]
  · intro c o hcl
    exact GetString_render fuel t q hsz (rep_frame_update o hcl hr1)

end Scheme
namespace Scheme

theorem Copy_null (fuel : Nat) (h : Heap) : Copy fuel h none = .ok (h, none) := by
  cases fuel <;> rfl

theorem Copy_two_cycle : ∀ (fuel : Nat) (h : Heap), h.Fresh → 2 ≤ h.next →
    h.obj? 0 = some (.Cell none (some 1)) → h.obj? 1 = some (.Cell none (some 0)) →
    Copy fuel h (some 0) = .error .OutOfFuel ∧ Copy fuel h (some 1) = .error .OutOfFuel := by
  intro fuel
  induction fuel with
  | zero => intro h _ _ _ _; exact ⟨rfl, rfl⟩
  | succ fuel ih =>
    intro h hf hn h0 h1
    have key : ∀ o : Object, Copy fuel (((h.Make (.Cell none none)).1).update h.next o) (some 0) =
          .error .OutOfFuel ∧
        Copy fuel (((h.Make (.Cell none none)).1).update h.next o) (some 1) =
          .error .OutOfFuel := by
      intro o
      refine ih _ (Fresh_update (Fresh_Make hf _) _ _) (by simp [Heap.update, Heap.Make]; omega)
        ?_ ?_
      · rw [obj?_update_other _ _ (by omega), obj?_Make_old _ _ (by omega)]; exact h0
      · rw [obj?_update_other _ _ (by omega), obj?_Make_old _ _ (by omega)]; exact h1
    constructor
    · rw [Copy, h0]
      simp only [Make_snd, Copy_null]
      rw [if_neg (by simp)]
      simp only
      rw [(key _).2]
      simp
    · rw [Copy, h1]
      simp only [Make_snd, Copy_null]
      rw [if_neg (by simp)]
      simp only
      rw [(key _).1]
      simp

/-- Counterexample to C9: on two pairs that point at each other through their second
fields `Copy` returns for no amount of fuel; nothing records the pairs already visited. -/
theorem Copy_diverges_on_two_cycle : ¬ ∃ fuel r, Copy fuel twoCycleHeap (some 0) = .ok r := by
  rintro ⟨fuel, r, hr⟩
  have := (Copy_two_cycle fuel twoCycleHeap (by decide) (by decide) (by decide) (by decide)).1
  rw [this] at hr
  cases hr

end Scheme
namespace Scheme

set_option maxRecDepth 100000

/-- Witness for C6: the pair of `cyclicHeap` whose second field is the pair itself, and the
session of the claim on a fresh interpreter. -/
theorem GetString_terminates_on_self_references_witness :
    rep 0 cyclicHeap (some 1) (.cell (.number 1) .selfref) = true ∧
      ((∀ fuel, (Shape.cell (.number 1) .selfref).size ≤ fuel →
          GetString fuel cyclicHeap (some 1) = .ok (Shape.cell (.number 1) .selfref).render) ∧
        (Shape.cell .selfref .null).render = "(\x7bselfref\x7d)" ∧
        (∀ tf : Shape, tf.isSelf = false →
          (Shape.cell tf .selfref).render = "(" ++ tf.render ++ " . \x7bselfref\x7d)")) ∧
      (Shape.cell (.number 1) .selfref).render = "(1 . \x7bselfref\x7d)" ∧
      Interpreter.RunAll 30 Interpreter.new ["(define p (list 1))", "(set-cdr! p p)", "p"] =
        .ok ["p", "()", "(1 . \x7bselfref\x7d)"] :=
  ⟨by decide,
    GetString_terminates_on_self_references cyclicHeap (some 1) (.cell (.number 1) .selfref)
      (by decide),
    by decide, by rfl⟩

/-- Witness for C7: duplicating the self-referencing pair of `cyclicHeap`. -/
theorem Cell_Copy_self_reference_witness :
    ∃ h1 c1 f1 s1, Copy 3 cyclicHeap (some 1) = .ok (h1, some c1) ∧
      c1 ≠ 1 ∧ cyclicHeap.obj? c1 = none ∧ h1.obj? c1 = some (.Cell f1 s1) ∧
      h1.obj? 1 = some (.Cell (some 2) (some 1)) ∧
      (some 2 = some 1 → f1 = some c1) ∧ (some 1 = some 1 → s1 = some c1) ∧
      (some 2 ≠ some 1 → f1 ≠ some c1 ∧ f1 ≠ some 1 ∧ rep 0 cyclicHeap (some 2) (.number 1) = true ∧
        rep cyclicHeap.next h1 f1 (.number 1) = true) ∧
      ((some 1 : Ptr) ≠ some 1 → s1 ≠ some c1 ∧ s1 ≠ some 1 ∧
        rep 0 cyclicHeap (some 1) .selfref = true ∧ rep cyclicHeap.next h1 s1 .selfref = true) :=
  Cell_Copy_self_reference cyclicHeap 1 (some 2) (some 1) (.number 1) .selfref (by decide)
    (by decide) (by decide) (by decide) 3 (by decide)

/-- Witness for C8: the copy of the self-referencing pair of `cyclicHeap`. -/
theorem Copy_same_shape_and_independent_witness :
    ∃ h1 q, Copy 3 cyclicHeap (some 1) = .ok (h1, q) ∧
      rep cyclicHeap.next h1 q (.cell (.number 1) .selfref) = true ∧
      GetString 3 cyclicHeap (some 1) = .ok (Shape.cell (.number 1) .selfref).render ∧
      GetString 3 h1 q = .ok (Shape.cell (.number 1) .selfref).render ∧
      rep 0 h1 (some 1) (.cell (.number 1) .selfref) = true ∧
      (∀ a, a < cyclicHeap.next → h1.obj? a = cyclicHeap.obj? a) ∧
      (∀ c o, cyclicHeap.next ≤ c →
        GetString 3 (h1.update c o) (some 1) = .ok (Shape.cell (.number 1) .selfref).render) ∧
      (∀ c o, c < cyclicHeap.next →
        GetString 3 (h1.update c o) q = .ok (Shape.cell (.number 1) .selfref).render) :=
  Copy_same_shape_and_independent cyclicHeap (some 1) (.cell (.number 1) .selfref) (by decide)
    (by decide) (by decide) 3 (by decide)

end Scheme
namespace Scheme

/-! ## Environment lookup -/

theorem Get_chain (h : Heap) (name : String) :
    ∀ (frames : List (Nat × List (String × Ptr))) (scope : Ptr) (fuel : Nat),
      chain h scope frames = true → frames.length ≤ fuel →
      NameSpace.Get fuel h scope name =
        match frames.findSome? (fun f => (f.2.lookup name).map (fun v => (f.1, v))) with
        | some r => .ok r
        | none => .error .NameError := by
  intro frames
  induction frames with
  | nil =>
    intro scope fuel hc _
    cases scope with
    | none => cases fuel <;> rfl
    | some a => simp [chain] at hc
  | cons fr rest ih =>
    intro scope fuel hc hfuel
    obtain ⟨b, d⟩ := fr
    cases scope with
    | none => simp [chain] at hc
    | some a =>
      simp only [chain, Bool.and_eq_true, decide_eq_true_eq] at hc
      obtain ⟨rfl, hm⟩ := hc
      split at hm
      · rename_i data_ upper_ ho
        simp only [Bool.and_eq_true, decide_eq_true_eq] at hm
        obtain ⟨rfl, hrest⟩ := hm
        obtain ⟨f, rfl⟩ : ∃ n, fuel = n + 1 := ⟨fuel - 1, by simp at hfuel; omega⟩
        rw [NameSpace.Get, ho]
        simp only [List.findSome?_cons]
        cases hl : data_.lookup name with
        | some v => simp
        | none =>
          simp only [Option.map_none']
          exact ih upper_ f hrest (by simp at hfuel; omega)
      · cases hm

/-- **C10.** On an environment chain with frames `frames` (innermost first), with fuel at
least the length of the chain, `NameSpace::Get` returns the binding of the first frame that
binds the name, together with the address of that frame, and it fails with `NameError` if
and only if no frame of the chain binds the name. -/
theorem NameSpace_Get_innermost (h : Heap) (scope : Ptr)
    (frames : List (Nat × List (String × Ptr))) (name : String) (fuel : Nat)
    (hc : chain h scope frames = true) (hfuel : frames.length ≤ fuel) :
    (∀ pre b d post v, frames = pre ++ (b, d) :: post →
        (∀ f ∈ pre, f.2.lookup name = none) → d.lookup name = some v →
        NameSpace.Get fuel h scope name = .ok (b, v)) ∧
      (NameSpace.Get fuel h scope name = .error .NameError ↔
        ∀ f ∈ frames, f.2.lookup name = none) := by
  have key := Get_chain h name frames scope fuel hc hfuel
  constructor
  · intro pre b d post v hfr hpre hd
    rw [key, hfr, List.findSome?_append]
    have hnone : pre.findSome? (fun f => (f.2.lookup name).map (fun v => (f.1, v))) = none := by
      rw [List.findSome?_eq_none_iff]
      intro f hf
      rw [hpre f hf]
      rfl
    rw [hnone]
    simp [List.findSome?_cons, hd]
  · rw [key]
    constructor
    · intro hres f hf
      cases hfs : frames.findSome? (fun f => (f.2.lookup name).map (fun v => (f.1, v))) with
      | some r => rw [hfs] at hres; cases hres
      | none =>
        rw [List.findSome?_eq_none_iff] at hfs
        have := hfs f hf
        simpa using this
    · intro hall
      have : frames.findSome? (fun f => (f.2.lookup name).map (fun v => (f.1, v))) = none := by
        rw [List.findSome?_eq_none_iff]
        intro f hf
        rw [hall f hf]
        rfl
      rw [this]

/-- Witness for C10: in `scopeHeap`, from the local frame, `x` resolves to the local binding
and `y` to the global one. -/
theorem NameSpace_Get_innermost_witness :
    ((∀ pre b d post v,
          [(1, [("x", some 4)]), (0, [("x", some 2), ("y", some 3)])] = pre ++ (b, d) :: post →
          (∀ f ∈ pre, f.2.lookup "y" = none) → d.lookup "y" = some v →
          NameSpace.Get 2 scopeHeap (some 1) "y" = .ok (b, v)) ∧
        (NameSpace.Get 2 scopeHeap (some 1) "y" = .error .NameError ↔
          ∀ f ∈ [(1, [("x", some 4)]), (0, [("x", some 2), ("y", some 3)])],
            f.2.lookup "y" = none)) ∧
      NameSpace.Get 2 scopeHeap (some 1) "x" = .ok (1, some 4) ∧
      NameSpace.Get 2 scopeHeap (some 1) "y" = .ok (0, some 3) ∧
      NameSpace.Get 2 scopeHeap (some 1) "z" = .error .NameError :=
  ⟨NameSpace_Get_innermost scopeHeap (some 1)
      [(1, [("x", some 4)]), (0, [("x", some 2), ("y", some 3)])] "y" 2 (by decide) (by decide),
    rfl, rfl, rfl⟩

end Scheme
namespace Scheme

/-! ## Sessions -/

set_option maxRecDepth 100000

/-- Counterexample to C5: the session does not print `p`, `10`, `(10 . 2)`. -/
theorem set_car_session_not_new_value :
    ¬ (Interpreter.RunAll 30 Interpreter.new ["(define p (cons 1 2))", "(set-car! p 10)", "p"] =
      .ok ["p", "10", "(10 . 2)"]) := by
  intro h
  have e : Interpreter.RunAll 30 Interpreter.new
      ["(define p (cons 1 2))", "(set-car! p 10)", "p"] = .ok ["p", "1", "(10 . 2)"] := by rfl
  rw [e] at h
  simp at h

/-- **C5 (amended).** On a fresh interpreter the inputs `(define p (cons 1 2))`,
`(set-car! p 10)`, `p` print `p`, then `1` (the value the field held before the mutation),
then `(10 . 2)`. -/
theorem set_car_session_prints_previous_value :
    Interpreter.RunAll 30 Interpreter.new ["(define p (cons 1 2))", "(set-car! p 10)", "p"] =
      .ok ["p", "1", "(10 . 2)"] := by
  rfl

end Scheme
namespace Scheme

/-! ## `set-car!` and `set-cdr!` -/

theorem SetCar_call_eq (eval : CalcFn) (copy : CopyFn) (fuel : Nat) (h h1 : Heap)
    (obj scope e1 e2 front back : Ptr) (hv : ToVector fuel h obj = .ok [e1, e2])
    (hcv : CalcVector eval h [e1, e2] scope = .ok (h1, [front, back])) :
    SetCar.call eval copy fuel h obj scope =
      match GetCell h1 front with
      | .error e => .error e
      | .ok (a, prev, second_) =>
        if front = back then .ok (h1.update a (.Cell back second_), prev)
        else
          match copy h1 back with
          | .error e => .error e
          | .ok (h2, c) =>
            match GetCell h2 front with
            | .error e => .error e
            | .ok (_, _, second2) => .ok (h2.update a (.Cell c second2), prev) := by
  unfold SetCar.call
  simp only [hv, hcv, RequiresOnlyXArgumentsS, bind, Except.bind, pure, Except.pure]
  simp only [List.length_cons, List.length_nil, ne_eq, not_true_eq_false, if_false]
  cases hg : GetCell h1 front with
  | error e => rfl
  | ok r =>
    obtain ⟨a, prev, second_⟩ := r
    simp only
    split
    · rfl
    · cases hc : copy h1 back with
      | error e => rfl
      | ok r2 =>
        obtain ⟨h2, c⟩ := r2
        simp only
        cases hg2 : GetCell h2 front with
        | error e => rfl
        | ok r3 => rfl

theorem SetCdr_call_eq (eval : CalcFn) (copy : CopyFn) (fuel : Nat) (h h1 : Heap)
    (obj scope e1 e2 front back : Ptr) (hv : ToVector fuel h obj = .ok [e1, e2])
    (hcv : CalcVector eval h [e1, e2] scope = .ok (h1, [front, back])) :
    SetCdr.call eval copy fuel h obj scope =
      match GetCell h1 front with
      | .error e => .error e
      | .ok (a, first_, prev) =>
        if front = back then .ok (h1.update a (.Cell first_ back), prev)
        else
          match copy h1 back with
          | .error e => .error e
          | .ok (h2, c) =>
            match GetCell h2 front with
            | .error e => .error e
            | .ok (_, first2, _) => .ok (h2.update a (.Cell first2 c), prev) := by
  unfold SetCdr.call
  simp only [hv, hcv, RequiresOnlyXArgumentsS, bind, Except.bind, pure, Except.pure]
  simp only [List.length_cons, List.length_nil, ne_eq, not_true_eq_false, if_false]
  cases hg : GetCell h1 front with
  | error e => rfl
  | ok r =>
    obtain ⟨a, first_, prev⟩ := r
    simp only
    split
    · rfl
    · cases hc : copy h1 back with
      | error e => rfl
      | ok r2 =>
        obtain ⟨h2, c⟩ := r2
        simp only
        cases hg2 : GetCell h2 front with
        | error e => rfl
        | ok r3 => rfl

theorem GetCell_of_not_cell {h : Heap} {c : Ptr} (hc : IsCell h c = false) :
    GetCell h c = .error .RuntimeError := by
  cases c with
  | none => rfl
  | some a =>
    unfold IsCell at hc
    unfold GetCell
    simp only at hc ⊢
    split
    · rename_i f s ho
      rw [ho] at hc
      simp at hc
    · rfl

theorem GetCell_of_cell {h : Heap} {a : Nat} {f s : Ptr} (ho : h.obj? a = some (.Cell f s)) :
    GetCell h (some a) = .ok (a, f, s) := by
  simp only [GetCell, ho]

theorem set_field_frame {n : Nat} {h1 h2 : Heap} {r d : Ptr} {a : Nat} {first second : Ptr}
    (hf : h1.Fresh) (ho : h1.obj? a = some (.Cell first second))
    (hc : Copy n h1 r = .ok (h2, d)) (o : Object) :
    h2.obj? a = some (.Cell first second) ∧
      (h2.update a o).obj? a = some o ∧
      (∀ x, x ≠ a → (h2.update a o).obj? x = h2.obj? x) ∧
      (∀ x, x < h1.next → x ≠ a → (h2.update a o).obj? x = h1.obj? x) ∧
      (r = none → d = none) ∧
      (∀ b, d = some b → h1.obj? b = none ∧ ((h2.update a o).obj? b).isSome = true) := by
  have post := Copy_post n h1 r h2 d hf hc
  have halt : a < h1.next := obj?_lt_next hf ho
  have ho2 : h2.obj? a = some (.Cell first second) := (post.1.2.2 a halt).trans ho
  refine ⟨ho2, obj?_update_self o (by rw [ho2]; rfl), fun x hx => obj?_update_other h2 o hx,
    fun x hx hxa => (obj?_update_other h2 o hxa).trans (post.1.2.2 x hx), post.2.2.1, ?_⟩
  intro b hb
  have hb2 := post.2.1 b hb
  refine ⟨?_, ?_⟩
  · unfold Heap.obj?
    rw [find_none_of_fresh hf hb2.1]
    rfl
  · rw [obj?_update_other h2 o (by omega)]
    exact hb2.2

/-- **C4.** When the two operands of `(set-car! c r)`, resp. `(set-cdr! c r)`, have
evaluated to `c` and `r`, the form satisfies `SetFieldContract`: it fails with
`RuntimeError` if `c` is not a pair; otherwise it overwrites the first, resp. second, field
of `c` in place, with `r` itself when `r` is the pair `c` and with the result of `Copy(r)`
otherwise, changes no other field and no other object, and returns what the field held. -/
theorem set_car_set_cdr_contract (eval : CalcFn) (n fuel : Nat) (h h1 : Heap)
    (obj scope e1 e2 c r : Ptr) (hf : h1.Fresh) (hv : ToVector fuel h obj = .ok [e1, e2])
    (hcv : CalcVector eval h [e1, e2] scope = .ok (h1, [c, r])) :
    SetFieldContract true n h1 c r (SetCar.call eval (Copy n) fuel h obj scope) ∧
      SetFieldContract false n h1 c r (SetCdr.call eval (Copy n) fuel h obj scope) := by
  rw [SetCar_call_eq eval (Copy n) fuel h h1 obj scope e1 e2 c r hv hcv,
    SetCdr_call_eq eval (Copy n) fuel h h1 obj scope e1 e2 c r hv hcv]
  constructor
  · refine ⟨fun hnc => by rw [GetCell_of_not_cell hnc], ?_⟩
    intro a first second hca ho
    subst hca
    rw [GetCell_of_cell ho]
    simp only
    refine ⟨fun hrc => by rw [if_pos hrc.symm, hrc]; rfl, ?_, ?_⟩
    · intro hrc h2 d hcopy
      have fr := set_field_frame hf ho hcopy (.Cell d second)
      rw [if_neg (fun e => hrc e.symm), hcopy]
      simp only
      rw [GetCell_of_cell fr.1]
      exact ⟨_, rfl, fr.2.1, fr.2.2.1, fr.2.2.2.1, fr.2.2.2.2.1, fr.2.2.2.2.2⟩
    · intro hrc e hcopy
      rw [if_neg (fun e => hrc e.symm), hcopy]
  · refine ⟨fun hnc => by rw [GetCell_of_not_cell hnc], ?_⟩
    intro a first second hca ho
    subst hca
    rw [GetCell_of_cell ho]
    simp only
    refine ⟨fun hrc => by rw [if_pos hrc.symm, hrc]; rfl, ?_, ?_⟩
    · intro hrc h2 d hcopy
      have fr := set_field_frame hf ho hcopy (.Cell first d)
      rw [if_neg (fun e => hrc e.symm), hcopy]
      simp only
      rw [GetCell_of_cell fr.1]
      exact ⟨_, rfl, fr.2.1, fr.2.2.1, fr.2.2.2.1, fr.2.2.2.2.1, fr.2.2.2.2.2⟩
    · intro hrc e hcopy
      rw [if_neg (fun e => hrc e.symm), hcopy]

/-- Witness for C4: the operands `(p 10)` in `setFieldHeap`, where `p` is bound to the pair
`(1 . 2)` at address 1 and `10` is the literal at address 7. -/
theorem set_car_set_cdr_contract_witness :
    SetFieldContract true 3 setFieldHeap (some 1) (some 7)
        (SetCar.call (Calc 3) (Copy 3) 3 setFieldHeap (some 4) (some 0)) ∧
      SetFieldContract false 3 setFieldHeap (some 1) (some 7)
        (SetCdr.call (Calc 3) (Copy 3) 3 setFieldHeap (some 4) (some 0)) :=
  set_car_set_cdr_contract (Calc 3) 3 3 setFieldHeap setFieldHeap (some 4) (some 0) (some 5)
    (some 7) (some 1) (some 7) (by decide) rfl rfl

end Scheme
namespace Scheme

/-! ## Closure calls -/

set_option maxRecDepth 100000

theorem update_length (h : Heap) (a : Nat) (o : Object) :
    (h.update a o).data_.length = h.data_.length := by
  simp [Heap.update]

theorem GetSymbol_update {h : Heap} {p : Ptr} {n : String} {s : Nat} {o : Object}
    {d : List (String × Ptr)} {u : Ptr} (hs : h.obj? s = some (.NameSpace d u))
    (hp : GetSymbol h p = .ok n) : GetSymbol (h.update s o) p = .ok n := by
  cases p with
  | none => simp [GetSymbol] at hp
  | some a =>
    have hne : a ≠ s := by
      intro e
      subst e
      simp [GetSymbol, hs] at hp
    simp only [GetSymbol, obj?_update_other h o hne] at hp ⊢
    exact hp

theorem bindArgs_frame (s : Nat) (u : Ptr) :
    ∀ (names : List Ptr) (ns : List String) (vals : List Ptr) (h1 : Heap)
      (d : List (String × Ptr)), h1.obj? s = some (.NameSpace d u) →
      List.Forall₂ (fun p n => GetSymbol h1 p = .ok n) names ns →
      ∃ h2, bindArgs (some s) h1 names vals = .ok h2 ∧
        h2.obj? s =
          some (.NameSpace ((ns.zip vals).foldl (fun d nv => mapSet d nv.1 nv.2) d) u) ∧
        (∀ x, x ≠ s → h2.obj? x = h1.obj? x) ∧
        h2.next = h1.next ∧ h2.data_.length = h1.data_.length := by
  intro names
  induction names with
  | nil =>
    intro ns vals h1 d hs hns
    cases hns
    exact ⟨h1, by cases vals <;> rfl, by simpa using hs, fun _ _ => rfl, rfl, rfl⟩
  | cons name names ih =>
    intro ns vals h1 d hs hns
    cases hns with
    | @cons _ n _ ns1 hn hrest =>
      cases vals with
      | nil => exact ⟨h1, rfl, by simpa using hs, fun _ _ => rfl, rfl, rfl⟩
      | cons v vals =>
        have hset : DefineHelper h1 name v (some s) =
            .ok (h1.update s (.NameSpace (mapSet d n v) u)) := by
          simp only [DefineHelper, hn, NameSpace.Set, hs]
        have hs1 : (h1.update s (.NameSpace (mapSet d n v) u)).obj? s =
            some (.NameSpace (mapSet d n v) u) := obj?_update_self _ (by rw [hs]; rfl)
        have hrest1 : List.Forall₂
            (fun p m => GetSymbol (h1.update s (.NameSpace (mapSet d n v) u)) p = .ok m)
            names ns1 := hrest.imp (fun _ _ hp => GetSymbol_update hs hp)
        obtain ⟨h2, e2, ho2, hframe, hnext, hlen⟩ := ih ns1 vals _ (mapSet d n v) hs1 hrest1
        refine ⟨h2, by simp only [bindArgs, hset, e2], by simpa using ho2, fun x hx => ?_,
          hnext, by rw [hlen, update_length]⟩
        rw [hframe x hx, obj?_update_other h1 _ hx]

theorem Lambda_call_eq (eval : CalcFn) (copy : CopyFn) (fuel : Nat) (h h1 : Heap) (self : Nat)
    (obj scope sc : Ptr) (names body args vals : List Ptr)
    (hself : h.obj? self = some (.Lambda names body sc))
    (hv : ToVector fuel h obj = .ok args) (hlen : args.length = names.length)
    (hcv : CalcVector eval h args scope = .ok (h1, vals)) :
    Lambda.call eval copy fuel h self obj scope =
      match bindArgs sc h1 names vals with
      | .error e => .error e
      | .ok h2 =>
        (match CopyAndCalcVector eval copy h2 body sc with
         | .ok (h3, copy_body) =>
           (match copy_body.getLast? with
            | some r => .ok (h3, r)
            | none => .error .Undefined)
         | .error e => .error e) := by
  unfold Lambda.call
  simp only [hself, hv, hcv, hlen, RequiresOnlyXArguments, bind, Except.bind, pure, Except.pure,
    ne_eq, not_true_eq_false, if_false]
  cases hb : bindArgs sc h1 names vals with
  | error e => rfl
  | ok h2 =>
    simp only
    cases hc : CopyAndCalcVector eval copy h2 body sc with
    | error e => rfl
    | ok r =>
      obtain ⟨h3, cb⟩ := r
      rfl

/-- Counterexample to C3: a closure that applies `set-car!` to its parameter changes the
list bound to `x` in the caller's environment; after `(f x)`, `x` prints `(9 2)`. -/
theorem closure_call_mutates_caller_list :
    Interpreter.RunAll 30 Interpreter.new
        ["(define x (list 1 2))", "(define (f l) (set-car! l 9))", "(f x)", "x"] =
      .ok ["x", "f", "1", "(9 2)"] := by
  rfl

/-- **C3 (amended).** A closure call binds, in the frame of the invoked closure, each
parameter to the evaluated operand itself: the frame stores the very pointers `vals`, the
binding allocates nothing and changes no other object, and only the body expressions are
duplicated before they are evaluated in that frame (`BindsArgumentsThemselves`). -/
theorem Lambda_call_binds_arguments_themselves (eval : CalcFn) (copy : CopyFn) (fuel : Nat)
    (h h1 : Heap) (self s : Nat) (obj scope u : Ptr) (names body args vals : List Ptr)
    (d : List (String × Ptr)) (ns : List String)
    (hself : h.obj? self = some (.Lambda names body (some s)))
    (hv : ToVector fuel h obj = .ok args) (hlen : args.length = names.length)
    (hcv : CalcVector eval h args scope = .ok (h1, vals))
    (hs : h1.obj? s = some (.NameSpace d u))
    (hns : List.Forall₂ (fun p n => GetSymbol h1 p = .ok n) names ns) :
    BindsArgumentsThemselves eval copy h1 s d u ns vals body
      (Lambda.call eval copy fuel h self obj scope) := by
  obtain ⟨h2, e2, ho2, hframe, hnext, hlen2⟩ := bindArgs_frame s u names ns vals h1 d hs hns
  refine ⟨h2, ho2, hframe, hnext, hlen2, ?_⟩
  rw [Lambda_call_eq eval copy fuel h h1 self obj scope (some s) names body args vals hself hv
    hlen hcv, e2]

/-- Witness for C3 (amended): the call `(f x)` of `callHeap`, whose operand evaluates to
the list at address 1; the frame at address 7 receives that very address. -/
theorem Lambda_call_binds_arguments_themselves_witness :
    BindsArgumentsThemselves (Calc 10) (Copy 10) callHeap 7 [] (some 0) ["l"] [some 1] [some 8]
      (Lambda.call (Calc 10) (Copy 10) 10 callHeap 5 (some 15) (some 0)) :=
  Lambda_call_binds_arguments_themselves (Calc 10) (Copy 10) 10 callHeap callHeap 5 7 (some 15)
    (some 0) (some 0) [some 6] [some 8] [some 16] [some 1] [] ["l"] (by decide) rfl (by decide)
    rfl (by decide) (List.Forall₂.cons rfl List.Forall₂.nil)

end Scheme
namespace Scheme

/-! ## `define` binds a copy -/

set_option maxRecDepth 100000

theorem rep_frame_values {lo : Nat} {h h1 : Heap}
    (hsame : ∀ a o, lo ≤ a → h.obj? a = some o → (∀ d u, o ≠ .NameSpace d u) →
      h1.obj? a = some o) (t : Shape) :
    ∀ (p : Ptr), rep lo h p t = true → rep lo h1 p t = true := by
  induction t with
  | null => intro p hr; rw [rep_null hr]; simp [rep]
  | selfref => intro p hr; rw [rep_selfref] at hr; cases hr
  | number v =>
    intro p hr
    obtain ⟨a, rfl, _, _⟩ := rep_some hr (by simp)
    simp only [rep, Bool.and_eq_true, decide_eq_true_eq] at hr ⊢
    exact ⟨hr.1, hsame a _ hr.1 hr.2 (by simp)⟩
  | boolean v =>
    intro p hr
    obtain ⟨a, rfl, _, _⟩ := rep_some hr (by simp)
    simp only [rep, Bool.and_eq_true, decide_eq_true_eq] at hr ⊢
    exact ⟨hr.1, hsame a _ hr.1 hr.2 (by simp)⟩
  | symbol v =>
    intro p hr
    obtain ⟨a, rfl, _, _⟩ := rep_some hr (by simp)
    simp only [rep, Bool.and_eq_true, decide_eq_true_eq] at hr ⊢
    exact ⟨hr.1, hsame a _ hr.1 hr.2 (by simp)⟩
  | functor v =>
    intro p hr
    obtain ⟨a, rfl, _, _⟩ := rep_some hr (by simp)
    simp only [rep, Bool.and_eq_true, decide_eq_true_eq] at hr ⊢
    exact ⟨hr.1, hsame a _ hr.1 hr.2 (by simp)⟩
  | closure =>
    intro p hr
    obtain ⟨a, rfl, _, _⟩ := rep_some hr (by simp)
    obtain ⟨hlo, args, body, sc, ho⟩ := rep_closure hr
    simp only [rep, Bool.and_eq_true, decide_eq_true_eq, hsame a _ hlo ho (by simp)]
    exact ⟨hlo, trivial⟩
  | cell tf ts ihf ihs =>
    intro p hr
    obtain ⟨a, f, s, rfl, hlo, ho, hf, hs⟩ := rep_cell hr
    have ho1 : h1.obj? a = some (.Cell f s) := hsame a _ hlo ho (by simp)
    simp only [rep, Bool.and_eq_true, decide_eq_true_eq, ho1]
    refine ⟨hlo, ?_, ?_⟩
    · split
      · rename_i hfa; simpa [hfa] using hf
      · rename_i hfa; simp only [hfa, if_false] at hf; exact ihf f hf
    · split
      · rename_i hsa; simpa [hsa] using hs
      · rename_i hsa; simp only [hsa, if_false] at hs; exact ihs s hs

theorem lookup_mapSet_other (name yname : String) (Y : Ptr) (hne : name ≠ yname) :
    ∀ d : List (String × Ptr), (mapSet d yname Y).lookup name = d.lookup name := by
  intro d
  induction d with
  | nil =>
    simp only [mapSet, List.lookup]
    have : (name == yname) = false := by simpa using hne
    rw [this]
  | cons kv rest ih =>
    obtain ⟨k, v⟩ := kv
    simp only [mapSet]
    split
    · rename_i hk
      subst hk
      have : (name == k) = false := by simpa using hne
      simp only [List.lookup, this]
    · simp only [List.lookup, ih]

theorem Define_call_eq (eval : CalcFn) (copy : CopyFn) (fuel : Nat) (h : Heap)
    (obj scope front back : Ptr) (hv : ToVector fuel h obj = .ok [front, back])
    (hsym : IsSymbol h front = true) :
    Define.call eval copy fuel h obj scope =
      match eval h back scope with
      | .error e => .error e
      | .ok (h1, v) =>
        match copy h1 v with
        | .error e => .error e
        | .ok (h2, c) =>
          match DefineHelper h2 front c scope with
          | .error e => .error e
          | .ok h3 => .ok (h3, front) := by
  unfold Define.call
  simp only [hv, hsym, RequiresMinimumXArgumentsS, RequiresOnlyXArgumentsS, bind, Except.bind,
    pure, Except.pure, List.length_cons, List.length_nil, List.getLast?_singleton, if_true]
  simp only [ne_eq, not_true_eq_false, if_false, Nat.lt_irrefl]
  cases he : eval h back scope with
  | error e => rfl
  | ok r =>
    obtain ⟨h1, v⟩ := r
    simp only
    cases hc : copy h1 v with
    | error e => rfl
    | ok r2 =>
      obtain ⟨h2, c⟩ := r2
      simp only
      cases hd : DefineHelper h2 front c scope with
      | error e => rfl
      | ok h3 => rfl

theorem GetCell_ok {h : Heap} {Y : Ptr} {c : Nat} {f s : Ptr}
    (hg : GetCell h Y = .ok (c, f, s)) : Y = some c ∧ h.obj? c = some (.Cell f s) := by
  cases Y with
  | none => simp [GetCell] at hg
  | some a =>
    unfold GetCell at hg
    simp only at hg
    split at hg
    · rename_i f1 s1 ho
      cases hg
      exact ⟨rfl, ho⟩
    · cases hg

theorem set_field_writes_target (car : Bool) (eval2 : CalcFn) (n2 fuel2 : Nat) (h3 h5 : Heap)
    (obj2 scope e1 e2 Y R prev : Ptr) (hf : h3.Fresh)
    (hv : ToVector fuel2 h3 obj2 = .ok [e1, e2])
    (hcv : CalcVector eval2 h3 [e1, e2] scope = .ok (h3, [Y, R]))
    (hres : (if car then SetCar.call eval2 (Copy n2) fuel2 h3 obj2 scope
      else SetCdr.call eval2 (Copy n2) fuel2 h3 obj2 scope) = .ok (h5, prev)) :
    ∃ c h4 o f s, Y = some c ∧ h3.obj? c = some (.Cell f s) ∧ Ext h3 h4 ∧
      h5 = h4.update c o := by
  cases car with
  | true =>
    simp only [if_true] at hres
    rw [SetCar_call_eq eval2 (Copy n2) fuel2 h3 h3 obj2 scope e1 e2 Y R hv hcv] at hres
    cases hg : GetCell h3 Y with
    | error e => rw [hg] at hres; cases hres
    | ok r =>
      obtain ⟨c, f, s⟩ := r
      have hY := (GetCell_ok hg).1
      have hoc := (GetCell_ok hg).2
      rw [hg] at hres
      simp only at hres
      split at hres
      · cases hres
        exact ⟨c, h3, _, _, _, hY, hoc, Ext.self hf, rfl⟩
      · cases hc : Copy n2 h3 R with
        | error e => rw [hc] at hres; cases hres
        | ok r2 =>
          obtain ⟨h4, D⟩ := r2
          rw [hc] at hres
          simp only at hres
          cases hg4 : GetCell h4 Y with
          | error e => rw [hg4] at hres; cases hres
          | ok r4 =>
            rw [hg4] at hres
            cases hres
            exact ⟨c, h4, _, _, _, hY, hoc, (Copy_post n2 h3 R h4 D hf hc).1, rfl⟩
  | false =>
    simp only [Bool.false_eq_true, if_false] at hres
    rw [SetCdr_call_eq eval2 (Copy n2) fuel2 h3 h3 obj2 scope e1 e2 Y R hv hcv] at hres
    cases hg : GetCell h3 Y with
    | error e => rw [hg] at hres; cases hres
    | ok r =>
      obtain ⟨c, f, s⟩ := r
      have hY := (GetCell_ok hg).1
      have hoc := (GetCell_ok hg).2
      rw [hg] at hres
      simp only at hres
      split at hres
      · cases hres
        exact ⟨c, h3, _, _, _, hY, hoc, Ext.self hf, rfl⟩
      · cases hc : Copy n2 h3 R with
        | error e => rw [hc] at hres; cases hres
        | ok r2 =>
          obtain ⟨h4, D⟩ := r2
          rw [hc] at hres
          simp only at hres
          cases hg4 : GetCell h4 Y with
          | error e => rw [hg4] at hres; cases hres
          | ok r4 =>
            rw [hg4] at hres
            cases hres
            exact ⟨c, h4, _, _, _, hY, hoc, (Copy_post n2 h3 R h4 D hf hc).1, rfl⟩

end Scheme

namespace Scheme

set_option maxRecDepth 100000

theorem IsSymbol_inv {h : Heap} {p : Ptr} (hs : IsSymbol h p = true) :
    ∃ a n, p = some a ∧ h.obj? a = some (.Symbol n) := by
  cases p with
  | none => simp [IsSymbol] at hs
  | some a =>
    unfold IsSymbol at hs
    simp only at hs
    split at hs
    · rename_i n ho
      exact ⟨a, n, rfl, ho⟩
    · cases hs

/-- **C2.** `(define y x)` binds `y` to a duplicate of the value of `x`
(`IndependentBinding`): the duplicate is an object made by the call, the other bindings of
the frame and every other object of the heap are unchanged, and whatever a later
`set-car!` or `set-cdr!` on the value of `y` (or on any other pair made since) stores,
every object that existed before the definition, the value of `x` among them, keeps its
fields and `x` prints as before. -/
theorem define_binds_independent_copy (eval : CalcFn) (n fuel n2 fuel2 : Nat) (h h3 : Heap)
    (g : Nat) (obj ysym xexpr X r u : Ptr) (d : List (String × Ptr)) (hf : h.Fresh)
    (hg : h.obj? g = some (.NameSpace d u))
    (hv : ToVector fuel h obj = .ok [ysym, xexpr]) (hsym : IsSymbol h ysym = true)
    (hx : eval h xexpr (some g) = .ok (h, X))
    (hdef : Define.call eval (Copy n) fuel h obj (some g) = .ok (h3, r)) :
    IndependentBinding n2 fuel2 h h3 g ysym X := by
  rw [Define_call_eq eval (Copy n) fuel h obj (some g) ysym xexpr hv hsym, hx] at hdef
  simp only at hdef
  obtain ⟨ya, yname, rfl, hya⟩ := IsSymbol_inv hsym
  cases hc : Copy n h X with
  | error e => rw [hc] at hdef; cases hdef
  | ok r2 =>
    obtain ⟨h2, Y⟩ := r2
    rw [hc] at hdef
    simp only at hdef
    have post := Copy_post n h X h2 Y hf hc
    have hglt : g < h.next := obj?_lt_next hf hg
    have hg2 : h2.obj? g = some (.NameSpace d u) := (post.1.2.2 g hglt).trans hg
    have hya2 : h2.obj? ya = some (.Symbol yname) :=
      (post.1.2.2 ya (obj?_lt_next hf hya)).trans hya
    have hdh : DefineHelper h2 (some ya) Y (some g) =
        .ok (h2.update g (.NameSpace (mapSet d yname Y) u)) := by
      simp only [DefineHelper, GetSymbol, hya2, NameSpace.Set, hg2]
    rw [hdh] at hdef
    simp only [Except.ok.injEq, Prod.mk.injEq] at hdef
    obtain ⟨hh3, _⟩ := hdef
    subst hh3
    have hf3 : (h2.update g (.NameSpace (mapSet d yname Y) u)).Fresh :=
      Fresh_update post.1.2.1 _ _
    have hold3 : ∀ a, a < h.next → a ≠ g →
        (h2.update g (.NameSpace (mapSet d yname Y) u)).obj? a = h.obj? a :=
      fun a ha hag => (obj?_update_other h2 _ hag).trans (post.1.2.2 a ha)
    have hg3 : (h2.update g (.NameSpace (mapSet d yname Y) u)).obj? g =
        some (.NameSpace (mapSet d yname Y) u) := obj?_update_self _ (by rw [hg2]; rfl)
    refine ⟨yname, Y, d, u, by simp only [GetSymbol, hya], hg, hg3,
      fun name hne => lookup_mapSet_other name yname Y hne d, hold3, post.2.2.1, ?_, ?_⟩
    · intro b hb
      have hb2 := post.2.1 b hb
      refine ⟨?_, ?_⟩
      · unfold Heap.obj?
        rw [find_none_of_fresh hf hb2.1]
        rfl
      · rw [obj?_update_other h2 _ (by omega)]
        exact hb2.2
    · intro eval2 obj2 e1 e2 Z R h5 prev hZ hv2 hcv2 hmut
      have hw : ∃ c h4 o f s, Z = some c ∧
          (h2.update g (.NameSpace (mapSet d yname Y) u)).obj? c = some (.Cell f s) ∧
          Ext (h2.update g (.NameSpace (mapSet d yname Y) u)) h4 ∧ h5 = h4.update c o := by
        rcases hmut with hm | hm
        · exact set_field_writes_target true eval2 n2 fuel2 _ h5 obj2 (some g) e1 e2 Z R prev
            hf3 hv2 hcv2 (by simpa using hm)
        · exact set_field_writes_target false eval2 n2 fuel2 _ h5 obj2 (some g) e1 e2 Z R prev
            hf3 hv2 hcv2 (by simpa using hm)
      obtain ⟨c, h4, o, fc, sc, hZc, hoc, hext, rfl⟩ := hw
      have hcge : h.next ≤ c := by
        by_contra hlt
        have hcg : c ≠ g := by
          intro e
          subst e
          rw [hg3] at hoc
          cases hoc
        rw [hold3 c (by omega) hcg, hZ c hZc] at hoc
        cases hoc
      have hn3 : h.next ≤ (h2.update g (.NameSpace (mapSet d yname Y) u)).next := post.1.1
      have hold5 : ∀ a, a < h.next → a ≠ g → (h4.update c o).obj? a = h.obj? a := by
        intro a ha hag
        rw [obj?_update_other h4 o (by omega), hext.2.2 a (by omega)]
        exact hold3 a ha hag
      refine ⟨hold5, ?_, ?_⟩
      · rw [obj?_update_other h4 o (by omega), hext.2.2 g (by omega)]
      · intro t k hr hk
        refine ⟨GetString_render k t X hk hr, @GetString_render 0 _ k t X hk ?_⟩
        refine rep_frame_values (fun a oa _ hoa hns => ?_) t X hr
        have hag : a ≠ g := by
          intro e
          subst e
          rw [hg] at hoa
          cases hoa
          exact hns d u rfl
        rw [hold5 a (obj?_lt_next hf hoa) hag]
        exact hoa

/-- Witness for C2: `(define y x)` in `bindHeap`, where `x` is bound to the list `(1 2)`,
and the session of the claim on a fresh interpreter. -/
theorem define_binds_independent_copy_witness :
    IndependentBinding 5 5 bindHeap bindHeapDefined.1 0 (some 6) (some 1) ∧
      Interpreter.RunAll 30 Interpreter.new
          ["(define x (list 1 2))", "(define y x)", "(set-car! y 9)", "x", "y"] =
        .ok ["x", "y", "1", "(1 2)", "(9 2)"] :=
  ⟨define_binds_independent_copy (Calc 5) 5 5 5 5 bindHeap bindHeapDefined.1 0 (some 5)
      (some 6) (some 8) (some 1) bindHeapDefined.2 none [("x", some 1)] (by decide) (by decide)
      rfl (by decide) rfl rfl,
    by rfl⟩

end Scheme
namespace Scheme

/-! ## Assignment (`set!`) and definition in an environment chain -/

theorem chain_some {h : Heap} {scope : Ptr} {b : Nat} {d : List (String × Ptr)}
    {rest : List (Nat × List (String × Ptr))} (hc : chain h scope ((b, d) :: rest) = true) :
    ∃ u, scope = some b ∧ h.obj? b = some (.NameSpace d u) ∧ chain h u rest = true := by
  cases scope with
  | none => simp [chain] at hc
  | some a =>
    simp only [chain, Bool.and_eq_true, decide_eq_true_eq] at hc
    obtain ⟨rfl, hm⟩ := hc
    split at hm
    · rename_i data_ upper_ ho
      simp only [Bool.and_eq_true, decide_eq_true_eq] at hm
      obtain ⟨rfl, hrest⟩ := hm
      exact ⟨upper_, rfl, ho, hrest⟩
    · cases hm

theorem chain_mk {h : Heap} {b : Nat} {d : List (String × Ptr)} {u : Ptr}
    {rest : List (Nat × List (String × Ptr))} (ho : h.obj? b = some (.NameSpace d u))
    (hr : chain h u rest = true) : chain h (some b) ((b, d) :: rest) = true := by
  simp [chain, ho, hr]

theorem chain_nil {h : Heap} {scope : Ptr} (hc : chain h scope [] = true) : scope = none := by
  cases scope with
  | none => rfl
  | some a => simp [chain] at hc

theorem chain_unique (h : Heap) :
    ∀ (l1 l2 : List (Nat × List (String × Ptr))) (scope : Ptr),
      chain h scope l1 = true → chain h scope l2 = true → l1 = l2 := by
  intro l1
  induction l1 with
  | nil =>
    intro l2 scope h1 h2
    have := chain_nil h1
    subst this
    cases l2 with
    | nil => rfl
    | cons f _ => simp [chain] at h2
  | cons f rest ih =>
    intro l2 scope h1 h2
    obtain ⟨b, d⟩ := f
    obtain ⟨u, rfl, ho, hr⟩ := chain_some h1
    cases l2 with
    | nil => simp [chain] at h2
    | cons g rest2 =>
      obtain ⟨b2, d2⟩ := g
      obtain ⟨u2, hb, ho2, hr2⟩ := chain_some h2
      cases hb
      rw [ho] at ho2
      cases ho2
      rw [ih rest2 u hr hr2]

theorem chain_suffix (h : Heap) :
    ∀ (l1 l3 : List (Nat × List (String × Ptr))) (scope : Ptr),
      chain h scope (l1 ++ l3) = true → ∃ p, chain h p l3 = true := by
  intro l1
  induction l1 with
  | nil => intro l3 scope hc; exact ⟨scope, hc⟩
  | cons f rest ih =>
    intro l3 scope hc
    obtain ⟨b, d⟩ := f
    obtain ⟨u, _, _, hr⟩ := chain_some hc
    exact ih l3 u hr

theorem chain_nodup (h : Heap) :
    ∀ (frames : List (Nat × List (String × Ptr))) (scope : Ptr),
      chain h scope frames = true → (frames.map Prod.fst).Nodup := by
  intro frames
  induction frames with
  | nil => intro _ _; simp
  | cons f rest ih =>
    intro scope hc
    obtain ⟨b, d⟩ := f
    obtain ⟨u, rfl, ho, hr⟩ := chain_some hc
    simp only [List.map_cons, List.nodup_cons]
    refine ⟨?_, ih u hr⟩
    intro hmem
    obtain ⟨g, hg, hgb⟩ := List.mem_map.mp hmem
    obtain ⟨l1, l2, hsplit⟩ := List.append_of_mem hg
    obtain ⟨b2, d2⟩ := g
    simp only at hgb
    subst hgb
    rw [hsplit] at hr
    obtain ⟨p, hp⟩ := chain_suffix h l1 _ u hr
    obtain ⟨u2, rfl, _, _⟩ := chain_some hp
    have := chain_unique h _ _ _ hp hc
    have hlen := congrArg List.length this
    rw [hsplit] at hlen
    simp at hlen
    omega

theorem chain_congr {h h1 : Heap} :
    ∀ (frames : List (Nat × List (String × Ptr))) (scope : Ptr),
      chain h scope frames = true → (∀ f ∈ frames, h1.obj? f.1 = h.obj? f.1) →
      chain h1 scope frames = true := by
  intro frames
  induction frames with
  | nil => intro scope hc _; rw [chain_nil hc]; rfl
  | cons f rest ih =>
    intro scope hc hsame
    obtain ⟨b, d⟩ := f
    obtain ⟨u, rfl, ho, hr⟩ := chain_some hc
    exact chain_mk ((hsame (b, d) (List.mem_cons_self _ _)).trans ho)
      (ih u hr (fun f hf => hsame f (List.mem_cons_of_mem _ hf)))

theorem chain_update {h : Heap} {b : Nat} {d : List (String × Ptr)} (e : List (String × Ptr))
    {post : List (Nat × List (String × Ptr))} :
    ∀ (pre : List (Nat × List (String × Ptr))) (scope : Ptr),
      chain h scope (pre ++ (b, d) :: post) = true →
      ∃ u, h.obj? b = some (.NameSpace d u) ∧
        chain (h.update b (.NameSpace e u)) scope (pre ++ (b, e) :: post) = true := by
  intro pre
  induction pre with
  | nil =>
    intro scope hc
    have hnd := chain_nodup h _ _ hc
    obtain ⟨u, rfl, ho, hr⟩ := chain_some hc
    refine ⟨u, ho, chain_mk (obj?_update_self _ (by rw [ho]; rfl)) ?_⟩
    refine chain_congr post u hr (fun f hf => obj?_update_other h _ ?_)
    intro hfb
    simp only [List.nil_append, List.map_cons, List.nodup_cons] at hnd
    exact hnd.1 (List.mem_map.mpr ⟨f, hf, hfb⟩)
  | cons f rest ih =>
    intro scope hc
    have hnd := chain_nodup h _ _ hc
    obtain ⟨a, da⟩ := f
    obtain ⟨ua, rfl, hoa, hr⟩ := chain_some hc
    obtain ⟨u, ho, hu⟩ := ih ua hr
    refine ⟨u, ho, chain_mk ((obj?_update_other h _ ?_).trans hoa) hu⟩
    intro hab
    simp only [List.cons_append, List.map_cons, List.nodup_cons, List.map_append,
      List.mem_append, List.mem_cons, List.mem_map] at hnd
    exact hnd.1 (Or.inr (Or.inl hab))

end Scheme
namespace Scheme

theorem Get_chain_first {h : Heap} {name : String} {scope : Ptr} {fuel : Nat}
    {frames pre post : List (Nat × List (String × Ptr))} {b : Nat} {d : List (String × Ptr)}
    {v : Ptr} (hc : chain h scope frames = true) (hfuel : frames.length ≤ fuel)
    (hfr : frames = pre ++ (b, d) :: post) (hpre : ∀ f ∈ pre, f.2.lookup name = none)
    (hd : d.lookup name = some v) : NameSpace.Get fuel h scope name = .ok (b, v) := by
  rw [Get_chain h name frames scope fuel hc hfuel, hfr, List.findSome?_append]
  have hnone : pre.findSome? (fun f => (f.2.lookup name).map (fun v => (f.1, v))) = none := by
    rw [List.findSome?_eq_none_iff]
    intro f hf
    rw [hpre f hf]
    rfl
  rw [hnone]
  simp [List.findSome?_cons, hd]

theorem Get_chain_unbound {h : Heap} {name : String} {scope : Ptr} {fuel : Nat}
    {frames : List (Nat × List (String × Ptr))} (hc : chain h scope frames = true)
    (hfuel : frames.length ≤ fuel) (hall : ∀ f ∈ frames, f.2.lookup name = none) :
    NameSpace.Get fuel h scope name = .error .NameError := by
  rw [Get_chain h name frames scope fuel hc hfuel]
  have : frames.findSome? (fun f => (f.2.lookup name).map (fun v => (f.1, v))) = none := by
    rw [List.findSome?_eq_none_iff]
    intro f hf
    rw [hall f hf]
    rfl
  rw [this]

theorem lookup_mapSet_self (name : String) (c : Ptr) :
    ∀ d : List (String × Ptr), (mapSet d name c).lookup name = some c := by
  intro d
  induction d with
  | nil => simp [mapSet, List.lookup]
  | cons kv rest ih =>
    obtain ⟨k, v⟩ := kv
    simp only [mapSet]
    split
    · rename_i hk
      subst hk
      simp [List.lookup]
    · rename_i hk
      have : (name == k) = false := by simpa using fun e => hk e.symm
      simp only [List.lookup, this, ih]

theorem keys_mapSet_bound (name : String) (c : Ptr) :
    ∀ d : List (String × Ptr), d.lookup name ≠ none →
      (mapSet d name c).map Prod.fst = d.map Prod.fst := by
  intro d
  induction d with
  | nil => intro hd; simp [List.lookup] at hd
  | cons kv rest ih =>
    obtain ⟨k, v⟩ := kv
    intro hd
    simp only [mapSet]
    split
    · rfl
    · rename_i hk
      have : (name == k) = false := by simpa using fun e => hk e.symm
      simp only [List.lookup, this] at hd
      simp only [List.map_cons, ih hd]

theorem GetSymbol_ok {h : Heap} {p : Ptr} {name : String} (hs : GetSymbol h p = .ok name) :
    ∃ a, p = some a ∧ h.obj? a = some (.Symbol name) := by
  cases p with
  | none => simp [GetSymbol] at hs
  | some a =>
    unfold GetSymbol at hs
    simp only at hs
    split at hs
    · rename_i n ho
      cases hs
      exact ⟨a, rfl, ho⟩
    · cases hs

/-- **C11.** `(set! name expr)` on an environment chain.  If no frame of the chain binds
`name`, the form fails with `NameError` before `expr` is evaluated (whatever the evaluator
and the duplicator are), so nothing is changed.  Otherwise (`AssignsInnermost`) it
overwrites the binding of `name` in the innermost frame that binds it with the duplicate
`Copy` makes of the value of `expr`, leaves the keys and the other bindings of that frame,
every other frame and every other object as they are, and returns the previous value. -/
theorem set_overwrites_innermost_binding (eval : CalcFn) (n fuel : Nat) (h h1 h2 : Heap)
    (obj scope front back v c : Ptr) (name : String)
    (frames frames1 : List (Nat × List (String × Ptr)))
    (hv : ToVector fuel h obj = .ok [front, back]) (hs : GetSymbol h front = .ok name)
    (hc : chain h scope frames = true) (hfuel : frames.length ≤ fuel)
    (he : eval h back scope = .ok (h1, v)) (hf : h1.Fresh)
    (hs1 : GetSymbol h1 front = .ok name) (hc1 : chain h1 scope frames1 = true)
    (hfuel1 : frames1.length ≤ fuel) (hcp : Copy n h1 v = .ok (h2, c)) :
    ((∀ f ∈ frames, f.2.lookup name = none) →
        ∀ (eval2 : CalcFn) (copy2 : CopyFn),
          Set.call eval2 copy2 fuel h obj scope = .error .NameError) ∧
      AssignsInnermost h1 h2 scope name c frames frames1
        (Set.call eval (Copy n) fuel h obj scope) ∧
      (v = none → c = none) ∧ (∀ a, c = some a → h1.obj? a = none ∧ (h2.obj? a).isSome) := by
  have post := Copy_post n h1 v h2 c hf hcp
  refine ⟨?_, ?_, post.2.2.1, ?_⟩
  · intro hall eval2 copy2
    unfold Set.call
    simp only [hv, hs, RequiresOnlyXArgumentsS, bind, Except.bind, pure, Except.pure,
      List.length_cons, List.length_nil, Get_chain_unbound hc hfuel hall]
    rfl
  · intro pre b d post_ prev pre1 b1 d1 post1 old hfr hpre hd hfr1 hpre1 hd1
    have hget := Get_chain_first hc hfuel hfr hpre hd
    obtain ⟨fa, rfl, hfa⟩ := GetSymbol_ok hs1
    have hs2 : GetSymbol h2 (some fa) = .ok name := by
      simp only [GetSymbol, (post.1.2.2 fa (obj?_lt_next hf hfa)).trans hfa]
    have hsame : ∀ f ∈ frames1, h2.obj? f.1 = h1.obj? f.1 := by
      intro f hfm
      obtain ⟨l1, l2, hsplit⟩ := List.append_of_mem hfm
      rw [hsplit] at hc1
      obtain ⟨p, hp⟩ := chain_suffix h1 l1 _ scope hc1
      obtain ⟨u, _, ho, _⟩ := chain_some (b := f.1) (d := f.2) hp
      exact post.1.2.2 f.1 (obj?_lt_next hf ho)
    have hc2 : chain h2 scope frames1 = true := chain_congr frames1 scope hc1 hsame
    have hget2 := Get_chain_first hc2 hfuel1 hfr1 hpre1 hd1
    rw [hfr1] at hc2
    obtain ⟨u, ho, hch⟩ := chain_update (mapSet d1 name c) pre1 scope hc2
    refine ⟨h2.update b1 (.NameSpace (mapSet d1 name c) u), ?_, hch,
      lookup_mapSet_self name c d1, keys_mapSet_bound name c d1 (by rw [hd1]; simp),
      fun m hm => lookup_mapSet_other m name c hm d1,
      fun a ha => obj?_update_other h2 _ ha,
      fun a ha hab => (obj?_update_other h2 _ hab).trans (post.1.2.2 a ha)⟩
    unfold Set.call
    simp only [hv, hs, RequiresOnlyXArgumentsS, bind, Except.bind, pure, Except.pure,
      List.length_cons, List.length_nil, hget, he, hcp, hs2, hget2, NameSpace.Set, ho]
    rfl
  · intro a ha
    have hb := post.2.1 a ha
    refine ⟨?_, hb.2⟩
    unfold Heap.obj?
    rw [find_none_of_fresh hf hb.1]
    rfl

end Scheme
namespace Scheme

set_option maxRecDepth 100000

/-- Witness for C11: `(set! y 7)` evaluated in the local frame of `assignHeap`, which does
not bind `y`: the binding of the global frame is overwritten with the new number at
address 9, the local frame is untouched, and the form returns the old value (address 3).
On a fresh interpreter, a `set!` inside a closure changes the global binding, a `set!` of a
parameter changes only the closure's frame, and a `set!` of an unbound name fails. -/
theorem set_overwrites_innermost_binding_witness :
    (∃ h3, Set.call (Calc 5) (Copy 5) 5 assignHeap (some 5) (some 1) = .ok (h3, some 3) ∧
        chain h3 (some 1) [(1, [("x", some 4)]), (0, [("x", some 2), ("y", some 9)])] = true ∧
        h3.obj? 9 = some (.Number 7) ∧ h3.obj? 3 = some (.Number 2)) ∧
      Interpreter.RunAll 40 Interpreter.new
          ["(define x 1)", "(define (f y) (set! x (+ y 1)))", "(f 5)", "x",
            "(define (g x) (set! x 7))", "(g 2)", "x"] =
        .ok ["x", "f", "1", "6", "g", "2", "6"] ∧
      Interpreter.RunAll 40 Interpreter.new ["(set! z 1)"] = .error .NameError := by
  refine ⟨?_, by rfl, by rfl⟩
  obtain ⟨h3, hres, hch, _, _, _, h2, _⟩ :=
    (set_overwrites_innermost_binding (Calc 5) 5 5 assignHeap assignHeap
      (assignHeap.Make (.Number 7)).1 (some 5) (some 1) (some 6) (some 8) (some 8) (some 9) "y"
      [(1, [("x", some 4)]), (0, [("x", some 2), ("y", some 3)])]
      [(1, [("x", some 4)]), (0, [("x", some 2), ("y", some 3)])]
      rfl rfl (by decide) (by decide) rfl (by decide) rfl (by decide) (by decide) rfl).2.1
      [(1, [("x", some 4)])] 0 [("x", some 2), ("y", some 3)] [] (some 3)
      [(1, [("x", some 4)])] 0 [("x", some 2), ("y", some 3)] [] (some 3)
      rfl (by decide) rfl rfl (by decide) rfl
  exact ⟨h3, hres, hch, (h2 9 (by decide)).trans (by decide), (h2 3 (by decide)).trans (by decide)⟩

end Scheme
namespace Scheme

set_option maxRecDepth 100000

theorem IsSymbol_of_GetSymbol {h : Heap} {p : Ptr} {name : String}
    (hs : GetSymbol h p = .ok name) : IsSymbol h p = true := by
  obtain ⟨a, rfl, ho⟩ := GetSymbol_ok hs
  simp [IsSymbol, ho]

/-- **C12.** Value-form `(define sym expr)` in the frame `s` (bindings `d`, ancestors
`parents`).  With `v` the value of `expr` and `c` the duplicate `Copy` makes of it, the form
returns the symbol `sym` itself; afterwards the chain is the same list of frames with the
bindings of `s` alone replaced by `mapSet d name c`, so lookup of the name from `s` yields
`c` in `s` whether or not an ancestor binds the name, the other bindings of `s` are
unchanged, and every object other than the frame `s` (every ancestor among them) is as
`Copy` left it, which is as it was for every object that existed before. -/
theorem define_binds_in_local_frame_only (eval : CalcFn) (n fuel fuel2 : Nat) (h h1 h2 : Heap)
    (s : Nat) (obj front back v c : Ptr) (name : String) (d : List (String × Ptr))
    (parents : List (Nat × List (String × Ptr)))
    (hv : ToVector fuel h obj = .ok [front, back]) (hs : GetSymbol h front = .ok name)
    (he : eval h back (some s) = .ok (h1, v)) (hf : h1.Fresh)
    (hs1 : GetSymbol h1 front = .ok name)
    (hc1 : chain h1 (some s) ((s, d) :: parents) = true) (hfuel2 : parents.length < fuel2)
    (hcp : Copy n h1 v = .ok (h2, c)) :
    ∃ h3, Define.call eval (Copy n) fuel h obj (some s) = .ok (h3, front) ∧
      GetSymbol h3 front = .ok name ∧
      chain h3 (some s) ((s, mapSet d name c) :: parents) = true ∧
      NameSpace.Get fuel2 h3 (some s) name = .ok (s, c) ∧
      (∀ m, m ≠ name → (mapSet d name c).lookup m = d.lookup m) ∧
      (∀ a, a ≠ s → h3.obj? a = h2.obj? a) ∧
      (∀ a, a < h1.next → a ≠ s → h3.obj? a = h1.obj? a) ∧
      (v = none → c = none) ∧
      (∀ a, c = some a → h1.obj? a = none ∧ (h3.obj? a).isSome) := by
  have post := Copy_post n h1 v h2 c hf hcp
  obtain ⟨fa, rfl, hfa⟩ := GetSymbol_ok hs1
  have hfa2 : h2.obj? fa = some (.Symbol name) :=
    (post.1.2.2 fa (obj?_lt_next hf hfa)).trans hfa
  have hsame : ∀ f ∈ (s, d) :: parents, h2.obj? f.1 = h1.obj? f.1 := by
    intro f hfm
    obtain ⟨l1, l2, hsplit⟩ := List.append_of_mem hfm
    rw [hsplit] at hc1
    obtain ⟨p, hp⟩ := chain_suffix h1 l1 _ (some s) hc1
    obtain ⟨u, _, ho, _⟩ := chain_some (b := f.1) (d := f.2) hp
    exact post.1.2.2 f.1 (obj?_lt_next hf ho)
  have hc2 : chain h2 (some s) ([] ++ (s, d) :: parents) = true :=
    chain_congr _ _ hc1 hsame
  obtain ⟨u, ho, hch⟩ := chain_update (mapSet d name c) [] (some s) hc2
  have hfs : fa ≠ s := by
    intro e
    subst e
    rw [hfa2] at ho
    cases ho
  have hfa3 : (h2.update s (.NameSpace (mapSet d name c) u)).obj? fa = some (.Symbol name) :=
    (obj?_update_other h2 _ hfs).trans hfa2
  refine ⟨h2.update s (.NameSpace (mapSet d name c) u), ?_, by simp only [GetSymbol, hfa3],
    hch, ?_, fun m hm => lookup_mapSet_other m name c hm d,
    fun a ha => obj?_update_other h2 _ ha,
    fun a ha hab => (obj?_update_other h2 _ hab).trans (post.1.2.2 a ha), post.2.2.1, ?_⟩
  · rw [Define_call_eq eval (Copy n) fuel h obj (some s) (some fa) back hv
      (IsSymbol_of_GetSymbol hs), he]
    simp only [hcp, DefineHelper, GetSymbol, hfa2, NameSpace.Set, ho]
  · exact @Get_chain_first _ _ _ _ _ [] _ _ _ _ hch (by simpa using hfuel2) rfl (by simp)
      (lookup_mapSet_self name c d)
  · intro a ha
    have hb := post.2.1 a ha
    refine ⟨?_, ?_⟩
    · unfold Heap.obj?
      rw [find_none_of_fresh hf hb.1]
      rfl
    · have has : a ≠ s := by
        have := obj?_lt_next post.1.2.1 ho
        intro e
        subst e
        have hs1lt : a < h1.next := by
          obtain ⟨u1, _, ho1, _⟩ := chain_some hc1
          exact obj?_lt_next hf ho1
        omega
      rw [obj?_update_other h2 _ has]
      exact hb.2

/-- Witness for C12: `(define y 7)` evaluated in the local frame of `assignHeap`, which does
not bind `y` while its parent does: the local frame gains the binding, the parent keeps its
own.  On a fresh interpreter a `define` inside a closure body leaves the global binding of
the same name as it was. -/
theorem define_binds_in_local_frame_only_witness :
    (∃ h3, Define.call (Calc 5) (Copy 5) 5 assignHeap (some 5) (some 1) = .ok (h3, some 6) ∧
        GetSymbol h3 (some 6) = .ok "y" ∧
        chain h3 (some 1)
            [(1, [("x", some 4), ("y", some 9)]), (0, [("x", some 2), ("y", some 3)])] = true ∧
        NameSpace.Get 2 h3 (some 1) "y" = .ok (1, some 9) ∧ h3.obj? 9 = some (.Number 7)) ∧
      Interpreter.RunAll 40 Interpreter.new
          ["(define x 1)", "(define (f y) (define x y) x)", "(f 5)", "x"] =
        .ok ["x", "f", "5", "1"] := by
  refine ⟨?_, by rfl⟩
  obtain ⟨h3, hres, hsym, hch, hget, _, h2, _⟩ :=
    define_binds_in_local_frame_only (Calc 5) 5 5 2 assignHeap assignHeap
      (assignHeap.Make (.Number 7)).1 1 (some 5) (some 6) (some 8) (some 8) (some 9) "y"
      [("x", some 4)] [(0, [("x", some 2), ("y", some 3)])]
      rfl rfl rfl (by decide) rfl (by decide) (by decide) rfl
  exact ⟨h3, hres, hsym, hch, hget, (h2 9 (by decide)).trans (by decide)⟩

end Scheme
namespace Scheme

/-! ## Conditionals: `if`, `or`, `and` -/

set_option maxRecDepth 100000

theorem ToBool_false_iff (h : Heap) (p : Ptr) :
    ToBool h p = false ↔ ∃ a, p = some a ∧ h.obj? a = some (.Boolean false) := by
  cases p with
  | none => simp [ToBool]
  | some a =>
    unfold ToBool
    simp only
    split
    · rename_i ho
      simp [ho]
    · rename_i hne
      simp only [Bool.true_eq_false, false_iff]
      rintro ⟨b, hb, ho⟩
      cases hb
      exact hne ho

/-- **C13.** `(if c t)` and `(if c t e)`: with `cv` the value of the condition `c`, evaluated
in the heap `h` the form was entered with, the form is the evaluation of `t` in the heap
`h1` the condition left whenever `cv` is not the Boolean false (in particular when it is a
number, `0` included, or the empty list); when `cv` is the Boolean false it is the
evaluation of `e` in `h1`, or the empty list in `h1` when there is no `e`.  Nothing is
assumed about the evaluator on the other branch: the result does not depend on it. -/
theorem if_selects_branch (eval : CalcFn) (fuel : Nat) (h h1 : Heap) (obj scope c t cv : Ptr)
    (rest : List Ptr) (hv : ToVector fuel h obj = .ok (c :: t :: rest))
    (hlen : rest.length ≤ 1) (hc : eval h c scope = .ok (h1, cv)) :
    (ToBool h1 cv = false ↔ ∃ a, cv = some a ∧ h1.obj? a = some (.Boolean false)) ∧
      (cv = none → ToBool h1 cv = true) ∧
      (∀ a k, cv = some a → h1.obj? a = some (.Number k) → ToBool h1 cv = true) ∧
      (ToBool h1 cv = true → If.call eval fuel h obj scope = eval h1 t scope) ∧
      (ToBool h1 cv = false → ∀ e, rest = [e] →
        If.call eval fuel h obj scope = eval h1 e scope) ∧
      (ToBool h1 cv = false → rest = [] → If.call eval fuel h obj scope = .ok (h1, none)) := by
  have hreq : RequiresOnlyLRArgumentsS (c :: t :: rest) 2 3 = .ok () := by
    unfold RequiresOnlyLRArgumentsS
    simp only [List.length_cons]
    rw [if_neg (by omega)]
  refine ⟨ToBool_false_iff h1 cv, ?_, ?_, ?_, ?_, ?_⟩
  · rintro rfl
    rfl
  · rintro a k rfl ho
    simp [ToBool, ho]
  · intro hb
    unfold If.call
    simp only [hv, hreq, bind, Except.bind, hc, hb, if_true]
  · intro hb e hr
    subst hr
    unfold If.call
    simp only [hv, hreq, bind, Except.bind, hc, hb]
    rfl
  · intro hb hr
    subst hr
    unfold If.call
    simp only [hv, hreq, bind, Except.bind, hc, hb]
    rfl

/-- Witness for C13: `(if 0 1 u)` in `branchHeap`, where `u` is unbound: the condition `0`
selects the branch `1` and `u` is not evaluated.  On a fresh interpreter `0` and the empty
list select the first branch, a false condition without a second branch gives the empty
list, and an unbound symbol in the branch not selected is harmless. -/
theorem if_selects_branch_witness :
    If.call (Calc 5) 5 branchHeap (some 7) (some 0) = Calc 5 branchHeap (some 2) (some 0) ∧
      If.call (Calc 5) 5 branchHeap (some 7) (some 0) = .ok (branchHeap, some 2) ∧
      Calc 5 branchHeap (some 4) (some 0) = .error .NameError ∧
      Interpreter.RunAll 40 Interpreter.new
          ["(if 0 1 2)", "(if (quote ()) 1 2)", "(if #f 1 2)", "(if #f 1)", "(if #t 1 u)",
            "(if #f u 2)", "(if (< 2 1) (car 1) (quote no))"] =
        .ok ["1", "1", "2", "()", "1", "2", "no"] :=
  ⟨(if_selects_branch (Calc 5) 5 branchHeap branchHeap (some 7) (some 0) (some 1) (some 2)
      (some 1) [some 4] rfl (by decide) rfl).2.2.2.1 rfl, by rfl, by rfl, by rfl⟩

end Scheme
namespace Scheme

set_option maxRecDepth 100000

theorem evalWhile_cons {eval : CalcFn} {scope : Ptr} {test : Heap → Ptr → Bool} {h h2 : Heap}
    {x : Ptr} {xs : List Ptr} (hw : evalWhile eval scope test h (x :: xs) = some h2) :
    ∃ h1 v, eval h x scope = .ok (h1, v) ∧ test h1 v = true ∧
      evalWhile eval scope test h1 xs = some h2 := by
  unfold evalWhile at hw
  split at hw
  · rename_i h1 v he
    split at hw
    · rename_i ht
      exact ⟨h1, v, he, ht, hw⟩
    · cases hw
  · cases hw

theorem orLoop_skip (eval : CalcFn) (scope : Ptr) (size : Nat) (rest : List Ptr) :
    ∀ (pre : List Ptr) (h h1 : Heap) (temp : Nat),
      evalWhile eval scope (fun g v => !ToBool g v) h pre = some h1 →
      orLoop eval scope size h temp (pre ++ rest) =
        orLoop eval scope size h1 (temp + pre.length) rest := by
  intro pre
  induction pre with
  | nil =>
    intro h h1 temp hw
    simp only [evalWhile, Option.some.injEq] at hw
    subst hw
    rfl
  | cons x xs ih =>
    intro h h1 temp hw
    obtain ⟨h0, v, he, ht, hw1⟩ := evalWhile_cons hw
    have hb : ToBool h0 v = false := by simpa using ht
    rw [List.cons_append, orLoop, he]
    simp only [hb, Bool.false_eq_true, if_false]
    rw [ih h0 h1 (temp + 1) hw1, List.length_cons]
    congr 1
    omega

/-- **C14.** `or` on the operand list `args`.  If the operands before `x` evaluate, left to
right, to values that are all the Boolean false, and `x` evaluates to a value `v` that is
not, the result is `v` itself when `x` is the last operand and a new Boolean true when it
is not, whatever the operands after `x` are (they are not evaluated); if evaluating `x`
fails, the form fails with that error.  If every operand evaluates to the Boolean false,
in particular if there is none, the result is a new Boolean false. -/
theorem or_first_truthy (eval : CalcFn) (fuel : Nat) (h : Heap) (obj scope : Ptr)
    (args : List Ptr) (hv : ToVector fuel h obj = .ok args) :
    (∀ pre x post h1 h2 v, args = pre ++ x :: post →
        evalWhile eval scope (fun g w => !ToBool g w) h pre = some h1 →
        eval h1 x scope = .ok (h2, v) → ToBool h2 v = true →
        (post = [] → Or.call eval fuel h obj scope = .ok (h2, v)) ∧
          (post ≠ [] → Or.call eval fuel h obj scope = .ok (TrueObject h2))) ∧
      (∀ pre x post h1 e, args = pre ++ x :: post →
        evalWhile eval scope (fun g w => !ToBool g w) h pre = some h1 →
        eval h1 x scope = .error e → Or.call eval fuel h obj scope = .error e) ∧
      (∀ h1, evalWhile eval scope (fun g w => !ToBool g w) h args = some h1 →
        Or.call eval fuel h obj scope = .ok (FalseObject h1)) ∧
      (args = [] → Or.call eval fuel h obj scope = .ok (FalseObject h)) := by
  have hcall : Or.call eval fuel h obj scope = orLoop eval scope args.length h 0 args := by
    unfold Or.call
    simp only [hv, bind, Except.bind]
  refine ⟨?_, ?_, ?_, ?_⟩
  · intro pre x post h1 h2 v hargs hw he hb
    rw [hcall, hargs, orLoop_skip eval scope _ (x :: post) pre h h1 0 hw, orLoop, he]
    simp only [hb, if_true, List.length_append, List.length_cons, Nat.zero_add]
    constructor
    · rintro rfl
      simp
    · intro hne
      have : 0 < post.length := List.length_pos.mpr hne
      rw [if_neg (by omega)]
  · intro pre x post h1 e hargs hw he
    rw [hcall, hargs, orLoop_skip eval scope _ (x :: post) pre h h1 0 hw, orLoop, he]
  · intro h1 hw
    have := orLoop_skip eval scope args.length [] args h h1 0 hw
    rw [List.append_nil] at this
    rw [hcall, this]
    rfl
  · rintro rfl
    rw [hcall]
    rfl

/-- Witness for C14: in `branchHeap`, `(or #f 1 u)` gives a new Boolean true without
evaluating the unbound `u`, and `(or #f 1)` gives the value of `1` itself.  On a fresh
interpreter `(or 1 2 3)` prints `#t` and `(or #f 3)` prints `3`. -/
theorem or_first_truthy_witness :
    Or.call (Calc 5) 5 branchHeap (some 8) (some 0) = .ok (TrueObject branchHeap) ∧
      Or.call (Calc 5) 5 branchHeap (some 10) (some 0) = .ok (branchHeap, some 2) ∧
      Interpreter.RunAll 40 Interpreter.new
          ["(or 1 2 3)", "(or #f 3)", "(or)", "(or #f #f)", "(or #f 0 u)", "(or 5)",
            "(or #f (quote (1)))", "(or (quote (1)) #f)"] =
        .ok ["#t", "3", "#f", "#f", "#t", "5", "(1)", "#t"] :=
  ⟨((or_first_truthy (Calc 5) 5 branchHeap (some 8) (some 0) [some 3, some 2, some 4] rfl).1
      [some 3] (some 2) [some 4] branchHeap branchHeap (some 2) rfl rfl rfl rfl).2 (by simp),
    by rfl, by rfl⟩

end Scheme
namespace Scheme

set_option maxRecDepth 100000

theorem andLoop_skip (eval : CalcFn) (scope : Ptr) (x : Ptr) (post : List Ptr) :
    ∀ (pre : List Ptr) (h h1 : Heap) (last : Ptr),
      evalWhile eval scope ToBool h pre = some h1 →
      ∃ last1, andLoop eval scope h (pre ++ x :: post) last =
        andLoop eval scope h1 (x :: post) last1 := by
  intro pre
  induction pre with
  | nil =>
    intro h h1 last hw
    simp only [evalWhile, Option.some.injEq] at hw
    subst hw
    exact ⟨last, rfl⟩
  | cons y ys ih =>
    intro h h1 last hw
    obtain ⟨h0, v, he, ht, hw1⟩ := evalWhile_cons hw
    obtain ⟨last1, hl⟩ := ih h0 h1 v hw1
    refine ⟨last1, ?_⟩
    rw [List.cons_append, andLoop, he]
    simp only [ht, Bool.not_true, Bool.false_eq_true, if_false]
    exact hl

/-- **C15.** `and` on the operand list `args`.  With no operand the result is a new
Boolean true.  If the operands before `x` evaluate, left to right, to values none of which
is the Boolean false, then: if `x` evaluates to the Boolean false the result is a new
Boolean false, whatever the operands after `x` are (they are not evaluated); if `x` is the
last operand and its value `v` is not the Boolean false the result is `v` itself; and if
evaluating `x` fails the form fails with that error. -/
theorem and_first_false (eval : CalcFn) (fuel : Nat) (h : Heap) (obj scope : Ptr)
    (args : List Ptr) (hv : ToVector fuel h obj = .ok args) :
    (args = [] → And.call eval fuel h obj scope = .ok (TrueObject h)) ∧
      (∀ pre x post h1 h2 v, args = pre ++ x :: post →
        evalWhile eval scope ToBool h pre = some h1 →
        eval h1 x scope = .ok (h2, v) → ToBool h2 v = false →
        And.call eval fuel h obj scope = .ok (FalseObject h2)) ∧
      (∀ pre x h1 h2 v, args = pre ++ [x] →
        evalWhile eval scope ToBool h pre = some h1 →
        eval h1 x scope = .ok (h2, v) → ToBool h2 v = true →
        And.call eval fuel h obj scope = .ok (h2, v)) ∧
      (∀ pre x post h1 e, args = pre ++ x :: post →
        evalWhile eval scope ToBool h pre = some h1 →
        eval h1 x scope = .error e → And.call eval fuel h obj scope = .error e) := by
  have hcall : ∀ pre x post, args = pre ++ x :: post →
      And.call eval fuel h obj scope = andLoop eval scope h args none := by
    intro pre x post hargs
    unfold And.call
    simp only [hv, bind, Except.bind]
    rw [if_neg]
    rw [hargs]
    simp
  refine ⟨?_, ?_, ?_, ?_⟩
  · rintro rfl
    unfold And.call
    simp only [hv, bind, Except.bind, List.isEmpty_nil, if_true]
    rfl
  · intro pre x post h1 h2 v hargs hw he hb
    obtain ⟨last1, hl⟩ := andLoop_skip eval scope x post pre h h1 none hw
    rw [hcall pre x post hargs, hargs, hl, andLoop, he]
    simp only [hb, Bool.not_false, if_true]
  · intro pre x h1 h2 v hargs hw he hb
    obtain ⟨last1, hl⟩ := andLoop_skip eval scope x [] pre h h1 none hw
    rw [hcall pre x [] hargs, hargs, hl, andLoop, he]
    simp only [hb, Bool.not_true, Bool.false_eq_true, if_false]
    rfl
  · intro pre x post h1 e hargs hw he
    obtain ⟨last1, hl⟩ := andLoop_skip eval scope x post pre h h1 none hw
    rw [hcall pre x post hargs, hargs, hl, andLoop, he]

/-- Witness for C15: in `branchHeap`, `(and 1 #f u)` gives a new Boolean false without
evaluating the unbound `u`, and `(and 0 1)` gives the value of `1` itself.  On a fresh
interpreter `(and)` prints `#t` and `(and 1 2 3)` prints `3`. -/
theorem and_first_false_witness :
    And.call (Calc 5) 5 branchHeap (some 12) (some 0) = .ok (FalseObject branchHeap) ∧
      And.call (Calc 5) 5 branchHeap (some 13) (some 0) = .ok (branchHeap, some 2) ∧
      Interpreter.RunAll 40 Interpreter.new
          ["(and)", "(and 1 2 3)", "(and 1 #f u)", "(and #f u)", "(and 0)",
            "(and (quote ()) (quote (1)))", "(and 1 (= 1 2))"] =
        .ok ["#t", "3", "#f", "#f", "0", "(1)", "#f"] :=
  ⟨(and_first_false (Calc 5) 5 branchHeap (some 12) (some 0) [some 2, some 3, some 4] rfl).2.1
      [some 2] (some 3) [some 4] branchHeap branchHeap (some 3) rfl rfl rfl rfl,
    by rfl, by rfl⟩

end Scheme
namespace Scheme

/-! ## Integer arithmetic: `+`, `*`, `-`, `/` -/

set_option maxRecDepth 100000

theorem wrap64_of_range {x : Int} (h1 : -2 ^ 63 ≤ x) (h2 : x < 2 ^ 63) : wrap64 x = x := by
  unfold wrap64
  omega

theorem wrap64_idem (x : Int) : wrap64 (wrap64 x) = wrap64 x := by
  unfold wrap64
  omega

theorem wrap64_add_left (a b : Int) : wrap64 (wrap64 a + b) = wrap64 (a + b) := by
  unfold wrap64
  omega

theorem wrap64_sub_left (a b : Int) : wrap64 (wrap64 a - b) = wrap64 (a - b) := by
  unfold wrap64
  omega

theorem wrap64_shift (x k : Int) : wrap64 (x + 2 ^ 64 * k) = wrap64 x := by
  unfold wrap64
  rw [show x + 2 ^ 64 * k + 2 ^ 63 = (x + 2 ^ 63) + 2 ^ 64 * k by ring,
    Int.add_mul_emod_self_left]

theorem wrap64_mul_left (a b : Int) : wrap64 (wrap64 a * b) = wrap64 (a * b) := by
  have hk : wrap64 a = a + 2 ^ 64 * (-((a + 2 ^ 63) / 2 ^ 64)) := by
    unfold wrap64
    rw [Int.emod_def]
    ring
  rw [hk, show (a + 2 ^ 64 * (-((a + 2 ^ 63) / 2 ^ 64))) * b =
    a * b + 2 ^ 64 * (-((a + 2 ^ 63) / 2 ^ 64) * b) by ring, wrap64_shift]

theorem foldNumbers_plus (h : Heap) :
    ∀ (vals : List Ptr) (ns : List Int) (acc : Int),
      List.Forall₂ (fun v n => GetNumber h v = .ok n) vals ns →
      foldNumbers plus64 h acc vals = .ok (ns.foldl (fun r n => wrap64 (r + n)) acc) := by
  intro vals ns acc hall
  induction hall generalizing acc with
  | nil => rfl
  | cons hv _ ih =>
    simp only [foldNumbers, hv, plus64, List.foldl_cons]
    exact ih _

theorem foldNumbers_multiplies (h : Heap) :
    ∀ (vals : List Ptr) (ns : List Int) (acc : Int),
      List.Forall₂ (fun v n => GetNumber h v = .ok n) vals ns →
      foldNumbers multiplies64 h acc vals = .ok (ns.foldl (fun r n => wrap64 (r * n)) acc) := by
  intro vals ns acc hall
  induction hall generalizing acc with
  | nil => rfl
  | cons hv _ ih =>
    simp only [foldNumbers, hv, multiplies64, List.foldl_cons]
    exact ih _

theorem foldl_plus_wrap :
    ∀ (ns : List Int) (acc : Int),
      wrap64 (ns.foldl (fun r n => wrap64 (r + n)) acc) = wrap64 (acc + ns.sum) := by
  intro ns
  induction ns with
  | nil => intro acc; simp
  | cons n ns ih =>
    intro acc
    rw [List.foldl_cons, ih, wrap64_add_left, List.sum_cons, add_assoc]

theorem foldl_multiplies_wrap :
    ∀ (ns : List Int) (acc : Int),
      wrap64 (ns.foldl (fun r n => wrap64 (r * n)) acc) = wrap64 (acc * ns.prod) := by
  intro ns
  induction ns with
  | nil => intro acc; simp
  | cons n ns ih =>
    intro acc
    rw [List.foldl_cons, ih, wrap64_mul_left, List.prod_cons, mul_assoc]

theorem foldl_wrapped (f : Int → Int → Int) :
    ∀ (ns : List Int) (acc : Int), wrap64 acc = acc →
      wrap64 (ns.foldl (fun r n => wrap64 (f r n)) acc) =
        ns.foldl (fun r n => wrap64 (f r n)) acc := by
  intro ns
  induction ns with
  | nil => intro acc hacc; exact hacc
  | cons n ns ih =>
    intro acc _
    rw [List.foldl_cons]
    exact ih _ (wrap64_idem _)

theorem GetNumber_error {h : Heap} {v : Ptr} (hn : IsNumber h v = false) :
    GetNumber h v = .error .RuntimeError := by
  cases v with
  | none => rfl
  | some a =>
    unfold IsNumber at hn
    unfold GetNumber
    simp only at hn ⊢
    split
    · rename_i k ho
      simp [ho] at hn
    · rfl

theorem GetNumber_cases (h : Heap) (v : Ptr) :
    (∃ n, GetNumber h v = .ok n) ∨ GetNumber h v = .error .RuntimeError := by
  cases v with
  | none => exact Or.inr rfl
  | some a =>
    unfold GetNumber
    simp only
    split
    · exact Or.inl ⟨_, rfl⟩
    · exact Or.inr rfl

theorem foldNumbers_error (func : Int → Int → Except Err Int)
    (hfunc : ∀ a b, ∃ r, func a b = .ok r) (h : Heap) :
    ∀ (vals : List Ptr) (acc : Int), (∃ v ∈ vals, IsNumber h v = false) →
      foldNumbers func h acc vals = .error .RuntimeError := by
  intro vals
  induction vals with
  | nil => intro acc hex; simp at hex
  | cons v vs ih =>
    intro acc hex
    rcases GetNumber_cases h v with ⟨n, hn⟩ | hn
    · obtain ⟨r, hr⟩ := hfunc acc n
      simp only [foldNumbers, hn, hr]
      apply ih
      obtain ⟨w, hw, hwn⟩ := hex
      rcases List.mem_cons.mp hw with rfl | hw
      · rw [GetNumber_error hwn] at hn
        cases hn
      · exact ⟨w, hw, hwn⟩
    · simp only [foldNumbers, hn]

theorem foldCall_eq (func : Int → Int → Except Err Int) (neutral : Int) (eval : CalcFn)
    (fuel : Nat) (h h1 : Heap) (obj scope : Ptr) (args vals : List Ptr)
    (hv : ToVector fuel h obj = .ok args) (hcv : CalcVector eval h args scope = .ok (h1, vals)) :
    foldCall func neutral eval fuel h obj scope =
      match foldNumbers func h1 neutral vals with
      | .ok r => .ok (MakeNumber h1 r)
      | .error e => .error e := by
  unfold foldCall CalcNumberListToInt
  simp only [hv, hcv, bind, Except.bind, Except.map]
  cases foldNumbers func h1 neutral vals <;> rfl

/-- **C16.** `+` and `*` on operands that evaluate, left to right, to `vals` in heap `h1`.
If the values are the integers `ns`, `(+ ...)` is a new number holding the left fold of
64-bit addition from `0` over `ns`, which is the sum of `ns` reduced to 64 bits (the sum
itself when it is in range), and `(* ...)` a new number holding the left fold of 64-bit
multiplication from `1`, which is the product reduced to 64 bits; with no operand they are
`0` and `1`.  If some value is not an integer both fail with `RuntimeError`. -/
theorem plus_multiplies_fold (eval : CalcFn) (copy : CopyFn) (fuel : Nat) (h h1 : Heap)
    (obj scope : Ptr) (args vals : List Ptr) (hv : ToVector fuel h obj = .ok args)
    (hcv : CalcVector eval h args scope = .ok (h1, vals)) :
    (∀ ns : List Int, List.Forall₂ (fun v n => GetNumber h1 v = .ok n) vals ns →
        Builtin.call .Plus eval copy fuel h obj scope =
            .ok (MakeNumber h1 (ns.foldl (fun r n => wrap64 (r + n)) 0)) ∧
          ns.foldl (fun r n => wrap64 (r + n)) 0 = wrap64 (0 + ns.sum) ∧
          (-2 ^ 63 ≤ ns.sum → ns.sum < 2 ^ 63 →
            Builtin.call .Plus eval copy fuel h obj scope = .ok (MakeNumber h1 ns.sum)) ∧
          Builtin.call .Multiplies eval copy fuel h obj scope =
            .ok (MakeNumber h1 (ns.foldl (fun r n => wrap64 (r * n)) 1)) ∧
          ns.foldl (fun r n => wrap64 (r * n)) 1 = wrap64 (1 * ns.prod) ∧
          (-2 ^ 63 ≤ ns.prod → ns.prod < 2 ^ 63 →
            Builtin.call .Multiplies eval copy fuel h obj scope =
              .ok (MakeNumber h1 ns.prod))) ∧
      (args = [] → Builtin.call .Plus eval copy fuel h obj scope = .ok (MakeNumber h 0) ∧
        Builtin.call .Multiplies eval copy fuel h obj scope = .ok (MakeNumber h 1)) ∧
      ((∃ v ∈ vals, IsNumber h1 v = false) →
        Builtin.call .Plus eval copy fuel h obj scope = .error .RuntimeError ∧
          Builtin.call .Multiplies eval copy fuel h obj scope = .error .RuntimeError) := by
  have hp := foldCall_eq plus64 0 eval fuel h h1 obj scope args vals hv hcv
  have hm := foldCall_eq multiplies64 1 eval fuel h h1 obj scope args vals hv hcv
  refine ⟨?_, ?_, ?_⟩
  · intro ns hall
    have hps : ns.foldl (fun r n => wrap64 (r + n)) 0 = wrap64 (0 + ns.sum) := by
      rw [← foldl_plus_wrap ns 0]
      exact (foldl_wrapped (fun r n => r + n) ns 0 (by decide)).symm
    have hms : ns.foldl (fun r n => wrap64 (r * n)) 1 = wrap64 (1 * ns.prod) := by
      rw [← foldl_multiplies_wrap ns 1]
      exact (foldl_wrapped (fun r n => r * n) ns 1 (by decide)).symm
    have hpc : Builtin.call .Plus eval copy fuel h obj scope =
        .ok (MakeNumber h1 (ns.foldl (fun r n => wrap64 (r + n)) 0)) := by
      show foldCall plus64 0 eval fuel h obj scope = _
      rw [hp, foldNumbers_plus h1 vals ns 0 hall]
    have hmc : Builtin.call .Multiplies eval copy fuel h obj scope =
        .ok (MakeNumber h1 (ns.foldl (fun r n => wrap64 (r * n)) 1)) := by
      show foldCall multiplies64 1 eval fuel h obj scope = _
      rw [hm, foldNumbers_multiplies h1 vals ns 1 hall]
    refine ⟨hpc, hps, ?_, hmc, hms, ?_⟩
    · intro hlo hhi
      rw [hpc, hps, zero_add, wrap64_of_range hlo hhi]
    · intro hlo hhi
      rw [hmc, hms, one_mul, wrap64_of_range hlo hhi]
  · rintro rfl
    simp only [CalcVector, Except.ok.injEq, Prod.mk.injEq] at hcv
    obtain ⟨rfl, rfl⟩ := hcv
    constructor
    · show foldCall plus64 0 eval fuel h obj scope = _
      rw [hp]
      rfl
    · show foldCall multiplies64 1 eval fuel h obj scope = _
      rw [hm]
      rfl
  · intro hex
    constructor
    · show foldCall plus64 0 eval fuel h obj scope = _
      rw [hp, foldNumbers_error plus64 (fun a b => ⟨_, rfl⟩) h1 vals 0 hex]
    · show foldCall multiplies64 1 eval fuel h obj scope = _
      rw [hm, foldNumbers_error multiplies64 (fun a b => ⟨_, rfl⟩) h1 vals 1 hex]

/-- Witness for C16: the operands `(10 3 2)` of `numberHeap` give `15` and `60`, the
operands `(10 #t)` fail.  On a fresh interpreter `(+)` is `0`, `(*)` is `1`, and a sum or
product out of range wraps around. -/
theorem plus_multiplies_fold_witness :
    (Builtin.call .Plus (Calc 5) (Copy 5) 5 numberHeap (some 7) (some 0) =
        .ok (MakeNumber numberHeap 15) ∧
      Builtin.call .Multiplies (Calc 5) (Copy 5) 5 numberHeap (some 7) (some 0) =
        .ok (MakeNumber numberHeap 60)) ∧
      (Builtin.call .Plus (Calc 5) (Copy 5) 5 numberHeap (some 9) (some 0) =
          .error .RuntimeError ∧
        Builtin.call .Multiplies (Calc 5) (Copy 5) 5 numberHeap (some 9) (some 0) =
          .error .RuntimeError) ∧
      Interpreter.RunAll 40 Interpreter.new
          ["(+)", "(*)", "(+ 1 2 3)", "(* 2 3 4)", "(+ 9223372036854775807 1)",
            "(* 4611686018427387904 2)", "(+ 5)", "(* -3 (+ 1 1))"] =
        .ok ["0", "1", "6", "24", "-9223372036854775808", "-9223372036854775808", "5",
          "-6"] ∧
      Interpreter.RunAll 40 Interpreter.new ["(+ 1 #t)"] = .error .RuntimeError ∧
      Interpreter.RunAll 40 Interpreter.new ["(* (quote a) 2)"] = .error .RuntimeError := by
  have key := plus_multiplies_fold (Calc 5) (Copy 5) 5 numberHeap numberHeap (some 7) (some 0)
    [some 1, some 2, some 3] [some 1, some 2, some 3] rfl rfl
  have h1 := key.1 [10, 3, 2]
    (.cons rfl (.cons rfl (.cons rfl .nil)))
  refine ⟨⟨h1.2.2.1 (by decide) (by decide), h1.2.2.2.2.2 (by decide) (by decide)⟩,
    (plus_multiplies_fold (Calc 5) (Copy 5) 5 numberHeap numberHeap (some 9) (some 0)
      [some 1, some 4] [some 1, some 4] rfl rfl).2.2 ⟨some 4, by simp, rfl⟩,
    by rfl, by rfl, by rfl⟩

end Scheme
namespace Scheme

set_option maxRecDepth 100000

theorem foldNumbers_minus (h : Heap) :
    ∀ (vals : List Ptr) (ns : List Int) (acc : Int),
      List.Forall₂ (fun v n => GetNumber h v = .ok n) vals ns →
      foldNumbers minus64 h acc vals = .ok (ns.foldl (fun r n => wrap64 (r - n)) acc) := by
  intro vals ns acc hall
  induction hall generalizing acc with
  | nil => rfl
  | cons hv _ ih =>
    simp only [foldNumbers, hv, minus64, List.foldl_cons]
    exact ih _

theorem divides64_defined {a b : Int} (hb : b ≠ 0) (ho : ¬ (a = -(2 ^ 63) ∧ b = -1)) :
    divides64 a b = .ok (Int.tdiv a b) := by
  unfold divides64
  rw [if_neg hb, if_neg ho]

theorem foldNumbers_divides (h : Heap) :
    ∀ (vals : List Ptr) (ns : List Int) (acc : Int),
      List.Forall₂ (fun v n => GetNumber h v = .ok n) vals ns →
      quotientsDefined acc ns = true →
      foldNumbers divides64 h acc vals = .ok (ns.foldl Int.tdiv acc) := by
  intro vals ns acc hall
  induction hall generalizing acc with
  | nil => intro _; rfl
  | cons hv _ ih =>
    intro hq
    simp only [quotientsDefined, Bool.and_eq_true, decide_eq_true_eq, Bool.not_eq_true',
      Bool.and_eq_false_iff, decide_eq_false_iff_not] at hq
    obtain ⟨⟨hb, ho⟩, hrest⟩ := hq
    have hd := divides64_defined hb (fun hc => by rcases ho with ho | ho; exact ho hc.1; exact ho hc.2)
    simp only [foldNumbers, hv, hd, List.foldl_cons]
    exact ih _ hrest

theorem foldl_minus_wrap :
    ∀ (ns : List Int) (acc : Int),
      wrap64 (ns.foldl (fun r n => wrap64 (r - n)) acc) = wrap64 (acc - ns.sum) := by
  intro ns
  induction ns with
  | nil => intro acc; simp
  | cons n ns ih =>
    intro acc
    rw [List.foldl_cons, ih, wrap64_sub_left, List.sum_cons, sub_sub]

theorem quotientsDefined_of_nonzero :
    ∀ (ns : List Int) (a : Int), (∀ n ∈ ns, n ≠ 0) → a.natAbs < 2 ^ 63 →
      quotientsDefined a ns = true := by
  intro ns
  induction ns with
  | nil => intro _ _ _; rfl
  | cons b bs ih =>
    intro a hnz ha
    have hne : a ≠ -(2 ^ 63) := by
      intro e
      rw [e] at ha
      exact absurd ha (by decide)
    have hq : (Int.tdiv a b).natAbs < 2 ^ 63 := by
      rw [Int.natAbs_tdiv]
      exact lt_of_le_of_lt (Nat.div_le_self _ _) ha
    simp only [quotientsDefined, Bool.and_eq_true, decide_eq_true_eq, Bool.not_eq_true',
      Bool.and_eq_false_iff, decide_eq_false_iff_not]
    exact ⟨⟨hnz b (List.mem_cons_self _ _), Or.inl hne⟩,
      ih _ (fun n hn => hnz n (List.mem_cons_of_mem _ hn)) hq⟩

theorem irrevCall_eq (func : Int → Int → Except Err Int) (neutral : Int) (eval : CalcFn)
    (fuel : Nat) (h h1 : Heap) (obj scope x : Ptr) (args vals : List Ptr)
    (hv : ToVector fuel h obj = .ok (x :: args))
    (hcv : CalcVector eval h (x :: args) scope = .ok (h1, vals)) :
    irrevCall func neutral eval fuel h obj scope =
      match vals with
      | [] => .error .Undefined
      | [y] =>
        (match GetNumber h1 y with
         | .ok v => (func neutral v).map (fun r => MakeNumber h1 r)
         | .error e => .error e)
      | y :: rest =>
        (match GetNumber h1 y with
         | .ok v => (foldNumbers func h1 v rest).map (fun r => MakeNumber h1 r)
         | .error e => .error e) := by
  unfold irrevCall CalcIrrevNumberListToInt RequiresMinimumXArguments
  simp only [hv, hcv, bind, Except.bind, List.length_cons]
  rw [if_neg (by omega)]
  simp only
  match vals with
  | [] => rfl
  | [y] =>
    simp only
    cases GetNumber h1 y with
    | error e => rfl
    | ok v =>
      simp only
      cases func neutral v <;> rfl
  | y :: z :: rest =>
    simp only
    cases GetNumber h1 y with
    | error e => rfl
    | ok v =>
      simp only
      cases foldNumbers func h1 v (z :: rest) <;> rfl

/-- **C17.** `-` and `/` on operands that evaluate, left to right, to `vals` in heap `h1`.
With no operand both fail with `RuntimeError`.  If the only value is the integer `a`,
`(- a)` is a new number holding `0 - a` in 64-bit arithmetic and, for `a` not zero, `(/ a)`
one holding `1 / a`.  If the values are the integers `a, b1, ..., bk` with `k ≥ 1`,
`(- ...)` holds the left fold `((a - b1) - ...) - bk` of 64-bit subtraction, which is
`a - (b1 + ... + bk)` reduced to 64 bits, and `(/ ...)` holds the left fold
`((a / b1) / ...) / bk` of division truncated toward zero whenever every quotient is
defined in 64-bit arithmetic (`quotientsDefined`), which is so when no divisor is zero and
`a` is not the least 64-bit integer. -/
theorem minus_divides_fold (eval : CalcFn) (copy : CopyFn) (fuel : Nat) (h h1 : Heap)
    (obj scope : Ptr) (args vals : List Ptr) (hv : ToVector fuel h obj = .ok args)
    (hcv : CalcVector eval h args scope = .ok (h1, vals)) :
    (args = [] → Builtin.call .Minus eval copy fuel h obj scope = .error .RuntimeError ∧
        Builtin.call .Divides eval copy fuel h obj scope = .error .RuntimeError) ∧
      (∀ a : Int, List.Forall₂ (fun v n => GetNumber h1 v = .ok n) vals [a] →
        Builtin.call .Minus eval copy fuel h obj scope = .ok (MakeNumber h1 (wrap64 (0 - a))) ∧
          (a ≠ 0 → Builtin.call .Divides eval copy fuel h obj scope =
            .ok (MakeNumber h1 (Int.tdiv 1 a)))) ∧
      (∀ (a b : Int) (bs : List Int),
        List.Forall₂ (fun v n => GetNumber h1 v = .ok n) vals (a :: b :: bs) →
        Builtin.call .Minus eval copy fuel h obj scope =
            .ok (MakeNumber h1 ((b :: bs).foldl (fun r n => wrap64 (r - n)) a)) ∧
          (b :: bs).foldl (fun r n => wrap64 (r - n)) a = wrap64 (a - (b :: bs).sum) ∧
          (quotientsDefined a (b :: bs) = true →
            Builtin.call .Divides eval copy fuel h obj scope =
              .ok (MakeNumber h1 ((b :: bs).foldl Int.tdiv a))) ∧
          ((∀ n ∈ b :: bs, n ≠ 0) → a.natAbs < 2 ^ 63 →
            Builtin.call .Divides eval copy fuel h obj scope =
              .ok (MakeNumber h1 ((b :: bs).foldl Int.tdiv a)))) := by
  refine ⟨?_, ?_, ?_⟩
  · rintro rfl
    constructor
    · show irrevCall minus64 0 eval fuel h obj scope = _
      unfold irrevCall RequiresMinimumXArguments
      simp only [hv, bind, Except.bind, List.length_nil]
      rfl
    · show irrevCall divides64 1 eval fuel h obj scope = _
      unfold irrevCall RequiresMinimumXArguments
      simp only [hv, bind, Except.bind, List.length_nil]
      rfl
  · intro a hall
    cases hall with
    | cons hy hnil =>
      cases hnil
      cases args with
      | nil => simp [CalcVector] at hcv
      | cons x xs =>
        have hm := irrevCall_eq minus64 0 eval fuel h h1 obj scope x xs _ hv hcv
        have hd := irrevCall_eq divides64 1 eval fuel h h1 obj scope x xs _ hv hcv
        simp only [hy] at hm hd
        constructor
        · show irrevCall minus64 0 eval fuel h obj scope = _
          rw [hm]
          rfl
        · intro ha
          show irrevCall divides64 1 eval fuel h obj scope = _
          rw [hd, divides64_defined ha (fun hc => absurd hc.1 (by decide))]
          rfl
  · intro a b bs hall
    cases hall with
    | cons hy hrest =>
      rename_i y rest
      cases args with
      | nil => simp [CalcVector] at hcv
      | cons x xs =>
        have hm := irrevCall_eq minus64 0 eval fuel h h1 obj scope x xs _ hv hcv
        have hd := irrevCall_eq divides64 1 eval fuel h h1 obj scope x xs _ hv hcv
        cases hrest with
        | cons hz hrest2 =>
          rename_i z rest2
          have hall2 : List.Forall₂ (fun v n => GetNumber h1 v = .ok n) (z :: rest2) (b :: bs) :=
            .cons hz hrest2
          simp only [hy] at hm hd
          have hdq : quotientsDefined a (b :: bs) = true →
              Builtin.call .Divides eval copy fuel h obj scope =
                .ok (MakeNumber h1 ((b :: bs).foldl Int.tdiv a)) := by
            intro hq
            show irrevCall divides64 1 eval fuel h obj scope = _
            rw [hd, foldNumbers_divides h1 _ _ a hall2 hq]
            rfl
          refine ⟨?_, ?_, hdq, fun hnz ha => hdq (quotientsDefined_of_nonzero _ a hnz ha)⟩
          · show irrevCall minus64 0 eval fuel h obj scope = _
            rw [hm, foldNumbers_minus h1 _ _ a hall2]
            rfl
          · rw [← foldl_minus_wrap (b :: bs) a]
            exact (foldl_wrapped (fun r n => r - n) bs _ (wrap64_idem _)).symm

/-- Witness for C17: in `numberHeap` the operands `(10 3 2)` give `5`, the operands `(4 2)`
give the quotient `2` and the operand `(10)` gives `-10`.  On a fresh interpreter `(- 5)`
is `-5`, `(- 10 3 2)` is `5`, `(/ 4 2)` is `2`, division truncates toward zero, and `(-)`
and `(/)` fail. -/
theorem minus_divides_fold_witness :
    Builtin.call .Minus (Calc 5) (Copy 5) 5 numberHeap (some 7) (some 0) =
        .ok (MakeNumber numberHeap 5) ∧
      Builtin.call .Divides (Calc 5) (Copy 5) 5 numberHeap (some 11) (some 0) =
        .ok (MakeNumber numberHeap 2) ∧
      Builtin.call .Minus (Calc 5) (Copy 5) 5 numberHeap (some 12) (some 0) =
        .ok (MakeNumber numberHeap (-10)) ∧
      Interpreter.RunAll 40 Interpreter.new
          ["(- 5)", "(- 10 3 2)", "(/ 4 2)", "(/ 7 2)", "(/ -7 2)", "(/ 7 -2)", "(/ 5)",
            "(/ 1)", "(/ -1)", "(/ 100 5 2)", "(- -9223372036854775808)",
            "(- -9223372036854775808 1)"] =
        .ok ["-5", "5", "2", "3", "-3", "-3", "0", "1", "-1", "10", "-9223372036854775808",
          "9223372036854775807"] ∧
      Interpreter.RunAll 40 Interpreter.new ["(-)"] = .error .RuntimeError ∧
      Interpreter.RunAll 40 Interpreter.new ["(/)"] = .error .RuntimeError :=
  ⟨((minus_divides_fold (Calc 5) (Copy 5) 5 numberHeap numberHeap (some 7) (some 0)
        [some 1, some 2, some 3] [some 1, some 2, some 3] rfl rfl).2.2 10 3 [2]
      (.cons rfl (.cons rfl (.cons rfl .nil)))).1,
    ((minus_divides_fold (Calc 5) (Copy 5) 5 numberHeap numberHeap (some 11) (some 0)
        [some 10, some 3] [some 10, some 3] rfl rfl).2.2 4 2 []
      (.cons rfl (.cons rfl .nil))).2.2.1 (by decide),
    ((minus_divides_fold (Calc 5) (Copy 5) 5 numberHeap numberHeap (some 12) (some 0)
        [some 1] [some 1] rfl rfl).2.1 10 (.cons rfl .nil)).1,
    by rfl, by rfl, by rfl⟩

end Scheme
namespace Scheme

/-! ## Chained comparisons -/

set_option maxRecDepth 100000

theorem evalNumbers_cons {eval : CalcFn} {scope : Ptr} {h : Heap} {x : Ptr} {xs : List Ptr}
    {ms : List Int} (he : evalNumbers eval scope h (x :: xs) = some ms) :
    ∃ h1 n ns, CalcAndGetNumber eval h x scope = .ok (h1, n) ∧
      evalNumbers eval scope h1 xs = some ns ∧ ms = n :: ns := by
  unfold evalNumbers at he
  split at he
  · rename_i h1 n hc
    cases hr : evalNumbers eval scope h1 xs with
    | none => rw [hr] at he; cases he
    | some ns =>
      rw [hr] at he
      simp only [Option.map_some', Option.some.injEq] at he
      exact ⟨h1, n, ns, hc, hr, he.symm⟩
  · cases he

theorem numberListToBoolLoop_chain (eval : CalcFn) (func : Int → Int → Bool) (scope : Ptr) :
    ∀ (xs : List Ptr) (h : Heap) (prev : Int) (ns : List Int),
      evalNumbers eval scope h xs = some ns →
      ∃ h1, numberListToBoolLoop eval func scope h prev xs =
        .ok (h1, decide (List.Chain (fun a b => func a b = true) prev ns)) := by
  intro xs
  induction xs with
  | nil =>
    intro h prev ns he
    simp only [evalNumbers, Option.some.injEq] at he
    subst he
    exact ⟨h, by simp [numberListToBoolLoop]⟩
  | cons x xs ih =>
    intro h prev ms he
    obtain ⟨h1, n, ns, hc, hr, rfl⟩ := evalNumbers_cons he
    obtain ⟨h2, hl⟩ := ih h1 n ns hr
    unfold numberListToBoolLoop
    simp only [hc]
    cases hf : func prev n with
    | false =>
      refine ⟨h1, ?_⟩
      simp [List.chain_cons, hf]
    | true =>
      refine ⟨h2, ?_⟩
      simp only [Bool.not_true, Bool.false_eq_true, if_false, hl, List.chain_cons, hf,
        true_and]

theorem compareCall_chain (eval : CalcFn) (func : Int → Int → Bool) (rel : Int → Int → Prop)
    [DecidableRel rel] (hrel : ∀ a b, func a b = true ↔ rel a b) (fuel : Nat) (h : Heap)
    (obj scope : Ptr) (args : List Ptr) (ns : List Int)
    (hv : ToVector fuel h obj = .ok args) (he : evalNumbers eval scope h args = some ns) :
    ∃ h1, compareCall func eval fuel h obj scope =
      .ok (Condition h1 (decide (List.Chain' rel ns))) := by
  have hiff : ∀ (a : Int) (l : List Int),
      List.Chain (fun a b => func a b = true) a l ↔ List.Chain rel a l := by
    intro a l
    induction l generalizing a with
    | nil => simp
    | cons b l ih => simp only [List.chain_cons, hrel, ih]
  unfold compareCall CalcNumberListToBool
  simp only [hv, bind, Except.bind]
  cases args with
  | nil =>
    simp only [evalNumbers, Option.some.injEq] at he
    subst he
    exact ⟨h, by simp [pure, Except.pure]⟩
  | cons x xs =>
    obtain ⟨h1, n, ms, hc, hr, rfl⟩ := evalNumbers_cons he
    obtain ⟨h2, hl⟩ := numberListToBoolLoop_chain eval func scope xs h1 n ms hr
    refine ⟨h2, ?_⟩
    simp only [hc, hl, pure, Except.pure, List.Chain', hiff]

/-- **C18.** The comparison operators on operands that evaluate, left to right, to the
integers `ns`: each of `=`, `<`, `>`, `<=`, `>=` returns a new Boolean that is true if and
only if the relation holds between every two adjacent integers of `ns`; so for no operand
and for one operand it is a new Boolean true. -/
theorem comparison_chain (eval : CalcFn) (copy : CopyFn) (fuel : Nat) (h : Heap)
    (obj scope : Ptr) (args : List Ptr) (ns : List Int)
    (hv : ToVector fuel h obj = .ok args) (he : evalNumbers eval scope h args = some ns) :
    (∃ h1, Builtin.call .EqualTo eval copy fuel h obj scope =
        .ok (Condition h1 (decide (List.Chain' (fun a b => a = b) ns)))) ∧
      (∃ h1, Builtin.call .Less eval copy fuel h obj scope =
        .ok (Condition h1 (decide (List.Chain' (fun a b => a < b) ns)))) ∧
      (∃ h1, Builtin.call .Greater eval copy fuel h obj scope =
        .ok (Condition h1 (decide (List.Chain' (fun a b => a > b) ns)))) ∧
      (∃ h1, Builtin.call .LessEqual eval copy fuel h obj scope =
        .ok (Condition h1 (decide (List.Chain' (fun a b => a ≤ b) ns)))) ∧
      (∃ h1, Builtin.call .GreaterEqual eval copy fuel h obj scope =
        .ok (Condition h1 (decide (List.Chain' (fun a b => a ≥ b) ns)))) ∧
      (ns.length ≤ 1 → ∀ kind ∈ [Builtin.EqualTo, .Less, .Greater, .LessEqual, .GreaterEqual],
        ∃ h1, Builtin.call kind eval copy fuel h obj scope = .ok (TrueObject h1)) := by
  have heq := compareCall_chain eval (fun a b => a == b) (fun a b => a = b)
    (fun a b => by simp) fuel h obj scope args ns hv he
  have hlt := compareCall_chain eval (fun a b => decide (a < b)) (fun a b => a < b)
    (fun a b => by simp) fuel h obj scope args ns hv he
  have hgt := compareCall_chain eval (fun a b => decide (a > b)) (fun a b => a > b)
    (fun a b => by simp) fuel h obj scope args ns hv he
  have hle := compareCall_chain eval (fun a b => decide (a ≤ b)) (fun a b => a ≤ b)
    (fun a b => by simp) fuel h obj scope args ns hv he
  have hge := compareCall_chain eval (fun a b => decide (a ≥ b)) (fun a b => a ≥ b)
    (fun a b => by simp) fuel h obj scope args ns hv he
  refine ⟨heq, hlt, hgt, hle, hge, ?_⟩
  intro hlen kind hk
  have htriv : ∀ (rel : Int → Int → Prop), List.Chain' rel ns := by
    intro rel
    match ns, hlen with
    | [], _ => exact List.chain'_nil
    | [a], _ => exact List.chain'_singleton a
  simp only [List.mem_cons, List.mem_singleton, List.not_mem_nil, or_false] at hk
  rcases hk with rfl | rfl | rfl | rfl | rfl
  · obtain ⟨h1, hh⟩ := heq
    exact ⟨h1, hh.trans (by rw [decide_eq_true (htriv _)]; rfl)⟩
  · obtain ⟨h1, hh⟩ := hlt
    exact ⟨h1, hh.trans (by rw [decide_eq_true (htriv _)]; rfl)⟩
  · obtain ⟨h1, hh⟩ := hgt
    exact ⟨h1, hh.trans (by rw [decide_eq_true (htriv _)]; rfl)⟩
  · obtain ⟨h1, hh⟩ := hle
    exact ⟨h1, hh.trans (by rw [decide_eq_true (htriv _)]; rfl)⟩
  · obtain ⟨h1, hh⟩ := hge
    exact ⟨h1, hh.trans (by rw [decide_eq_true (htriv _)]; rfl)⟩

/-- Witness for C18: in `numberHeap` the operands `(10 3 2)` are strictly decreasing, so
`>` gives true and `<` gives false.  On a fresh interpreter every operator is true on no
operand and on one operand, and a chain is true exactly when every adjacent pair is. -/
theorem comparison_chain_witness :
    (∃ h1, Builtin.call .Greater (Calc 5) (Copy 5) 5 numberHeap (some 7) (some 0) =
        .ok (Condition h1 true)) ∧
      (∃ h1, Builtin.call .Less (Calc 5) (Copy 5) 5 numberHeap (some 7) (some 0) =
        .ok (Condition h1 false)) ∧
      Interpreter.RunAll 40 Interpreter.new
          ["(=)", "(<)", "(>)", "(<=)", "(>=)", "(= 1)", "(< 1)", "(> 1)", "(<= 1)", "(>= 1)",
            "(< 1 2 3)", "(< 1 3 2)", "(= 2 2 2)", "(= 2 2 3)", "(>= 3 3 2)", "(>= 3 2 3)",
            "(<= 1 1 2)", "(<= 2 1 2)", "(> 3 2 1)", "(> 3 2 2)"] =
        .ok ["#t", "#t", "#t", "#t", "#t", "#t", "#t", "#t", "#t", "#t",
          "#t", "#f", "#t", "#f", "#t", "#f", "#t", "#f", "#t", "#f"] := by
  have key := comparison_chain (Calc 5) (Copy 5) 5 numberHeap (some 7) (some 0)
    [some 1, some 2, some 3] [10, 3, 2] rfl rfl
  obtain ⟨hg, hgt⟩ := key.2.2.1
  obtain ⟨hl, hlt⟩ := key.2.1
  have eg : decide (List.Chain' (fun a b : Int => a > b) [10, 3, 2]) = true :=
    decide_eq_true (by simp)
  have el : decide (List.Chain' (fun a b : Int => a < b) [10, 3, 2]) = false :=
    decide_eq_false (by simp)
  exact ⟨⟨hg, hgt.trans (by rw [eg])⟩, ⟨hl, hlt.trans (by rw [el])⟩, by rfl⟩

end Scheme
namespace Scheme

set_option maxRecDepth 100000

/-- **C19.** The comparison operators do not evaluate all of their operands before they
compute their result: `CalcNumberListToBool` evaluates an operand only when it needs it and
returns false at the first adjacent pair that fails, so the operands after that pair,
whatever they are, are never evaluated.  On a fresh interpreter `(< 2 1 undefined-name)`
prints `#f` instead of failing with `NameError`, and an operand of the wrong type after a
failing pair goes unnoticed as well; when no earlier pair fails the error is raised, and the
procedures that go through `CalcVector` (`+`, `list`, `max`) raise it whatever the earlier
operands are. -/
theorem comparison_skips_operands_after_failing_pair :
    (∀ (eval : CalcFn) (func : Int → Int → Bool) (scope : Ptr) (h h1 h2 : Heap) (x y : Ptr)
        (rest : List Ptr) (a b : Int),
        CalcAndGetNumber eval h x scope = .ok (h1, a) →
        CalcAndGetNumber eval h1 y scope = .ok (h2, b) → func a b = false →
        CalcNumberListToBool eval func h (x :: y :: rest) scope = .ok (h2, false)) ∧
      Interpreter.RunAll 40 Interpreter.new
          ["(< 2 1 undefined-name)", "(= 1 2 (car 1))", "(> 1 2 #t)", "(<= 2 1 (quote a))",
            "(>= 1 2 undefined-name)"] =
        .ok ["#f", "#f", "#f", "#f", "#f"] ∧
      Interpreter.RunAll 40 Interpreter.new ["(< 1 2 undefined-name)"] = .error .NameError ∧
      Interpreter.RunAll 40 Interpreter.new ["(+ 2 1 undefined-name)"] = .error .NameError ∧
      Interpreter.RunAll 40 Interpreter.new ["(list 2 1 undefined-name)"] = .error .NameError ∧
      Interpreter.RunAll 40 Interpreter.new ["(max 2 1 undefined-name)"] = .error .NameError := by
  refine ⟨?_, by rfl, by rfl, by rfl, by rfl, by rfl⟩
  intro eval func scope h h1 h2 x y rest a b hx hy hf
  simp only [CalcNumberListToBool, numberListToBoolLoop, hx, hy, hf, Bool.not_false, if_true]

end Scheme
namespace Scheme

/-! ## `car` and `cdr` of `cons` -/

set_option maxRecDepth 100000

theorem Get_ext {h h1 : Heap} (hf : h.Fresh) (e : Ext h h1) (name : String) :
    ∀ (fuel : Nat) (scope : Ptr) (r : Nat × Ptr),
      NameSpace.Get fuel h scope name = .ok r → NameSpace.Get fuel h1 scope name = .ok r := by
  intro fuel
  induction fuel with
  | zero =>
    intro scope r hg
    cases scope <;> simp [NameSpace.Get] at hg
  | succ fuel ih =>
    intro scope r hg
    cases scope with
    | none => simp [NameSpace.Get] at hg
    | some cur =>
      rw [NameSpace.Get] at hg ⊢
      split at hg
      · rename_i data_ upper_ ho
        rw [(e.2.2 cur (obj?_lt_next hf ho)).trans ho]
        cases hl : List.lookup name data_ with
        | some v =>
          simp only [hl] at hg ⊢
          exact hg
        | none =>
          simp only [hl] at hg ⊢
          exact ih upper_ r hg
      · cases hg

theorem Calc_symbol {fuel : Nat} {h : Heap} {a : Nat} {name : String} {scope : Ptr} {o : Nat}
    {res : Ptr} (ho : h.obj? a = some (.Symbol name))
    (hg : NameSpace.Get (fuel + 1) h scope name = .ok (o, res)) :
    Calc (fuel + 1) h (some a) scope = .ok (h, res) := by
  rw [Calc]
  simp only [ho, hg]

theorem Calc_application {fuel : Nat} {h h1 h2 : Heap} {a : Nat}
    {first_ second_ args scope func func1 : Ptr}
    (ho : h.obj? a = some (.Cell first_ second_))
    (hfun : Calc fuel h first_ scope = .ok (h1, func))
    (ho1 : h1.obj? a = some (.Cell first_ args)) (hisf : IsFunctor h1 func = true)
    (hcopy : Copy fuel h1 func = .ok (h2, func1)) :
    Calc (fuel + 1) h (some a) scope = Apply (Calc fuel) (Copy fuel) fuel h2 func1 args scope := by
  rw [Calc]
  simp only [ho, hfun, ho1, hisf, hcopy, Bool.not_true, Bool.false_eq_true, if_false]

theorem Copy_functor {fuel : Nat} {h : Heap} {f : Nat} {kind : Builtin}
    (ho : h.obj? f = some (.Functor kind)) :
    Copy (fuel + 1) h (some f) = .ok ((h.Make (.Functor kind)).1, some h.next) := by
  rw [Copy]
  simp only [ho]
  rfl

theorem builtin_application {fuel : Nat} {h : Heap} {e sym f o : Nat} {name : String}
    {kind : Builtin} {args scope : Ptr} (hf : h.Fresh)
    (he : h.obj? e = some (.Cell (some sym) args)) (hsym : h.obj? sym = some (.Symbol name))
    (hg : NameSpace.Get (fuel + 1) h scope name = .ok (o, some f))
    (hfo : h.obj? f = some (.Functor kind)) :
    Calc (fuel + 2) h (some e) scope =
      kind.call (Calc (fuel + 1)) (Copy (fuel + 1)) (fuel + 1) (h.Make (.Functor kind)).1 args
        scope := by
  rw [Calc_application he (Calc_symbol hsym hg) he (by simp [IsFunctor, hfo])
    (Copy_functor hfo)]
  simp only [Apply, obj?_Make_new hf]

theorem GetCell_error {h : Heap} {v : Ptr} (hc : IsCell h v = false) :
    GetCell h v = .error .RuntimeError := by
  cases v with
  | none => rfl
  | some a =>
    unfold IsCell at hc
    unfold GetCell
    simp only at hc ⊢
    split
    · rename_i f s ho
      simp [ho] at hc
    · rfl

/-- **C20.** In a heap `h` where the names of the two head symbols resolve to the builtin
`sel` (`car` or `cdr`) and to `cons`, the expression `(sel (cons a b))` evaluates as
follows: if `a` evaluates to `va` and then `b` to `vb` (in the heaps the evaluator reaches
them in), the result of `(car (cons a b))` is the pointer `va` itself and the result of
`(cdr (cons a b))` is `vb` itself; the only object made besides the two copies of the
builtins is the pair.  And `car` or `cdr` of one operand whose value is not a pair (a
number, a Boolean, a symbol, the empty list) fails with `RuntimeError`. -/
theorem car_cdr_of_cons (k : Nat) (h h1 h2 : Heap) (scope a b va vb : Ptr)
    (e sym l1 inner csym l2 l3 fsel fcons o1 o2 : Nat) (nsel ncons : String) (sel : Builtin)
    (hf : h.Fresh) (he : h.obj? e = some (.Cell (some sym) (some l1)))
    (hsym : h.obj? sym = some (.Symbol nsel))
    (hl1 : h.obj? l1 = some (.Cell (some inner) none))
    (hinner : h.obj? inner = some (.Cell (some csym) (some l2)))
    (hcsym : h.obj? csym = some (.Symbol ncons))
    (hl2 : h.obj? l2 = some (.Cell a (some l3))) (hl3 : h.obj? l3 = some (.Cell b none))
    (hgs : NameSpace.Get (k + 4) h scope nsel = .ok (o1, some fsel))
    (hfs : h.obj? fsel = some (.Functor sel))
    (hgc : NameSpace.Get (k + 3) h scope ncons = .ok (o2, some fcons))
    (hfc : h.obj? fcons = some (.Functor .Cons))
    (ha : Calc (k + 3) ((h.Make (.Functor sel)).1.Make (.Functor .Cons)).1 a scope =
      .ok (h1, va))
    (hb : Calc (k + 3) h1 b scope = .ok (h2, vb)) (hf2 : h2.Fresh) :
    (sel = .Car → Calc (k + 5) h (some e) scope = .ok ((h2.Make (.Cell va vb)).1, va)) ∧
      (sel = .Cdr → Calc (k + 5) h (some e) scope = .ok ((h2.Make (.Cell va vb)).1, vb)) ∧
      (∀ (eval : CalcFn) (fuel : Nat) (g g1 : Heap) (obj sc x v : Ptr),
        ToVector fuel g obj = .ok [x] → eval g x sc = .ok (g1, v) → IsCell g1 v = false →
        Car.call eval fuel g obj sc = .error .RuntimeError ∧
          Cdr.call eval fuel g obj sc = .error .RuntimeError) := by
  have hfA : (h.Make (.Functor sel)).1.Fresh := Fresh_Make hf _
  have hext : Ext h (h.Make (.Functor sel)).1 := Ext.alloc hf _
  have old : ∀ {x : Nat} {o : Object}, h.obj? x = some o →
      (h.Make (.Functor sel)).1.obj? x = some o :=
    fun {x o} hx => (hext.2.2 x (obj?_lt_next hf hx)).trans hx
  have hinnerCalc : Calc (k + 4) (h.Make (.Functor sel)).1 (some inner) scope =
      .ok ((h2.Make (.Cell va vb)).1, some h2.next) := by
    rw [builtin_application hfA (old hinner) (old hcsym)
      (Get_ext hf hext ncons (k + 3) scope _ hgc) (old hfc)]
    have hold2 : ∀ {x : Nat} {o : Object}, h.obj? x = some o →
        ((h.Make (.Functor sel)).1.Make (.Functor .Cons)).1.obj? x = some o :=
      fun {x o} hx => ((Ext.alloc hfA _).2.2 x (obj?_lt_next hfA (old hx))).trans (old hx)
    have htv : ToVector (k + 3) ((h.Make (.Functor sel)).1.Make (.Functor .Cons)).1 (some l2) =
        .ok [a, b] := by
      simp only [ToVector, hold2 hl2, hold2 hl3]
    show Cons.call _ _ _ _ _ = _
    unfold Cons.call
    simp only [htv, RequiresOnlyXArguments, bind, Except.bind, CalcVector, ha, hb, pure,
      Except.pure, List.length_cons, List.length_nil]
    rfl
  have htv1 : ToVector (k + 4) (h.Make (.Functor sel)).1 (some l1) = .ok [some inner] := by
    simp only [ToVector, old hl1]
  have hcell : GetCell (h2.Make (.Cell va vb)).1 (some h2.next) = .ok (h2.next, va, vb) := by
    simp only [GetCell, obj?_Make_new hf2]
  have houter :=
    @builtin_application (k + 3) h e sym fsel o1 nsel sel (some l1) scope hf he hsym hgs hfs
  refine ⟨?_, ?_, ?_⟩
  · rintro rfl
    rw [houter]
    show Car.call _ _ _ _ _ = _
    unfold Car.call
    simp only [htv1, RequiresOnlyXArguments, bind, Except.bind, CalcVector, hinnerCalc, hcell,
      pure, Except.pure, List.length_cons, List.length_nil]
    rfl
  · rintro rfl
    rw [houter]
    show Cdr.call _ _ _ _ _ = _
    unfold Cdr.call
    simp only [htv1, RequiresOnlyXArguments, bind, Except.bind, CalcVector, hinnerCalc, hcell,
      pure, Except.pure, List.length_cons, List.length_nil]
    rfl
  · intro eval fuel g g1 obj sc x v htv hev hnc
    constructor
    · unfold Car.call
      simp only [htv, RequiresOnlyXArguments, bind, Except.bind, CalcVector, hev,
        GetCell_error hnc, List.length_cons, List.length_nil]
      rfl
    · unfold Cdr.call
      simp only [htv, RequiresOnlyXArguments, bind, Except.bind, CalcVector, hev,
        GetCell_error hnc, List.length_cons, List.length_nil]
      rfl

end Scheme
namespace Scheme

set_option maxRecDepth 100000

/-- Witness for C20: `(car (cons 7 8))` and `(cdr (cons 7 8))` in `consHeap` return the
literals at addresses 4 and 5 themselves.  On a fresh interpreter a `set-car!` through
`(car (cons x 3))` changes the list bound to `x`, and `car` or `cdr` of a number, a
Boolean, a symbol or the empty list fails with `RuntimeError`. -/
theorem car_cdr_of_cons_witness :
    Calc 5 consHeap (some 12) (some 0) =
        .ok ((((consHeap.Make (.Functor .Car)).1.Make (.Functor .Cons)).1.Make
          (.Cell (some 4) (some 5))).1, some 4) ∧
      Calc 5 consHeap (some 14) (some 0) =
        .ok ((((consHeap.Make (.Functor .Cdr)).1.Make (.Functor .Cons)).1.Make
          (.Cell (some 4) (some 5))).1, some 5) ∧
      Interpreter.RunAll 40 Interpreter.new
          ["(car (cons 1 2))", "(cdr (cons 1 2))", "(define x (list 1 2))",
            "(set-car! (car (cons x 3)) 9)", "x", "(set-cdr! (cdr (cons 3 x)) 4)", "x"] =
        .ok ["1", "2", "x", "1", "(9 2)", "(2)", "(9 . 4)"] ∧
      Interpreter.RunAll 40 Interpreter.new ["(car 1)"] = .error .RuntimeError ∧
      Interpreter.RunAll 40 Interpreter.new ["(cdr #t)"] = .error .RuntimeError ∧
      Interpreter.RunAll 40 Interpreter.new ["(car (quote a))"] = .error .RuntimeError ∧
      Interpreter.RunAll 40 Interpreter.new ["(cdr (quote ()))"] = .error .RuntimeError :=
  ⟨(car_cdr_of_cons 0 consHeap _ _ (some 0) (some 4) (some 5) (some 4) (some 5)
      12 11 10 9 8 7 6 1 3 0 0 "car" "cons" .Car (by decide) rfl rfl rfl rfl rfl rfl rfl rfl rfl
      rfl rfl rfl rfl (by decide)).1 rfl,
    (car_cdr_of_cons 0 consHeap _ _ (some 0) (some 4) (some 5) (some 4) (some 5)
      14 13 10 9 8 7 6 2 3 0 0 "cdr" "cons" .Cdr (by decide) rfl rfl rfl rfl rfl rfl rfl rfl rfl
      rfl rfl rfl rfl (by decide)).2.1 rfl,
    by rfl, by rfl, by rfl, by rfl, by rfl⟩

end Scheme
namespace Scheme

/-! ## `list-ref` and `list-tail` -/

set_option maxRecDepth 100000

theorem listOf_nil {h : Heap} {p : Ptr} (hl : listOf h p [] = true) : p = none := by
  cases p with
  | none => rfl
  | some a => simp [listOf] at hl

theorem listOf_cons {h : Heap} {p : Ptr} {x : Ptr} {xs : List Ptr}
    (hl : listOf h p (x :: xs) = true) :
    ∃ a s, p = some a ∧ h.obj? a = some (.Cell x s) ∧ listOf h s xs = true := by
  cases p with
  | none => simp [listOf] at hl
  | some a =>
    unfold listOf at hl
    split at hl
    · rename_i f s ho
      simp only [Bool.and_eq_true, decide_eq_true_eq] at hl
      obtain ⟨rfl, hs⟩ := hl
      exact ⟨a, s, rfl, ho, hs⟩
    · cases hl

theorem ToVector_of_listOf (h : Heap) :
    ∀ (vec : List Ptr) (p : Ptr) (fuel : Nat), listOf h p vec = true → vec.length < fuel →
      ToVector fuel h p = .ok vec := by
  intro vec
  induction vec with
  | nil =>
    intro p fuel hl hf
    rw [listOf_nil hl]
    obtain ⟨n, rfl⟩ : ∃ n, fuel = n + 1 := ⟨fuel - 1, by simp at hf; omega⟩
    rfl
  | cons x xs ih =>
    intro p fuel hl hf
    obtain ⟨a, s, rfl, ho, hs⟩ := listOf_cons hl
    obtain ⟨n, rfl⟩ : ∃ n, fuel = n + 1 := ⟨fuel - 1, by simp at hf; omega⟩
    rw [ToVector]
    simp only [ho, ih s n hs (by simp at hf; omega)]

theorem ListRef_call_eq (eval : CalcFn) (fuel : Nat) (h h1 : Heap)
    (obj scope e1 e2 lv kv : Ptr) (vec : List Ptr) (k : Int)
    (hv : ToVector fuel h obj = .ok [e1, e2])
    (hcv : CalcVector eval h [e1, e2] scope = .ok (h1, [lv, kv]))
    (hl : ToVector fuel h1 lv = .ok vec) (hk : GetNumber h1 kv = .ok k) :
    ListRef.call eval fuel h obj scope =
      if vec.length ≤ (k % 2 ^ 64).toNat then .error .RuntimeError
      else
        match vec.get? (k % 2 ^ 64).toNat with
        | some x => .ok (h1, x)
        | none => .error .Undefined := by
  unfold ListRef.call
  simp only [hv, hcv, hl, hk, RequiresOnlyXArguments, RequiresValidIndex, bind, Except.bind,
    List.length_cons, List.length_nil, Nat.zero_add, Nat.reduceAdd, ne_eq, not_true_eq_false,
    if_false]
  by_cases hidx : vec.length ≤ (k % 2 ^ 64).toNat
  · simp only [hidx, if_true]
  · simp only [hidx, if_false, pure, Except.pure]
    try (cases vec.get? (k % 2 ^ 64).toNat <;> rfl)

/-- **C21.** `list-ref` on operands that evaluate to a proper list with elements `vec` and
to the 64-bit integer `k`: for `0 ≤ k < n`, where `n` is the length of `vec`, the result is
the element of `vec` at index `k` (the element itself, in the heap the operands left); for
`k < 0` and for `k ≥ n` the form fails with `RuntimeError`.  In no case is the element
vector read outside its bounds. -/
theorem list_ref_within_bounds (eval : CalcFn) (fuel : Nat) (h h1 : Heap)
    (obj scope e1 e2 lv kv : Ptr) (vec : List Ptr) (k : Int)
    (hv : ToVector fuel h obj = .ok [e1, e2])
    (hcv : CalcVector eval h [e1, e2] scope = .ok (h1, [lv, kv]))
    (hl : listOf h1 lv vec = true) (hfuel : vec.length < fuel)
    (hk : GetNumber h1 kv = .ok k) (hlo : -2 ^ 63 ≤ k) (hhi : k < 2 ^ 63)
    (hn : vec.length ≤ 2 ^ 63) :
    (0 ≤ k → k < vec.length →
        ∃ x, vec.get? k.toNat = some x ∧ ListRef.call eval fuel h obj scope = .ok (h1, x)) ∧
      (k < 0 ∨ (vec.length : Int) ≤ k →
        ListRef.call eval fuel h obj scope = .error .RuntimeError) ∧
      ListRef.call eval fuel h obj scope ≠ .error .Undefined := by
  have hcall := ListRef_call_eq eval fuel h h1 obj scope e1 e2 lv kv vec k hv hcv
    (ToVector_of_listOf h1 vec lv fuel hl hfuel) hk
  have hin : 0 ≤ k → k < vec.length →
      ∃ x, vec.get? k.toNat = some x ∧ ListRef.call eval fuel h obj scope = .ok (h1, x) := by
    intro h0 hlt
    have hmod : (k % 2 ^ 64).toNat = k.toNat := by
      rw [Int.emod_eq_of_lt h0 (by omega)]
    have hidx : k.toNat < vec.length := by omega
    refine ⟨vec.get ⟨k.toNat, hidx⟩, List.get?_eq_get hidx, ?_⟩
    rw [hcall, hmod, if_neg (by omega), List.get?_eq_get hidx]
  have hout : k < 0 ∨ (vec.length : Int) ≤ k →
      ListRef.call eval fuel h obj scope = .error .RuntimeError := by
    intro hor
    rw [hcall, if_pos]
    rcases hor with hneg | hge
    · have : k % 2 ^ 64 = k + 2 ^ 64 := by
        rw [Int.emod_eq_add_self_emod, Int.emod_eq_of_lt (by omega) (by omega)]
      rw [this]
      omega
    · have h0 : 0 ≤ k := le_trans (Int.ofNat_nonneg _) hge
      rw [Int.emod_eq_of_lt h0 (by omega)]
      omega
  refine ⟨hin, hout, ?_⟩
  by_cases h0 : 0 ≤ k
  · by_cases hlt : k < vec.length
    · obtain ⟨x, _, hx⟩ := hin h0 hlt
      rw [hx]
      simp
    · rw [hout (Or.inr (by omega))]
      simp
  · rw [hout (Or.inl (by omega))]
    simp

/-- Witness for C21: in `listHeap`, where `l` is bound to the list `(10 3 2)`, the operands
`(l 1)` give the element at address 2, and the operands `(l 3)` and `(l -1)` fail. -/
theorem list_ref_within_bounds_witness :
    ListRef.call (Calc 5) 5 listHeap (some 11) (some 0) = .ok (listHeap, some 2) ∧
      ListRef.call (Calc 5) 5 listHeap (some 14) (some 0) = .error .RuntimeError ∧
      ListRef.call (Calc 5) 5 listHeap (some 17) (some 0) = .error .RuntimeError ∧
      Interpreter.RunAll 40 Interpreter.new
          ["(list-ref (quote (1 2 3)) 0)", "(list-ref (quote (1 2 3)) 2)",
            "(define x (list 1 2 3))", "(set-car! (list-ref (list x) 0) 8)", "x"] =
        .ok ["1", "3", "x", "1", "(8 2 3)"] ∧
      Interpreter.RunAll 40 Interpreter.new ["(list-ref (quote (1 2 3)) 3)"] =
        .error .RuntimeError ∧
      Interpreter.RunAll 40 Interpreter.new ["(list-ref (quote (1 2 3)) -1)"] =
        .error .RuntimeError := by
  refine ⟨?_, ?_, ?_, by rfl, by rfl, by rfl⟩
  · obtain ⟨x, hx, hres⟩ :=
      (list_ref_within_bounds (Calc 5) 5 listHeap listHeap (some 11) (some 0) (some 8) (some 9)
        (some 7) (some 9) [some 1, some 2, some 3] 1 rfl rfl rfl (by decide) rfl (by decide)
        (by decide) (by simp)).1 (by decide) (by decide)
    cases hx
    exact hres
  · exact (list_ref_within_bounds (Calc 5) 5 listHeap listHeap (some 14) (some 0) (some 8)
      (some 2) (some 7) (some 2) [some 1, some 2, some 3] 3 rfl rfl rfl (by decide) rfl
      (by decide) (by decide) (by simp)).2.1 (Or.inr (by decide))
  · exact (list_ref_within_bounds (Calc 5) 5 listHeap listHeap (some 17) (some 0) (some 8)
      (some 12) (some 7) (some 12) [some 1, some 2, some 3] (-1) rfl rfl rfl (by decide) rfl
      (by decide) (by decide) (by simp)).2.1 (Or.inl (by decide))

end Scheme
namespace Scheme

set_option maxRecDepth 100000

theorem listTailLoop_of_list (h : Heap) :
    ∀ (k : Nat) (vec : List Ptr) (p : Ptr), listOf h p vec = true → k ≤ vec.length →
      ∃ q, listTailLoop h k p = .ok q ∧ followSecond h k p = some q ∧
        listOf h q (vec.drop k) = true := by
  intro k
  induction k with
  | zero => intro vec p hl _; exact ⟨p, rfl, rfl, by simpa using hl⟩
  | succ k ih =>
    intro vec p hl hk
    cases vec with
    | nil => simp at hk
    | cons x xs =>
      obtain ⟨a, s, rfl, ho, hs⟩ := listOf_cons hl
      obtain ⟨q, hq, hf, hd⟩ := ih xs s hs (by simpa using hk)
      refine ⟨q, ?_, ?_, by simpa using hd⟩
      · simp only [listTailLoop, GetCell, ho, hq]
      · simp only [followSecond, ho, hf]

theorem listTailLoop_overrun (h : Heap) :
    ∀ (k : Nat) (vec : List Ptr) (p : Ptr), listOf h p vec = true → vec.length < k →
      listTailLoop h k p = .error .RuntimeError := by
  intro k
  induction k with
  | zero => intro vec p _ hk; simp at hk
  | succ k ih =>
    intro vec p hl hk
    cases vec with
    | nil =>
      rw [listOf_nil hl]
      rfl
    | cons x xs =>
      obtain ⟨a, s, rfl, ho, hs⟩ := listOf_cons hl
      simp only [listTailLoop, GetCell, ho, ih xs s hs (by simpa using hk)]

theorem ListTail_call_eq (eval : CalcFn) (fuel : Nat) (h h1 : Heap)
    (obj scope e1 e2 lv kv : Ptr) (k : Int) (hv : ToVector fuel h obj = .ok [e1, e2])
    (hcv : CalcVector eval h [e1, e2] scope = .ok (h1, [lv, kv]))
    (hk : GetNumber h1 kv = .ok k) :
    ListTail.call eval fuel h obj scope =
      match listTailLoop h1 k.toNat lv with
      | .ok cur => .ok (h1, cur)
      | .error e => .error e := by
  unfold ListTail.call
  simp only [hv, hcv, hk, RequiresOnlyXArguments, bind, Except.bind, List.length_cons,
    List.length_nil, Nat.zero_add, Nat.reduceAdd, ne_eq, not_true_eq_false, if_false]
  cases listTailLoop h1 k.toNat lv <;> rfl

/-- **C22.** `list-tail` on operands that evaluate to a proper list with elements `vec` and
to the integer `k`: for `0 ≤ k ≤ n`, where `n` is the length of `vec`, the result is the
value `p` reached from the list by following `k` links through the second field; `p` is the
proper list of the elements after the first `k` (the suffix itself: nothing is allocated
and the heap is the one the operands left) and it is the empty list when `k = n`; for
`k > n` the form fails with `RuntimeError`. -/
theorem list_tail_follows_links (eval : CalcFn) (fuel : Nat) (h h1 : Heap)
    (obj scope e1 e2 lv kv : Ptr) (vec : List Ptr) (k : Int)
    (hv : ToVector fuel h obj = .ok [e1, e2])
    (hcv : CalcVector eval h [e1, e2] scope = .ok (h1, [lv, kv]))
    (hl : listOf h1 lv vec = true) (hk : GetNumber h1 kv = .ok k) :
    (0 ≤ k → k ≤ vec.length →
        ∃ p, followSecond h1 k.toNat lv = some p ∧ listOf h1 p (vec.drop k.toNat) = true ∧
          (k = vec.length → p = none) ∧ ListTail.call eval fuel h obj scope = .ok (h1, p)) ∧
      ((vec.length : Int) < k → ListTail.call eval fuel h obj scope = .error .RuntimeError) := by
  have hcall := ListTail_call_eq eval fuel h h1 obj scope e1 e2 lv kv k hv hcv hk
  constructor
  · intro h0 hle
    obtain ⟨q, hq, hf, hd⟩ := listTailLoop_of_list h1 k.toNat vec lv hl (by omega)
    refine ⟨q, hf, hd, ?_, by rw [hcall, hq]⟩
    intro hkn
    have : k.toNat = vec.length := by omega
    rw [this, List.drop_length] at hd
    exact listOf_nil hd
  · intro hlt
    rw [hcall, listTailLoop_overrun h1 k.toNat vec lv hl (by omega)]

/-- Witness for C22: in `listHeap`, where `l` is bound to the list `(10 3 2)` at address 7,
the operands `(l 1)` give the tail at address 6, `(l 3)` the empty list, and `(l 4)`
fail.  On a fresh interpreter a `set-car!` through `(list-tail x 1)` changes `x`. -/
theorem list_tail_follows_links_witness :
    ListTail.call (Calc 5) 5 listHeap (some 11) (some 0) = .ok (listHeap, some 6) ∧
      ListTail.call (Calc 5) 5 listHeap (some 14) (some 0) = .ok (listHeap, none) ∧
      ListTail.call (Calc 5) 5 listHeap (some 19) (some 0) = .error .RuntimeError ∧
      Interpreter.RunAll 40 Interpreter.new
          ["(list-tail (quote (1 2 3)) 0)", "(list-tail (quote (1 2 3)) 2)",
            "(list-tail (quote (1 2 3)) 3)", "(define x (list 1 2 3))",
            "(set-car! (list-tail x 1) 9)", "x"] =
        .ok ["(1 2 3)", "(3)", "()", "x", "2", "(1 9 3)"] ∧
      Interpreter.RunAll 40 Interpreter.new ["(list-tail (quote (1 2 3)) 4)"] =
        .error .RuntimeError := by
  refine ⟨?_, ?_, ?_, by rfl, by rfl⟩
  · obtain ⟨p, hp, _, _, hres⟩ :=
      (list_tail_follows_links (Calc 5) 5 listHeap listHeap (some 11) (some 0) (some 8)
        (some 9) (some 7) (some 9) [some 1, some 2, some 3] 1 rfl rfl rfl rfl).1
        (by decide) (by decide)
    cases hp
    exact hres
  · obtain ⟨p, _, _, hnone, hres⟩ :=
      (list_tail_follows_links (Calc 5) 5 listHeap listHeap (some 14) (some 0) (some 8)
        (some 2) (some 7) (some 2) [some 1, some 2, some 3] 3 rfl rfl rfl rfl).1
        (by decide) (by decide)
    rw [hnone rfl] at hres
    exact hres
  · exact (list_tail_follows_links (Calc 5) 5 listHeap listHeap (some 19) (some 0) (some 8)
      (some 15) (some 7) (some 15) [some 1, some 2, some 3] 4 rfl rfl rfl rfl).2 (by decide)

end Scheme
namespace Scheme

/-! ## Evaluation keeps closures and sealed environments -/

set_option maxRecDepth 100000

theorem bind_ok {α β : Type} {x : Except Err α} {f : α → Except Err β} {b : β}
    (hb : (x >>= f) = .ok b) : ∃ a, x = .ok a ∧ f a = .ok b := by
  cases x with
  | error e => cases hb
  | ok a => exact ⟨a, rfl, hb⟩

theorem obj?_update (h : Heap) (a x : Nat) (o : Object) :
    (h.update a o).obj? x = if x = a then (h.obj? a).map (fun _ => o) else h.obj? x := by
  by_cases hx : x = a
  · subst hx
    rw [if_pos rfl]
    cases ho : h.obj? x with
    | none =>
      unfold Heap.obj? Heap.find at ho ⊢
      unfold Heap.update
      simp only [find_update]
      cases hf : h.data_.find? (fun s => s.addr == x) with
      | none => rfl
      | some s => rw [hf] at ho; cases ho
    | some o1 =>
      rw [obj?_update_self o (by rw [ho]; rfl)]
      rfl
  · rw [if_neg hx, obj?_update_other h o hx]

theorem Keeps_same {P : Nat → Prop} {h : Heap} (hs : Sealed P h) : Keeps P h h :=
  ⟨hs, le_refl _, fun _ _ ho _ => ho⟩

theorem Keeps_andThen {P : Nat → Prop} {h h1 h2 : Heap} (k1 : Keeps P h h1)
    (k2 : Keeps P h1 h2) : Keeps P h h2 :=
  ⟨k2.1, le_trans k1.2.1 k2.2.1, fun a o ho hst => k2.2.2 a o (k1.2.2 a o ho hst) hst⟩

theorem Keeps_Make {P : Nat → Prop} {h : Heap} (hs : Sealed P h) (o : Object)
    (hu : ∀ d c, o = .NameSpace d (some c) → ¬ P c) : Keeps P h (h.Make o).1 := by
  refine ⟨⟨Fresh_Make hs.1 o, fun a ha => Nat.lt_succ_of_lt (hs.2.1 a ha), ?_⟩,
    Nat.le_succ _, fun a x ho _ => ?_⟩
  · intro a d u ho
    by_cases ha : a = h.next
    · subst ha
      rw [obj?_Make_new hs.1] at ho
      cases ho
      exact hu d u rfl
    · rw [obj?_Make_old h o ha] at ho
      exact hs.2.2 a d u ho
  · rw [obj?_Make_old h o (by have := obj?_lt_next hs.1 ho; omega)]
    exact ho

theorem Keeps_update {P : Nat → Prop} {h : Heap} (hs : Sealed P h) {a : Nat} {o o1 : Object}
    (ho : h.obj? a = some o) (hns : ¬ o.stable P a)
    (hu : ∀ d c, o1 = .NameSpace d (some c) → ¬ P c) : Keeps P h (h.update a o1) := by
  refine ⟨⟨Fresh_update hs.1 a o1, hs.2.1, ?_⟩, le_refl _, fun x ox hx hst => ?_⟩
  · intro x d u hx
    rw [obj?_update] at hx
    split at hx
    · rw [ho] at hx
      simp only [Option.map_some', Option.some.injEq] at hx
      exact hu d u hx
    · exact hs.2.2 x d u hx
  · rw [obj?_update]
    split
    · rename_i hxa
      subst hxa
      rw [ho] at hx
      cases hx
      exact absurd hst hns
    · exact hx

theorem Keeps_Set {P : Nat → Prop} {h h1 : Heap} (hs : Sealed P h) {a : Nat} {name : String}
    {v : Ptr} (ha : ¬ P a) (hset : NameSpace.Set h (some a) name v = .ok h1) :
    Keeps P h h1 := by
  obtain ⟨d, u, ho, rfl⟩ := NameSpace.Set_eq hset
  refine Keeps_update hs ho (by simpa [Object.stable] using ha) ?_
  intro d1 c e
  cases e
  exact hs.2.2 a d c ho

end Scheme
namespace Scheme

/-! ## The duplicate of a closure -/

set_option maxRecDepth 100000

theorem Copy_ok_post {fuel : Nat} {h h1 : Heap} {p q : Ptr} (hf : h.Fresh)
    (hc : Copy fuel h p = .ok (h1, q)) : CopyPost h p h1 q :=
  Copy_post fuel h p h1 q hf hc

theorem GetSymbol_ext {h h1 : Heap} (hf : h.Fresh) (e : Ext h h1) {p : Ptr} {n : String}
    (hs : GetSymbol h p = .ok n) : GetSymbol h1 p = .ok n := by
  obtain ⟨a, rfl, ho⟩ := GetSymbol_ok hs
  simp only [GetSymbol, (e.2.2 a (obj?_lt_next hf ho)).trans ho]

theorem Copy_symbol {fuel : Nat} {h h1 : Heap} {p q : Ptr} {n : String} (hf : h.Fresh)
    (hs : GetSymbol h p = .ok n) (hc : Copy fuel h p = .ok (h1, q)) :
    GetSymbol h1 q = .ok n := by
  obtain ⟨a, rfl, ho⟩ := GetSymbol_ok hs
  cases fuel with
  | zero => simp [Copy] at hc
  | succ k =>
    rw [Copy] at hc
    simp only [ho, Except.ok.injEq, Prod.mk.injEq] at hc
    obtain ⟨rfl, rfl⟩ := hc
    simp only [GetSymbol, Make_snd, obj?_Make_new hf]

theorem CopyVector_symbols (fuel : Nat) :
    ∀ (ps : List Ptr) (h h1 : Heap) (qs : List Ptr) (ns : List String), h.Fresh →
      List.Forall₂ (fun p n => GetSymbol h p = .ok n) ps ns →
      CopyVector (Copy fuel) h ps = .ok (h1, qs) →
      List.Forall₂ (fun q n => GetSymbol h1 q = .ok n) qs ns := by
  intro ps
  induction ps with
  | nil =>
    intro h h1 qs ns _ hall hcv
    cases hall
    simp only [CopyVector, Except.ok.injEq, Prod.mk.injEq] at hcv
    obtain ⟨_, rfl⟩ := hcv
    exact .nil
  | cons p ps ih =>
    intro h h1 qs ns hf hall hcv
    cases hall with
    | @cons _ n _ ns1 hn hrest =>
      simp only [CopyVector] at hcv
      split at hcv
      · rename_i h2 q e1
        split at hcv
        · rename_i h3 qs1 e2
          simp only [Except.ok.injEq, Prod.mk.injEq] at hcv
          obtain ⟨rfl, rfl⟩ := hcv
          have c1 := Copy_ok_post hf e1
          have c2 := CopyVector_post (fun h p h1 q hf hc => Copy_ok_post hf hc) ps h2 h3 qs1
            c1.1.2.1 e2
          refine .cons (GetSymbol_ext c1.1.2.1 c2.1 (Copy_symbol hf hn e1)) ?_
          exact ih h2 h3 qs1 ns1 c1.1.2.1 (hrest.imp (fun _ _ hp => GetSymbol_ext hf c1.1 hp)) e2
        · cases hcv
      · cases hcv

theorem copyBindings_frame (fuel res : Nat) (u : Ptr) :
    ∀ (data : List (String × Ptr)) (h h1 : Heap) (acc : List (String × Ptr)), h.Fresh →
      h.obj? res = some (.NameSpace acc u) →
      copyBindings (Copy fuel) res h data = .ok h1 →
      ∃ acc1, h1.obj? res = some (.NameSpace acc1 u) ∧ (data = [] → acc1 = acc) := by
  intro data
  induction data with
  | nil =>
    intro h h1 acc _ ho hcb
    simp only [copyBindings, Except.ok.injEq] at hcb
    subst hcb
    exact ⟨acc, ho, fun _ => rfl⟩
  | cons kv data ih =>
    intro h h1 acc hf ho hcb
    obtain ⟨key, value_⟩ := kv
    cases value_ with
    | none => simp [copyBindings] at hcb
    | some v =>
      simp only [copyBindings] at hcb
      split at hcb
      · rename_i h2 q e1
        split at hcb
        · rename_i h3 e2
          have c1 := Copy_ok_post hf e1
          have ho2 : h2.obj? res = some (.NameSpace acc u) :=
            (c1.1.2.2 res (obj?_lt_next hf ho)).trans ho
          obtain ⟨d, up, ho3, rfl⟩ := NameSpace.Set_eq e2
          rw [ho2] at ho3
          cases ho3
          obtain ⟨acc1, hacc, _⟩ := ih _ h1 (mapSet acc key q) (Fresh_update c1.1.2.1 _ _)
            (obj?_update_self _ (by rw [ho2]; rfl)) hcb
          exact ⟨acc1, hacc, fun e => by cases e⟩
        · cases hcb
      · cases hcb

theorem Copy_frame {fuel : Nat} {h h1 : Heap} {s : Nat} {q : Ptr} {d : List (String × Ptr)}
    {u : Ptr} (hf : h.Fresh) (hs : h.obj? s = some (.NameSpace d u))
    (hc : Copy fuel h (some s) = .ok (h1, q)) :
    ∃ d1, q = some h.next ∧ h1.obj? h.next = some (.NameSpace d1 u) ∧ (d = [] → d1 = []) := by
  cases fuel with
  | zero => simp [Copy] at hc
  | succ k =>
    rw [Copy] at hc
    simp only [hs] at hc
    split at hc
    · cases hc
    · rename_i h2 e1
      simp only [Except.ok.injEq, Prod.mk.injEq] at hc
      obtain ⟨rfl, rfl⟩ := hc
      obtain ⟨d1, hd1, hnil⟩ := copyBindings_frame k h.next u d _ h2 [] (Fresh_Make hf _)
        (obj?_Make_new hf _) e1
      exact ⟨d1, rfl, hd1, hnil⟩

/-- What `Copy` makes of a closure: a new closure object at the next free address, with as
many parameters and body expressions, the parameters being symbols of the same names, and
with a new own frame that has the same parent as the own frame of the original (and is
empty when that one is); nothing that existed is changed.  The parameters and the body
expressions of the new closure are the duplicates `CopyVector` makes of the original ones,
and the new frame is the first object made after them. -/
theorem Copy_closure {fuel : Nat} {h h1 : Heap} {f s : Nat} {q : Ptr} {names body : List Ptr}
    {d : List (String × Ptr)} {u : Ptr} (hf : h.Fresh)
    (hlam : h.obj? f = some (.Lambda names body (some s)))
    (hs : h.obj? s = some (.NameSpace d u)) (hc : Copy fuel h (some f) = .ok (h1, q)) :
    ∃ names1 body1 s1 d1, q = some h.next ∧
      h1.obj? h.next = some (.Lambda names1 body1 (some s1)) ∧
      h1.obj? s1 = some (.NameSpace d1 u) ∧ (d = [] → d1 = []) ∧ h.next < s1 ∧
      names1.length = names.length ∧ body1.length = body.length ∧
      (∀ ns, List.Forall₂ (fun p n => GetSymbol h p = .ok n) names ns →
        List.Forall₂ (fun p n => GetSymbol h1 p = .ok n) names1 ns) ∧
      Ext h h1 ∧
      ∃ k hA hB, fuel = k + 1 ∧
        CopyVector (Copy k) (h.Make (.Lambda [] [] none)).1 names = .ok (hA, names1) ∧
        CopyVector (Copy k) hA body = .ok (hB, body1) ∧ s1 = hB.next := by
  have post := Copy_ok_post hf hc
  cases fuel with
  | zero => simp [Copy] at hc
  | succ k =>
    rw [Copy] at hc
    simp only [hlam] at hc
    split at hc
    · cases hc
    · rename_i hA names1 e1
      split at hc
      · cases hc
      · rename_i hB body1 e2
        split at hc
        · cases hc
        · rename_i hC sc1 e3
          simp only [Except.ok.injEq, Prod.mk.injEq] at hc
          obtain ⟨rfl, rfl⟩ := hc
          simp only [Make_snd] at post ⊢
          have hf0 : (h.Make (.Lambda [] [] none)).1.Fresh := Fresh_Make hf _
          have x0 : Ext h (h.Make (.Lambda [] [] none)).1 := Ext.alloc hf _
          have cA := CopyVector_post (fun h p h1 q hf hc => Copy_ok_post hf hc) names _ hA names1
            hf0 e1
          have cB := CopyVector_post (fun h p h1 q hf hc => Copy_ok_post hf hc) body hA hB body1
            cA.1.2.1 e2
          have xB : Ext h hB := (x0.andThen cA.1).andThen cB.1
          have hsB : hB.obj? s = some (.NameSpace d u) :=
            (xB.2.2 s (obj?_lt_next hf hs)).trans hs
          obtain ⟨d1, rfl, hd1, hnil⟩ := Copy_frame cB.1.2.1 hsB e3
          have cC := Copy_ok_post cB.1.2.1 e3
          have hnlt : h.next < hB.next := by
            have h1' : (h.Make (.Lambda [] [] none)).1.next = h.next + 1 := rfl
            have := cA.1.1
            have := cB.1.1
            omega
          have halive : (hC.obj? h.next).isSome = true := by
            rw [((cA.1.andThen cB.1).andThen cC.1).2.2 h.next (by
              show h.next < (h.Make (.Lambda [] [] none)).1.next
              exact Nat.lt_succ_self _), obj?_Make_new hf]
            rfl
          refine ⟨names1, body1, hB.next, d1, trivial, obj?_update_self _ halive, ?_, hnil, hnlt,
            cA.2.2, cB.2.2, ?_, post.1, k, hA, hB, rfl, e1, e2, rfl⟩
          · rw [obj?_update_other _ _ (by omega)]
            exact hd1
          · intro ns hns
            have hA' := CopyVector_symbols k names _ hA names1 ns hf0
              (hns.imp (fun _ _ hp => GetSymbol_ext hf x0 hp)) e1
            refine hA'.imp (fun p n hp => ?_)
            have hpC := GetSymbol_ext cA.1.2.1 (cB.1.andThen cC.1) hp
            obtain ⟨a, rfl, ho⟩ := GetSymbol_ok hpC
            have hne : a ≠ h.next := by
              intro e
              subst e
              have := ((cA.1.andThen cB.1).andThen cC.1).2.2 h.next (by
                show h.next < (h.Make (.Lambda [] [] none)).1.next
                exact Nat.lt_succ_self _)
              rw [obj?_Make_new hf, ho] at this
              cases this
            simp only [GetSymbol, obj?_update_other _ _ hne, ho]

end Scheme
namespace Scheme

/-! ## Arity checks of the special forms -/

set_option maxRecDepth 100000

/-- **C25.** The arity checks of the special forms, none of which evaluates an operand (the
results hold for every evaluator and duplicator).  `if` with fewer than 2 or more than 3
operands, `set!`, `set-car!` and `set-cdr!` with other than 2, `define` with fewer than 2
and value-form `define` with other than 2, and `lambda` with fewer than 2 fail with
`SyntaxError`.  `quote` with other than 1 operand fails with `RuntimeError`, not with
`SyntaxError`: it calls `RequiresOnlyXArguments` where the other forms call the variants
that throw `SyntaxError`.  On a fresh interpreter `(quote)` and `(quote 1 2)` give
`RuntimeError`. -/
theorem quote_arity_error_is_RuntimeError :
    (∀ (fuel : Nat) (h : Heap) (obj : Ptr) (args : List Ptr),
        ToVector fuel h obj = .ok args → args.length ≠ 1 →
        Quote.call fuel h obj = .error .RuntimeError) ∧
      (∀ (eval : CalcFn) (fuel : Nat) (h : Heap) (obj scope : Ptr) (args : List Ptr),
        ToVector fuel h obj = .ok args → (args.length < 2 ∨ 3 < args.length) →
        If.call eval fuel h obj scope = .error .SyntaxError) ∧
      (∀ (eval : CalcFn) (copy : CopyFn) (fuel : Nat) (h : Heap) (obj scope : Ptr)
          (args : List Ptr),
        ToVector fuel h obj = .ok args → args.length ≠ 2 →
        Set.call eval copy fuel h obj scope = .error .SyntaxError ∧
          SetCar.call eval copy fuel h obj scope = .error .SyntaxError ∧
          SetCdr.call eval copy fuel h obj scope = .error .SyntaxError) ∧
      (∀ (eval : CalcFn) (copy : CopyFn) (fuel : Nat) (h : Heap) (obj scope : Ptr)
          (args : List Ptr),
        ToVector fuel h obj = .ok args →
        (args.length < 2 ∨ (∃ front rest, args = front :: rest ∧ IsSymbol h front = true ∧
          args.length ≠ 2)) →
        Define.call eval copy fuel h obj scope = .error .SyntaxError) ∧
      (∀ (fuel : Nat) (h : Heap) (obj scope : Ptr) (args : List Ptr),
        ToVector fuel h obj = .ok args → args.length < 2 →
        CreateLambda.call fuel h obj scope = .error .SyntaxError) ∧
      (∀ s ∈ ["(quote)", "(quote 1 2)", "(quote u u)"],
        (Interpreter.Run 40 Interpreter.new s).map Prod.snd = .error .RuntimeError) ∧
      (∀ s ∈ ["(if)", "(if 1)", "(if 1 2 3 4)", "(if u)", "(define)", "(define x)",
          "(define x 1 2)", "(define x u u)", "(set!)", "(set! x)", "(set! x 1 2)",
          "(set! u u u)", "(set-car!)", "(set-car! x)", "(set-car! u u u)", "(set-cdr!)",
          "(set-cdr! x 1 2)", "(lambda)", "(lambda (x))"],
        (Interpreter.Run 40 Interpreter.new s).map Prod.snd = .error .SyntaxError) := by
  refine ⟨?_, ?_, ?_, ?_, ?_, ?_, ?_⟩
  · intro fuel h obj args hv hlen
    unfold Quote.call
    simp only [hv, RequiresOnlyXArguments, bind, Except.bind, hlen, ne_eq, not_false_eq_true,
      if_true]
  · intro eval fuel h obj scope args hv hlen
    unfold If.call
    simp only [hv, RequiresOnlyLRArgumentsS, bind, Except.bind]
    rw [if_pos (by omega)]
  · intro eval copy fuel h obj scope args hv hlen
    refine ⟨?_, ?_, ?_⟩
    · unfold Set.call
      simp only [hv, RequiresOnlyXArgumentsS, bind, Except.bind, hlen, ne_eq,
        not_false_eq_true, if_true]
    · unfold SetCar.call
      simp only [hv, RequiresOnlyXArgumentsS, bind, Except.bind, hlen, ne_eq,
        not_false_eq_true, if_true]
    · unfold SetCdr.call
      simp only [hv, RequiresOnlyXArgumentsS, bind, Except.bind, hlen, ne_eq,
        not_false_eq_true, if_true]
  · intro eval copy fuel h obj scope args hv hor
    unfold Define.call
    simp only [hv, RequiresMinimumXArgumentsS, bind, Except.bind]
    rcases hor with hlt | ⟨front, rest, rfl, hsym, hlen⟩
    · rw [if_pos hlt]
    · by_cases hlt : (front :: rest).length < 2
      · rw [if_pos hlt]
      · rw [if_neg hlt]
        simp only [hsym, if_true, RequiresOnlyXArgumentsS, hlen, ne_eq, not_false_eq_true]
  · intro fuel h obj scope args hv hlen
    unfold CreateLambda.call
    simp only [hv, RequiresMinimumXArgumentsS, bind, Except.bind]
    rw [if_pos hlen]
  · intro s hs
    simp only [List.mem_cons, List.mem_singleton, List.not_mem_nil, or_false] at hs
    rcases hs with rfl | rfl | rfl <;> rfl
  · intro s hs
    simp only [List.mem_cons, List.mem_singleton, List.not_mem_nil, or_false] at hs
    rcases hs with rfl | rfl | rfl | rfl | rfl | rfl | rfl | rfl | rfl | rfl | rfl | rfl |
      rfl | rfl | rfl | rfl | rfl | rfl | rfl <;> rfl

end Scheme
namespace Scheme

/-! ## Evaluator dispatch -/

set_option maxRecDepth 100000

/-- **C26.** The dispatch of `Calc` on the kind of its operand.  An integer or a Boolean
evaluates to itself, in an unchanged heap.  A symbol evaluates to what `NameSpace::Get`
finds for its name: on an environment chain, the binding of the innermost frame that binds
it, and `NameError` when no frame does.  A pair whose head evaluates to a value that is not
callable fails with `RuntimeError`.  The empty list and every other kind of object (a
builtin, a closure, an environment) fail with `RuntimeError`. -/
theorem Calc_dispatch (fuel : Nat) (h : Heap) (scope : Ptr) :
    (∀ a n, h.obj? a = some (.Number n) → Calc (fuel + 1) h (some a) scope = .ok (h, some a)) ∧
      (∀ a b, h.obj? a = some (.Boolean b) →
        Calc (fuel + 1) h (some a) scope = .ok (h, some a)) ∧
      (∀ a name, h.obj? a = some (.Symbol name) →
        (∀ o v, NameSpace.Get (fuel + 1) h scope name = .ok (o, v) →
          Calc (fuel + 1) h (some a) scope = .ok (h, v)) ∧
        (∀ frames, chain h scope frames = true → frames.length ≤ fuel + 1 →
          ((∀ f ∈ frames, f.2.lookup name = none) →
            Calc (fuel + 1) h (some a) scope = .error .NameError) ∧
          (∀ pre b d post v, frames = pre ++ (b, d) :: post →
            (∀ f ∈ pre, f.2.lookup name = none) → d.lookup name = some v →
            Calc (fuel + 1) h (some a) scope = .ok (h, v)))) ∧
      (∀ a first second h1 func args, h.obj? a = some (.Cell first second) →
        Calc fuel h first scope = .ok (h1, func) → h1.obj? a = some (.Cell first args) →
        IsFunctor h1 func = false → Calc (fuel + 1) h (some a) scope = .error .RuntimeError) ∧
      Calc (fuel + 1) h none scope = .error .RuntimeError ∧
      (∀ a o, h.obj? a = some o →
        ((∃ kind, o = .Functor kind) ∨ (∃ ns body sc, o = .Lambda ns body sc) ∨
          (∃ d u, o = .NameSpace d u)) →
        Calc (fuel + 1) h (some a) scope = .error .RuntimeError) := by
  refine ⟨?_, ?_, ?_, ?_, ?_, ?_⟩
  · intro a n ho
    rw [Calc]
    simp only [ho]
  · intro a b ho
    rw [Calc]
    simp only [ho]
  · intro a name ho
    refine ⟨fun o v hg => Calc_symbol ho hg, ?_⟩
    intro frames hc hlen
    constructor
    · intro hall
      rw [Calc]
      simp only [ho, Get_chain_unbound hc hlen hall]
    · intro pre b d post v hfr hpre hd
      exact Calc_symbol ho (Get_chain_first hc hlen hfr hpre hd)
  · intro a first second h1 func args ho hfun ho1 hnf
    rw [Calc]
    simp only [ho, hfun, ho1, hnf, Bool.not_false, if_true]
  · rw [Calc]
  · intro a o ho hkind
    rw [Calc]
    rcases hkind with ⟨kind, rfl⟩ | ⟨ns, body, sc, rfl⟩ | ⟨d, u, rfl⟩ <;> simp only [ho]

/-- The dispatch of C26 on a fresh interpreter: literals print as themselves, a bound symbol
prints its value, an unbound symbol gives `NameError`, and `(1 2)`, `()`, `(#t)` and a pair
whose head is a quoted symbol give `RuntimeError`. -/
theorem Calc_dispatch_sessions :
    Interpreter.RunAll 40 Interpreter.new ["1", "-7", "#t", "#f", "car", "(define x 5)", "x"] =
        .ok ["1", "-7", "#t", "#f", "[car]", "x", "5"] ∧
      (Interpreter.Run 40 Interpreter.new "x").map Prod.snd = .error .NameError ∧
      (∀ s ∈ ["(1 2)", "()", "(#t)", "((quote a) 1)", "(())", "((quote (1 2)) 3)"],
        (Interpreter.Run 40 Interpreter.new s).map Prod.snd = .error .RuntimeError) := by
  refine ⟨by rfl, by rfl, ?_⟩
  intro s hs
  simp only [List.mem_cons, List.mem_singleton, List.not_mem_nil, or_false] at hs
  rcases hs with rfl | rfl | rfl | rfl | rfl | rfl <;> rfl

end Scheme
namespace Scheme

/-! ## List traversal on a self-referencing pair -/

set_option maxRecDepth 100000

theorem IsListHelper_self_tail {h : Heap} {a : Nat} {f : Ptr}
    (ho : h.obj? a = some (.Cell f (some a))) :
    ∀ fuel, IsListHelper fuel h (some a) = .error .OutOfFuel := by
  intro fuel
  induction fuel with
  | zero => rfl
  | succ n ih =>
    rw [IsListHelper]
    simp only [ho, ih]

theorem ToVector_self_tail {h : Heap} {a : Nat} {f : Ptr}
    (ho : h.obj? a = some (.Cell f (some a))) :
    ∀ fuel, ToVector fuel h (some a) = .error .OutOfFuel := by
  intro fuel
  induction fuel with
  | zero => rfl
  | succ n ih =>
    rw [ToVector]
    simp only [ho, ih]

/-- **C27.** The list traversals do not terminate on a pair whose second field is the pair
itself: the loops of `IsListHelper` and `ToVector` follow the second field for ever, so in
the model they exhaust every fuel.  Hence `list?` on an operand that evaluates to such a
pair, and `list-ref` on it, return for no fuel at all (in `selfTailHeap` neither returns
a value nor fails with `RuntimeError`).  On a fresh interpreter `(set-cdr! p p)` builds
such a pair, which prints as `(1 . {selfref})` while `pair?` and `car` work on it,
and `(list? p)` runs out of fuel. -/
theorem list_traversal_diverges_on_self_reference :
    (∀ (h : Heap) (a : Nat) (f : Ptr), h.obj? a = some (.Cell f (some a)) →
        ∀ fuel, IsListHelper fuel h (some a) = .error .OutOfFuel ∧
          ToVector fuel h (some a) = .error .OutOfFuel) ∧
      (∀ (eval : CalcFn) (fuel : Nat) (h h1 : Heap) (obj scope x : Ptr) (a : Nat) (f : Ptr),
        ToVector fuel h obj = .ok [x] → eval h x scope = .ok (h1, some a) →
        h1.obj? a = some (.Cell f (some a)) →
        IsList.call eval fuel h obj scope = .error .OutOfFuel) ∧
      (∀ (eval : CalcFn) (fuel : Nat) (h h1 : Heap) (obj scope e1 e2 kv : Ptr) (a : Nat)
          (f : Ptr),
        ToVector fuel h obj = .ok [e1, e2] →
        CalcVector eval h [e1, e2] scope = .ok (h1, [some a, kv]) →
        h1.obj? a = some (.Cell f (some a)) →
        ListRef.call eval fuel h obj scope = .error .OutOfFuel) ∧
      (¬ ∃ fuel r, IsList.call (Calc fuel) fuel selfTailHeap (some 4) (some 0) = .ok r) ∧
      (¬ ∃ fuel, IsList.call (Calc fuel) fuel selfTailHeap (some 4) (some 0) =
        .error .RuntimeError) ∧
      (¬ ∃ fuel r, ListRef.call (Calc fuel) fuel selfTailHeap (some 7) (some 0) = .ok r) ∧
      (¬ ∃ fuel, ListRef.call (Calc fuel) fuel selfTailHeap (some 7) (some 0) =
        .error .RuntimeError) ∧
      Interpreter.RunAll 60 Interpreter.new
          ["(define p (cons 1 2))", "(set-cdr! p p)", "p", "(pair? p)", "(car p)"] =
        .ok ["p", "2", "(1 . \x7bselfref\x7d)", "#t", "1"] ∧
      Interpreter.RunAll 60 Interpreter.new
          ["(define p (cons 1 2))", "(set-cdr! p p)", "(list? p)"] = .error .OutOfFuel ∧
      Interpreter.RunAll 60 Interpreter.new
          ["(define p (cons 1 2))", "(set-cdr! p p)", "(list-ref p 0)"] =
        .error .OutOfFuel := by
  have hlist : ∀ (eval : CalcFn) (fuel : Nat) (h h1 : Heap) (obj scope x : Ptr) (a : Nat)
      (f : Ptr), ToVector fuel h obj = .ok [x] → eval h x scope = .ok (h1, some a) →
      h1.obj? a = some (.Cell f (some a)) →
      IsList.call eval fuel h obj scope = .error .OutOfFuel := by
    intro eval fuel h h1 obj scope x a f hv he ho
    unfold IsList.call
    simp only [hv, RequiresOnlyXArguments, bind, Except.bind, CalcVector, he,
      IsListHelper_self_tail ho, List.length_cons, List.length_nil, Nat.zero_add, ne_eq,
      not_true_eq_false, if_false]
  have href : ∀ (eval : CalcFn) (fuel : Nat) (h h1 : Heap) (obj scope e1 e2 kv : Ptr)
      (a : Nat) (f : Ptr), ToVector fuel h obj = .ok [e1, e2] →
      CalcVector eval h [e1, e2] scope = .ok (h1, [some a, kv]) →
      h1.obj? a = some (.Cell f (some a)) →
      ListRef.call eval fuel h obj scope = .error .OutOfFuel := by
    intro eval fuel h h1 obj scope e1 e2 kv a f hv hcv ho
    unfold ListRef.call
    simp only [hv, hcv, RequiresOnlyXArguments, bind, Except.bind, ToVector_self_tail ho,
      List.length_cons, List.length_nil, Nat.zero_add, Nat.reduceAdd, ne_eq,
      not_true_eq_false, if_false]
  -- in `selfTailHeap` the two forms either run out of fuel before the traversal or in it
  have hL : ∀ fuel, IsList.call (Calc fuel) fuel selfTailHeap (some 4) (some 0) =
      .error .OutOfFuel := by
    intro fuel
    match fuel with
    | 0 => rfl
    | 1 => rfl
    | n + 2 =>
      exact hlist (Calc (n + 2)) (n + 2) selfTailHeap selfTailHeap (some 4) (some 0) (some 3) 1
        (some 2) rfl rfl rfl
  have hR : ∀ fuel, ListRef.call (Calc fuel) fuel selfTailHeap (some 7) (some 0) =
      .error .OutOfFuel := by
    intro fuel
    match fuel with
    | 0 => rfl
    | 1 => rfl
    | 2 => rfl
    | n + 3 =>
      exact href (Calc (n + 3)) (n + 3) selfTailHeap selfTailHeap (some 7) (some 0) (some 3)
        (some 5) (some 5) 1 (some 2) rfl rfl rfl
  refine ⟨fun h a f ho fuel => ⟨IsListHelper_self_tail ho fuel, ToVector_self_tail ho fuel⟩,
    hlist, href, ?_, ?_, ?_, ?_, by rfl, by rfl, by rfl⟩
  · rintro ⟨fuel, r, hr⟩
    rw [hL fuel] at hr
    cases hr
  · rintro ⟨fuel, hr⟩
    rw [hL fuel] at hr
    cases hr
  · rintro ⟨fuel, r, hr⟩
    rw [hR fuel] at hr
    cases hr
  · rintro ⟨fuel, hr⟩
    rw [hR fuel] at hr
    cases hr

end Scheme
namespace Scheme

/-! ## Malformed input -/

set_option maxRecDepth 100000

theorem GetToken_of_ne {t : Tokenizer} (hne : t.cur_token_ ≠ .DummyToken) :
    t.GetToken = .ok t.cur_token_ := by
  unfold Tokenizer.GetToken Tokenizer.IsEnd
  simp [hne]

theorem GetToken_at_end {t : Tokenizer} (he : t.cur_token_ = .DummyToken) :
    t.GetToken = .error .SyntaxError := by
  unfold Tokenizer.GetToken Tokenizer.IsEnd
  simp [he]

/-- **C28.** Malformed input is rejected with `SyntaxError` by the reader, before `Run`
reaches the evaluator (none of the statements depends on what `Calc` does).
* `Read` fails when the input has ended, and on a `)` or a `.` where an expression starts.
* `ReadList` fails when the input ends right after the opening bracket, after an element,
  or after the expression of a dotted tail, and when that expression is followed by any
  token other than `)`.
* `Run` fails when `Read` does, with the same error, and with `SyntaxError` when a token
  is left after the first complete expression.
On a fresh interpreter each malformed line of the list gives `SyntaxError`. -/
theorem malformed_input_is_SyntaxError :
    (∀ (fuel : Nat) (h : Heap) (t : Tokenizer), t.cur_token_ = .DummyToken →
        Read (fuel + 1) h t = .error .SyntaxError) ∧
      (∀ (fuel : Nat) (h : Heap) (t t1 : Tokenizer),
        (t.cur_token_ = .BracketCLOSE ∨ t.cur_token_ = .DotToken) → t.Next = .ok t1 →
        Read (fuel + 1) h t = .error .SyntaxError) ∧
      (∀ (read : ReadFn) (fuel : Nat) (h : Heap) (t : Tokenizer), t.cur_token_ = .DummyToken →
        ReadList read fuel h t = .error .SyntaxError) ∧
      (∀ (read : ReadFn) (fuel : Nat) (h : Heap) (t : Tokenizer) (list : List Ptr),
        t.cur_token_ = .DummyToken →
        ReadListLoop read (fuel + 1) h t list = .error .SyntaxError) ∧
      (∀ (read : ReadFn) (fuel : Nat) (h h1 : Heap) (t t1 t2 : Tokenizer) (list : List Ptr)
          (x : Ptr),
        t.cur_token_ = .DotToken → t.Next = .ok t1 → read h t1 = .ok (h1, t2, x) →
        (t2.cur_token_ = .DummyToken →
          ReadListLoop read (fuel + 1) h t list = .error .SyntaxError) ∧
        (t2.cur_token_ ≠ .DummyToken →
          ReadListLoop read (fuel + 1) h t list = .ok (h1, t2, list ++ [x], true))) ∧
      (∀ (read : ReadFn) (fuel : Nat) (h h1 h2 : Heap) (t t1 t2 : Tokenizer) (x : Ptr)
          (list : List Ptr) (is_pair : Bool),
        t.cur_token_ ≠ .DummyToken → t.cur_token_ ≠ .BracketCLOSE →
        read h t = .ok (h1, t1, x) →
        ReadListLoop read fuel h1 t1 [x] = .ok (h2, t2, list, is_pair) →
        t2.cur_token_ ≠ .BracketCLOSE → ReadList read fuel h t = .error .SyntaxError) ∧
      (∀ (fuel : Nat) (self : Interpreter) (str : String) (t : Tokenizer) (e : Err),
        Tokenizer.new str = .ok t → Read fuel self.heap t = .error e →
        self.Run fuel str = .error e) ∧
      (∀ (fuel : Nat) (self : Interpreter) (str : String) (t t1 : Tokenizer) (h1 : Heap)
          (object : Ptr),
        Tokenizer.new str = .ok t → Read fuel self.heap t = .ok (h1, t1, object) →
        t1.cur_token_ ≠ .DummyToken → self.Run fuel str = .error .SyntaxError) ∧
      (∀ s ∈ ["(", "(1 2", "((1)", ")", ".", "(1 . )", "(1 . 2 3)", "(1 . 2", "(1 .", "1 2",
          "(. 1)", "( . )", "1)", "())", "(1 . 2 . 3)", "(+ 1 2) 3", "(+ 1 2))", "",
          "(quote", "(quote (1 . 2 3))", "(car (quote (1 2)"],
        (Interpreter.Run 40 Interpreter.new s).map Prod.snd = .error .SyntaxError) := by
  refine ⟨?_, ?_, ?_, ?_, ?_, ?_, ?_, ?_, ?_⟩
  · intro fuel h t he
    rw [Read]
    simp only [GetToken_at_end he]
  · intro fuel h t t1 hor hn
    have hne : t.cur_token_ ≠ .DummyToken := by
      rcases hor with e | e <;> rw [e] <;> simp
    rw [Read]
    simp only [GetToken_of_ne hne, hn]
    rcases hor with e | e <;> rw [e]
  · intro read fuel h t he
    unfold ReadList
    simp only [GetToken_at_end he, bind, Except.bind]
  · intro read fuel h t list he
    rw [ReadListLoop]
    simp only [GetToken_at_end he]
  · intro read fuel h h1 t t1 t2 list x hd hn hr
    have hne : t.cur_token_ ≠ .DummyToken := by rw [hd]; simp
    constructor
    · intro he
      rw [ReadListLoop]
      simp only [GetToken_of_ne hne, hd, hn, hr, GetToken_at_end he]
      simp
    · intro hne2
      rw [ReadListLoop]
      simp only [GetToken_of_ne hne, hd, hn, hr, GetToken_of_ne hne2]
      simp
  · intro read fuel h h1 h2 t t1 t2 x list is_pair hne hnc hr hloop hnc2
    unfold ReadList
    simp only [GetToken_of_ne hne, bind, Except.bind, hnc, if_false, hr, hloop]
    by_cases he : t2.cur_token_ = .DummyToken
    · simp only [GetToken_at_end he]
    · simp only [GetToken_of_ne he, hnc2, ne_eq, not_false_eq_true, if_true]
  · intro fuel self str t e ht hr
    unfold Interpreter.Run
    simp only [ht, hr, bind, Except.bind]
  · intro fuel self str t t1 h1 object ht hr hne
    unfold Interpreter.Run
    have : t1.IsEnd = false := by
      unfold Tokenizer.IsEnd
      simpa using hne
    simp only [ht, hr, bind, Except.bind, this, Bool.not_false, if_true]
  · intro s hs
    simp only [List.mem_cons, List.mem_singleton, List.not_mem_nil, or_false] at hs
    rcases hs with rfl | rfl | rfl | rfl | rfl | rfl | rfl | rfl | rfl | rfl | rfl | rfl |
      rfl | rfl | rfl | rfl | rfl | rfl | rfl | rfl | rfl <;> rfl

end Scheme
namespace Scheme

/-! ## Termination of the collector -/

/-- **C29.** `RemoveTrash(root)` terminates on every heap without dangling pointers whose
parent links are acyclic (`rank` decreases along `upper_`), whatever cycles the heap has
through the fields of pairs, the bound values of environments and the components of
closures: there is a fuel bound `F`, at most `(R + 2) * n + 1` for the `n` objects of the
heap and the sum `R` of their ranks, from which on the marking returns; the sweep then
leaves only marked objects and drops none of them.  A guarded call on an object that is
already marked does nothing. -/
theorem RemoveTrash_terminates_with_cycles (h : Heap) (root : Nat) (rank : Nat → Nat)
    (hc : h.Closed) (hr : h.upperRanked rank = true) (hroot : (h.obj? root).isSome = true) :
    (∃ F, F ≤ ((h.data_.map (fun s => rank s.addr)).sum + 2) * h.data_.length + 1 ∧
        ∀ fuel, F ≤ fuel → ∃ h0 h1, Mark fuel
            { h with data_ := h.data_.map (fun s => { s with used_ := false }) } root = .ok h0 ∧
          h.RemoveTrash fuel root = .ok h1 ∧ (∀ s ∈ h1.data_, s.used_ = true) ∧
          h1.data_.Perm (h0.data_.filter (fun s => s.used_))) ∧
      (∀ (mark : Heap → Nat → Except Err Heap) (g : Heap) (a : Nat), g.GetMark a = true →
        markPtr mark g (some a) = .ok g) := by
  constructor
  · let R := (h.data_.map (fun s => rank s.addr)).sum
    let h0 : Heap := { h with data_ := h.data_.map (fun s => { s with used_ := false }) }
    have m0 : MarkLE h0 h := ⟨rfl, forall₂_unmarkAll _⟩
    have hG0 : ∀ x, h0.obj? x = h.obj? x := fun x => (m0.obj? x).symm
    have hmark0 : ∀ x, h0.GetMark x = false := fun x => GetMark_unmarkAll _ _ _
    have hun : h0.unmarked ≤ h.data_.length := by
      unfold Heap.unmarked
      exact le_trans (List.length_filter_le _ _) (by simp [h0])
    refine ⟨(R + 2) * h0.unmarked + 1, ?_, fun fuel hfuel => ?_⟩
    · exact Nat.add_le_add_right (Nat.mul_le_mul_left _ hun) 1
    · obtain ⟨h1, e1⟩ := Mark_terminates h.obj? rank R
        (fun a o ho b hb => Closed.isSome hc ho hb)
        (fun a data u ho => upperRanked.lt hr ho)
        (fun a ha => by
          cases ho : h.obj? a with
          | none => rw [ho] at ha; cases ha
          | some o =>
            obtain ⟨s, hs, hsa, _⟩ := obj?_some_mem ho
            rw [← hsa]
            exact rank_le_sum rank _ hs)
        fuel h0 root hG0 hroot (by rw [hmark0]; simp; omega)
      have hsweep := sweep_perm h1.data_.length 0 h1.data_ (by omega) (by simp)
      refine ⟨h1, { h1 with data_ := sweep h1.data_.length 0 h1.data_ }, e1, ?_, ?_, hsweep⟩
      · show (match Mark fuel h0 root with
            | .ok h1 => Except.ok { h1 with data_ := sweep h1.data_.length 0 h1.data_ }
            | .error e => .error e) = _
        rw [e1]
      · intro s hs
        have := (hsweep.mem_iff).mp hs
        simpa using (List.mem_filter.mp this).2
  · intro mark g a hm
    simp only [markPtr, hm, if_true]

/-- Witness for C29: `cyclicHeap`, in which a pair is its own second field and the global
frame binds a closure whose own frame has the global frame as parent. -/
theorem RemoveTrash_terminates_with_cycles_witness :
    (∃ F, F ≤ ((cyclicHeap.data_.map (fun s => id s.addr)).sum + 2) * cyclicHeap.data_.length
          + 1 ∧
        ∀ fuel, F ≤ fuel → ∃ h0 h1, Mark fuel
            { cyclicHeap with
              data_ := cyclicHeap.data_.map (fun s => { s with used_ := false }) } 0 = .ok h0 ∧
          cyclicHeap.RemoveTrash fuel 0 = .ok h1 ∧ (∀ s ∈ h1.data_, s.used_ = true) ∧
          h1.data_.Perm (h0.data_.filter (fun s => s.used_))) ∧
      (cyclicHeap.RemoveTrash 20 0).map (fun g => g.data_.map Slot.addr) = .ok [0, 1, 2, 5, 4] :=
  ⟨(RemoveTrash_terminates_with_cycles cyclicHeap 0 id (by decide) (by decide) (by decide)).1,
    by rfl⟩

end Scheme
namespace Scheme

/-! ## Construction of closures -/

set_option maxRecDepth 100000

theorem IsListHelper_of_listOf (h : Heap) :
    ∀ (vec : List Ptr) (p : Ptr) (fuel : Nat), listOf h p vec = true → vec.length < fuel →
      IsListHelper fuel h p = .ok true := by
  intro vec
  induction vec with
  | nil =>
    intro p fuel hl hf
    rw [listOf_nil hl]
    obtain ⟨n, rfl⟩ : ∃ n, fuel = n + 1 := ⟨fuel - 1, by simp at hf; omega⟩
    rfl
  | cons x xs ih =>
    intro p fuel hl hf
    obtain ⟨a, s, rfl, ho, hs⟩ := listOf_cons hl
    obtain ⟨n, rfl⟩ : ∃ n, fuel = n + 1 := ⟨fuel - 1, by simp at hf; omega⟩
    rw [IsListHelper]
    simp only [ho, ih s n hs (by simp at hf; omega)]

theorem MakeLambda_eq (h : Heap) (args body : List Ptr) (scope : Ptr) :
    (MakeLambda h args body scope).1 =
      ((h.Make (.Lambda args body (some (h.next + 1)))).1.Make (.NameSpace [] scope)).1 := by
  simp [MakeLambda, Heap.Make]

theorem MakeLambda_spec {h : Heap} (hf : h.Fresh) (args body : List Ptr) (scope : Ptr) :
    (MakeLambda h args body scope).1.Fresh ∧
      (MakeLambda h args body scope).1.next = h.next + 2 ∧
      (MakeLambda h args body scope).1.obj? h.next =
        some (.Lambda args body (some (h.next + 1))) ∧
      (MakeLambda h args body scope).1.obj? (h.next + 1) = some (.NameSpace [] scope) ∧
      ∀ a, a < h.next → (MakeLambda h args body scope).1.obj? a = h.obj? a := by
  have hf1 : (h.Make (.Lambda args body (some (h.next + 1)))).1.Fresh := Fresh_Make hf _
  have hn1 : (h.Make (.Lambda args body (some (h.next + 1)))).1.next = h.next + 1 := rfl
  rw [MakeLambda_eq]
  refine ⟨Fresh_Make hf1 _, rfl, ?_, ?_, ?_⟩
  · rw [obj?_Make_old _ _ (by rw [hn1]; omega)]
    exact obj?_Make_new hf _
  · have := obj?_Make_new hf1 (.NameSpace [] scope)
    rw [hn1] at this
    exact this
  · intro a ha
    rw [obj?_Make_old _ _ (by rw [hn1]; omega), obj?_Make_old _ _ (by omega)]

theorem all_symbols_false {h : Heap} {params : List Ptr}
    (hex : ∃ p ∈ params, IsSymbol h p = false) :
    params.all (fun elem => IsSymbol h elem) = false := by
  obtain ⟨p, hp, hps⟩ := hex
  rw [List.all_eq_false]
  exact ⟨p, hp, by simp [hps]⟩

theorem all_symbols_true {h : Heap} {params : List Ptr}
    (hall : ∀ p ∈ params, IsSymbol h p = true) :
    params.all (fun elem => IsSymbol h elem) = true := by
  rw [List.all_eq_true]
  exact hall

/-- **C30.** `(lambda (p...) body...)` and `(define (name p...) body...)` in the frame `s`,
with at least one body expression.  Neither evaluates anything (`CreateLambda` has no
evaluator at all, and the result of `define` is the same for every evaluator and
duplicator).  If every parameter is a symbol they make a new closure holding the parameters
and the unevaluated body expressions, whose own new, empty frame has the current frame `s`
as parent, and leave every other object as it was; `lambda` returns the closure, `define`
binds the name of `name` to it in the frame `s` and returns the symbol `name`.  If some
parameter is not a symbol both fail with `SyntaxError`. -/
theorem closure_construction_does_not_evaluate_body (fuel : Nat) (h : Heap) (obj head : Ptr)
    (s : Nat) (body : List Ptr) (d : List (String × Ptr)) (u : Ptr)
    (hv : ToVector fuel h obj = .ok (head :: body)) (hb : body ≠ []) (hf : h.Fresh)
    (hs : h.obj? s = some (.NameSpace d u)) :
    (∀ params, listOf h head params = true → params.length < fuel →
        ((∀ p ∈ params, IsSymbol h p = true) →
          ∃ h1, CreateLambda.call fuel h obj (some s) = .ok (h1, some h.next) ∧
            h1.obj? h.next = some (.Lambda params body (some (h.next + 1))) ∧
            h1.obj? (h.next + 1) = some (.NameSpace [] (some s)) ∧
            ∀ a, a < h.next → h1.obj? a = h.obj? a) ∧
        ((∃ p ∈ params, IsSymbol h p = false) →
          CreateLambda.call fuel h obj (some s) = .error .SyntaxError)) ∧
      (∀ name params n, listOf h head (name :: params) = true → params.length + 1 < fuel →
        GetSymbol h name = .ok n →
        ((∀ p ∈ params, IsSymbol h p = true) →
          ∃ h2, (∀ (eval : CalcFn) (copy : CopyFn),
              Define.call eval copy fuel h obj (some s) = .ok (h2, name)) ∧
            h2.obj? s = some (.NameSpace (mapSet d n (some h.next)) u) ∧
            (∀ m, m ≠ n → (mapSet d n (some h.next)).lookup m = d.lookup m) ∧
            h2.obj? h.next = some (.Lambda params body (some (h.next + 1))) ∧
            h2.obj? (h.next + 1) = some (.NameSpace [] (some s)) ∧
            ∀ a, a < h.next → a ≠ s → h2.obj? a = h.obj? a) ∧
        ((∃ p ∈ params, IsSymbol h p = false) →
          ∀ (eval : CalcFn) (copy : CopyFn),
            Define.call eval copy fuel h obj (some s) = .error .SyntaxError)) := by
  have hblen : ¬ body.length < 1 := by
    cases body with
    | nil => exact absurd rfl hb
    | cons _ _ => simp
  have hlen2 : ¬ (head :: body).length < 2 := by
    simp only [List.length_cons]
    omega
  constructor
  · intro params hl hfuel
    have htv := ToVector_of_listOf h params head fuel hl hfuel
    have hcall : CreateLambda.call fuel h obj (some s) =
        CreateLambdaHelper h params body (some s) := by
      unfold CreateLambda.call
      simp only [hv, htv, RequiresMinimumXArgumentsS, bind, Except.bind, hlen2, hblen,
        if_false]
    constructor
    · intro hall
      obtain ⟨_, _, h1, h2, h3⟩ := MakeLambda_spec hf params body (some s)
      refine ⟨(MakeLambda h params body (some s)).1, ?_, h1, h2, h3⟩
      rw [hcall]
      simp only [CreateLambdaHelper, all_symbols_true hall, if_true]
      rfl
    · intro hex
      rw [hcall]
      simp only [CreateLambdaHelper, all_symbols_false hex]
      rfl
  · intro name params n hl hfuel hn
    have htv := ToVector_of_listOf h (name :: params) head fuel hl (by simpa using hfuel)
    have hil := IsListHelper_of_listOf h (name :: params) head fuel hl (by simpa using hfuel)
    have hns : IsSymbol h head = false := by
      obtain ⟨a, t, rfl, ho, _⟩ := listOf_cons hl
      simp [IsSymbol, ho]
    have hcall : ∀ (eval : CalcFn) (copy : CopyFn),
        Define.call eval copy fuel h obj (some s) =
          match CreateLambdaHelper h params body (some s) with
          | .ok (h1, lam) =>
            (match DefineHelper h1 name lam (some s) with
             | .ok h2 => .ok (h2, name)
             | .error e => .error e)
          | .error e => .error e := by
      intro eval copy
      unfold Define.call
      simp only [hv, htv, hil, hns, RequiresMinimumXArgumentsS, bind, Except.bind, hlen2,
        if_false, if_true, Bool.false_eq_true]
      cases CreateLambdaHelper h params body (some s) with
      | error e => rfl
      | ok r =>
        obtain ⟨h1, lam⟩ := r
        simp only
        cases DefineHelper h1 name lam (some s) <;> rfl
    constructor
    · intro hall
      obtain ⟨hf1, _, e1, e2, e3⟩ := MakeLambda_spec hf params body (some s)
      obtain ⟨na, rfl, hna⟩ := GetSymbol_ok hn
      have hslt : s < h.next := obj?_lt_next hf hs
      have hs1 : (MakeLambda h params body (some s)).1.obj? s = some (.NameSpace d u) :=
        (e3 s hslt).trans hs
      have hna1 : (MakeLambda h params body (some s)).1.obj? na = some (.Symbol n) :=
        (e3 na (obj?_lt_next hf hna)).trans hna
      refine ⟨(MakeLambda h params body (some s)).1.update s
          (.NameSpace (mapSet d n (some h.next)) u), ?_,
        obj?_update_self _ (by rw [hs1]; rfl),
        fun m hm => lookup_mapSet_other m n _ hm d,
        (obj?_update_other _ _ (by omega)).trans e1,
        (obj?_update_other _ _ (by omega)).trans e2,
        fun a ha has => (obj?_update_other _ _ has).trans (e3 a ha)⟩
      intro eval copy
      rw [hcall]
      simp only [CreateLambdaHelper, all_symbols_true hall, if_true, DefineHelper, GetSymbol,
        hna1, NameSpace.Set, hs1]
      rfl
    · intro hex eval copy
      rw [hcall]
      simp only [CreateLambdaHelper, all_symbols_false hex]
      rfl

/-- Witness for C30: in `closureHeap` the forms `(lambda (x) (u x))` and
`(define (f x) (u x))`, whose body refers to the unbound `u`, make the closure at the next
free address 15 with its frame at 16.  On a fresh interpreter a definition whose body would
fail succeeds, and a parameter that is not a symbol gives `SyntaxError`. -/
theorem closure_construction_does_not_evaluate_body_witness :
    (∃ h1, CreateLambda.call 5 closureHeap (some 14) (some 0) = .ok (h1, some 15) ∧
        h1.obj? 15 = some (.Lambda [some 2] [some 6] (some 16)) ∧
        h1.obj? 16 = some (.NameSpace [] (some 0))) ∧
      (∃ h2, Define.call (Calc 5) (Copy 5) 5 closureHeap (some 12) (some 0) =
          .ok (h2, some 1) ∧
        h2.obj? 0 = some (.NameSpace [("f", some 15)] none) ∧
        h2.obj? 15 = some (.Lambda [some 2] [some 6] (some 16)) ∧
        h2.obj? 16 = some (.NameSpace [] (some 0))) ∧
      Interpreter.RunAll 40 Interpreter.new
          ["(define (f x) (undefined-name x))", "(lambda (x) undefined)", "(define (g) u)",
            "f", "(lambda () 1)"] =
        .ok ["f", "[create-lambda]", "g", "[create-lambda]", "[create-lambda]"] ∧
      (∀ s ∈ ["(define (f 1) 1)", "(lambda (x 1) x)", "(define (f x #t) x)",
          "(lambda ((x)) x)"],
        (Interpreter.Run 40 Interpreter.new s).map Prod.snd = .error .SyntaxError) := by
  refine ⟨?_, ?_, by rfl, ?_⟩
  · obtain ⟨h1, hres, e1, e2, _⟩ :=
      ((closure_construction_does_not_evaluate_body 5 closureHeap (some 14) (some 8) 0
        [some 6] [] none rfl (by simp) (by decide) rfl).1 [some 2] rfl (by decide)).1
        (by decide)
    exact ⟨h1, hres, e1, e2⟩
  · obtain ⟨h2, hres, e0, _, e1, e2, _⟩ :=
      ((closure_construction_does_not_evaluate_body 5 closureHeap (some 12) (some 9) 0
        [some 6] [] none rfl (by simp) (by decide) rfl).2 (some 1) [some 2] "f" rfl
        (by decide) rfl).1 (by decide)
    exact ⟨h2, hres (Calc 5) (Copy 5), e0, e1, e2⟩
  · intro s hs
    simp only [List.mem_cons, List.mem_singleton, List.not_mem_nil, or_false] at hs
    rcases hs with rfl | rfl | rfl | rfl <;> rfl

end Scheme
namespace Scheme

/-! ## `Copy` keeps the stable objects -/

set_option maxRecDepth 100000

theorem Sealed_update {P : Nat → Prop} {h : Heap} (hs : Sealed P h) (a : Nat) (o1 : Object)
    (hu : ∀ d c, o1 = .NameSpace d (some c) → ¬ P c) : Sealed P (h.update a o1) := by
  refine ⟨Fresh_update hs.1 a o1, hs.2.1, ?_⟩
  intro x d u hx
  rw [obj?_update] at hx
  split at hx
  · cases ho : h.obj? a with
    | none => rw [ho] at hx; cases hx
    | some o =>
      rw [ho] at hx
      simp only [Option.map_some', Option.some.injEq] at hx
      exact hu d u hx
  · exact hs.2.2 x d u hx

theorem Sealed_Set {P : Nat → Prop} {h h1 : Heap} (hs : Sealed P h) {a : Nat} {name : String}
    {v : Ptr} (hset : NameSpace.Set h (some a) name v = .ok h1) : Sealed P h1 := by
  obtain ⟨d, u, ho, rfl⟩ := NameSpace.Set_eq hset
  refine Sealed_update hs a _ ?_
  intro d1 c e
  cases e
  exact hs.2.2 a d c ho

theorem CopyVector_sealed {P : Nat → Prop} {copy : CopyFn}
    (hc : ∀ h p h1 q, Sealed P h → copy h p = .ok (h1, q) → Sealed P h1) :
    ∀ (ps : List Ptr) (h h1 : Heap) (qs : List Ptr), Sealed P h →
      CopyVector copy h ps = .ok (h1, qs) → Sealed P h1 := by
  intro ps
  induction ps with
  | nil =>
    intro h h1 qs hs hcv
    simp only [CopyVector, Except.ok.injEq, Prod.mk.injEq] at hcv
    obtain ⟨rfl, _⟩ := hcv
    exact hs
  | cons p ps ih =>
    intro h h1 qs hs hcv
    simp only [CopyVector] at hcv
    split at hcv
    · rename_i h2 q e1
      split at hcv
      · rename_i h3 qs1 e2
        simp only [Except.ok.injEq, Prod.mk.injEq] at hcv
        obtain ⟨rfl, _⟩ := hcv
        exact ih h2 h3 qs1 (hc h p h2 q hs e1) e2
      · cases hcv
    · cases hcv

theorem copyBindings_sealed {P : Nat → Prop} {copy : CopyFn}
    (hc : ∀ h p h1 q, Sealed P h → copy h p = .ok (h1, q) → Sealed P h1) (res : Nat) :
    ∀ (data : List (String × Ptr)) (h h1 : Heap), Sealed P h →
      copyBindings copy res h data = .ok h1 → Sealed P h1 := by
  intro data
  induction data with
  | nil =>
    intro h h1 hs hcb
    simp only [copyBindings, Except.ok.injEq] at hcb
    subst hcb
    exact hs
  | cons kv data ih =>
    intro h h1 hs hcb
    obtain ⟨key, value_⟩ := kv
    cases value_ with
    | none => simp [copyBindings] at hcb
    | some v =>
      simp only [copyBindings] at hcb
      split at hcb
      · rename_i h2 q e1
        split at hcb
        · rename_i h3 e2
          exact ih h3 h1 (Sealed_Set (hc h (some v) h2 q hs e1) e2) hcb
        · cases hcb
      · cases hcb

theorem Copy_sealed {P : Nat → Prop} :
    ∀ (fuel : Nat) (h : Heap) (p : Ptr) (h1 : Heap) (q : Ptr), Sealed P h →
      Copy fuel h p = .ok (h1, q) → Sealed P h1 := by
  intro fuel
  induction fuel with
  | zero =>
    intro h p h1 q hs hc
    cases p with
    | none =>
      simp only [Copy, Except.ok.injEq, Prod.mk.injEq] at hc
      obtain ⟨rfl, _⟩ := hc
      exact hs
    | some a => simp [Copy] at hc
  | succ k ih =>
    intro h p h1 q hs hc
    cases p with
    | none =>
      simp only [Copy, Except.ok.injEq, Prod.mk.injEq] at hc
      obtain ⟨rfl, _⟩ := hc
      exact hs
    | some a =>
      rw [Copy] at hc
      split at hc
      · cases hc
      · simp only [Except.ok.injEq, Prod.mk.injEq] at hc
        obtain ⟨rfl, _⟩ := hc
        exact (Keeps_Make hs _ (by simp)).1
      · simp only [Except.ok.injEq, Prod.mk.injEq] at hc
        obtain ⟨rfl, _⟩ := hc
        exact (Keeps_Make hs _ (by simp)).1
      · simp only [Except.ok.injEq, Prod.mk.injEq] at hc
        obtain ⟨rfl, _⟩ := hc
        exact (Keeps_Make hs _ (by simp)).1
      · simp only [Except.ok.injEq, Prod.mk.injEq] at hc
        obtain ⟨rfl, _⟩ := hc
        exact (Keeps_Make hs _ (by simp)).1
      · rename_i first_ second_ ho
        have hs0 : Sealed P (h.Make (.Cell none none)).1 := (Keeps_Make hs _ (by simp)).1
        simp only at hc
        split at hc
        · cases hc
        · rename_i hA f e1
          have hsA : Sealed P hA := by
            split at e1
            · simp only [Except.ok.injEq, Prod.mk.injEq] at e1
              obtain ⟨rfl, _⟩ := e1
              exact hs0
            · exact ih _ _ _ _ hs0 e1
          have hsA2 : Sealed P (hA.update (h.Make (.Cell none none)).2 (.Cell f none)) :=
            Sealed_update hsA _ _ (by simp)
          split at hc
          · cases hc
          · rename_i hB s e2
            have hsB : Sealed P hB := by
              split at e2
              · simp only [Except.ok.injEq, Prod.mk.injEq] at e2
                obtain ⟨rfl, _⟩ := e2
                exact hsA2
              · exact ih _ _ _ _ hsA2 e2
            simp only [Except.ok.injEq, Prod.mk.injEq] at hc
            obtain ⟨rfl, _⟩ := hc
            exact Sealed_update hsB _ _ (by simp)
      · rename_i data_ upper_ ho
        have hs0 : Sealed P (h.Make (.NameSpace [] upper_)).1 := by
          refine (Keeps_Make hs _ ?_).1
          intro d c e
          cases e
          exact hs.2.2 a data_ c ho
        simp only at hc
        split at hc
        · cases hc
        · rename_i hA e1
          simp only [Except.ok.injEq, Prod.mk.injEq] at hc
          obtain ⟨rfl, _⟩ := hc
          exact copyBindings_sealed ih _ data_ _ _ hs0 e1
      · rename_i arg_names_ body_ scope_ ho
        have hs0 : Sealed P (h.Make (.Lambda [] [] none)).1 := (Keeps_Make hs _ (by simp)).1
        simp only at hc
        split at hc
        · cases hc
        · rename_i hA names1 e1
          have hsA := CopyVector_sealed ih arg_names_ _ hA names1 hs0 e1
          split at hc
          · cases hc
          · rename_i hB body1 e2
            have hsB := CopyVector_sealed ih body_ hA hB body1 hsA e2
            split at hc
            · cases hc
            · rename_i sc
              split at hc
              · cases hc
              · rename_i hC sc1 e3
                simp only [Except.ok.injEq, Prod.mk.injEq] at hc
                obtain ⟨rfl, _⟩ := hc
                exact Sealed_update (ih _ _ _ _ hsB e3) _ _ (by simp)

theorem Copy_keeps {P : Nat → Prop} (fuel : Nat) : CopyKeeps P (Copy fuel) := by
  intro h p h1 q hs hc
  have post := Copy_post fuel h p h1 q hs.1 hc
  exact ⟨Copy_sealed fuel h p h1 q hs hc, post.1.1,
    fun a o ho _ => (post.1.2.2 a (obj?_lt_next hs.1 ho)).trans ho⟩

end Scheme
namespace Scheme

/-! ## The builtins keep the stable objects -/

set_option maxRecDepth 100000

theorem CalcVector_keeps {P : Nat → Prop} {eval : CalcFn} (he : EvalKeeps P eval)
    {scope : Ptr} (hsc : ∀ a, scope = some a → ¬ P a) :
    ∀ (xs : List Ptr) (h h1 : Heap) (vs : List Ptr), Sealed P h →
      CalcVector eval h xs scope = .ok (h1, vs) → Keeps P h h1 := by
  intro xs
  induction xs with
  | nil =>
    intro h h1 vs hs hcv
    simp only [CalcVector, Except.ok.injEq, Prod.mk.injEq] at hcv
    obtain ⟨rfl, _⟩ := hcv
    exact Keeps_same hs
  | cons x xs ih =>
    intro h h1 vs hs hcv
    simp only [CalcVector] at hcv
    split at hcv
    · rename_i h2 v e1
      split at hcv
      · rename_i h3 vs1 e2
        simp only [Except.ok.injEq, Prod.mk.injEq] at hcv
        obtain ⟨rfl, _⟩ := hcv
        have k1 := he h x scope h2 v hs hsc e1
        exact Keeps_andThen k1 (ih h2 h3 vs1 k1.1 e2)
      · cases hcv
    · cases hcv

theorem CopyVector_keeps {P : Nat → Prop} {copy : CopyFn} (hc : CopyKeeps P copy) :
    ∀ (ps : List Ptr) (h h1 : Heap) (qs : List Ptr), Sealed P h →
      CopyVector copy h ps = .ok (h1, qs) → Keeps P h h1 := by
  intro ps
  induction ps with
  | nil =>
    intro h h1 qs hs hcv
    simp only [CopyVector, Except.ok.injEq, Prod.mk.injEq] at hcv
    obtain ⟨rfl, _⟩ := hcv
    exact Keeps_same hs
  | cons p ps ih =>
    intro h h1 qs hs hcv
    simp only [CopyVector] at hcv
    split at hcv
    · rename_i h2 q e1
      split at hcv
      · rename_i h3 qs1 e2
        simp only [Except.ok.injEq, Prod.mk.injEq] at hcv
        obtain ⟨rfl, _⟩ := hcv
        have k1 := hc h p h2 q hs e1
        exact Keeps_andThen k1 (ih h2 h3 qs1 k1.1 e2)
      · cases hcv
    · cases hcv

theorem fromBack_keeps {P : Nat → Prop} :
    ∀ (xs : List Ptr) (h : Heap) (right : Ptr), Sealed P h →
      Keeps P h (fromBack h xs right).1 := by
  intro xs
  induction xs with
  | nil => intro h right hs; exact Keeps_same hs
  | cons x xs ih =>
    intro h right hs
    have k1 : Keeps P h (h.Make (.Cell x right)).1 := Keeps_Make hs _ (by simp)
    exact Keeps_andThen k1 (ih _ _ k1.1)

theorem Condition_keeps {P : Nat → Prop} {h : Heap} (hs : Sealed P h) (b : Bool) :
    Keeps P h (Condition h b).1 := by
  cases b
  · exact Keeps_Make hs _ (by simp)
  · exact Keeps_Make hs _ (by simp)

theorem Quote_keeps {P : Nat → Prop} {fuel : Nat} {h h1 : Heap} {obj v : Ptr}
    (hs : Sealed P h) (hres : Quote.call fuel h obj = .ok (h1, v)) : Keeps P h h1 := by
  unfold Quote.call at hres
  obtain ⟨vec, _, hres⟩ := bind_ok hres
  obtain ⟨_, _, hres⟩ := bind_ok hres
  split at hres
  · simp only [pure, Except.pure, Except.ok.injEq, Prod.mk.injEq] at hres
    obtain ⟨rfl, _⟩ := hres
    exact Keeps_same hs
  · cases hres

theorem predicate_keeps {P : Nat → Prop} {eval : CalcFn} (he : EvalKeeps P eval)
    {test : Heap → Ptr → Bool} {fuel : Nat} {h h1 : Heap} {obj scope v : Ptr}
    (hs : Sealed P h) (hsc : ∀ a, scope = some a → ¬ P a)
    (hres : predicateCall test eval fuel h obj scope = .ok (h1, v)) : Keeps P h h1 := by
  unfold predicateCall at hres
  obtain ⟨vec, _, hres⟩ := bind_ok hres
  obtain ⟨_, _, hres⟩ := bind_ok hres
  obtain ⟨⟨h2, vals⟩, hcv, hres⟩ := bind_ok hres
  have k1 := CalcVector_keeps he hsc vec h h2 vals hs hcv
  simp only at hres
  split at hres
  · rename_i x
    simp only [pure, Except.pure, Except.ok.injEq] at hres
    have e : (Condition h2 (test h2 x)).1 = h1 := by rw [hres]
    rw [← e]
    exact Keeps_andThen k1 (Condition_keeps k1.1 _)
  · cases hres

theorem Cons_keeps {P : Nat → Prop} {eval : CalcFn} (he : EvalKeeps P eval)
    {fuel : Nat} {h h1 : Heap} {obj scope v : Ptr}
    (hs : Sealed P h) (hsc : ∀ a, scope = some a → ¬ P a)
    (hres : Cons.call eval fuel h obj scope = .ok (h1, v)) : Keeps P h h1 := by
  unfold Cons.call at hres
  obtain ⟨vec, _, hres⟩ := bind_ok hres
  obtain ⟨_, _, hres⟩ := bind_ok hres
  obtain ⟨⟨h2, vals⟩, hcv, hres⟩ := bind_ok hres
  have k1 := CalcVector_keeps he hsc vec h h2 vals hs hcv
  simp only at hres
  split at hres
  · simp only [pure, Except.pure, Except.ok.injEq, Prod.mk.injEq] at hres
    obtain ⟨rfl, _⟩ := hres
    exact Keeps_andThen k1 (Keeps_Make k1.1 _ (by simp))
  · cases hres

end Scheme
namespace Scheme

set_option maxRecDepth 100000

theorem map_pair_ok {α : Type} {x : Except Err α} {h1 h2 : Heap} {r : α}
    (hm : x.map (fun r => (h1, r)) = .ok (h2, r)) : h2 = h1 := by
  cases x with
  | error e => cases hm
  | ok a =>
    simp only [Except.map, Except.ok.injEq, Prod.mk.injEq] at hm
    exact hm.1.symm

theorem IsList_keeps {P : Nat → Prop} {eval : CalcFn} (he : EvalKeeps P eval)
    {fuel : Nat} {h h1 : Heap} {obj scope v : Ptr}
    (hs : Sealed P h) (hsc : ∀ a, scope = some a → ¬ P a)
    (hres : IsList.call eval fuel h obj scope = .ok (h1, v)) : Keeps P h h1 := by
  unfold IsList.call at hres
  obtain ⟨vec, _, hres⟩ := bind_ok hres
  obtain ⟨_, _, hres⟩ := bind_ok hres
  obtain ⟨⟨h2, vals⟩, hcv, hres⟩ := bind_ok hres
  have k1 := CalcVector_keeps he hsc vec h h2 vals hs hcv
  simp only at hres
  split at hres
  · rename_i x
    obtain ⟨b, _, hres⟩ := bind_ok hres
    simp only [pure, Except.pure, Except.ok.injEq] at hres
    have e : (Condition h2 b).1 = h1 := by rw [hres]
    rw [← e]
    exact Keeps_andThen k1 (Condition_keeps k1.1 _)
  · cases hres

theorem List_keeps {P : Nat → Prop} {eval : CalcFn} (he : EvalKeeps P eval)
    {fuel : Nat} {h h1 : Heap} {obj scope v : Ptr}
    (hs : Sealed P h) (hsc : ∀ a, scope = some a → ¬ P a)
    (hres : List.call eval fuel h obj scope = .ok (h1, v)) : Keeps P h h1 := by
  unfold List.call at hres
  obtain ⟨vec, _, hres⟩ := bind_ok hres
  obtain ⟨⟨h2, vals⟩, hcv, hres⟩ := bind_ok hres
  have k1 := CalcVector_keeps he hsc vec h h2 vals hs hcv
  simp only [pure, Except.pure, Except.ok.injEq] at hres
  have e : (FromVector h2 vals).1 = h1 := by rw [hres]
  rw [← e]
  exact Keeps_andThen k1 (fromBack_keeps _ _ _ k1.1)

theorem Car_keeps {P : Nat → Prop} {eval : CalcFn} (he : EvalKeeps P eval)
    {fuel : Nat} {h h1 : Heap} {obj scope v : Ptr}
    (hs : Sealed P h) (hsc : ∀ a, scope = some a → ¬ P a)
    (hres : Car.call eval fuel h obj scope = .ok (h1, v)) : Keeps P h h1 := by
  unfold Car.call at hres
  obtain ⟨vec, _, hres⟩ := bind_ok hres
  obtain ⟨_, _, hres⟩ := bind_ok hres
  obtain ⟨⟨h2, vals⟩, hcv, hres⟩ := bind_ok hres
  have k1 := CalcVector_keeps he hsc vec h h2 vals hs hcv
  simp only at hres
  split at hres
  · obtain ⟨⟨a, f, s⟩, _, hres⟩ := bind_ok hres
    simp only [pure, Except.pure, Except.ok.injEq, Prod.mk.injEq] at hres
    obtain ⟨rfl, _⟩ := hres
    exact k1
  · cases hres

theorem Cdr_keeps {P : Nat → Prop} {eval : CalcFn} (he : EvalKeeps P eval)
    {fuel : Nat} {h h1 : Heap} {obj scope v : Ptr}
    (hs : Sealed P h) (hsc : ∀ a, scope = some a → ¬ P a)
    (hres : Cdr.call eval fuel h obj scope = .ok (h1, v)) : Keeps P h h1 := by
  unfold Cdr.call at hres
  obtain ⟨vec, _, hres⟩ := bind_ok hres
  obtain ⟨_, _, hres⟩ := bind_ok hres
  obtain ⟨⟨h2, vals⟩, hcv, hres⟩ := bind_ok hres
  have k1 := CalcVector_keeps he hsc vec h h2 vals hs hcv
  simp only at hres
  split at hres
  · obtain ⟨⟨a, f, s⟩, _, hres⟩ := bind_ok hres
    simp only [pure, Except.pure, Except.ok.injEq, Prod.mk.injEq] at hres
    obtain ⟨rfl, _⟩ := hres
    exact k1
  · cases hres

theorem ListRef_keeps {P : Nat → Prop} {eval : CalcFn} (he : EvalKeeps P eval)
    {fuel : Nat} {h h1 : Heap} {obj scope v : Ptr}
    (hs : Sealed P h) (hsc : ∀ a, scope = some a → ¬ P a)
    (hres : ListRef.call eval fuel h obj scope = .ok (h1, v)) : Keeps P h h1 := by
  unfold ListRef.call at hres
  obtain ⟨vec, _, hres⟩ := bind_ok hres
  obtain ⟨_, _, hres⟩ := bind_ok hres
  obtain ⟨⟨h2, vals⟩, hcv, hres⟩ := bind_ok hres
  have k1 := CalcVector_keeps he hsc vec h h2 vals hs hcv
  simp only at hres
  split at hres
  · obtain ⟨l, _, hres⟩ := bind_ok hres
    obtain ⟨n, _, hres⟩ := bind_ok hres
    obtain ⟨_, _, hres⟩ := bind_ok hres
    split at hres
    · simp only [pure, Except.pure, Except.ok.injEq, Prod.mk.injEq] at hres
      obtain ⟨rfl, _⟩ := hres
      exact k1
    · cases hres
  · cases hres

theorem ListTail_keeps {P : Nat → Prop} {eval : CalcFn} (he : EvalKeeps P eval)
    {fuel : Nat} {h h1 : Heap} {obj scope v : Ptr}
    (hs : Sealed P h) (hsc : ∀ a, scope = some a → ¬ P a)
    (hres : ListTail.call eval fuel h obj scope = .ok (h1, v)) : Keeps P h h1 := by
  unfold ListTail.call at hres
  obtain ⟨vec, _, hres⟩ := bind_ok hres
  obtain ⟨_, _, hres⟩ := bind_ok hres
  obtain ⟨⟨h2, vals⟩, hcv, hres⟩ := bind_ok hres
  have k1 := CalcVector_keeps he hsc vec h h2 vals hs hcv
  simp only at hres
  split at hres
  · obtain ⟨n, _, hres⟩ := bind_ok hres
    obtain ⟨cur, _, hres⟩ := bind_ok hres
    simp only [pure, Except.pure, Except.ok.injEq, Prod.mk.injEq] at hres
    obtain ⟨rfl, _⟩ := hres
    exact k1
  · cases hres

theorem CalcAndGetNumber_keeps {P : Nat → Prop} {eval : CalcFn} (he : EvalKeeps P eval)
    {h h1 : Heap} {obj scope : Ptr} {n : Int}
    (hs : Sealed P h) (hsc : ∀ a, scope = some a → ¬ P a)
    (hres : CalcAndGetNumber eval h obj scope = .ok (h1, n)) : Keeps P h h1 := by
  unfold CalcAndGetNumber at hres
  split at hres
  · rename_i h2 v e1
    rw [map_pair_ok hres]
    exact he h obj scope h2 v hs hsc e1
  · cases hres

theorem numberListToBoolLoop_keeps {P : Nat → Prop} {eval : CalcFn} (he : EvalKeeps P eval)
    (func : Int → Int → Bool) {scope : Ptr} (hsc : ∀ a, scope = some a → ¬ P a) :
    ∀ (xs : List Ptr) (h h1 : Heap) (prev : Int) (b : Bool), Sealed P h →
      numberListToBoolLoop eval func scope h prev xs = .ok (h1, b) → Keeps P h h1 := by
  intro xs
  induction xs with
  | nil =>
    intro h h1 prev b hs hl
    simp only [numberListToBoolLoop, Except.ok.injEq, Prod.mk.injEq] at hl
    obtain ⟨rfl, _⟩ := hl
    exact Keeps_same hs
  | cons x xs ih =>
    intro h h1 prev b hs hl
    simp only [numberListToBoolLoop] at hl
    split at hl
    · rename_i h2 cur e1
      have k1 := CalcAndGetNumber_keeps he hs hsc e1
      split at hl
      · simp only [Except.ok.injEq, Prod.mk.injEq] at hl
        obtain ⟨rfl, _⟩ := hl
        exact k1
      · exact Keeps_andThen k1 (ih h2 h1 cur b k1.1 hl)
    · cases hl

theorem compare_keeps {P : Nat → Prop} {eval : CalcFn} (he : EvalKeeps P eval)
    {func : Int → Int → Bool} {fuel : Nat} {h h1 : Heap} {obj scope v : Ptr}
    (hs : Sealed P h) (hsc : ∀ a, scope = some a → ¬ P a)
    (hres : compareCall func eval fuel h obj scope = .ok (h1, v)) : Keeps P h h1 := by
  unfold compareCall at hres
  obtain ⟨vec, _, hres⟩ := bind_ok hres
  obtain ⟨⟨h2, b⟩, hcb, hres⟩ := bind_ok hres
  simp only [pure, Except.pure, Except.ok.injEq] at hres
  have e : (Condition h2 b).1 = h1 := by rw [hres]
  rw [← e]
  have k1 : Keeps P h h2 := by
    unfold CalcNumberListToBool at hcb
    split at hcb
    · simp only [Except.ok.injEq, Prod.mk.injEq] at hcb
      obtain ⟨rfl, _⟩ := hcb
      exact Keeps_same hs
    · rename_i x xs
      split at hcb
      · rename_i h3 prev e1
        have k0 := CalcAndGetNumber_keeps he hs hsc e1
        exact Keeps_andThen k0 (numberListToBoolLoop_keeps he func hsc _ h3 h2 prev b k0.1 hcb)
      · cases hcb
  exact Keeps_andThen k1 (Condition_keeps k1.1 _)

theorem CalcNumberListToInt_keeps {P : Nat → Prop} {eval : CalcFn} (he : EvalKeeps P eval)
    {func : Int → Int → Except Err Int} {neutral r : Int} {h h1 : Heap} {vec : List Ptr}
    {scope : Ptr} (hs : Sealed P h) (hsc : ∀ a, scope = some a → ¬ P a)
    (hres : CalcNumberListToInt eval func h vec scope neutral = .ok (h1, r)) :
    Keeps P h h1 := by
  unfold CalcNumberListToInt at hres
  split at hres
  · rename_i h2 vals e1
    rw [map_pair_ok hres]
    exact CalcVector_keeps he hsc vec h h2 vals hs e1
  · cases hres

theorem fold_keeps {P : Nat → Prop} {eval : CalcFn} (he : EvalKeeps P eval)
    {func : Int → Int → Except Err Int} {neutral : Int} {fuel : Nat} {h h1 : Heap}
    {obj scope v : Ptr} (hs : Sealed P h) (hsc : ∀ a, scope = some a → ¬ P a)
    (hres : foldCall func neutral eval fuel h obj scope = .ok (h1, v)) : Keeps P h h1 := by
  unfold foldCall at hres
  obtain ⟨vec, _, hres⟩ := bind_ok hres
  obtain ⟨⟨h2, r⟩, hcb, hres⟩ := bind_ok hres
  simp only [pure, Except.pure, Except.ok.injEq] at hres
  have e : (MakeNumber h2 r).1 = h1 := by rw [hres]
  rw [← e]
  have k1 := CalcNumberListToInt_keeps he hs hsc hcb
  exact Keeps_andThen k1 (Keeps_Make k1.1 _ (by simp))

theorem fold1_keeps {P : Nat → Prop} {eval : CalcFn} (he : EvalKeeps P eval)
    {func : Int → Int → Except Err Int} {neutral : Int} {fuel : Nat} {h h1 : Heap}
    {obj scope v : Ptr} (hs : Sealed P h) (hsc : ∀ a, scope = some a → ¬ P a)
    (hres : foldCall1 func neutral eval fuel h obj scope = .ok (h1, v)) : Keeps P h h1 := by
  unfold foldCall1 at hres
  obtain ⟨vec, _, hres⟩ := bind_ok hres
  obtain ⟨_, _, hres⟩ := bind_ok hres
  obtain ⟨⟨h2, r⟩, hcb, hres⟩ := bind_ok hres
  simp only [pure, Except.pure, Except.ok.injEq] at hres
  have e : (MakeNumber h2 r).1 = h1 := by rw [hres]
  rw [← e]
  have k1 := CalcNumberListToInt_keeps he hs hsc hcb
  exact Keeps_andThen k1 (Keeps_Make k1.1 _ (by simp))

theorem irrev_keeps {P : Nat → Prop} {eval : CalcFn} (he : EvalKeeps P eval)
    {func : Int → Int → Except Err Int} {neutral : Int} {fuel : Nat} {h h1 : Heap}
    {obj scope v : Ptr} (hs : Sealed P h) (hsc : ∀ a, scope = some a → ¬ P a)
    (hres : irrevCall func neutral eval fuel h obj scope = .ok (h1, v)) : Keeps P h h1 := by
  unfold irrevCall at hres
  obtain ⟨vec, _, hres⟩ := bind_ok hres
  obtain ⟨_, _, hres⟩ := bind_ok hres
  obtain ⟨⟨h2, r⟩, hcb, hres⟩ := bind_ok hres
  simp only [pure, Except.pure, Except.ok.injEq] at hres
  have e : (MakeNumber h2 r).1 = h1 := by rw [hres]
  rw [← e]
  have k1 : Keeps P h h2 := by
    unfold CalcIrrevNumberListToInt at hcb
    split at hcb
    · rename_i h3 vals e1
      have k0 := CalcVector_keeps he hsc vec h h3 vals hs e1
      have : h2 = h3 := by
        split at hcb
        · cases hcb
        · split at hcb
          · exact map_pair_ok hcb
          · cases hcb
        · split at hcb
          · exact map_pair_ok hcb
          · cases hcb
      rw [this]
      exact k0
    · cases hcb
  exact Keeps_andThen k1 (Keeps_Make k1.1 _ (by simp))

theorem Abs_keeps {P : Nat → Prop} {eval : CalcFn} (he : EvalKeeps P eval)
    {fuel : Nat} {h h1 : Heap} {obj scope v : Ptr}
    (hs : Sealed P h) (hsc : ∀ a, scope = some a → ¬ P a)
    (hres : Abs.call eval fuel h obj scope = .ok (h1, v)) : Keeps P h h1 := by
  unfold Abs.call at hres
  obtain ⟨vec, _, hres⟩ := bind_ok hres
  obtain ⟨_, _, hres⟩ := bind_ok hres
  split at hres
  · obtain ⟨⟨h2, n⟩, hcn, hres⟩ := bind_ok hres
    have k1 := CalcAndGetNumber_keeps he hs hsc hcn
    simp only at hres
    split at hres
    · cases hres
    · simp only [pure, Except.pure, Except.ok.injEq] at hres
      have e : (MakeNumber h2 (if n < 0 then -n else n)).1 = h1 := by rw [hres]
      rw [← e]
      exact Keeps_andThen k1 (Keeps_Make k1.1 _ (by simp))
  · cases hres

theorem Not_keeps {P : Nat → Prop} {eval : CalcFn} (he : EvalKeeps P eval)
    {fuel : Nat} {h h1 : Heap} {obj scope v : Ptr}
    (hs : Sealed P h) (hsc : ∀ a, scope = some a → ¬ P a)
    (hres : Not.call eval fuel h obj scope = .ok (h1, v)) : Keeps P h h1 := by
  unfold Not.call at hres
  obtain ⟨vec, _, hres⟩ := bind_ok hres
  obtain ⟨_, _, hres⟩ := bind_ok hres
  obtain ⟨⟨h2, vals⟩, hcv, hres⟩ := bind_ok hres
  have k1 := CalcVector_keeps he hsc vec h h2 vals hs hcv
  simp only at hres
  split at hres
  · simp only [pure, Except.pure, Except.ok.injEq, Prod.mk.injEq] at hres
    obtain ⟨rfl, _⟩ := hres
    exact Keeps_andThen k1 (Keeps_Make k1.1 _ (by simp))
  · cases hres

theorem andLoop_keeps {P : Nat → Prop} {eval : CalcFn} (he : EvalKeeps P eval)
    {scope : Ptr} (hsc : ∀ a, scope = some a → ¬ P a) :
    ∀ (xs : List Ptr) (h h1 : Heap) (last v : Ptr), Sealed P h →
      andLoop eval scope h xs last = .ok (h1, v) → Keeps P h h1 := by
  intro xs
  induction xs with
  | nil =>
    intro h h1 last v hs hl
    simp only [andLoop, Except.ok.injEq, Prod.mk.injEq] at hl
    obtain ⟨rfl, _⟩ := hl
    exact Keeps_same hs
  | cons x xs ih =>
    intro h h1 last v hs hl
    simp only [andLoop] at hl
    split at hl
    · rename_i h2 w e1
      have k1 := he h x scope h2 w hs hsc e1
      split at hl
      · simp only [Except.ok.injEq] at hl
        have e : (FalseObject h2).1 = h1 := by rw [hl]
        rw [← e]
        exact Keeps_andThen k1 (Keeps_Make k1.1 _ (by simp))
      · exact Keeps_andThen k1 (ih h2 h1 w v k1.1 hl)
    · cases hl

theorem And_keeps {P : Nat → Prop} {eval : CalcFn} (he : EvalKeeps P eval)
    {fuel : Nat} {h h1 : Heap} {obj scope v : Ptr}
    (hs : Sealed P h) (hsc : ∀ a, scope = some a → ¬ P a)
    (hres : And.call eval fuel h obj scope = .ok (h1, v)) : Keeps P h h1 := by
  unfold And.call at hres
  obtain ⟨vec, _, hres⟩ := bind_ok hres
  split at hres
  · simp only [pure, Except.pure, Except.ok.injEq] at hres
    have e : (TrueObject h).1 = h1 := by rw [hres]
    rw [← e]
    exact Keeps_Make hs _ (by simp)
  · exact andLoop_keeps he hsc vec h h1 none v hs hres

theorem orLoop_keeps {P : Nat → Prop} {eval : CalcFn} (he : EvalKeeps P eval)
    {scope : Ptr} (hsc : ∀ a, scope = some a → ¬ P a) (size : Nat) :
    ∀ (xs : List Ptr) (h h1 : Heap) (temp : Nat) (v : Ptr), Sealed P h →
      orLoop eval scope size h temp xs = .ok (h1, v) → Keeps P h h1 := by
  intro xs
  induction xs with
  | nil =>
    intro h h1 temp v hs hl
    simp only [orLoop, Except.ok.injEq] at hl
    have e : (FalseObject h).1 = h1 := by rw [hl]
    rw [← e]
    exact Keeps_Make hs _ (by simp)
  | cons x xs ih =>
    intro h h1 temp v hs hl
    simp only [orLoop] at hl
    split at hl
    · rename_i h2 w e1
      have k1 := he h x scope h2 w hs hsc e1
      split at hl
      · split at hl
        · simp only [Except.ok.injEq, Prod.mk.injEq] at hl
          obtain ⟨rfl, _⟩ := hl
          exact k1
        · simp only [Except.ok.injEq] at hl
          have e : (TrueObject h2).1 = h1 := by rw [hl]
          rw [← e]
          exact Keeps_andThen k1 (Keeps_Make k1.1 _ (by simp))
      · exact Keeps_andThen k1 (ih h2 h1 (temp + 1) v k1.1 hl)
    · cases hl

theorem Or_keeps {P : Nat → Prop} {eval : CalcFn} (he : EvalKeeps P eval)
    {fuel : Nat} {h h1 : Heap} {obj scope v : Ptr}
    (hs : Sealed P h) (hsc : ∀ a, scope = some a → ¬ P a)
    (hres : Or.call eval fuel h obj scope = .ok (h1, v)) : Keeps P h h1 := by
  unfold Or.call at hres
  obtain ⟨vec, _, hres⟩ := bind_ok hres
  exact orLoop_keeps he hsc _ vec h h1 0 v hs hres

theorem If_keeps {P : Nat → Prop} {eval : CalcFn} (he : EvalKeeps P eval)
    {fuel : Nat} {h h1 : Heap} {obj scope v : Ptr}
    (hs : Sealed P h) (hsc : ∀ a, scope = some a → ¬ P a)
    (hres : If.call eval fuel h obj scope = .ok (h1, v)) : Keeps P h h1 := by
  unfold If.call at hres
  obtain ⟨vec, _, hres⟩ := bind_ok hres
  obtain ⟨_, _, hres⟩ := bind_ok hres
  split at hres
  · obtain ⟨⟨h2, c⟩, hc, hres⟩ := bind_ok hres
    have k1 := he h _ scope h2 c hs hsc hc
    simp only at hres
    split at hres
    · exact Keeps_andThen k1 (he h2 _ scope h1 v k1.1 hsc hres)
    · split at hres
      · exact Keeps_andThen k1 (he h2 _ scope h1 v k1.1 hsc hres)
      · simp only [pure, Except.pure, Except.ok.injEq, Prod.mk.injEq] at hres
        obtain ⟨rfl, _⟩ := hres
        exact k1
  · cases hres

end Scheme
namespace Scheme

/-! ## The special forms and the evaluator keep the stable objects -/

set_option maxRecDepth 100000

theorem Get_owner_unsealed {P : Nat → Prop} :
    ∀ (fuel : Nat) (h : Heap) (scope : Ptr) (name : String) (owner : Nat) (v : Ptr),
      Sealed P h → (∀ a, scope = some a → ¬ P a) →
      NameSpace.Get fuel h scope name = .ok (owner, v) → ¬ P owner := by
  intro fuel
  induction fuel with
  | zero =>
    intro h scope name owner v _ _ hg
    cases scope <;> simp [NameSpace.Get] at hg
  | succ k ih =>
    intro h scope name owner v hs hsc hg
    cases scope with
    | none => simp [NameSpace.Get] at hg
    | some cur =>
      simp only [NameSpace.Get] at hg
      split at hg
      · rename_i data_ upper_ ho
        split at hg
        · simp only [Except.ok.injEq, Prod.mk.injEq] at hg
          obtain ⟨rfl, _⟩ := hg
          exact hsc cur rfl
        · refine ih h upper_ name owner v hs ?_ hg
          intro a ha
          subst ha
          exact hs.2.2 cur data_ a ho
      · cases hg

theorem DefineHelper_keeps {P : Nat → Prop} {h h1 : Heap} {name obj scope : Ptr}
    (hs : Sealed P h) (hsc : ∀ a, scope = some a → ¬ P a)
    (hd : DefineHelper h name obj scope = .ok h1) : Keeps P h h1 := by
  unfold DefineHelper at hd
  split at hd
  · cases scope with
    | none => simp [NameSpace.Set] at hd
    | some a => exact Keeps_Set hs (hsc a rfl) hd
  · cases hd

theorem MakeLambda_keeps {P : Nat → Prop} {h : Heap} (hs : Sealed P h) (args body : List Ptr)
    {scope : Ptr} (hsc : ∀ a, scope = some a → ¬ P a) :
    Keeps P h (MakeLambda h args body scope).1 := by
  rw [MakeLambda_eq]
  have k1 := Keeps_Make hs (.Lambda args body (some (h.next + 1))) (by simp)
  refine Keeps_andThen k1 (Keeps_Make k1.1 _ ?_)
  intro d c e
  cases e
  exact hsc c rfl

theorem CreateLambdaHelper_keeps {P : Nat → Prop} {h h1 : Heap} {args body : List Ptr}
    {scope v : Ptr} (hs : Sealed P h) (hsc : ∀ a, scope = some a → ¬ P a)
    (hc : CreateLambdaHelper h args body scope = .ok (h1, v)) : Keeps P h h1 := by
  unfold CreateLambdaHelper at hc
  split at hc
  · simp only [Except.ok.injEq, Prod.mk.injEq] at hc
    obtain ⟨rfl, _⟩ := hc
    exact MakeLambda_keeps hs args body hsc
  · cases hc

theorem CreateLambda_keeps {P : Nat → Prop} {fuel : Nat} {h h1 : Heap} {obj scope v : Ptr}
    (hs : Sealed P h) (hsc : ∀ a, scope = some a → ¬ P a)
    (hres : CreateLambda.call fuel h obj scope = .ok (h1, v)) : Keeps P h h1 := by
  unfold CreateLambda.call at hres
  obtain ⟨body, _, hres⟩ := bind_ok hres
  obtain ⟨_, _, hres⟩ := bind_ok hres
  split at hres
  · obtain ⟨args, _, hres⟩ := bind_ok hres
    obtain ⟨_, _, hres⟩ := bind_ok hres
    exact CreateLambdaHelper_keeps hs hsc hres
  · cases hres

theorem Define_keeps {P : Nat → Prop} {eval : CalcFn} {copy : CopyFn} (he : EvalKeeps P eval)
    (hcp : CopyKeeps P copy) {fuel : Nat} {h h1 : Heap} {obj scope v : Ptr}
    (hs : Sealed P h) (hsc : ∀ a, scope = some a → ¬ P a)
    (hres : Define.call eval copy fuel h obj scope = .ok (h1, v)) : Keeps P h h1 := by
  unfold Define.call at hres
  obtain ⟨vec, _, hres⟩ := bind_ok hres
  obtain ⟨_, _, hres⟩ := bind_ok hres
  split at hres
  · split at hres
    · obtain ⟨_, _, hres⟩ := bind_ok hres
      split at hres
      · obtain ⟨⟨h2, w⟩, hev, hres⟩ := bind_ok hres
        have k1 := he h _ scope h2 w hs hsc hev
        simp only at hres
        obtain ⟨⟨h3, c⟩, hco, hres⟩ := bind_ok hres
        have k2 := hcp h2 w h3 c k1.1 hco
        simp only at hres
        obtain ⟨h4, hdh, hres⟩ := bind_ok hres
        have k3 := DefineHelper_keeps k2.1 hsc hdh
        simp only [pure, Except.pure, Except.ok.injEq, Prod.mk.injEq] at hres
        obtain ⟨rfl, _⟩ := hres
        exact Keeps_andThen k1 (Keeps_andThen k2 k3)
      · cases hres
    · obtain ⟨isList, _, hres⟩ := bind_ok hres
      split at hres
      · obtain ⟨names, _, hres⟩ := bind_ok hres
        split at hres
        · obtain ⟨⟨h2, lam⟩, hcl, hres⟩ := bind_ok hres
          have k1 := CreateLambdaHelper_keeps hs hsc hcl
          simp only at hres
          obtain ⟨h3, hdh, hres⟩ := bind_ok hres
          have k2 := DefineHelper_keeps k1.1 hsc hdh
          simp only [pure, Except.pure, Except.ok.injEq, Prod.mk.injEq] at hres
          obtain ⟨rfl, _⟩ := hres
          exact Keeps_andThen k1 k2
        · cases hres
      · cases hres
  · cases hres

theorem Set_keeps {P : Nat → Prop} {eval : CalcFn} {copy : CopyFn} (he : EvalKeeps P eval)
    (hcp : CopyKeeps P copy) {fuel : Nat} {h h1 : Heap} {obj scope v : Ptr}
    (hs : Sealed P h) (hsc : ∀ a, scope = some a → ¬ P a)
    (hres : Set.call eval copy fuel h obj scope = .ok (h1, v)) : Keeps P h h1 := by
  unfold Set.call at hres
  obtain ⟨vec, _, hres⟩ := bind_ok hres
  obtain ⟨_, _, hres⟩ := bind_ok hres
  split at hres
  · obtain ⟨name, _, hres⟩ := bind_ok hres
    obtain ⟨⟨o0, prev⟩, _, hres⟩ := bind_ok hres
    simp only at hres
    obtain ⟨⟨h2, w⟩, hev, hres⟩ := bind_ok hres
    have k1 := he h _ scope h2 w hs hsc hev
    simp only at hres
    obtain ⟨⟨h3, c⟩, hco, hres⟩ := bind_ok hres
    have k2 := hcp h2 w h3 c k1.1 hco
    simp only at hres
    obtain ⟨name2, _, hres⟩ := bind_ok hres
    obtain ⟨⟨owner, cur⟩, hget, hres⟩ := bind_ok hres
    simp only at hres
    obtain ⟨h4, hset, hres⟩ := bind_ok hres
    have hown := Get_owner_unsealed fuel h3 scope name2 owner cur k2.1 hsc hget
    have k3 := Keeps_Set k2.1 hown hset
    simp only [pure, Except.pure, Except.ok.injEq, Prod.mk.injEq] at hres
    obtain ⟨rfl, _⟩ := hres
    exact Keeps_andThen k1 (Keeps_andThen k2 k3)
  · cases hres

theorem SetCar_keeps {P : Nat → Prop} {eval : CalcFn} {copy : CopyFn} (he : EvalKeeps P eval)
    (hcp : CopyKeeps P copy) {fuel : Nat} {h h1 : Heap} {obj scope v : Ptr}
    (hs : Sealed P h) (hsc : ∀ a, scope = some a → ¬ P a)
    (hres : SetCar.call eval copy fuel h obj scope = .ok (h1, v)) : Keeps P h h1 := by
  unfold SetCar.call at hres
  obtain ⟨vec, _, hres⟩ := bind_ok hres
  obtain ⟨_, _, hres⟩ := bind_ok hres
  obtain ⟨⟨h2, vals⟩, hcv, hres⟩ := bind_ok hres
  have k1 := CalcVector_keeps he hsc vec h h2 vals hs hcv
  simp only at hres
  split at hres
  · obtain ⟨⟨a, prev, second_⟩, hgc, hres⟩ := bind_ok hres
    obtain ⟨hfa, hoa⟩ := GetCell_ok hgc
    simp only at hres
    split at hres
    · simp only [pure, Except.pure, Except.ok.injEq, Prod.mk.injEq] at hres
      obtain ⟨rfl, _⟩ := hres
      exact Keeps_andThen k1 (Keeps_update k1.1 hoa (by simp [Object.stable]) (by simp))
    · obtain ⟨⟨h3, c⟩, hco, hres⟩ := bind_ok hres
      have k2 := hcp h2 _ h3 c k1.1 hco
      simp only at hres
      obtain ⟨⟨a2, f2, second2⟩, hgc2, hres⟩ := bind_ok hres
      obtain ⟨hfa2, hoa2⟩ := GetCell_ok hgc2
      rw [hfa] at hfa2
      cases hfa2
      simp only [pure, Except.pure, Except.ok.injEq, Prod.mk.injEq] at hres
      obtain ⟨rfl, _⟩ := hres
      exact Keeps_andThen k1 (Keeps_andThen k2
        (Keeps_update k2.1 hoa2 (by simp [Object.stable]) (by simp)))
  · cases hres

theorem SetCdr_keeps {P : Nat → Prop} {eval : CalcFn} {copy : CopyFn} (he : EvalKeeps P eval)
    (hcp : CopyKeeps P copy) {fuel : Nat} {h h1 : Heap} {obj scope v : Ptr}
    (hs : Sealed P h) (hsc : ∀ a, scope = some a → ¬ P a)
    (hres : SetCdr.call eval copy fuel h obj scope = .ok (h1, v)) : Keeps P h h1 := by
  unfold SetCdr.call at hres
  obtain ⟨vec, _, hres⟩ := bind_ok hres
  obtain ⟨_, _, hres⟩ := bind_ok hres
  obtain ⟨⟨h2, vals⟩, hcv, hres⟩ := bind_ok hres
  have k1 := CalcVector_keeps he hsc vec h h2 vals hs hcv
  simp only at hres
  split at hres
  · obtain ⟨⟨a, first_, prev⟩, hgc, hres⟩ := bind_ok hres
    obtain ⟨hfa, hoa⟩ := GetCell_ok hgc
    simp only at hres
    split at hres
    · simp only [pure, Except.pure, Except.ok.injEq, Prod.mk.injEq] at hres
      obtain ⟨rfl, _⟩ := hres
      exact Keeps_andThen k1 (Keeps_update k1.1 hoa (by simp [Object.stable]) (by simp))
    · obtain ⟨⟨h3, c⟩, hco, hres⟩ := bind_ok hres
      have k2 := hcp h2 _ h3 c k1.1 hco
      simp only at hres
      obtain ⟨⟨a2, first2, s2⟩, hgc2, hres⟩ := bind_ok hres
      obtain ⟨hfa2, hoa2⟩ := GetCell_ok hgc2
      rw [hfa] at hfa2
      cases hfa2
      simp only [pure, Except.pure, Except.ok.injEq, Prod.mk.injEq] at hres
      obtain ⟨rfl, _⟩ := hres
      exact Keeps_andThen k1 (Keeps_andThen k2
        (Keeps_update k2.1 hoa2 (by simp [Object.stable]) (by simp)))
  · cases hres

theorem bindArgs_keeps {P : Nat → Prop} {newscope : Ptr}
    (hsc : ∀ a, newscope = some a → ¬ P a) :
    ∀ (names vals : List Ptr) (h h1 : Heap), Sealed P h →
      bindArgs newscope h names vals = .ok h1 → Keeps P h h1 := by
  intro names
  induction names with
  | nil =>
    intro vals h h1 hs hb
    simp only [bindArgs, Except.ok.injEq] at hb
    subst hb
    exact Keeps_same hs
  | cons n names ih =>
    intro vals h h1 hs hb
    cases vals with
    | nil =>
      simp only [bindArgs, Except.ok.injEq] at hb
      subst hb
      exact Keeps_same hs
    | cons x vals =>
      simp only [bindArgs] at hb
      split at hb
      · rename_i h2 e1
        have k1 := DefineHelper_keeps hs hsc e1
        exact Keeps_andThen k1 (ih vals h2 h1 k1.1 hb)
      · cases hb

theorem Lambda_keeps {P : Nat → Prop} {eval : CalcFn} {copy : CopyFn} (he : EvalKeeps P eval)
    (hcp : CopyKeeps P copy) {fuel : Nat} {h h1 : Heap} {self : Nat} {obj scope v : Ptr}
    (hs : Sealed P h) (hsc : ∀ a, scope = some a → ¬ P a)
    (hown : ∀ names body c, h.obj? self = some (.Lambda names body (some c)) → ¬ P c)
    (hres : Lambda.call eval copy fuel h self obj scope = .ok (h1, v)) : Keeps P h h1 := by
  unfold Lambda.call at hres
  split at hres
  · rename_i names body sc ho
    have hnew : ∀ a, sc = some a → ¬ P a := by
      intro a ha
      subst ha
      exact hown names body a ho
    obtain ⟨args, _, hres⟩ := bind_ok hres
    obtain ⟨_, _, hres⟩ := bind_ok hres
    obtain ⟨⟨h2, vals⟩, hcv, hres⟩ := bind_ok hres
    have k1 := CalcVector_keeps he hsc args h h2 vals hs hcv
    simp only at hres
    obtain ⟨h3, hb, hres⟩ := bind_ok hres
    have k2 := bindArgs_keeps hnew names vals h2 h3 k1.1 hb
    obtain ⟨⟨h4, cb⟩, hcc, hres⟩ := bind_ok hres
    have k3 : Keeps P h3 h4 := by
      unfold CopyAndCalcVector at hcc
      split at hcc
      · rename_i h5 qs e1
        have k4 := CopyVector_keeps hcp body h3 h5 qs k2.1 e1
        exact Keeps_andThen k4 (CalcVector_keeps he hnew qs h5 h4 cb k4.1 hcc)
      · cases hcc
    simp only at hres
    split at hres
    · simp only [pure, Except.pure, Except.ok.injEq, Prod.mk.injEq] at hres
      obtain ⟨rfl, _⟩ := hres
      exact Keeps_andThen k1 (Keeps_andThen k2 k3)
    · cases hres
  · cases hres

theorem Builtin_keeps {P : Nat → Prop} {eval : CalcFn} {copy : CopyFn} (he : EvalKeeps P eval)
    (hcp : CopyKeeps P copy) (kind : Builtin) {fuel : Nat} {h h1 : Heap} {obj scope v : Ptr}
    (hs : Sealed P h) (hsc : ∀ a, scope = some a → ¬ P a)
    (hres : kind.call eval copy fuel h obj scope = .ok (h1, v)) : Keeps P h h1 := by
  cases kind <;> simp only [Builtin.call] at hres
  case Quote => exact Quote_keeps hs hres
  case IsPair => exact predicate_keeps he hs hsc hres
  case IsNull => exact predicate_keeps he hs hsc hres
  case IsList => exact IsList_keeps he hs hsc hres
  case List => exact List_keeps he hs hsc hres
  case Cons => exact Cons_keeps he hs hsc hres
  case Car => exact Car_keeps he hs hsc hres
  case Cdr => exact Cdr_keeps he hs hsc hres
  case ListRef => exact ListRef_keeps he hs hsc hres
  case ListTail => exact ListTail_keeps he hs hsc hres
  case IsNumber => exact predicate_keeps he hs hsc hres
  case EqualTo => exact compare_keeps he hs hsc hres
  case Greater => exact compare_keeps he hs hsc hres
  case Less => exact compare_keeps he hs hsc hres
  case GreaterEqual => exact compare_keeps he hs hsc hres
  case LessEqual => exact compare_keeps he hs hsc hres
  case Plus => exact fold_keeps he hs hsc hres
  case Minus => exact irrev_keeps he hs hsc hres
  case Multiplies => exact fold_keeps he hs hsc hres
  case Divides => exact irrev_keeps he hs hsc hres
  case Max => exact fold1_keeps he hs hsc hres
  case Min => exact fold1_keeps he hs hsc hres
  case Abs => exact Abs_keeps he hs hsc hres
  case IsBoolean => exact predicate_keeps he hs hsc hres
  case Not => exact Not_keeps he hs hsc hres
  case And => exact And_keeps he hs hsc hres
  case Or => exact Or_keeps he hs hsc hres
  case Define => exact Define_keeps he hcp hs hsc hres
  case IsSymbol => exact predicate_keeps he hs hsc hres
  case Set => exact Set_keeps he hcp hs hsc hres
  case SetCar => exact SetCar_keeps he hcp hs hsc hres
  case SetCdr => exact SetCdr_keeps he hcp hs hsc hres
  case If => exact If_keeps he hs hsc hres
  case CreateLambda => exact CreateLambda_keeps hs hsc hres

end Scheme
namespace Scheme

set_option maxRecDepth 100000

/-- The own frame of a closure that `Copy` returns was made during that call. -/
theorem Copy_closure_scope_fresh {fuel : Nat} {h h1 : Heap} {p : Ptr} {f1 : Nat}
    {names body : List Ptr} {c : Nat} (hf : h.Fresh) (hc : Copy fuel h p = .ok (h1, some f1))
    (ho : h1.obj? f1 = some (.Lambda names body (some c))) : h.next ≤ c := by
  cases p with
  | none =>
    cases fuel <;> simp [Copy] at hc
  | some a =>
    cases fuel with
    | zero => simp [Copy] at hc
    | succ k =>
      rw [Copy] at hc
      split at hc
      · cases hc
      · simp only [Except.ok.injEq, Prod.mk.injEq, Option.some.injEq, Make_snd] at hc
        obtain ⟨rfl, rfl⟩ := hc
        rw [obj?_Make_new hf] at ho
        cases ho
      · simp only [Except.ok.injEq, Prod.mk.injEq, Option.some.injEq, Make_snd] at hc
        obtain ⟨rfl, rfl⟩ := hc
        rw [obj?_Make_new hf] at ho
        cases ho
      · simp only [Except.ok.injEq, Prod.mk.injEq, Option.some.injEq, Make_snd] at hc
        obtain ⟨rfl, rfl⟩ := hc
        rw [obj?_Make_new hf] at ho
        cases ho
      · simp only [Except.ok.injEq, Prod.mk.injEq, Option.some.injEq, Make_snd] at hc
        obtain ⟨rfl, rfl⟩ := hc
        rw [obj?_Make_new hf] at ho
        cases ho
      · simp only at hc
        split at hc
        · cases hc
        · split at hc
          · cases hc
          · simp only [Except.ok.injEq, Prod.mk.injEq, Option.some.injEq, Make_snd] at hc
            obtain ⟨rfl, rfl⟩ := hc
            rw [obj?_update] at ho
            simp only [if_true] at ho
            rename_i h3 s _
            cases hx : h3.obj? h.next with
            | none => rw [hx] at ho; cases ho
            | some o => rw [hx] at ho; cases ho
      · rename_i data_ upper_ hoa
        simp only at hc
        split at hc
        · cases hc
        · rename_i h2 e1
          simp only [Except.ok.injEq, Prod.mk.injEq, Option.some.injEq, Make_snd] at hc
          obtain ⟨rfl, rfl⟩ := hc
          obtain ⟨acc1, hacc, _⟩ := copyBindings_frame k h.next upper_ data_ _ h2 []
            (Fresh_Make hf _) (obj?_Make_new hf _) e1
          rw [hacc] at ho
          cases ho
      · rename_i names0 body0 scope0 hoa
        simp only at hc
        split at hc
        · cases hc
        · rename_i hA names1 e1
          split at hc
          · cases hc
          · rename_i hB body1 e2
            split at hc
            · cases hc
            · rename_i sc
              split at hc
              · cases hc
              · rename_i hC sc1 e3
                simp only [Except.ok.injEq, Prod.mk.injEq, Option.some.injEq, Make_snd] at hc
                obtain ⟨rfl, rfl⟩ := hc
                have hf0 : (h.Make (.Lambda [] [] none)).1.Fresh := Fresh_Make hf _
                have cA := CopyVector_post (fun h p h1 q hf hc => Copy_ok_post hf hc) names0 _
                  hA names1 hf0 e1
                have cB := CopyVector_post (fun h p h1 q hf hc => Copy_ok_post hf hc) body0 hA
                  hB body1 cA.1.2.1 e2
                have cC := Copy_ok_post cB.1.2.1 e3
                rw [obj?_update] at ho
                simp only [if_true] at ho
                cases hx : hC.obj? h.next with
                | none => rw [hx] at ho; cases ho
                | some o =>
                  rw [hx] at ho
                  simp only [Option.map_some', Option.some.injEq, Object.Lambda.injEq] at ho
                  have hb := (cC.2.1 c ho.2.2).1
                  have h0 : (h.Make (.Lambda [] [] none)).1.next = h.next + 1 := rfl
                  have := cA.1.1
                  have := cB.1.1
                  omega

theorem Calc_keeps {P : Nat → Prop} : ∀ fuel : Nat, EvalKeeps P (Calc fuel) := by
  intro fuel
  induction fuel with
  | zero =>
    intro h obj scope h1 v _ _ hc
    simp [Calc] at hc
  | succ k ih =>
    intro h obj scope h1 v hs hsc hc
    cases obj with
    | none => simp [Calc] at hc
    | some a =>
      rw [Calc] at hc
      split at hc
      · simp only [Except.ok.injEq, Prod.mk.injEq] at hc
        obtain ⟨rfl, _⟩ := hc
        exact Keeps_same hs
      · simp only [Except.ok.injEq, Prod.mk.injEq] at hc
        obtain ⟨rfl, _⟩ := hc
        exact Keeps_same hs
      · split at hc
        · simp only [Except.ok.injEq, Prod.mk.injEq] at hc
          obtain ⟨rfl, _⟩ := hc
          exact Keeps_same hs
        · cases hc
      · split at hc
        · rename_i h2 func e1
          have k1 := ih h _ scope h2 func hs hsc e1
          split at hc
          · split at hc
            · cases hc
            · split at hc
              · rename_i h3 func1 e2
                have k2 := Copy_keeps k h2 func h3 func1 k1.1 e2
                refine Keeps_andThen k1 (Keeps_andThen k2 ?_)
                unfold Apply at hc
                split at hc
                · rename_i f
                  split at hc
                  · exact Builtin_keeps ih (Copy_keeps k) _ k2.1 hsc hc
                  · refine Lambda_keeps ih (Copy_keeps k) k2.1 hsc ?_ hc
                    intro names body c ho hP
                    have hfr := Copy_closure_scope_fresh k1.1.1 e2 ho
                    have := k1.1.2.1 c hP
                    omega
                  · cases hc
                · cases hc
              · cases hc
          · cases hc
        · cases hc
      · cases hc

end Scheme
namespace Scheme

/-! ## `Copy` makes no new parent pointer -/

set_option maxRecDepth 100000

theorem parentsAll_spec {h : Heap} {Q : Nat → Bool} (hq : h.parentsAll Q = true) :
    ∀ a d u, h.obj? a = some (.NameSpace d (some u)) → Q u = true := by
  intro a d u ho
  obtain ⟨sl, hmem, _, hobj⟩ := obj?_some_mem ho
  unfold Heap.parentsAll at hq
  rw [List.all_eq_true] at hq
  have := hq sl hmem
  rw [hobj] at this
  exact this

theorem Uppers_Make {Q : Nat → Prop} {h : Heap} (hs : Uppers Q h) (o : Object)
    (hu : ∀ d c, o = .NameSpace d (some c) → Q c) : Uppers Q (h.Make o).1 := by
  refine ⟨Fresh_Make hs.1 o, ?_⟩
  intro a d u ho
  by_cases ha : a = h.next
  · subst ha
    rw [obj?_Make_new hs.1] at ho
    cases ho
    exact hu d u rfl
  · rw [obj?_Make_old h o ha] at ho
    exact hs.2 a d u ho

theorem Uppers_update {Q : Nat → Prop} {h : Heap} (hs : Uppers Q h) (a : Nat) (o1 : Object)
    (hu : ∀ d c, o1 = .NameSpace d (some c) → Q c) : Uppers Q (h.update a o1) := by
  refine ⟨Fresh_update hs.1 a o1, ?_⟩
  intro x d u hx
  rw [obj?_update] at hx
  split at hx
  · cases ho : h.obj? a with
    | none => rw [ho] at hx; cases hx
    | some o =>
      rw [ho] at hx
      simp only [Option.map_some', Option.some.injEq] at hx
      exact hu d u hx
  · exact hs.2 x d u hx

theorem Uppers_Set {Q : Nat → Prop} {h h1 : Heap} (hs : Uppers Q h) {a : Nat} {name : String}
    {v : Ptr} (hset : NameSpace.Set h (some a) name v = .ok h1) : Uppers Q h1 := by
  obtain ⟨d, u, ho, rfl⟩ := NameSpace.Set_eq hset
  refine Uppers_update hs a _ ?_
  intro d1 c e
  cases e
  exact hs.2 a d c ho

theorem CopyVector_uppers {Q : Nat → Prop} {copy : CopyFn}
    (hc : ∀ h p h1 q, Uppers Q h → copy h p = .ok (h1, q) → Uppers Q h1) :
    ∀ (ps : List Ptr) (h h1 : Heap) (qs : List Ptr), Uppers Q h →
      CopyVector copy h ps = .ok (h1, qs) → Uppers Q h1 := by
  intro ps
  induction ps with
  | nil =>
    intro h h1 qs hs hcv
    simp only [CopyVector, Except.ok.injEq, Prod.mk.injEq] at hcv
    obtain ⟨rfl, _⟩ := hcv
    exact hs
  | cons p ps ih =>
    intro h h1 qs hs hcv
    simp only [CopyVector] at hcv
    split at hcv
    · rename_i h2 q e1
      split at hcv
      · rename_i h3 qs1 e2
        simp only [Except.ok.injEq, Prod.mk.injEq] at hcv
        obtain ⟨rfl, _⟩ := hcv
        exact ih h2 h3 qs1 (hc h p h2 q hs e1) e2
      · cases hcv
    · cases hcv

theorem copyBindings_uppers {Q : Nat → Prop} {copy : CopyFn}
    (hc : ∀ h p h1 q, Uppers Q h → copy h p = .ok (h1, q) → Uppers Q h1) (res : Nat) :
    ∀ (data : List (String × Ptr)) (h h1 : Heap), Uppers Q h →
      copyBindings copy res h data = .ok h1 → Uppers Q h1 := by
  intro data
  induction data with
  | nil =>
    intro h h1 hs hcb
    simp only [copyBindings, Except.ok.injEq] at hcb
    subst hcb
    exact hs
  | cons kv data ih =>
    intro h h1 hs hcb
    obtain ⟨key, value_⟩ := kv
    cases value_ with
    | none => simp [copyBindings] at hcb
    | some v =>
      simp only [copyBindings] at hcb
      split at hcb
      · rename_i h2 q e1
        split at hcb
        · rename_i h3 e2
          exact ih h3 h1 (Uppers_Set (hc h (some v) h2 q hs e1) e2) hcb
        · cases hcb
      · cases hcb

theorem Copy_uppers {Q : Nat → Prop} :
    ∀ (fuel : Nat) (h : Heap) (p : Ptr) (h1 : Heap) (q : Ptr), Uppers Q h →
      Copy fuel h p = .ok (h1, q) → Uppers Q h1 := by
  intro fuel
  induction fuel with
  | zero =>
    intro h p h1 q hs hc
    cases p with
    | none =>
      simp only [Copy, Except.ok.injEq, Prod.mk.injEq] at hc
      obtain ⟨rfl, _⟩ := hc
      exact hs
    | some a => simp [Copy] at hc
  | succ k ih =>
    intro h p h1 q hs hc
    cases p with
    | none =>
      simp only [Copy, Except.ok.injEq, Prod.mk.injEq] at hc
      obtain ⟨rfl, _⟩ := hc
      exact hs
    | some a =>
      rw [Copy] at hc
      split at hc
      · cases hc
      · simp only [Except.ok.injEq, Prod.mk.injEq] at hc
        obtain ⟨rfl, _⟩ := hc
        exact Uppers_Make hs _ (by simp)
      · simp only [Except.ok.injEq, Prod.mk.injEq] at hc
        obtain ⟨rfl, _⟩ := hc
        exact Uppers_Make hs _ (by simp)
      · simp only [Except.ok.injEq, Prod.mk.injEq] at hc
        obtain ⟨rfl, _⟩ := hc
        exact Uppers_Make hs _ (by simp)
      · simp only [Except.ok.injEq, Prod.mk.injEq] at hc
        obtain ⟨rfl, _⟩ := hc
        exact Uppers_Make hs _ (by simp)
      · rename_i first_ second_ ho
        have hs0 : Uppers Q (h.Make (.Cell none none)).1 := Uppers_Make hs _ (by simp)
        simp only at hc
        split at hc
        · cases hc
        · rename_i hA f e1
          have hsA : Uppers Q hA := by
            split at e1
            · simp only [Except.ok.injEq, Prod.mk.injEq] at e1
              obtain ⟨rfl, _⟩ := e1
              exact hs0
            · exact ih _ _ _ _ hs0 e1
          have hsA2 : Uppers Q (hA.update (h.Make (.Cell none none)).2 (.Cell f none)) :=
            Uppers_update hsA _ _ (by simp)
          split at hc
          · cases hc
          · rename_i hB s e2
            have hsB : Uppers Q hB := by
              split at e2
              · simp only [Except.ok.injEq, Prod.mk.injEq] at e2
                obtain ⟨rfl, _⟩ := e2
                exact hsA2
              · exact ih _ _ _ _ hsA2 e2
            simp only [Except.ok.injEq, Prod.mk.injEq] at hc
            obtain ⟨rfl, _⟩ := hc
            exact Uppers_update hsB _ _ (by simp)
      · rename_i data_ upper_ ho
        have hs0 : Uppers Q (h.Make (.NameSpace [] upper_)).1 := by
          refine Uppers_Make hs _ ?_
          intro d c e
          cases e
          exact hs.2 a data_ c ho
        simp only at hc
        split at hc
        · cases hc
        · rename_i hA e1
          simp only [Except.ok.injEq, Prod.mk.injEq] at hc
          obtain ⟨rfl, _⟩ := hc
          exact copyBindings_uppers ih _ data_ _ _ hs0 e1
      · rename_i arg_names_ body_ scope_ ho
        have hs0 : Uppers Q (h.Make (.Lambda [] [] none)).1 := Uppers_Make hs _ (by simp)
        simp only at hc
        split at hc
        · cases hc
        · rename_i hA names1 e1
          have hsA := CopyVector_uppers ih arg_names_ _ hA names1 hs0 e1
          split at hc
          · cases hc
          · rename_i hB body1 e2
            have hsB := CopyVector_uppers ih body_ hA hB body1 hsA e2
            split at hc
            · cases hc
            · rename_i sc
              split at hc
              · cases hc
              · rename_i hC sc1 e3
                simp only [Except.ok.injEq, Prod.mk.injEq] at hc
                obtain ⟨rfl, _⟩ := hc
                exact Uppers_update (ih _ _ _ _ hsB e3) _ _ (by simp)

end Scheme
namespace Scheme

/-! ## Invoking a closure through the evaluator -/

set_option maxRecDepth 100000

set_option maxHeartbeats 4000000

theorem CalcVector_length {eval : CalcFn} {scope : Ptr} :
    ∀ (xs : List Ptr) (h h1 : Heap) (vs : List Ptr),
      CalcVector eval h xs scope = .ok (h1, vs) → vs.length = xs.length := by
  intro xs
  induction xs with
  | nil =>
    intro h h1 vs hcv
    simp only [CalcVector, Except.ok.injEq, Prod.mk.injEq] at hcv
    rw [← hcv.2]
  | cons x xs ih =>
    intro h h1 vs hcv
    simp only [CalcVector] at hcv
    split at hcv
    · split at hcv
      · rename_i h3 vs1 e2
        simp only [Except.ok.injEq, Prod.mk.injEq] at hcv
        rw [← hcv.2, List.length_cons, List.length_cons, ih _ _ _ e2]
      · cases hcv
    · cases hcv

theorem CopyVector_length {copy : CopyFn} :
    ∀ (ps : List Ptr) (h h1 : Heap) (qs : List Ptr),
      CopyVector copy h ps = .ok (h1, qs) → qs.length = ps.length := by
  intro ps
  induction ps with
  | nil =>
    intro h h1 qs hcv
    simp only [CopyVector, Except.ok.injEq, Prod.mk.injEq] at hcv
    rw [← hcv.2]
  | cons p ps ih =>
    intro h h1 qs hcv
    simp only [CopyVector] at hcv
    split at hcv
    · split at hcv
      · rename_i h3 qs1 e2
        simp only [Except.ok.injEq, Prod.mk.injEq] at hcv
        rw [← hcv.2, List.length_cons, List.length_cons, ih _ _ _ e2]
      · cases hcv
    · cases hcv

theorem Sealed_duplicate_frame {fuel : Nat} {h h1 : Heap} {p q : Ptr} {s1 : Nat} {o : Object}
    (hf : h.Fresh) (hpar : ∀ a d c, h.obj? a = some (.NameSpace d (some c)) → c < h.next)
    (hc : Copy fuel h p = .ok (h1, q)) (hlt : h.next ≤ s1) (hs1 : h1.obj? s1 = some o) :
    Sealed (fun a => a = s1) h1 := by
  have hu := Copy_uppers fuel h p h1 q ⟨hf, hpar⟩ hc
  refine ⟨hu.1, ?_, ?_⟩
  · intro a ha
    subst ha
    exact obj?_lt_next hu.1 hs1
  · intro a d u ho hu1
    have := hu.2 a d u ho
    omega

theorem Lambda_call_arity {eval : CalcFn} {copy : CopyFn} {fuel : Nat} {h : Heap} {self : Nat}
    {obj scope sc : Ptr} {names body args : List Ptr}
    (hself : h.obj? self = some (.Lambda names body sc))
    (hv : ToVector fuel h obj = .ok args) (hlen : args.length ≠ names.length) :
    Lambda.call eval copy fuel h self obj scope = .error .RuntimeError := by
  unfold Lambda.call
  simp only [hself, hv, RequiresOnlyXArguments, bind, Except.bind, ne_eq, hlen, not_false_eq_true,
    if_true]

theorem Lambda_call_operand_error {eval : CalcFn} {copy : CopyFn} {fuel : Nat} {h : Heap}
    {self : Nat} {obj scope sc : Ptr} {names body args : List Ptr} {err : Err}
    (hself : h.obj? self = some (.Lambda names body sc))
    (hv : ToVector fuel h obj = .ok args) (hlen : args.length = names.length)
    (hcv : CalcVector eval h args scope = .error err) :
    Lambda.call eval copy fuel h self obj scope = .error err := by
  unfold Lambda.call
  simp only [hself, hv, hcv, RequiresOnlyXArguments, bind, Except.bind, pure, Except.pure, ne_eq,
    hlen, not_true_eq_false, if_false]

theorem Calc_invokes_duplicate {fuel : Nat} {h h1 h2 : Heap} {e f : Nat}
    {first_ first1 args0 args scope sc q : Ptr} {names body : List Ptr}
    (he : h.obj? e = some (.Cell first_ args0))
    (hfun : Calc fuel h first_ scope = .ok (h1, some f))
    (he1 : h1.obj? e = some (.Cell first1 args))
    (hlam : h1.obj? f = some (.Lambda names body sc))
    (hcopy : Copy fuel h1 (some f) = .ok (h2, q)) :
    Calc (fuel + 1) h (some e) scope = Apply (Calc fuel) (Copy fuel) fuel h2 q args scope := by
  have hisf : IsFunctor h1 (some f) = true := by simp [IsFunctor, hlam]
  rw [Calc]
  simp only [he, hfun, he1, hisf, hcopy, Bool.not_true, Bool.false_eq_true, if_false]

/-- **C23.** Invoking a closure through the evaluator.  The expression at `e` is an
application whose head evaluates (in heap `h`, giving heap `h1`) to the closure at `f`
with parameters `names` (symbols named `ns`), a non-empty body `body` and an empty own
frame `s` whose parent `u` is the environment captured when the closure was made; every
parent pointer of `h1` and the caller's environment `scope` point at existing objects.
`Copy` makes of the closure the heap `h2`, and `argv` are the operands.  Then the
duplicate at `h1.next` has parameters `names1` and body `body1`, the `CopyVector`
duplicates of the original ones, and a new empty own frame `s1` with parent `u`; with an
operand count other than the parameter count the invocation is `RuntimeError`, whatever
the operands are (none is evaluated); otherwise the operands are evaluated front to back
by `CalcVector` in the caller's environment `scope`, an error among them is the error of
the invocation, and once they have the values `vals` the frame `s1` holds exactly the
bindings of the parameter names to `vals` with parent `u` (made by `bindArgs`), no other
object having changed;
the body expressions are then duplicated and evaluated in order in `s1`, an error among
them is the error of the invocation, and otherwise the invocation returns the value of the
last one. -/
theorem closure_invocation_binds_fresh_frame_of_captured_environment
    {fuel : Nat} {h h1 h2 : Heap} {e f s : Nat}
    {first_ first1 args0 args scope u q : Ptr} {names body argv : List Ptr} {ns : List String}
    (hf : h1.Fresh)
    (hpar : ∀ a d c, h1.obj? a = some (.NameSpace d (some c)) → c < h1.next)
    (hscope : ∀ a, scope = some a → a < h1.next)
    (he : h.obj? e = some (.Cell first_ args0))
    (hfun : Calc fuel h first_ scope = .ok (h1, some f))
    (he1 : h1.obj? e = some (.Cell first1 args))
    (hlam : h1.obj? f = some (.Lambda names body (some s)))
    (hs : h1.obj? s = some (.NameSpace [] u))
    (hns : List.Forall₂ (fun p n => GetSymbol h1 p = .ok n) names ns)
    (hm : body ≠ [])
    (hcopy : Copy fuel h1 (some f) = .ok (h2, q))
    (hv : ToVector fuel h2 args = .ok argv) :
    ∃ names1 body1 s1,
      q = some h1.next ∧
      h2.obj? h1.next = some (.Lambda names1 body1 (some s1)) ∧
      h2.obj? s1 = some (.NameSpace [] u) ∧ h1.next < s1 ∧
      (∃ k hA hB, fuel = k + 1 ∧
        CopyVector (Copy k) (h1.Make (.Lambda [] [] none)).1 names = .ok (hA, names1) ∧
        CopyVector (Copy k) hA body = .ok (hB, body1) ∧ s1 = hB.next) ∧
      (argv.length ≠ names.length →
        Calc (fuel + 1) h (some e) scope = .error .RuntimeError) ∧
      (argv.length = names.length →
        (∀ err, CalcVector (Calc fuel) h2 argv scope = .error err →
          Calc (fuel + 1) h (some e) scope = .error err) ∧
        ∀ h3 vals, CalcVector (Calc fuel) h2 argv scope = .ok (h3, vals) →
          ∃ h4, bindArgs (some s1) h3 names1 vals = .ok h4 ∧
            h4.obj? s1 =
              some (.NameSpace ((ns.zip vals).foldl (fun d nv => mapSet d nv.1 nv.2) []) u) ∧
            (∀ x, x ≠ s1 → h4.obj? x = h3.obj? x) ∧ h4.next = h3.next ∧
            (∀ err, CopyAndCalcVector (Calc fuel) (Copy fuel) h4 body1 (some s1) = .error err →
              Calc (fuel + 1) h (some e) scope = .error err) ∧
            ∀ h5 rs, CopyAndCalcVector (Calc fuel) (Copy fuel) h4 body1 (some s1) = .ok (h5, rs) →
              rs.length = body.length ∧
              ∃ r, rs.getLast? = some r ∧ Calc (fuel + 1) h (some e) scope = .ok (h5, r)) := by
  obtain ⟨names1, body1, s1, d1, hq, hlam1, hs1, hnil, hlt, hlenN, hlenB, hsym, hext, hparts⟩ :=
    Copy_closure hf hlam hs hcopy
  have hd1 : d1 = [] := hnil rfl
  subst hd1
  subst hq
  have hcalc : Calc (fuel + 1) h (some e) scope =
      Lambda.call (Calc fuel) (Copy fuel) fuel h2 h1.next args scope := by
    rw [Calc_invokes_duplicate he hfun he1 hlam hcopy]
    unfold Apply
    simp only [hlam1]
  refine ⟨names1, body1, s1, rfl, hlam1, hs1, hlt, hparts, ?_, ?_⟩
  · intro hne
    rw [hcalc]
    exact Lambda_call_arity hlam1 hv (by rw [hlenN]; exact hne)
  · intro hlen
    have hlen1 : argv.length = names1.length := by rw [hlenN]; exact hlen
    refine ⟨fun err herr => ?_, ?_⟩
    · rw [hcalc]
      exact Lambda_call_operand_error hlam1 hv hlen1 herr
    · intro h3 vals hcv
      have hseal : Sealed (fun a => a = s1) h2 :=
        Sealed_duplicate_frame hf hpar hcopy (Nat.le_of_lt hlt) hs1
      have hsc : ∀ a, scope = some a → ¬ a = s1 := by
        intro a ha heq
        have := hscope a ha
        omega
      have k1 := CalcVector_keeps (Calc_keeps fuel) hsc argv h2 h3 vals hseal hcv
      have hs3 : h3.obj? s1 = some (.NameSpace [] u) := k1.2.2 s1 _ hs1 rfl
      have hns3 : List.Forall₂ (fun p n => GetSymbol h3 p = .ok n) names1 ns := by
        refine (hsym ns hns).imp (fun p n hp => ?_)
        obtain ⟨a, rfl, ho⟩ := GetSymbol_ok hp
        simp only [GetSymbol, k1.2.2 a _ ho trivial]
      obtain ⟨h4, e4, ho4, hframe, hnext, _⟩ := bindArgs_frame s1 u names1 ns vals h3 [] hs3 hns3
      have hcall := Lambda_call_eq (Calc fuel) (Copy fuel) fuel h2 h3 h1.next args scope (some s1)
        names1 body1 argv vals hlam1 hv hlen1 hcv
      rw [e4] at hcall
      simp only at hcall
      refine ⟨h4, e4, ho4, hframe, hnext, fun err herr => ?_, fun h5 rs hrs => ?_⟩
      · rw [hcalc, hcall, herr]
      · have hrl : rs.length = body.length := by
          unfold CopyAndCalcVector at hrs
          split at hrs
          · rename_i h6 vec e6
            rw [CalcVector_length _ _ _ _ hrs, CopyVector_length _ _ _ _ e6, hlenB]
          · cases hrs
        refine ⟨hrl, ?_⟩
        cases hg : rs.getLast? with
        | none =>
          rw [List.getLast?_eq_none_iff] at hg
          subst hg
          exact absurd (List.length_eq_zero.mp hrl.symm) hm
        | some r =>
          refine ⟨r, rfl, ?_⟩
          rw [hcalc, hcall, hrs]
          simp only [hg]

theorem square_session :
    Interpreter.RunAll 40 Interpreter.new ["(define (square x) (* x x))", "(square 5)"] =
      .ok ["square", "25"] := by
  rfl

theorem lexical_scope_session :
    Interpreter.RunAll 40 Interpreter.new
        ["(define y 10)", "(define (addy x) (+ x y))", "(define (g y) (addy 1))", "(g 100)"] =
      .ok ["y", "addy", "g", "11"] := by
  rfl

theorem body_order_session :
    Interpreter.RunAll 40 Interpreter.new
        ["(define (h a b) (define c (+ a b)) (* c 2))", "(h 3 4)"] = .ok ["h", "14"] := by
  rfl

theorem operand_count_sessions :
    ∀ s ∈ ["(square)", "(square 1 2)", "(square undefined-a undefined-b)",
        "(square (car 1) 2)"],
      Interpreter.RunAll 40 Interpreter.new ["(define (square x) (* x x))", s] =
        .error .RuntimeError := by
  intro s hs
  simp only [List.mem_cons, List.mem_singleton, List.not_mem_nil, or_false] at hs
  rcases hs with rfl | rfl | rfl | rfl <;> rfl

theorem operand_order_session_first :
    Interpreter.RunAll 40 Interpreter.new ["(define (f a b) a)", "(f (car 1) undefined)"] =
      .error .RuntimeError := by
  rfl

theorem operand_order_session_second :
    Interpreter.RunAll 40 Interpreter.new ["(define (f a b) a)", "(f undefined (car 1))"] =
      .error .NameError := by
  rfl

/-- Witness for C23: the call `(square 5)` of `squareHeap`.  The evaluator duplicates the
closure (duplicate at address 15, its frame at 23), binds `x` in the frame 23 to the operand
5 at address 14, evaluates the duplicated body `(* x x)` there and returns 25.  On a fresh
interpreter `(square 5)` gives 25, a free variable of a body is looked up in the defining
environment (`(g 100)` gives 11, not 101), the body expressions are evaluated in order, a
wrong operand count is `RuntimeError` whatever the operands are, and the error of the first
failing operand is the one reported. -/
theorem closure_invocation_binds_fresh_frame_of_captured_environment_witness :
    (Calc 11 squareHeap (some 11) (some 0) = .ok (squareResult.1, some 31) ∧
        GetNumber squareResult.1 (some 31) = .ok 25 ∧
        squareCopied.obj? 15 = some (.Lambda [some 16] [some 17] (some 23)) ∧
        squareCopied.obj? 23 = some (.NameSpace [] (some 0)) ∧
        bindArgs (some 23) squareCopied [some 16] [some 14] =
          .ok (squareCopied.update 23 (.NameSpace [("x", some 14)] (some 0)))) ∧
      Interpreter.RunAll 40 Interpreter.new ["(define (square x) (* x x))", "(square 5)"] =
        .ok ["square", "25"] ∧
      Interpreter.RunAll 40 Interpreter.new
          ["(define y 10)", "(define (addy x) (+ x y))", "(define (g y) (addy 1))",
            "(g 100)"] =
        .ok ["y", "addy", "g", "11"] ∧
      Interpreter.RunAll 40 Interpreter.new
          ["(define (h a b) (define c (+ a b)) (* c 2))", "(h 3 4)"] = .ok ["h", "14"] ∧
      (∀ s ∈ ["(square)", "(square 1 2)", "(square undefined-a undefined-b)",
          "(square (car 1) 2)"],
        Interpreter.RunAll 40 Interpreter.new ["(define (square x) (* x x))", s] =
          .error .RuntimeError) ∧
      Interpreter.RunAll 40 Interpreter.new ["(define (f a b) a)", "(f (car 1) undefined)"] =
        .error .RuntimeError ∧
      Interpreter.RunAll 40 Interpreter.new ["(define (f a b) a)", "(f undefined (car 1))"] =
        .error .NameError := by
  refine ⟨?_, square_session, lexical_scope_session, body_order_session,
    operand_count_sessions, operand_order_session_first, operand_order_session_second⟩
  obtain ⟨names1, body1, s1, _, hl1, _, _, _, _, hmain⟩ :=
    @closure_invocation_binds_fresh_frame_of_captured_environment 10 squareHeap squareHeap
      squareCopied 11 1 3 (some 12) (some 12) (some 13) (some 13) (some 0) (some 0) (some 15)
      [some 2] [some 4] [some 14] ["x"] (by decide)
      (fun a d c ho => of_decide_eq_true
        (parentsAll_spec (h := squareHeap) (Q := fun c => decide (c < 15)) rfl a d c ho))
      (fun a ha => by cases ha; decide) rfl rfl rfl rfl rfl
      (List.Forall₂.cons rfl List.Forall₂.nil) (by simp) rfl rfl
  have e15 : squareCopied.obj? 15 = some (.Lambda [some 16] [some 17] (some 23)) := by rfl
  have hn : squareHeap.next = 15 := rfl
  rw [hn, e15] at hl1
  cases hl1
  obtain ⟨h4, hb, _, _, _, _, hres⟩ := (hmain rfl).2 squareCopied [some 14] rfl
  have hb2 : bindArgs (some 23) squareCopied [some 16] [some 14] =
      .ok (squareCopied.update 23 (.NameSpace [("x", some 14)] (some 0))) := by rfl
  rw [hb2] at hb
  cases hb
  obtain ⟨_, r, hr, hcalc⟩ := hres squareResult.1 squareResult.2 (by rfl)
  have hr2 : squareResult.2.getLast? = some (some 31) := by rfl
  rw [hr2] at hr
  cases hr
  exact ⟨hcalc, by rfl, e15, by rfl, hb2⟩

end Scheme
namespace Scheme

/-! ## Evaluation never changes a stored closure -/

set_option maxRecDepth 100000

set_option maxHeartbeats 4000000

/-- **C24.** Evaluation never changes a closure stored in the heap.  The closure at `f`
has parameters `names`, body `body` and own frame `s` (bindings `d`, parent `u`); `s` is
the parent of no environment of `h` and is not the environment `scope` the evaluation runs
in.  Whenever the evaluator returns, on any expression at all, the closure object (its
parameter vector, its body vector and its frame pointer) and its own frame (bindings and
parent) are as before, every symbol object is as before, and `s` is still the parent of no
environment, so that the same holds for every later evaluation.  When the expression is an
application whose head evaluates to `f`, the evaluator invokes a duplicate: `Copy` makes a
new closure at the next free address with a new own frame `s1` (empty when `s` is, same
parent), both different from `f` and `s`, and it is this duplicate that is called, so the
parameters and the definitions of the body are bound in `s1`. -/
theorem evaluation_leaves_stored_closure_unchanged
    {fuel : Nat} {h h1 : Heap} {f s : Nat} {obj scope v u : Ptr} {names body : List Ptr}
    {d : List (String × Ptr)}
    (hf : h.Fresh)
    (hpar : ∀ a d1 c, h.obj? a = some (.NameSpace d1 (some c)) → c ≠ s)
    (hsc : scope ≠ some s)
    (hlam : h.obj? f = some (.Lambda names body (some s)))
    (hfr : h.obj? s = some (.NameSpace d u))
    (hc : Calc fuel h obj scope = .ok (h1, v)) :
    (h1.obj? f = some (.Lambda names body (some s)) ∧ h1.obj? s = some (.NameSpace d u) ∧
      (∀ p n, GetSymbol h p = .ok n → GetSymbol h1 p = .ok n) ∧
      h1.Fresh ∧ (∀ a d1 c, h1.obj? a = some (.NameSpace d1 (some c)) → c ≠ s)) ∧
    ∀ k e first_ args0 h0, fuel = k + 1 → obj = some e →
      h.obj? e = some (.Cell first_ args0) → Calc k h first_ scope = .ok (h0, some f) →
      ∃ h2 names1 body1 s1 d1 args,
        Copy k h0 (some f) = .ok (h2, some h0.next) ∧
        h2.obj? h0.next = some (.Lambda names1 body1 (some s1)) ∧
        h2.obj? s1 = some (.NameSpace d1 u) ∧ (d = [] → d1 = []) ∧
        f < h0.next ∧ s < h0.next ∧ h0.next < s1 ∧
        Lambda.call (Calc k) (Copy k) k h2 h0.next args scope = .ok (h1, v) := by
  have hseal : Sealed (fun a => a = s) h :=
    ⟨hf, fun a ha => by subst ha; exact obj?_lt_next hf hfr, fun a d1 c ho => hpar a d1 c ho⟩
  have hsc1 : ∀ a, scope = some a → ¬ a = s := by
    intro a ha hs
    subst ha
    subst hs
    exact hsc rfl
  have keep := Calc_keeps fuel h obj scope h1 v hseal hsc1 hc
  refine ⟨⟨keep.2.2 f _ hlam trivial, keep.2.2 s _ hfr rfl, ?_, keep.1.1,
    fun a d1 c ho => keep.1.2.2 a d1 c ho⟩, ?_⟩
  · intro p n hp
    obtain ⟨a, rfl, ho⟩ := GetSymbol_ok hp
    simp only [GetSymbol, keep.2.2 a _ ho trivial]
  · intro k e first_ args0 h0 hk hobj he hfun
    subst hk
    subst hobj
    have k0 := Calc_keeps k h first_ scope h0 (some f) hseal hsc1 hfun
    have hlam0 : h0.obj? f = some (.Lambda names body (some s)) := k0.2.2 f _ hlam trivial
    have hfr0 : h0.obj? s = some (.NameSpace d u) := k0.2.2 s _ hfr rfl
    rw [Calc] at hc
    simp only [he, hfun] at hc
    split at hc
    · rename_i x args he0
      have hisf : IsFunctor h0 (some f) = true := by simp [IsFunctor, hlam0]
      simp only [hisf, Bool.not_true, Bool.false_eq_true, if_false] at hc
      split at hc
      · rename_i h2 func1 hcopy
        obtain ⟨names1, body1, s1, d1, hq, hlam1, hs1, hnil, hlt, _, _, _, _, _⟩ :=
          Copy_closure k0.1.1 hlam0 hfr0 hcopy
        subst hq
        unfold Apply at hc
        simp only [hlam1] at hc
        exact ⟨h2, names1, body1, s1, d1, args, hcopy, hlam1, hs1, hnil,
          obj?_lt_next k0.1.1 hlam0, obj?_lt_next k0.1.1 hfr0, hlt, hc⟩
      · cases hc
    · cases hc

theorem body_define_sessions :
    Interpreter.RunAll 40 Interpreter.new ["(define (f x) (define y x) y)", "(f 1)", "(f 2)"] =
        .ok ["f", "1", "2"] ∧
      Interpreter.RunAll 40 Interpreter.new ["(define (f x) (define y x) y)", "(f 1)", "y"] =
        .error .NameError ∧
      Interpreter.RunAll 40 Interpreter.new ["(define (f x) (define y x) y)", "(f 1)", "x"] =
        .error .NameError := by
  refine ⟨by rfl, by rfl, by rfl⟩

theorem counter_session :
    Interpreter.RunAll 40 Interpreter.new
        ["(define (c) (define n 0) (set! n (+ n 1)) n)", "(c)", "(c)"] =
      .ok ["c", "1", "1"] := by
  rfl

theorem quoted_body_session :
    Interpreter.RunAll 40 Interpreter.new
        ["(define (q) (quote (1 2)))", "(set-car! (q) 9)", "(q)"] =
      .ok ["q", "1", "(1 2)"] := by
  rfl

/-- Witness for C24: the call `(f 1)` of `invokeHeap`, where `f` is
`(lambda (x) (define y x) y)`.  After the call the closure at address 1 and its empty own
frame at address 3 are as before, and so is the global frame, in which neither `x` nor `y`
is bound: the call ran on the duplicate at address 16, in whose frame at address 25 both
were bound.  On a fresh interpreter a name defined in a body is unbound after the call, a
later call starts from the same empty frame (the counter `c` gives 1 every time), and
changing the list a call returned does not change what the next call returns. -/
theorem evaluation_leaves_stored_closure_unchanged_witness :
    (invokeResult.1.obj? 1 = some (.Lambda [some 2] [some 4, some 10] (some 3)) ∧
        invokeResult.1.obj? 3 = some (.NameSpace [] (some 0)) ∧
        invokeResult.1.obj? 0 = some (.NameSpace [("f", some 1), ("define", some 9)] none) ∧
        invokeResult.1.obj? 25 =
          some (.NameSpace [("x", some 15), ("y", some 34)] (some 0)) ∧
        ∃ h2 names1 body1 args,
          Copy 11 invokeHeap (some 1) = .ok (h2, some 16) ∧
          h2.obj? 16 = some (.Lambda names1 body1 (some 25)) ∧
          h2.obj? 25 = some (.NameSpace [] (some 0)) ∧
          Lambda.call (Calc 11) (Copy 11) 11 h2 16 args (some 0) = .ok invokeResult) ∧
      (Interpreter.RunAll 40 Interpreter.new
            ["(define (f x) (define y x) y)", "(f 1)", "(f 2)"] = .ok ["f", "1", "2"] ∧
        Interpreter.RunAll 40 Interpreter.new ["(define (f x) (define y x) y)", "(f 1)", "y"] =
          .error .NameError ∧
        Interpreter.RunAll 40 Interpreter.new ["(define (f x) (define y x) y)", "(f 1)", "x"] =
          .error .NameError) ∧
      Interpreter.RunAll 40 Interpreter.new
          ["(define (c) (define n 0) (set! n (+ n 1)) n)", "(c)", "(c)"] =
        .ok ["c", "1", "1"] ∧
      Interpreter.RunAll 40 Interpreter.new
          ["(define (q) (quote (1 2)))", "(set-car! (q) 9)", "(q)"] =
        .ok ["q", "1", "(1 2)"] := by
  refine ⟨?_, body_define_sessions, counter_session, quoted_body_session⟩
  have key := @evaluation_leaves_stored_closure_unchanged 12 invokeHeap invokeResult.1 1 3
    (some 12) (some 0) invokeResult.2 (some 0) [some 2] [some 4, some 10] [] (by decide)
    (fun a d1 c ho => of_decide_eq_true
      (parentsAll_spec (h := invokeHeap) (Q := fun c => decide (c ≠ 3)) rfl a d1 c ho))
    (by decide) rfl rfl (by rfl)
  obtain ⟨h2, names1, body1, s1, d1, args, hcopy, hl1, hs1, hnil, _, _, _, hcall⟩ :=
    key.2 11 12 (some 13) (some 14) invokeHeap rfl rfl rfl (by rfl)
  have hd1 := hnil rfl
  subst hd1
  have hn : invokeHeap.next = 16 := rfl
  rw [hn] at hcopy hl1 hcall
  have hcopy2 : ∃ r, Copy 11 invokeHeap (some 1) = .ok r ∧ r.1.obj? 16 =
      some (.Lambda [some 17] [some 18, some 24] (some 25)) := by
    cases hx : Copy 11 invokeHeap (some 1) with
    | error err => rw [hx] at hcopy; cases hcopy
    | ok r =>
      refine ⟨r, rfl, ?_⟩
      have : (match Copy 11 invokeHeap (some 1) with
          | .ok r => r.1.obj? 16
          | .error _ => none) = some (.Lambda [some 17] [some 18, some 24] (some 25)) := by rfl
      rw [hx] at this
      exact this
  obtain ⟨r, hr, ho16⟩ := hcopy2
  rw [hcopy] at hr
  cases hr
  rw [hl1] at ho16
  cases ho16
  exact ⟨key.1.1, key.1.2.1, by rfl, by rfl, h2, _, _, args, hcopy, hl1, hs1, hcall⟩

end Scheme
namespace Scheme

/-! ## Division by zero -/

set_option maxRecDepth 100000

theorem foldNumbers_divides_zero (h : Heap) (z : Ptr) (post : List Ptr)
    (hz : GetNumber h z = .ok 0) :
    ∀ (pre : List Ptr) (ps : List Int) (acc : Int),
      List.Forall₂ (fun v n => GetNumber h v = .ok n) pre ps →
      foldNumbers divides64 h acc (pre ++ z :: post) = .error .Undefined := by
  intro pre ps acc hall
  induction hall generalizing acc with
  | nil =>
    simp only [List.nil_append, foldNumbers, hz, divides64, if_true]
  | @cons x n xs ns hv _ ih =>
    have hcase : (∃ r, divides64 acc n = .ok r) ∨ divides64 acc n = .error .Undefined := by
      unfold divides64
      split
      · right; rfl
      · split
        · right; rfl
        · left; exact ⟨_, rfl⟩
    simp only [List.cons_append, foldNumbers, hv]
    rcases hcase with ⟨r, hr⟩ | he
    · simp only [hr]
      exact ih r
    · simp only [he]

/-- **C31.** Division is not guarded against a zero divisor.  `std::divides<int64_t>` is
applied to whatever the operands evaluate to, and a zero divisor makes it an undefined
machine division (`Err.Undefined` in the model), not a `RuntimeError`: `divides64 a 0` is
undefined for every `a`; the one-operand form `(/ z)` with `z` evaluating to 0 computes
`1 / 0`; and with several operands, the first of which is a number, a divisor that
evaluates to 0 after divisors that are numbers makes the fold undefined.  On a fresh
interpreter `(/ 1 0)`, `(/ 5 2 0)` and `(/ 0)` are undefined, while `(/)` and the other
violations of a value domain fail with `RuntimeError`. -/
theorem division_by_zero_is_undefined :
    (∀ a : Int, divides64 a 0 = .error .Undefined) ∧
      (∀ (eval : CalcFn) (copy : CopyFn) (fuel : Nat) (h h1 : Heap) (obj scope x z : Ptr),
        ToVector fuel h obj = .ok [x] → CalcVector eval h [x] scope = .ok (h1, [z]) →
        GetNumber h1 z = .ok 0 →
        Builtin.call .Divides eval copy fuel h obj scope = .error .Undefined) ∧
      (∀ (eval : CalcFn) (copy : CopyFn) (fuel : Nat) (h h1 : Heap) (obj scope x y z : Ptr)
          (args pre post : List Ptr) (a : Int) (ps : List Int),
        ToVector fuel h obj = .ok (x :: args) →
        CalcVector eval h (x :: args) scope = .ok (h1, y :: (pre ++ z :: post)) →
        GetNumber h1 y = .ok a →
        List.Forall₂ (fun v n => GetNumber h1 v = .ok n) pre ps →
        GetNumber h1 z = .ok 0 →
        Builtin.call .Divides eval copy fuel h obj scope = .error .Undefined) ∧
      (∀ s ∈ ["(/ 1 0)", "(/ 5 2 0)", "(/ 0)"],
        (Interpreter.Run 40 Interpreter.new s).map Prod.snd = .error .Undefined) ∧
      (∀ s ∈ ["(/)", "(/ 1 #t)", "(car 1)"],
        (Interpreter.Run 40 Interpreter.new s).map Prod.snd = .error .RuntimeError) ∧
      (Interpreter.Run 40 Interpreter.new "(/ 7 2)").map Prod.snd = .ok "3" := by
  refine ⟨?_, ?_, ?_, ?_, ?_, by rfl⟩
  · intro a
    simp [divides64]
  · intro eval copy fuel h h1 obj scope x z hv hcv hz
    show irrevCall divides64 1 eval fuel h obj scope = _
    rw [irrevCall_eq divides64 1 eval fuel h h1 obj scope x [] [z] hv hcv]
    simp only [hz, divides64, if_true, Except.map]
  · intro eval copy fuel h h1 obj scope x y z args pre post a ps hv hcv hy hpre hz
    show irrevCall divides64 1 eval fuel h obj scope = _
    obtain ⟨w, ws, hp⟩ : ∃ w ws, pre ++ z :: post = w :: ws := by
      cases pre with
      | nil => exact ⟨z, post, rfl⟩
      | cons p ps1 => exact ⟨p, ps1 ++ z :: post, rfl⟩
    have hf := foldNumbers_divides_zero h1 z post hz pre ps a hpre
    rw [hp] at hcv hf
    rw [irrevCall_eq divides64 1 eval fuel h h1 obj scope x args (y :: w :: ws) hv hcv]
    simp only [hy, hf]
    rfl
  · intro s hs
    simp only [List.mem_cons, List.mem_singleton, List.not_mem_nil, or_false] at hs
    rcases hs with rfl | rfl | rfl <;> rfl
  · intro s hs
    simp only [List.mem_cons, List.mem_singleton, List.not_mem_nil, or_false] at hs
    rcases hs with rfl | rfl | rfl <;> rfl

end Scheme
namespace Scheme

/-! ## `define` with an empty head -/

set_option maxRecDepth 100000

/-- **C32.** A `define` whose first operand is the empty list is not rejected with
`SyntaxError`.  The first operand is not a symbol and `IsListHelper` accepts the empty
list as a list, so `Define` goes on to take `arg_names.front()` of the empty vector of
names, which is undefined (`Err.Undefined` in the model), for every evaluator and
duplicator and whatever the other operands are.  On a fresh interpreter `(define () 1)`
is undefined, while a head that is neither a symbol nor a list gives `SyntaxError`. -/
theorem define_with_empty_head_is_undefined :
    (∀ (eval : CalcFn) (copy : CopyFn) (fuel : Nat) (h : Heap) (obj scope : Ptr)
        (rest : List Ptr),
        ToVector (fuel + 1) h obj = .ok (none :: rest) → rest ≠ [] →
        IsSymbol h none = false ∧ IsListHelper (fuel + 1) h none = .ok true ∧
          ToVector (fuel + 1) h none = .ok [] ∧
          Define.call eval copy (fuel + 1) h obj scope = .error .Undefined) ∧
      (∀ s ∈ ["(define () 1)", "(define () undefined-name)"],
        (Interpreter.Run 40 Interpreter.new s).map Prod.snd = .error .Undefined) ∧
      (∀ s ∈ ["(define 1 2)", "(define (f . 1) 2)", "(define ())"],
        (Interpreter.Run 40 Interpreter.new s).map Prod.snd = .error .SyntaxError) := by
  refine ⟨?_, ?_, ?_⟩
  · intro eval copy fuel h obj scope rest hv hrest
    refine ⟨rfl, rfl, rfl, ?_⟩
    unfold Define.call
    have hlen : ¬ (none :: rest : List Ptr).length < 2 := by
      cases rest with
      | nil => exact absurd rfl hrest
      | cons r rs => simp
    have hsym : IsSymbol h none = false := rfl
    have hil : IsListHelper (fuel + 1) h none = .ok true := rfl
    have htv : ToVector (fuel + 1) h none = .ok [] := rfl
    simp only [hv, RequiresMinimumXArgumentsS, bind, Except.bind, hlen, if_false, hsym,
      Bool.false_eq_true, hil, if_true, htv]
  · intro s hs
    simp only [List.mem_cons, List.mem_singleton, List.not_mem_nil, or_false] at hs
    rcases hs with rfl | rfl <;> rfl
  · intro s hs
    simp only [List.mem_cons, List.mem_singleton, List.not_mem_nil, or_false] at hs
    rcases hs with rfl | rfl | rfl <;> rfl

end Scheme
namespace Scheme

/-! ## The invariant of the evaluator: basic steps -/

set_option maxRecDepth 100000

theorem rank_lt_sum (r : Nat → Nat) {y N : Nat} (hy : y < N) :
    r y < (Finset.range N).sum r + 1 := by
  have := Finset.single_le_sum (f := r) (s := Finset.range N) (fun i _ => Nat.zero_le _)
    (Finset.mem_range.mpr hy)
  exact Nat.lt_succ_of_le this

theorem Distinct_Make {h : Heap} (hf : h.Fresh) (hd : h.Distinct) (o : Object) :
    (h.Make o).1.Distinct := by
  unfold Heap.Distinct at hd ⊢
  simp only [Heap.Make, List.map_append, List.map_cons, List.map_nil]
  rw [List.nodup_append]
  refine ⟨hd, List.nodup_singleton _, ?_⟩
  intro a ha hb
  simp only [List.mem_singleton] at hb
  obtain ⟨s, hs, rfl⟩ := List.mem_map.mp ha
  have := hf s hs
  omega

theorem Distinct_update {h : Heap} (hd : h.Distinct) (a : Nat) (o : Object) :
    (h.update a o).Distinct := by
  unfold Heap.Distinct at hd ⊢
  have : (h.update a o).data_.map Slot.addr = h.data_.map Slot.addr := by
    simp only [Heap.update, List.map_map]
    apply List.map_congr_left
    intro s _
    exact addr_update s a o
  rw [this]
  exact hd

theorem mem_dups {o : Object} {p : Ptr} : p ∈ o.dups ↔ p = o.own ∨ p ∈ o.vals := by
  simp [Object.dups]

theorem Ranked_Make {r : Nat → Nat} {h : Heap} (hr : Ranked r h) (hf : h.Fresh)
    (hb : ∀ a o y, h.obj? a = some o → some y ∈ o.dups → y < h.next) (o : Object)
    (ho : ∀ y, some y ∈ o.dups → y < h.next) : (h.Make o).1.SelfRefOnly := by
  refine ⟨fun x => if x = h.next then (Finset.range h.next).sum r + 1 else r x, ?_⟩
  intro a o1 y ho1 hy
  by_cases ha : a = h.next
  · subst ha
    rw [obj?_Make_new hf] at ho1
    cases ho1
    have hlt := ho y hy
    left
    have hne : y ≠ h.next := by omega
    simp only [if_neg hne, if_pos]
    exact rank_lt_sum r hlt
  · rw [obj?_Make_old h o ha] at ho1
    have hlt := hb a o1 y ho1 hy
    have hne : y ≠ h.next := by omega
    simp only [if_neg hne, if_neg ha]
    exact hr a o1 y ho1 hy

theorem Ranked_update {r : Nat → Nat} {h : Heap} {S : Nat → Prop} (hr : Ranked r h)
    (hS : ∀ a o y, h.obj? a = some o → some y ∈ o.dups → S y → S a) {a : Nat} (ha : S a)
    {o1 : Object}
    (ho1 : ∀ y, some y ∈ o1.dups →
      (¬ S y ∧ y < h.next) ∨ r y < r a ∨ (y = a ∧ o1.isCell = true)) :
    (h.update a o1).SelfRefOnly := by
  classical
  refine ⟨fun x => if S x then r x + ((Finset.range h.next).sum r + 1) else r x, ?_⟩
  intro x o y hx hy
  rw [obj?_update] at hx
  by_cases hxa : x = a
  · subst hxa
    rw [if_pos rfl] at hx
    cases hox : h.obj? x with
    | none => rw [hox] at hx; cases hx
    | some o0 =>
      rw [hox] at hx
      simp only [Option.map_some', Option.some.injEq] at hx
      subst hx
      rcases ho1 y hy with ⟨hns, hlt⟩ | hlt | hself
      · left
        simp only [if_neg hns, if_pos ha]
        have := rank_lt_sum r hlt
        omega
      · left
        simp only [if_pos ha]
        split <;> omega
      · right
        exact hself
  · rw [if_neg hxa] at hx
    rcases hr x o y hx hy with hlt | hself
    · left
      by_cases hsy : S y
      · have hsx := hS x o y hx hy hsy
        simp only [if_pos hsy, if_pos hsx]
        omega
      · simp only [if_neg hsy]
        split <;> omega
    · right
      exact hself

theorem Good_hidden_closed {P : Nat → Prop} {h : Heap} (hg : Good P h) :
    ∀ a o y, h.obj? a = some o → some y ∈ o.dups → P y → P a := by
  intro a o y ho hy hp
  rcases mem_dups.mp hy with he | hv
  · exact hg.ownClosed a o y ho he.symm hp
  · exact absurd hp (hg.noRef a o y ho hv)

theorem Good_val_of_field {P : Nat → Prop} {h : Heap} (hg : Good P h) {a : Nat} {o : Object}
    {v : Ptr} (ho : h.obj? a = some o) (hv : v ∈ o.vals) : Val P h v := by
  intro y hy
  subst hy
  exact ⟨hg.noRef a o y ho hv, hg.below a o y ho (mem_dups.mpr (Or.inr hv))⟩

theorem Val_null (P : Nat → Prop) (h : Heap) : Val P h none := by
  intro a ha
  cases ha

theorem Val_new {P : Nat → Prop} {h h1 : Heap} (hin : ∀ a, P a → a < h.next) {b : Nat}
    (hb : h.next ≤ b) (hb1 : b < h1.next) : Val P h1 (some b) := by
  intro a ha
  cases ha
  exact ⟨fun hp => by have := hin b hp; omega, hb1⟩

theorem Grows_same {P : Nat → Prop} {h : Heap} (hg : Good P h) : Grows P h P h :=
  ⟨hg, fun _ hp => hp, fun _ hp => Or.inl hp, le_refl _⟩

theorem Grows_step {P : Nat → Prop} {h h1 : Heap} (hg : Good P h1) (hn : h.next ≤ h1.next) :
    Grows P h P h1 :=
  ⟨hg, fun _ hp => hp, fun _ hp => Or.inl hp, hn⟩

theorem Grows_seq {P P1 P2 : Nat → Prop} {h h1 h2 : Heap} (g1 : Grows P h P1 h1)
    (g2 : Grows P1 h1 P2 h2) : Grows P h P2 h2 := by
  refine ⟨g2.1, fun a hp => g2.2.1 a (g1.2.1 a hp), fun a hp => ?_, le_trans g1.2.2.2 g2.2.2.2⟩
  rcases g2.2.2.1 a hp with h1p | hge
  · exact g1.2.2.1 a h1p
  · right
    have := g1.2.2.2
    omega

theorem Val_mono {P P1 : Nat → Prop} {h h1 : Heap} {v : Ptr} (hv : Val P h v)
    (g : Grows P h P1 h1) : Val P1 h1 v := by
  intro a ha
  obtain ⟨hnp, hlt⟩ := hv a ha
  refine ⟨fun hp => ?_, by have := g.2.2.2; omega⟩
  rcases g.2.2.1 a hp with h1p | hge
  · exact hnp h1p
  · omega

theorem Out_seq {P P1 : Nat → Prop} {h h1 h2 : Heap} {v : Ptr} (g1 : Grows P h P1 h1)
    (o2 : Out P1 h1 h2 v) : Out P h h2 v := by
  obtain ⟨P2, g2, hv⟩ := o2
  exact ⟨P2, Grows_seq g1 g2, hv⟩

theorem Outs_seq {P P1 : Nat → Prop} {h h1 h2 : Heap} {vs : List Ptr} (g1 : Grows P h P1 h1)
    (o2 : Outs P1 h1 h2 vs) : Outs P h h2 vs := by
  obtain ⟨P2, g2, hv⟩ := o2
  exact ⟨P2, Grows_seq g1 g2, hv⟩

/-- Allocating an object without own frame whose value pointers are storable. -/
theorem Good_Make {P : Nat → Prop} {h : Heap} (hg : Good P h) (o : Object)
    (hown : o.own = none) (hv : ∀ v ∈ o.vals, Val P h v)
    (hu : ∀ d u, o = .NameSpace d (some u) → P u) : Good P (h.Make o).1 := by
  have hnext : (h.Make o).1.next = h.next + 1 := rfl
  have hdup : ∀ y, some y ∈ o.dups → ¬ P y ∧ y < h.next := by
    intro y hy
    rcases mem_dups.mp hy with he | hm
    · rw [hown] at he
      cases he
    · exact hv _ hm y rfl
  obtain ⟨r, hr⟩ := hg.ranked
  refine ⟨Fresh_Make hg.fresh o, Distinct_Make hg.fresh hg.distinct o, ?_,
    Ranked_Make hr hg.fresh hg.below o (fun y hy => (hdup y hy).2), ?_, ?_, ?_, ?_, ?_⟩
  · intro a o1 y ho1 hy
    rw [hnext]
    by_cases ha : a = h.next
    · subst ha
      rw [obj?_Make_new hg.fresh] at ho1
      cases ho1
      have := (hdup y hy).2
      omega
    · rw [obj?_Make_old h o ha] at ho1
      have := hg.below a o1 y ho1 hy
      omega
  · intro a o1 y ho1 hy
    by_cases ha : a = h.next
    · subst ha
      rw [obj?_Make_new hg.fresh] at ho1
      cases ho1
      exact (hv _ hy y rfl).1
    · rw [obj?_Make_old h o ha] at ho1
      exact hg.noRef a o1 y ho1 hy
  · intro a o1 y ho1 hy hp
    by_cases ha : a = h.next
    · subst ha
      rw [obj?_Make_new hg.fresh] at ho1
      cases ho1
      rw [hown] at hy
      cases hy
    · rw [obj?_Make_old h o ha] at ho1
      exact hg.ownClosed a o1 y ho1 hy hp
  · intro a o1 y ho1 hy f s
    by_cases ha : a = h.next
    · subst ha
      rw [obj?_Make_new hg.fresh] at ho1
      cases ho1
      rw [hown] at hy
      cases hy
    · rw [obj?_Make_old h o ha] at ho1
      have hlt := hg.below a o1 y ho1 (mem_dups.mpr (Or.inl hy.symm))
      rw [obj?_Make_old h o (by omega)]
      exact hg.ownNotCell a o1 y ho1 hy f s
  · intro a d u ho1
    by_cases ha : a = h.next
    · subst ha
      rw [obj?_Make_new hg.fresh] at ho1
      cases ho1
      exact hu d u rfl
    · rw [obj?_Make_old h o ha] at ho1
      exact hg.upperIn a d u ho1
  · intro a hp
    have := hg.inHeap a hp
    omega

theorem Out_Make {P : Nat → Prop} {h : Heap} (hg : Good P h) (o : Object)
    (hown : o.own = none) (hv : ∀ v ∈ o.vals, Val P h v)
    (hu : ∀ d u, o = .NameSpace d (some u) → P u) :
    Out P h (h.Make o).1 (some h.next) :=
  ⟨P, Grows_step (Good_Make hg o hown hv hu) (Nat.le_succ _),
    Val_new hg.inHeap (le_refl _) (Nat.lt_succ_self _)⟩

/-- Overwriting the object at `a` by one of the same kind, given that the new heap still
has only self-references as cycles. -/
theorem Good_update {P : Nat → Prop} {h : Heap} (hg : Good P h) {a : Nat} {o o1 : Object}
    (ho : h.obj? a = some o) (hr : (h.update a o1).SelfRefOnly)
    (hv : ∀ v ∈ o1.vals, Val P h v)
    (hown : ∀ y, o1.own = some y →
      ¬ P y ∧ y < h.next ∧ y ≠ a ∧ ∀ f s, h.obj? y ≠ some (.Cell f s))
    (hkind : o1.isCell = true → o.isCell = true)
    (hu : ∀ d u, o1 = .NameSpace d (some u) → P u) : Good P (h.update a o1) := by
  have hnew : (h.update a o1).obj? a = some o1 := obj?_update_self o1 (by rw [ho]; rfl)
  have hold : ∀ x, x ≠ a → (h.update a o1).obj? x = h.obj? x :=
    fun x hx => obj?_update_other h o1 hx
  have hcases : ∀ x o2, (h.update a o1).obj? x = some o2 →
      (x = a ∧ o2 = o1) ∨ (x ≠ a ∧ h.obj? x = some o2) := by
    intro x o2 hx
    by_cases hxa : x = a
    · subst hxa
      rw [hnew] at hx
      cases hx
      exact Or.inl ⟨rfl, rfl⟩
    · rw [hold x hxa] at hx
      exact Or.inr ⟨hxa, hx⟩
  refine ⟨Fresh_update hg.fresh a o1, Distinct_update hg.distinct a o1, ?_, hr, ?_, ?_, ?_, ?_,
    hg.inHeap⟩
  · intro x o2 y hx hy
    show y < h.next
    rcases hcases x o2 hx with ⟨rfl, rfl⟩ | ⟨_, hx0⟩
    · rcases mem_dups.mp hy with he | hm
      · exact (hown y he.symm).2.1
      · exact (hv _ hm y rfl).2
    · exact hg.below x o2 y hx0 hy
  · intro x o2 y hx hy
    rcases hcases x o2 hx with ⟨rfl, rfl⟩ | ⟨_, hx0⟩
    · exact (hv _ hy y rfl).1
    · exact hg.noRef x o2 y hx0 hy
  · intro x o2 y hx hy hp
    rcases hcases x o2 hx with ⟨rfl, rfl⟩ | ⟨_, hx0⟩
    · exact absurd hp (hown y hy).1
    · exact hg.ownClosed x o2 y hx0 hy hp
  · intro x o2 y hx hy f s hc
    rcases hcases y _ hc with ⟨rfl, e⟩ | ⟨_, hy0⟩
    · have hcell : o.isCell = true := hkind (by rw [← e]; rfl)
      rcases hcases x o2 hx with ⟨rfl, rfl⟩ | ⟨_, hx0⟩
      · exact (hown _ hy).2.2.1 rfl
      · cases o with
        | Cell f0 s0 => exact hg.ownNotCell x o2 _ hx0 hy f0 s0 ho
        | _ => cases hcell
    · rcases hcases x o2 hx with ⟨rfl, rfl⟩ | ⟨_, hx0⟩
      · exact (hown y hy).2.2.2 f s hy0
      · exact hg.ownNotCell x o2 y hx0 hy f s hy0
  · intro x d u hx
    rcases hcases x _ hx with ⟨rfl, e⟩ | ⟨_, hx0⟩
    · exact hu d u e.symm
    · exact hg.upperIn x d u hx0

theorem mem_mapSet {d : List (String × Ptr)} {name : String} {v p : Ptr}
    (hp : p ∈ (mapSet d name v).map Prod.snd) : p = v ∨ p ∈ d.map Prod.snd := by
  induction d with
  | nil =>
    simp only [mapSet, List.map_cons, List.map_nil, List.mem_singleton] at hp
    exact Or.inl hp
  | cons kv d ih =>
    obtain ⟨k, w⟩ := kv
    simp only [mapSet] at hp
    split at hp
    · simp only [List.map_cons, List.mem_cons] at hp ⊢
      rcases hp with hp | hp
      · exact Or.inl hp
      · exact Or.inr (Or.inr hp)
    · simp only [List.map_cons, List.mem_cons] at hp ⊢
      rcases hp with hp | hp
      · exact Or.inr (Or.inl hp)
      · rcases ih hp with e | e
        · exact Or.inl e
        · exact Or.inr (Or.inr e)

/-- Binding a storable value in a hidden frame. -/
theorem Good_Set {P : Nat → Prop} {h h1 : Heap} (hg : Good P h) {a : Nat} {name : String}
    {v : Ptr} (ha : P a) (hv : Val P h v) (hset : NameSpace.Set h (some a) name v = .ok h1) :
    Good P h1 := by
  obtain ⟨d, u, ho, rfl⟩ := NameSpace.Set_eq hset
  obtain ⟨r, hr⟩ := hg.ranked
  have hvals : ∀ p ∈ (Object.NameSpace (mapSet d name v) u).vals, Val P h p := by
    intro p hp
    rcases mem_mapSet hp with e | e
    · rw [e]; exact hv
    · exact Good_val_of_field hg (o := .NameSpace d u) ho e
  refine Good_update hg ho ?_ hvals (fun y hy => by cases hy) (fun hc => by cases hc) ?_
  · refine Ranked_update (S := P) hr (Good_hidden_closed hg) ha ?_
    intro y hy
    rcases mem_dups.mp hy with he | hm
    · cases he
    · exact Or.inl (hvals _ hm y rfl)
  · intro d1 u1 e
    cases e
    exact hg.upperIn a d u1 ho

theorem AddrInc_hidden_closed {N : Nat} {h : Heap} (hi : AddrInc N h) :
    ∀ a o y, h.obj? a = some o → some y ∈ o.dups → y < N → a < N := by
  intro a o y ho hy hlt
  by_contra hcon
  rcases hi a o y ho (by omega) hy with h1 | ⟨h1, _⟩ <;> omega

theorem AddrInc_ext {N : Nat} {h h1 : Heap} (hi : AddrInc N h) (e : Ext h h1)
    (hi1 : AddrInc h.next h1) : AddrInc N h1 := by
  intro a o y ho ha hy
  by_cases hlt : a < h.next
  · rw [e.2.2 a hlt] at ho
    exact hi a o y ho ha hy
  · exact hi1 a o y ho (by omega) hy

theorem AddrInc_update_below {N : Nat} {h : Heap} (hi : AddrInc N h) {a : Nat} (ha : a < N)
    (o : Object) : AddrInc N (h.update a o) := by
  intro x o1 y hx hxn hy
  rw [obj?_update_other h o (by omega)] at hx
  exact hi x o1 y hx hxn hy

theorem AddrInc_mono {N M : Nat} {h : Heap} (hi : AddrInc N h) (hm : N ≤ M) : AddrInc M h :=
  fun a o y ho ha hy => hi a o y ho (by omega) hy

theorem AddrInc_of_fresh {h : Heap} (hf : h.Fresh) : AddrInc h.next h := by
  intro a o y ho ha _
  have := obj?_lt_next hf ho
  omega

end Scheme
namespace Scheme

/-! ## `Copy` keeps the invariant -/

set_option maxRecDepth 100000

theorem AddrInc_Make {h : Heap} (hf : h.Fresh) (o : Object) (ho : ∀ y, some y ∉ o.dups) :
    AddrInc h.next (h.Make o).1 := by
  intro a o1 y ho1 ha hy
  have hlt := obj?_lt_next (Fresh_Make hf o) ho1
  have ha1 : a = h.next := by
    have : (h.Make o).1.next = h.next + 1 := rfl
    omega
  subst ha1
  rw [obj?_Make_new hf] at ho1
  cases ho1
  exact absurd hy (ho y)

/-- Overwriting the object a duplication started with: its new pointers are itself (for a
pair) or objects made later. -/
theorem Good_update_root {P : Nat → Prop} {h : Heap} {N : Nat} {o o1 : Object}
    (hg : Good P h) (hin : ∀ a, P a → a < N) (ho : h.obj? N = some o)
    (hi : AddrInc (N + 1) h) (hk : o1.isCell = true → o.isCell = true)
    (hd : ∀ y, some y ∈ o1.dups → (y = N ∧ o1.isCell = true) ∨ (N + 1 ≤ y ∧ y < h.next))
    (hown : ∀ y, o1.own = some y → o1.isCell = false ∧ ∀ f s, h.obj? y ≠ some (.Cell f s))
    (hu : ∀ d u, o1 = .NameSpace d (some u) → P u) :
    Good P (h.update N o1) ∧ AddrInc N (h.update N o1) := by
  have hN : N < h.next := obj?_lt_next hg.fresh ho
  obtain ⟨r, hr⟩ := hg.ranked
  constructor
  · refine Good_update hg ho ?_ ?_ ?_ hk hu
    · refine Ranked_update (S := fun x => x < N + 1) hr (AddrInc_hidden_closed hi)
        (Nat.lt_succ_self N) ?_
      intro y hy
      rcases hd y hy with hs | ⟨h1, h2⟩
      · exact Or.inr (Or.inr hs)
      · exact Or.inl ⟨by omega, h2⟩
    · intro v hv y hy
      subst hy
      rcases hd y (mem_dups.mpr (Or.inr hv)) with ⟨h1, _⟩ | ⟨h1, h2⟩
      · subst h1
        exact ⟨fun hp => by have := hin _ hp; omega, hN⟩
      · exact ⟨fun hp => by have := hin _ hp; omega, h2⟩
    · intro y hy
      obtain ⟨hnc, hcell⟩ := hown y hy
      rcases hd y (mem_dups.mpr (Or.inl hy.symm)) with ⟨_, h2⟩ | ⟨h1, h2⟩
      · rw [hnc] at h2
        cases h2
      · exact ⟨fun hp => by have := hin _ hp; omega, h2, by omega, hcell⟩
  · intro x o2 y hx hxn hy
    by_cases hxe : x = N
    · subst hxe
      rw [obj?_update_self o1 (by rw [ho]; rfl)] at hx
      cases hx
      rcases hd y hy with hs | ⟨h1, _⟩
      · exact Or.inr hs
      · exact Or.inl (by omega)
    · rw [obj?_update_other h o1 hxe] at hx
      exact hi x o2 y hx (by omega) hy

theorem CopyVector_good {copy : CopyFn} (hc : CopyGood copy) {P : Nat → Prop} :
    ∀ (ps : List Ptr) (h h1 : Heap) (qs : List Ptr), Good P h →
      CopyVector copy h ps = .ok (h1, qs) →
      Good P h1 ∧ Ext h h1 ∧ AddrInc h.next h1 ∧
        ∀ b, some b ∈ qs → h.next ≤ b ∧ b < h1.next := by
  intro ps
  induction ps with
  | nil =>
    intro h h1 qs hg hcv
    simp only [CopyVector, Except.ok.injEq, Prod.mk.injEq] at hcv
    obtain ⟨rfl, rfl⟩ := hcv
    exact ⟨hg, Ext.self hg.fresh, AddrInc_of_fresh hg.fresh, (fun b hb => by cases hb)⟩
  | cons p ps ih =>
    intro h h1 qs hg hcv
    simp only [CopyVector] at hcv
    split at hcv
    · rename_i h2 q e1
      split at hcv
      · rename_i h3 qs1 e2
        simp only [Except.ok.injEq, Prod.mk.injEq] at hcv
        obtain ⟨rfl, rfl⟩ := hcv
        obtain ⟨g2, x2, i2, r2, _⟩ := hc P h p h2 q hg e1
        obtain ⟨g3, x3, i3, r3⟩ := ih h2 h3 qs1 g2 e2
        refine ⟨g3, x2.andThen x3, AddrInc_ext i2 x3 i3, ?_⟩
        intro b hb
        rcases List.mem_cons.mp hb with e | hm
        · obtain ⟨hb1, hb2⟩ := r2 b e.symm
          have := x3.1
          omega
        · obtain ⟨hb1, hb2⟩ := r3 b hm
          have := x2.1
          omega
      · cases hcv
    · cases hcv

theorem copyBindings_good {copy : CopyFn} (hc : CopyGood copy) {P : Nat → Prop} (h0 : Heap)
    (res : Nat) (u : Ptr) (hres : h0.next ≤ res) (hin : ∀ a, P a → a < res) :
    ∀ (data : List (String × Ptr)) (h h1 : Heap) (acc : List (String × Ptr)), Good P h →
      Ext h0 h → AddrInc (res + 1) h → h.obj? res = some (.NameSpace acc u) →
      (∀ y, some y ∈ acc.map Prod.snd → res + 1 ≤ y) →
      copyBindings copy res h data = .ok h1 →
      Good P h1 ∧ Ext h0 h1 ∧ AddrInc res h1 ∧ ∃ acc1, h1.obj? res = some (.NameSpace acc1 u) := by
  intro data
  induction data with
  | nil =>
    intro h h1 acc hg hx hi ho hacc hcb
    simp only [copyBindings, Except.ok.injEq] at hcb
    subst hcb
    refine ⟨hg, hx, ?_, acc, ho⟩
    intro x o y hxo hxn hy
    by_cases hxe : x = res
    · subst hxe
      rw [ho] at hxo
      cases hxo
      rcases mem_dups.mp hy with he | hm
      · cases he
      · exact Or.inl (by have := hacc y hm; omega)
    · exact hi x o y hxo (by omega) hy
  | cons kv data ih =>
    intro h h1 acc hg hx hi ho hacc hcb
    obtain ⟨key, value_⟩ := kv
    cases value_ with
    | none => simp [copyBindings] at hcb
    | some v =>
      simp only [copyBindings] at hcb
      split at hcb
      · rename_i h2 q e1
        split at hcb
        · rename_i h3 e2
          obtain ⟨g2, x2, i2, r2, _⟩ := hc P h (some v) h2 q hg e1
          have hlt : res < h.next := obj?_lt_next hg.fresh ho
          have ho2 : h2.obj? res = some (.NameSpace acc u) := (x2.2.2 res hlt).trans ho
          obtain ⟨d, up, ho3, rfl⟩ := NameSpace.Set_eq e2
          rw [ho2] at ho3
          cases ho3
          have hi2 : AddrInc (res + 1) h2 := AddrInc_ext hi x2 i2
          have hacc2 : ∀ y, some y ∈ (mapSet acc key q).map Prod.snd → res + 1 ≤ y := by
            intro y hy
            rcases mem_mapSet hy with e | e
            · obtain ⟨hb1, _⟩ := r2 y e.symm
              omega
            · exact hacc y e
          obtain ⟨g3, i3⟩ := @Good_update_root _ _ _ _ (.NameSpace (mapSet acc key q) u) g2 hin ho2
            hi2 (fun hcell => by cases hcell)
            (by
              intro y hy
              rcases mem_dups.mp hy with he | hm
              · cases he
              · right
                refine ⟨hacc2 y hm, ?_⟩
                rcases mem_mapSet hm with e | e
                · exact (r2 y e.symm).2
                · exact g2.below res _ y ho2 (mem_dups.mpr (Or.inr e)))
            (fun y hy => by cases hy)
            (by
              intro d1 u1 e
              cases e
              exact g2.upperIn res acc u1 ho2)
          exact ih _ h1 (mapSet acc key q) g3 ((hx.andThen x2).write hres _)
            (AddrInc_update_below hi2 (Nat.lt_succ_self res) _)
            (obj?_update_self _ (by rw [ho2]; rfl)) hacc2 hcb
        · cases hcb
      · cases hcb

theorem Copy_field_good {fuel : Nat} (ih : CopyGood (Copy fuel)) {P : Nat → Prop}
    {h h1 : Heap} {N a : Nat} {fld q : Ptr} (hg : Good P h) (hN : N < h.next)
    (e : (if fld = some a then (Except.ok (h, some N) : Except Err (Heap × Ptr))
      else Copy fuel h fld) = .ok (h1, q)) :
    Good P h1 ∧ Ext h h1 ∧ AddrInc h.next h1 ∧
      ∀ b, q = some b → (b = N ∨ h.next ≤ b) ∧ b < h1.next := by
  split at e
  · simp only [Except.ok.injEq, Prod.mk.injEq] at e
    obtain ⟨rfl, rfl⟩ := e
    refine ⟨hg, Ext.self hg.fresh, AddrInc_of_fresh hg.fresh, ?_⟩
    intro b hb
    cases hb
    exact ⟨Or.inl rfl, hN⟩
  · obtain ⟨g, x, i, r, _⟩ := ih P h fld h1 q hg e
    refine ⟨g, x, i, ?_⟩
    intro b hb
    obtain ⟨hb1, hb2⟩ := r b hb
    exact ⟨Or.inr (by omega), hb2⟩

theorem Copy_good : ∀ fuel : Nat, CopyGood (Copy fuel) := by
  intro fuel
  induction fuel with
  | zero =>
    intro P h p h1 q hg hc
    cases p with
    | none =>
      simp only [Copy, Except.ok.injEq, Prod.mk.injEq] at hc
      obtain ⟨rfl, rfl⟩ := hc
      exact ⟨hg, Ext.self hg.fresh, AddrInc_of_fresh hg.fresh, (fun b hb => by cases hb),
        (fun a b f s hp => by cases hp)⟩
    | some a => simp [Copy] at hc
  | succ k ih =>
    intro P h p h1 q hg hc
    cases p with
    | none =>
      simp only [Copy, Except.ok.injEq, Prod.mk.injEq] at hc
      obtain ⟨rfl, rfl⟩ := hc
      exact ⟨hg, Ext.self hg.fresh, AddrInc_of_fresh hg.fresh, (fun b hb => by cases hb),
        (fun a b f s hp => by cases hp)⟩
    | some a =>
      have leaf : ∀ o : Object, o.own = none → o.vals = [] → (∀ d u, o ≠ .NameSpace d u) →
          (∀ f s, o ≠ .Cell f s) →
          (Except.ok ((h.Make o).1, some (h.Make o).2) : Except Err (Heap × Ptr)) =
            .ok (h1, q) →
          Good P h1 ∧ Ext h h1 ∧ AddrInc h.next h1 ∧
            (∀ b, q = some b → b = h.next ∧ b < h1.next) ∧
            (∀ a1 b f s, some a = some a1 → q = some b → h1.obj? b = some (.Cell f s) →
              ∃ f0 s0, h.obj? a1 = some (.Cell f0 s0)) := by
        intro o hown hvals hns hnc e
        simp only [Except.ok.injEq, Prod.mk.injEq, Make_snd] at e
        obtain ⟨rfl, rfl⟩ := e
        refine ⟨Good_Make hg o hown (by rw [hvals]; intro v hv; cases hv)
            (fun d u e => absurd e (hns d (some u))),
          Ext.alloc hg.fresh o, AddrInc_Make hg.fresh o ?_, ?_, ?_⟩
        · intro y hy
          rcases mem_dups.mp hy with he | hm
          · rw [hown] at he
            cases he
          · rw [hvals] at hm
            cases hm
        · intro b hb
          cases hb
          exact ⟨rfl, Nat.lt_succ_self _⟩
        · intro a1 b f s _ hb ho
          cases hb
          rw [obj?_Make_new hg.fresh] at ho
          cases ho
          exact absurd rfl (hnc f s)
      rw [Copy] at hc
      split at hc
      · cases hc
      · rename_i value_ hoa
        exact leaf (.Number value_) rfl rfl (fun d u e => by cases e) (fun f s e => by cases e) hc
      · rename_i value_ hoa
        exact leaf (.Boolean value_) rfl rfl (fun d u e => by cases e) (fun f s e => by cases e)
          hc
      · rename_i name_ hoa
        exact leaf (.Symbol name_) rfl rfl (fun d u e => by cases e) (fun f s e => by cases e) hc
      · rename_i kind hoa
        exact leaf (.Functor kind) rfl rfl (fun d u e => by cases e) (fun f s e => by cases e) hc
      · rename_i first_ second_ hoa
        simp only [Make_snd] at hc
        have g0 : Good P (h.Make (.Cell none none)).1 :=
          Good_Make hg _ rfl
            (by
              intro v hv
              simp only [Object.vals, List.mem_cons, List.mem_singleton, List.not_mem_nil,
                or_false, or_self] at hv
              subst hv
              exact Val_null _ _)
            (fun d u e => by cases e)
        have x0 : Ext h (h.Make (.Cell none none)).1 := Ext.alloc hg.fresh _
        have n0 : (h.Make (.Cell none none)).1.next = h.next + 1 := rfl
        split at hc
        · cases hc
        · rename_i hA f e1
          obtain ⟨gA, xA, iA, rA⟩ := Copy_field_good ih g0 (by rw [n0]; omega) e1
          rw [n0] at iA rA
          have oA : hA.obj? h.next = some (.Cell none none) :=
            (xA.2.2 h.next (by rw [n0]; omega)).trans (obj?_Make_new hg.fresh _)
          obtain ⟨gA1, iA1⟩ := @Good_update_root _ _ _ _ (.Cell f none) gA hg.inHeap oA iA
            (fun _ => rfl)
            (by
              intro y hy
              rcases mem_dups.mp hy with he | hm
              · cases he
              · simp only [Object.vals, List.mem_cons, List.mem_singleton, List.not_mem_nil,
                  or_false] at hm
                rcases hm with hy | hy
                · obtain ⟨h1, h2⟩ := rA y hy.symm
                  rcases h1 with h1 | h1
                  · exact Or.inl ⟨h1, rfl⟩
                  · exact Or.inr ⟨h1, h2⟩
                · cases hy)
            (fun y hy => by cases hy) (fun d u e => by cases e)
          have nA : (hA.update h.next (.Cell f none)).next = hA.next := rfl
          have xA1 : Ext h (hA.update h.next (.Cell f none)) :=
            (x0.andThen xA).write (le_refl _) _
          split at hc
          · cases hc
          · rename_i hB s e2
            have hNA : h.next < hA.next := by
              have := xA.1
              omega
            obtain ⟨gB, xB, iB, rB⟩ := Copy_field_good ih gA1 (by rw [nA]; exact hNA) e2
            rw [nA] at iB rB
            have oB : hB.obj? h.next = some (.Cell f none) :=
              (xB.2.2 h.next (by rw [nA]; exact hNA)).trans
                (obj?_update_self _ (by rw [oA]; rfl))
            have iB1 : AddrInc (h.next + 1) hB :=
              AddrInc_ext (AddrInc_update_below iA (Nat.lt_succ_self _) _) xB iB
            simp only [Except.ok.injEq, Prod.mk.injEq] at hc
            obtain ⟨rfl, rfl⟩ := hc
            have hAB : hA.next ≤ hB.next := xB.1
            obtain ⟨gC, iC⟩ := @Good_update_root _ _ _ _ (.Cell f s) gB hg.inHeap oB iB1
              (fun _ => rfl)
              (by
                intro y hy
                rcases mem_dups.mp hy with he | hm
                · cases he
                · simp only [Object.vals, List.mem_cons, List.mem_singleton, List.not_mem_nil,
                    or_false] at hm
                  rcases hm with hy | hy
                  · obtain ⟨h1, h2⟩ := rA y hy.symm
                    rcases h1 with h1 | h1
                    · exact Or.inl ⟨h1, rfl⟩
                    · exact Or.inr ⟨h1, by omega⟩
                  · obtain ⟨h1, h2⟩ := rB y hy.symm
                    rcases h1 with h1 | h1
                    · exact Or.inl ⟨h1, rfl⟩
                    · exact Or.inr ⟨by omega, h2⟩)
              (fun y hy => by cases hy) (fun d u e => by cases e)
            refine ⟨gC, (xA1.andThen xB).write (le_refl _) _, iC, ?_, ?_⟩
            · intro b hb
              cases hb
              exact ⟨rfl, by show h.next < hB.next; omega⟩
            · intro a1 b f1 s1 hp _ _
              cases hp
              exact ⟨first_, second_, hoa⟩
      · rename_i data_ upper_ hoa
        simp only [Make_snd] at hc
        have g0 : Good P (h.Make (.NameSpace [] upper_)).1 :=
          Good_Make hg _ rfl (by intro v hv; cases hv)
            (by
              intro d u e
              cases e
              exact hg.upperIn a data_ u hoa)
        split at hc
        · cases hc
        · rename_i hA e1
          simp only [Except.ok.injEq, Prod.mk.injEq] at hc
          obtain ⟨rfl, rfl⟩ := hc
          obtain ⟨gA, xA, iA, acc1, oA⟩ := copyBindings_good ih h h.next upper_ (le_refl _)
            hg.inHeap data_ _ hA [] g0 (Ext.alloc hg.fresh _) (AddrInc_of_fresh g0.fresh)
            (obj?_Make_new hg.fresh _) (fun y hy => by cases hy) e1
          refine ⟨gA, xA, iA, ?_, ?_⟩
          · intro b hb
            cases hb
            exact ⟨rfl, obj?_lt_next gA.fresh oA⟩
          · intro a1 b f s _ hb ho
            cases hb
            rw [oA] at ho
            cases ho
      · rename_i arg_names_ body_ scope_ hoa
        simp only [Make_snd] at hc
        have g0 : Good P (h.Make (.Lambda [] [] none)).1 :=
          Good_Make hg _ rfl (by intro v hv; cases hv) (fun d u e => by cases e)
        have x0 : Ext h (h.Make (.Lambda [] [] none)).1 := Ext.alloc hg.fresh _
        have n0 : (h.Make (.Lambda [] [] none)).1.next = h.next + 1 := rfl
        split at hc
        · cases hc
        · rename_i hA names1 e1
          obtain ⟨gA, xA, iA, rA⟩ := CopyVector_good ih arg_names_ _ hA names1 g0 e1
          rw [n0] at iA rA
          split at hc
          · cases hc
          · rename_i hB body1 e2
            obtain ⟨gB, xB, iB, rB⟩ := CopyVector_good ih body_ hA hB body1 gA e2
            split at hc
            · cases hc
            · rename_i sc
              split at hc
              · cases hc
              · rename_i hC sc1 e3
                obtain ⟨gC, xC, iC, rC, kC⟩ := ih P hB (some sc) hC sc1 gB e3
                simp only [Except.ok.injEq, Prod.mk.injEq] at hc
                obtain ⟨rfl, rfl⟩ := hc
                have hA1 : h.next + 1 ≤ hA.next := by
                  have := xA.1
                  omega
                have hAB : hA.next ≤ hB.next := xB.1
                have hBC : hB.next ≤ hC.next := xC.1
                have oC : hC.obj? h.next = some (.Lambda [] [] none) :=
                  (((xA.andThen xB).andThen xC).2.2 h.next (by rw [n0]; omega)).trans
                    (obj?_Make_new hg.fresh _)
                have iC1 : AddrInc (h.next + 1) hC :=
                  AddrInc_ext (AddrInc_ext iA xB iB) xC iC
                obtain ⟨gD, iD⟩ := @Good_update_root _ _ _ _ (.Lambda names1 body1 sc1) gC
                  hg.inHeap oC iC1 (fun hcell => by cases hcell)
                  (by
                    intro y hy
                    right
                    rcases mem_dups.mp hy with he | hm
                    · obtain ⟨h1, h2⟩ := rC y he.symm
                      omega
                    · rcases List.mem_append.mp hm with hm | hm
                      · obtain ⟨h1, h2⟩ := rA y hm
                        omega
                      · obtain ⟨h1, h2⟩ := rB y hm
                        omega)
                  (by
                    intro y hy
                    refine ⟨rfl, ?_⟩
                    intro f s hcell
                    obtain ⟨f0, s0, hsc⟩ := kC sc y f s rfl hy hcell
                    have hlt : sc < h.next :=
                      hg.below a _ sc hoa (mem_dups.mpr (Or.inl rfl))
                    rw [((x0.andThen xA).andThen xB).2.2 sc hlt] at hsc
                    exact hg.ownNotCell a _ sc hoa rfl f0 s0 hsc)
                  (fun d u e => by cases e)
                refine ⟨gD, (((x0.andThen xA).andThen xB).andThen xC).write (le_refl _) _, iD,
                  ?_, ?_⟩
                · intro b hb
                  cases hb
                  exact ⟨rfl, by show h.next < hC.next; omega⟩
                · intro a1 b f s _ hb ho
                  cases hb
                  rw [obj?_update_self _ (by rw [oC]; rfl)] at ho
                  cases ho

end Scheme
namespace Scheme

/-! ## The builtins keep the invariant -/

set_option maxRecDepth 100000

theorem ToVector_val {P : Nat → Prop} {h : Heap} (hg : Good P h) :
    ∀ (fuel : Nat) (obj : Ptr) (vec : List Ptr), ToVector fuel h obj = .ok vec →
      ∀ x ∈ vec, Val P h x := by
  intro fuel
  induction fuel with
  | zero =>
    intro obj vec hv
    simp [ToVector] at hv
  | succ k ih =>
    intro obj vec hv
    cases obj with
    | none =>
      simp only [ToVector, Except.ok.injEq] at hv
      subst hv
      intro x hx
      cases hx
    | some a =>
      simp only [ToVector] at hv
      split at hv
      · rename_i first_ second_ ho
        split at hv
        · rename_i rest e
          simp only [Except.ok.injEq] at hv
          subst hv
          intro x hx
          rcases List.mem_cons.mp hx with rfl | hx
          · exact Good_val_of_field hg ho (by simp [Object.vals])
          · exact ih second_ rest e x hx
        · cases hv
      · cases hv

theorem Out_of_val {P : Nat → Prop} {h : Heap} (hg : Good P h) {v : Ptr} (hv : Val P h v) :
    Out P h h v :=
  ⟨P, Grows_same hg, hv⟩

theorem Out_pair {P : Nat → Prop} {h h1 : Heap} {v : Ptr} {x : Heap × Ptr}
    (hx : x = (h1, v)) (o : Out P h x.1 x.2) : Out P h h1 v := by
  subst hx
  exact o

theorem Out_drop {P : Nat → Prop} {h h1 : Heap} {v : Ptr} (o : Out P h h1 v) :
    Out P h h1 none := by
  obtain ⟨P1, g1, _⟩ := o
  exact ⟨P1, g1, Val_null P1 h1⟩

theorem Out_atom {P : Nat → Prop} {h : Heap} (hg : Good P h) (o : Object)
    (hown : o.own = none) (hvals : o.vals = []) (hns : ∀ d u, o ≠ .NameSpace d u) :
    Out P h (h.Make o).1 (some (h.Make o).2) :=
  Out_Make hg o hown (by intro v hv; rw [hvals] at hv; cases hv)
    (by intro d u e; exact absurd e (hns d (some u)))

theorem Out_Boolean {P : Nat → Prop} {h : Heap} (hg : Good P h) (b : Bool) :
    Out P h (h.Make (.Boolean b)).1 (some (h.Make (.Boolean b)).2) :=
  Out_atom hg _ rfl rfl (by intro d u e; cases e)

theorem Out_Condition {P : Nat → Prop} {h : Heap} (hg : Good P h) (b : Bool) :
    Out P h (Condition h b).1 (Condition h b).2 := by
  cases b
  · exact Out_Boolean hg false
  · exact Out_Boolean hg true

theorem Out_MakeNumber {P : Nat → Prop} {h : Heap} (hg : Good P h) (n : Int) :
    Out P h (MakeNumber h n).1 (MakeNumber h n).2 :=
  Out_atom hg _ rfl rfl (by intro d u e; cases e)

theorem Out_then {P : Nat → Prop} {h h1 h2 : Heap} {v w : Ptr} (o1 : Out P h h1 v)
    (o2 : ∀ P1, Good P1 h1 → Out P1 h1 h2 w) : Out P h h2 w := by
  obtain ⟨P1, g1, _⟩ := o1
  exact Out_seq g1 (o2 P1 g1.1)

theorem CalcVector_good {eval : CalcFn} (he : EvalGood eval) {scope : Ptr} :
    ∀ (xs : List Ptr) (P : Nat → Prop) (h h1 : Heap) (vs : List Ptr), Good P h →
      (∀ x ∈ xs, Val P h x) → (∀ a, scope = some a → P a) →
      CalcVector eval h xs scope = .ok (h1, vs) → Outs P h h1 vs := by
  intro xs
  induction xs with
  | nil =>
    intro P h h1 vs hg _ _ hcv
    simp only [CalcVector, Except.ok.injEq, Prod.mk.injEq] at hcv
    obtain ⟨rfl, rfl⟩ := hcv
    exact ⟨P, Grows_same hg, by intro v hv; cases hv⟩
  | cons x xs ih =>
    intro P h h1 vs hg hxs hsc hcv
    simp only [CalcVector] at hcv
    split at hcv
    · rename_i h2 v e1
      split at hcv
      · rename_i h3 vs1 e2
        simp only [Except.ok.injEq, Prod.mk.injEq] at hcv
        obtain ⟨rfl, rfl⟩ := hcv
        obtain ⟨P1, g1, hv1⟩ :=
          he P h x scope h2 v hg (hxs x (List.mem_cons_self _ _)) hsc e1
        obtain ⟨P2, g2, hvs⟩ := ih P1 h2 h3 vs1 g1.1
          (fun y hy => Val_mono (hxs y (List.mem_cons_of_mem _ hy)) g1)
          (fun a ha => g1.2.1 a (hsc a ha)) e2
        refine ⟨P2, Grows_seq g1 g2, ?_⟩
        intro w hw
        rcases List.mem_cons.mp hw with rfl | hw
        · exact Val_mono hv1 g2
        · exact hvs w hw
      · cases hcv
    · cases hcv

/-- The operands of a form are read off the form and evaluated in order. -/
theorem operands_good {eval : CalcFn} (he : EvalGood eval) {P : Nat → Prop} {fuel : Nat}
    {h h1 : Heap} {obj scope : Ptr} {vec vals : List Ptr} (hg : Good P h)
    (hsc : ∀ a, scope = some a → P a) (hvec : ToVector fuel h obj = .ok vec)
    (hcv : CalcVector eval h vec scope = .ok (h1, vals)) : Outs P h h1 vals :=
  CalcVector_good he vec P h h1 vals hg (ToVector_val hg fuel obj vec hvec) hsc hcv

theorem fromBack_good {P : Nat → Prop} :
    ∀ (xs : List Ptr) (h : Heap) (right : Ptr), Good P h → (∀ x ∈ xs, Val P h x) →
      Val P h right → Out P h (fromBack h xs right).1 (fromBack h xs right).2 := by
  intro xs
  induction xs with
  | nil =>
    intro h right hg _ hr
    exact Out_of_val hg hr
  | cons x xs ih =>
    intro h right hg hxs hr
    have hg1 : Good P (h.Make (.Cell x right)).1 := by
      refine Good_Make hg _ rfl ?_ (by intro d u e; cases e)
      intro v hv
      simp only [Object.vals, List.mem_cons, List.mem_singleton, List.not_mem_nil,
        or_false] at hv
      rcases hv with rfl | rfl
      · exact hxs _ (List.mem_cons_self _ _)
      · exact hr
    have g1 : Grows P h P (h.Make (.Cell x right)).1 := Grows_step hg1 (Nat.le_succ _)
    have o2 := ih (h.Make (.Cell x right)).1 (some (h.Make (.Cell x right)).2) hg1
      (fun y hy => Val_mono (hxs y (List.mem_cons_of_mem _ hy)) g1)
      (Val_new hg.inHeap (le_refl _) (Nat.lt_succ_self _))
    exact Out_seq g1 o2

theorem Quote_good {P : Nat → Prop} {fuel : Nat} {h h1 : Heap} {obj v : Ptr}
    (hg : Good P h) (hres : Quote.call fuel h obj = .ok (h1, v)) : Out P h h1 v := by
  unfold Quote.call at hres
  obtain ⟨vec, hvec, hres⟩ := bind_ok hres
  obtain ⟨_, _, hres⟩ := bind_ok hres
  split at hres
  · rename_i x
    simp only [pure, Except.pure, Except.ok.injEq, Prod.mk.injEq] at hres
    obtain ⟨rfl, rfl⟩ := hres
    exact Out_of_val hg (ToVector_val hg fuel obj _ hvec _ (List.mem_singleton.mpr rfl))
  · cases hres

theorem predicate_good {eval : CalcFn} (he : EvalGood eval) {P : Nat → Prop}
    {test : Heap → Ptr → Bool} {fuel : Nat} {h h1 : Heap} {obj scope v : Ptr}
    (hg : Good P h) (hsc : ∀ a, scope = some a → P a)
    (hres : predicateCall test eval fuel h obj scope = .ok (h1, v)) : Out P h h1 v := by
  unfold predicateCall at hres
  obtain ⟨vec, hvec, hres⟩ := bind_ok hres
  obtain ⟨_, _, hres⟩ := bind_ok hres
  obtain ⟨⟨h2, vals⟩, hcv, hres⟩ := bind_ok hres
  obtain ⟨P1, g1, _⟩ := operands_good he hg hsc hvec hcv
  simp only at hres
  split at hres
  · simp only [pure, Except.pure, Except.ok.injEq] at hres
    exact Out_seq g1 (Out_pair hres (Out_Condition g1.1 _))
  · cases hres

theorem Cons_good {eval : CalcFn} (he : EvalGood eval) {P : Nat → Prop}
    {fuel : Nat} {h h1 : Heap} {obj scope v : Ptr}
    (hg : Good P h) (hsc : ∀ a, scope = some a → P a)
    (hres : Cons.call eval fuel h obj scope = .ok (h1, v)) : Out P h h1 v := by
  unfold Cons.call at hres
  obtain ⟨vec, hvec, hres⟩ := bind_ok hres
  obtain ⟨_, _, hres⟩ := bind_ok hres
  obtain ⟨⟨h2, vals⟩, hcv, hres⟩ := bind_ok hres
  obtain ⟨P1, g1, hvals⟩ := operands_good he hg hsc hvec hcv
  simp only at hres
  split at hres
  · rename_i x y
    simp only [pure, Except.pure, Except.ok.injEq] at hres
    refine Out_seq g1 (Out_pair hres (Out_Make g1.1 _ rfl ?_ (by intro d u e; cases e)))
    intro w hw
    simp only [Object.vals, List.mem_cons, List.mem_singleton, List.not_mem_nil,
      or_false] at hw
    rcases hw with rfl | rfl
    · exact hvals _ (List.mem_cons_self _ _)
    · exact hvals _ (List.mem_cons_of_mem _ (List.mem_cons_self _ _))
  · cases hres

theorem IsList_good {eval : CalcFn} (he : EvalGood eval) {P : Nat → Prop}
    {fuel : Nat} {h h1 : Heap} {obj scope v : Ptr}
    (hg : Good P h) (hsc : ∀ a, scope = some a → P a)
    (hres : IsList.call eval fuel h obj scope = .ok (h1, v)) : Out P h h1 v := by
  unfold IsList.call at hres
  obtain ⟨vec, hvec, hres⟩ := bind_ok hres
  obtain ⟨_, _, hres⟩ := bind_ok hres
  obtain ⟨⟨h2, vals⟩, hcv, hres⟩ := bind_ok hres
  obtain ⟨P1, g1, _⟩ := operands_good he hg hsc hvec hcv
  simp only at hres
  split at hres
  · obtain ⟨b, _, hres⟩ := bind_ok hres
    simp only [pure, Except.pure, Except.ok.injEq] at hres
    exact Out_seq g1 (Out_pair hres (Out_Condition g1.1 _))
  · cases hres

theorem List_good {eval : CalcFn} (he : EvalGood eval) {P : Nat → Prop}
    {fuel : Nat} {h h1 : Heap} {obj scope v : Ptr}
    (hg : Good P h) (hsc : ∀ a, scope = some a → P a)
    (hres : List.call eval fuel h obj scope = .ok (h1, v)) : Out P h h1 v := by
  unfold List.call at hres
  obtain ⟨vec, hvec, hres⟩ := bind_ok hres
  obtain ⟨⟨h2, vals⟩, hcv, hres⟩ := bind_ok hres
  obtain ⟨P1, g1, hvals⟩ := operands_good he hg hsc hvec hcv
  simp only [pure, Except.pure, Except.ok.injEq] at hres
  refine Out_seq g1 (Out_pair hres ?_)
  exact fromBack_good _ _ _ g1.1 (fun x hx => hvals x (List.mem_reverse.mp hx))
    (Val_null P1 h2)

theorem Car_good {eval : CalcFn} (he : EvalGood eval) {P : Nat → Prop}
    {fuel : Nat} {h h1 : Heap} {obj scope v : Ptr}
    (hg : Good P h) (hsc : ∀ a, scope = some a → P a)
    (hres : Car.call eval fuel h obj scope = .ok (h1, v)) : Out P h h1 v := by
  unfold Car.call at hres
  obtain ⟨vec, hvec, hres⟩ := bind_ok hres
  obtain ⟨_, _, hres⟩ := bind_ok hres
  obtain ⟨⟨h2, vals⟩, hcv, hres⟩ := bind_ok hres
  obtain ⟨P1, g1, _⟩ := operands_good he hg hsc hvec hcv
  simp only at hres
  split at hres
  · obtain ⟨⟨a, f, s⟩, hc, hres⟩ := bind_ok hres
    simp only [pure, Except.pure, Except.ok.injEq, Prod.mk.injEq] at hres
    obtain ⟨rfl, rfl⟩ := hres
    exact ⟨P1, g1, Good_val_of_field g1.1 (GetCell_ok hc).2 (by simp [Object.vals])⟩
  · cases hres

theorem Cdr_good {eval : CalcFn} (he : EvalGood eval) {P : Nat → Prop}
    {fuel : Nat} {h h1 : Heap} {obj scope v : Ptr}
    (hg : Good P h) (hsc : ∀ a, scope = some a → P a)
    (hres : Cdr.call eval fuel h obj scope = .ok (h1, v)) : Out P h h1 v := by
  unfold Cdr.call at hres
  obtain ⟨vec, hvec, hres⟩ := bind_ok hres
  obtain ⟨_, _, hres⟩ := bind_ok hres
  obtain ⟨⟨h2, vals⟩, hcv, hres⟩ := bind_ok hres
  obtain ⟨P1, g1, _⟩ := operands_good he hg hsc hvec hcv
  simp only at hres
  split at hres
  · obtain ⟨⟨a, f, s⟩, hc, hres⟩ := bind_ok hres
    simp only [pure, Except.pure, Except.ok.injEq, Prod.mk.injEq] at hres
    obtain ⟨rfl, rfl⟩ := hres
    exact ⟨P1, g1, Good_val_of_field g1.1 (GetCell_ok hc).2 (by simp [Object.vals])⟩
  · cases hres

theorem ListRef_good {eval : CalcFn} (he : EvalGood eval) {P : Nat → Prop}
    {fuel : Nat} {h h1 : Heap} {obj scope v : Ptr}
    (hg : Good P h) (hsc : ∀ a, scope = some a → P a)
    (hres : ListRef.call eval fuel h obj scope = .ok (h1, v)) : Out P h h1 v := by
  unfold ListRef.call at hres
  obtain ⟨vec, hvec, hres⟩ := bind_ok hres
  obtain ⟨_, _, hres⟩ := bind_ok hres
  obtain ⟨⟨h2, vals⟩, hcv, hres⟩ := bind_ok hres
  obtain ⟨P1, g1, _⟩ := operands_good he hg hsc hvec hcv
  simp only at hres
  split at hres
  · obtain ⟨l, hl, hres⟩ := bind_ok hres
    obtain ⟨n, _, hres⟩ := bind_ok hres
    obtain ⟨_, _, hres⟩ := bind_ok hres
    split at hres
    · rename_i x hx
      simp only [pure, Except.pure, Except.ok.injEq, Prod.mk.injEq] at hres
      obtain ⟨rfl, rfl⟩ := hres
      exact ⟨P1, g1, ToVector_val g1.1 fuel _ l hl _ (List.get?_mem hx)⟩
    · cases hres
  · cases hres

theorem listTailLoop_val {P : Nat → Prop} {h : Heap} (hg : Good P h) :
    ∀ (steps : Nat) (cur r : Ptr), Val P h cur → listTailLoop h steps cur = .ok r →
      Val P h r := by
  intro steps
  induction steps with
  | zero =>
    intro cur r hc hl
    simp only [listTailLoop, Except.ok.injEq] at hl
    subst hl
    exact hc
  | succ k ih =>
    intro cur r _ hl
    simp only [listTailLoop] at hl
    split at hl
    · rename_i a f s e
      exact ih s r (Good_val_of_field hg (GetCell_ok e).2 (by simp [Object.vals])) hl
    · cases hl

theorem ListTail_good {eval : CalcFn} (he : EvalGood eval) {P : Nat → Prop}
    {fuel : Nat} {h h1 : Heap} {obj scope v : Ptr}
    (hg : Good P h) (hsc : ∀ a, scope = some a → P a)
    (hres : ListTail.call eval fuel h obj scope = .ok (h1, v)) : Out P h h1 v := by
  unfold ListTail.call at hres
  obtain ⟨vec, hvec, hres⟩ := bind_ok hres
  obtain ⟨_, _, hres⟩ := bind_ok hres
  obtain ⟨⟨h2, vals⟩, hcv, hres⟩ := bind_ok hres
  obtain ⟨P1, g1, hvals⟩ := operands_good he hg hsc hvec hcv
  simp only at hres
  split at hres
  · obtain ⟨n, _, hres⟩ := bind_ok hres
    obtain ⟨cur, hl, hres⟩ := bind_ok hres
    simp only [pure, Except.pure, Except.ok.injEq, Prod.mk.injEq] at hres
    obtain ⟨rfl, rfl⟩ := hres
    exact ⟨P1, g1, listTailLoop_val g1.1 _ _ _ (hvals _ (List.mem_cons_self _ _)) hl⟩
  · cases hres

theorem CalcAndGetNumber_good {eval : CalcFn} (he : EvalGood eval) {P : Nat → Prop}
    {h h1 : Heap} {obj scope : Ptr} {n : Int}
    (hg : Good P h) (ho : Val P h obj) (hsc : ∀ a, scope = some a → P a)
    (hres : CalcAndGetNumber eval h obj scope = .ok (h1, n)) : Out P h h1 none := by
  unfold CalcAndGetNumber at hres
  split at hres
  · rename_i h2 v e1
    rw [map_pair_ok hres]
    exact Out_drop (he P h obj scope h2 v hg ho hsc e1)
  · cases hres

theorem numberListToBoolLoop_good {eval : CalcFn} (he : EvalGood eval)
    (func : Int → Int → Bool) {scope : Ptr} :
    ∀ (xs : List Ptr) (P : Nat → Prop) (h h1 : Heap) (prev : Int) (b : Bool), Good P h →
      (∀ x ∈ xs, Val P h x) → (∀ a, scope = some a → P a) →
      numberListToBoolLoop eval func scope h prev xs = .ok (h1, b) → Out P h h1 none := by
  intro xs
  induction xs with
  | nil =>
    intro P h h1 prev b hg _ _ hl
    simp only [numberListToBoolLoop, Except.ok.injEq, Prod.mk.injEq] at hl
    obtain ⟨rfl, _⟩ := hl
    exact Out_of_val hg (Val_null P h)
  | cons x xs ih =>
    intro P h h1 prev b hg hxs hsc hl
    simp only [numberListToBoolLoop] at hl
    split at hl
    · rename_i h2 cur e1
      obtain ⟨P1, g1, _⟩ :=
        CalcAndGetNumber_good he hg (hxs x (List.mem_cons_self _ _)) hsc e1
      split at hl
      · simp only [Except.ok.injEq, Prod.mk.injEq] at hl
        obtain ⟨rfl, _⟩ := hl
        exact ⟨P1, g1, Val_null P1 h2⟩
      · exact Out_seq g1 (ih P1 h2 h1 cur b g1.1
          (fun y hy => Val_mono (hxs y (List.mem_cons_of_mem _ hy)) g1)
          (fun a ha => g1.2.1 a (hsc a ha)) hl)
    · cases hl

theorem compare_good {eval : CalcFn} (he : EvalGood eval) {P : Nat → Prop}
    {func : Int → Int → Bool} {fuel : Nat} {h h1 : Heap} {obj scope v : Ptr}
    (hg : Good P h) (hsc : ∀ a, scope = some a → P a)
    (hres : compareCall func eval fuel h obj scope = .ok (h1, v)) : Out P h h1 v := by
  unfold compareCall at hres
  obtain ⟨vec, hvec, hres⟩ := bind_ok hres
  obtain ⟨⟨h2, b⟩, hcb, hres⟩ := bind_ok hres
  simp only [pure, Except.pure, Except.ok.injEq] at hres
  have hxs := ToVector_val hg fuel obj vec hvec
  have o1 : Out P h h2 none := by
    unfold CalcNumberListToBool at hcb
    split at hcb
    · simp only [Except.ok.injEq, Prod.mk.injEq] at hcb
      obtain ⟨rfl, _⟩ := hcb
      exact Out_of_val hg (Val_null P h)
    · rename_i x xs
      split at hcb
      · rename_i h3 prev e1
        obtain ⟨P1, g1, _⟩ :=
          CalcAndGetNumber_good he hg (hxs x (List.mem_cons_self _ _)) hsc e1
        exact Out_seq g1 (numberListToBoolLoop_good he func xs P1 h3 h2 prev b g1.1
          (fun y hy => Val_mono (hxs y (List.mem_cons_of_mem _ hy)) g1)
          (fun a ha => g1.2.1 a (hsc a ha)) hcb)
      · cases hcb
  exact Out_then o1 (fun P1 g1 => Out_pair hres (Out_Condition g1 _))

theorem CalcNumberListToInt_good {eval : CalcFn} (he : EvalGood eval) {P : Nat → Prop}
    {func : Int → Int → Except Err Int} {neutral r : Int} {h h1 : Heap} {vec : List Ptr}
    {scope : Ptr} (hg : Good P h) (hxs : ∀ x ∈ vec, Val P h x)
    (hsc : ∀ a, scope = some a → P a)
    (hres : CalcNumberListToInt eval func h vec scope neutral = .ok (h1, r)) :
    Out P h h1 none := by
  unfold CalcNumberListToInt at hres
  split at hres
  · rename_i h2 vals e1
    rw [map_pair_ok hres]
    obtain ⟨P1, g1, _⟩ := CalcVector_good he vec P h h2 vals hg hxs hsc e1
    exact ⟨P1, g1, Val_null P1 h2⟩
  · cases hres

theorem fold_good {eval : CalcFn} (he : EvalGood eval) {P : Nat → Prop}
    {func : Int → Int → Except Err Int} {neutral : Int} {fuel : Nat} {h h1 : Heap}
    {obj scope v : Ptr} (hg : Good P h) (hsc : ∀ a, scope = some a → P a)
    (hres : foldCall func neutral eval fuel h obj scope = .ok (h1, v)) : Out P h h1 v := by
  unfold foldCall at hres
  obtain ⟨vec, hvec, hres⟩ := bind_ok hres
  obtain ⟨⟨h2, r⟩, hcb, hres⟩ := bind_ok hres
  simp only [pure, Except.pure, Except.ok.injEq] at hres
  exact Out_then (CalcNumberListToInt_good he hg (ToVector_val hg fuel obj vec hvec) hsc hcb)
    (fun P1 g1 => Out_pair hres (Out_MakeNumber g1 _))

theorem fold1_good {eval : CalcFn} (he : EvalGood eval) {P : Nat → Prop}
    {func : Int → Int → Except Err Int} {neutral : Int} {fuel : Nat} {h h1 : Heap}
    {obj scope v : Ptr} (hg : Good P h) (hsc : ∀ a, scope = some a → P a)
    (hres : foldCall1 func neutral eval fuel h obj scope = .ok (h1, v)) : Out P h h1 v := by
  unfold foldCall1 at hres
  obtain ⟨vec, hvec, hres⟩ := bind_ok hres
  obtain ⟨_, _, hres⟩ := bind_ok hres
  obtain ⟨⟨h2, r⟩, hcb, hres⟩ := bind_ok hres
  simp only [pure, Except.pure, Except.ok.injEq] at hres
  exact Out_then (CalcNumberListToInt_good he hg (ToVector_val hg fuel obj vec hvec) hsc hcb)
    (fun P1 g1 => Out_pair hres (Out_MakeNumber g1 _))

theorem irrev_good {eval : CalcFn} (he : EvalGood eval) {P : Nat → Prop}
    {func : Int → Int → Except Err Int} {neutral : Int} {fuel : Nat} {h h1 : Heap}
    {obj scope v : Ptr} (hg : Good P h) (hsc : ∀ a, scope = some a → P a)
    (hres : irrevCall func neutral eval fuel h obj scope = .ok (h1, v)) : Out P h h1 v := by
  unfold irrevCall at hres
  obtain ⟨vec, hvec, hres⟩ := bind_ok hres
  obtain ⟨_, _, hres⟩ := bind_ok hres
  obtain ⟨⟨h2, r⟩, hcb, hres⟩ := bind_ok hres
  simp only [pure, Except.pure, Except.ok.injEq] at hres
  have o1 : Out P h h2 none := by
    unfold CalcIrrevNumberListToInt at hcb
    split at hcb
    · rename_i h3 vals e1
      obtain ⟨P1, g1, _⟩ :=
        CalcVector_good he vec P h h3 vals hg (ToVector_val hg fuel obj vec hvec) hsc e1
      have : h2 = h3 := by
        split at hcb
        · cases hcb
        · split at hcb
          · exact map_pair_ok hcb
          · cases hcb
        · split at hcb
          · exact map_pair_ok hcb
          · cases hcb
      rw [this]
      exact ⟨P1, g1, Val_null P1 h3⟩
    · cases hcb
  exact Out_then o1 (fun P1 g1 => Out_pair hres (Out_MakeNumber g1 _))

theorem Abs_good {eval : CalcFn} (he : EvalGood eval) {P : Nat → Prop}
    {fuel : Nat} {h h1 : Heap} {obj scope v : Ptr}
    (hg : Good P h) (hsc : ∀ a, scope = some a → P a)
    (hres : Abs.call eval fuel h obj scope = .ok (h1, v)) : Out P h h1 v := by
  unfold Abs.call at hres
  obtain ⟨vec, hvec, hres⟩ := bind_ok hres
  obtain ⟨_, _, hres⟩ := bind_ok hres
  split at hres
  · obtain ⟨⟨h2, n⟩, hcn, hres⟩ := bind_ok hres
    have o1 := CalcAndGetNumber_good he hg
      (ToVector_val hg fuel obj _ hvec _ (List.mem_singleton.mpr rfl)) hsc hcn
    simp only at hres
    split at hres
    · cases hres
    · simp only [pure, Except.pure, Except.ok.injEq] at hres
      exact Out_then o1 (fun P1 g1 => Out_pair hres (Out_MakeNumber g1 _))
  · cases hres

theorem Not_good {eval : CalcFn} (he : EvalGood eval) {P : Nat → Prop}
    {fuel : Nat} {h h1 : Heap} {obj scope v : Ptr}
    (hg : Good P h) (hsc : ∀ a, scope = some a → P a)
    (hres : Not.call eval fuel h obj scope = .ok (h1, v)) : Out P h h1 v := by
  unfold Not.call at hres
  obtain ⟨vec, hvec, hres⟩ := bind_ok hres
  obtain ⟨_, _, hres⟩ := bind_ok hres
  obtain ⟨⟨h2, vals⟩, hcv, hres⟩ := bind_ok hres
  obtain ⟨P1, g1, _⟩ := operands_good he hg hsc hvec hcv
  simp only at hres
  split at hres
  · simp only [pure, Except.pure, Except.ok.injEq] at hres
    exact Out_seq g1 (Out_pair hres (Out_Boolean g1.1 _))
  · cases hres

theorem andLoop_good {eval : CalcFn} (he : EvalGood eval) {scope : Ptr} :
    ∀ (xs : List Ptr) (P : Nat → Prop) (h h1 : Heap) (last v : Ptr), Good P h →
      (∀ x ∈ xs, Val P h x) → Val P h last → (∀ a, scope = some a → P a) →
      andLoop eval scope h xs last = .ok (h1, v) → Out P h h1 v := by
  intro xs
  induction xs with
  | nil =>
    intro P h h1 last v hg _ hlast _ hl
    simp only [andLoop, Except.ok.injEq, Prod.mk.injEq] at hl
    obtain ⟨rfl, rfl⟩ := hl
    exact Out_of_val hg hlast
  | cons x xs ih =>
    intro P h h1 last v hg hxs _ hsc hl
    simp only [andLoop] at hl
    split at hl
    · rename_i h2 w e1
      obtain ⟨P1, g1, hw⟩ := he P h x scope h2 w hg (hxs x (List.mem_cons_self _ _)) hsc e1
      split at hl
      · simp only [Except.ok.injEq] at hl
        exact Out_seq g1 (Out_pair hl (Out_Boolean g1.1 false))
      · exact Out_seq g1 (ih P1 h2 h1 w v g1.1
          (fun y hy => Val_mono (hxs y (List.mem_cons_of_mem _ hy)) g1) hw
          (fun a ha => g1.2.1 a (hsc a ha)) hl)
    · cases hl

theorem And_good {eval : CalcFn} (he : EvalGood eval) {P : Nat → Prop}
    {fuel : Nat} {h h1 : Heap} {obj scope v : Ptr}
    (hg : Good P h) (hsc : ∀ a, scope = some a → P a)
    (hres : And.call eval fuel h obj scope = .ok (h1, v)) : Out P h h1 v := by
  unfold And.call at hres
  obtain ⟨vec, hvec, hres⟩ := bind_ok hres
  split at hres
  · simp only [pure, Except.pure, Except.ok.injEq] at hres
    exact Out_pair hres (Out_Boolean hg true)
  · exact andLoop_good he vec P h h1 none v hg (ToVector_val hg fuel obj vec hvec)
      (Val_null P h) hsc hres

theorem orLoop_good {eval : CalcFn} (he : EvalGood eval) {scope : Ptr} (size : Nat) :
    ∀ (xs : List Ptr) (P : Nat → Prop) (h h1 : Heap) (temp : Nat) (v : Ptr), Good P h →
      (∀ x ∈ xs, Val P h x) → (∀ a, scope = some a → P a) →
      orLoop eval scope size h temp xs = .ok (h1, v) → Out P h h1 v := by
  intro xs
  induction xs with
  | nil =>
    intro P h h1 temp v hg _ _ hl
    simp only [orLoop, Except.ok.injEq] at hl
    exact Out_pair hl (Out_Boolean hg false)
  | cons x xs ih =>
    intro P h h1 temp v hg hxs hsc hl
    simp only [orLoop] at hl
    split at hl
    · rename_i h2 w e1
      obtain ⟨P1, g1, hw⟩ := he P h x scope h2 w hg (hxs x (List.mem_cons_self _ _)) hsc e1
      split at hl
      · split at hl
        · simp only [Except.ok.injEq, Prod.mk.injEq] at hl
          obtain ⟨rfl, rfl⟩ := hl
          exact ⟨P1, g1, hw⟩
        · simp only [Except.ok.injEq] at hl
          exact Out_seq g1 (Out_pair hl (Out_Boolean g1.1 true))
      · exact Out_seq g1 (ih P1 h2 h1 (temp + 1) v g1.1
          (fun y hy => Val_mono (hxs y (List.mem_cons_of_mem _ hy)) g1)
          (fun a ha => g1.2.1 a (hsc a ha)) hl)
    · cases hl

theorem Or_good {eval : CalcFn} (he : EvalGood eval) {P : Nat → Prop}
    {fuel : Nat} {h h1 : Heap} {obj scope v : Ptr}
    (hg : Good P h) (hsc : ∀ a, scope = some a → P a)
    (hres : Or.call eval fuel h obj scope = .ok (h1, v)) : Out P h h1 v := by
  unfold Or.call at hres
  obtain ⟨vec, hvec, hres⟩ := bind_ok hres
  exact orLoop_good he _ vec P h h1 0 v hg (ToVector_val hg fuel obj vec hvec) hsc hres

theorem If_good {eval : CalcFn} (he : EvalGood eval) {P : Nat → Prop}
    {fuel : Nat} {h h1 : Heap} {obj scope v : Ptr}
    (hg : Good P h) (hsc : ∀ a, scope = some a → P a)
    (hres : If.call eval fuel h obj scope = .ok (h1, v)) : Out P h h1 v := by
  unfold If.call at hres
  obtain ⟨vec, hvec, hres⟩ := bind_ok hres
  obtain ⟨_, _, hres⟩ := bind_ok hres
  have hxs := ToVector_val hg fuel obj vec hvec
  split at hres
  · obtain ⟨⟨h2, c⟩, hc, hres⟩ := bind_ok hres
    obtain ⟨P1, g1, _⟩ := he P h _ scope h2 c hg (hxs _ (List.mem_cons_self _ _)) hsc hc
    have hsc1 : ∀ a, scope = some a → P1 a := fun a ha => g1.2.1 a (hsc a ha)
    simp only at hres
    split at hres
    · exact Out_seq g1 (he P1 h2 _ scope h1 v g1.1
        (Val_mono (hxs _ (List.mem_cons_of_mem _ (List.mem_cons_self _ _))) g1) hsc1 hres)
    · split at hres
      · exact Out_seq g1 (he P1 h2 _ scope h1 v g1.1
          (Val_mono (hxs _ (List.mem_cons_of_mem _ (List.mem_cons_of_mem _
            (List.mem_singleton.mpr rfl)))) g1) hsc1 hres)
      · simp only [pure, Except.pure, Except.ok.injEq, Prod.mk.injEq] at hres
        obtain ⟨rfl, rfl⟩ := hres
        exact ⟨P1, g1, Val_null P1 h2⟩
  · cases hres

end Scheme
namespace Scheme

/-! ## The special forms and closures keep the invariant -/

set_option maxRecDepth 100000

theorem mem_of_lookup {d : List (String × Ptr)} {name : String} {v : Ptr}
    (hl : d.lookup name = some v) : v ∈ d.map Prod.snd := by
  induction d with
  | nil => simp [List.lookup] at hl
  | cons kv d ih =>
    obtain ⟨k, w⟩ := kv
    simp only [List.lookup] at hl
    split at hl
    · simp only [Option.some.injEq] at hl
      subst hl
      simp
    · simp only [List.map_cons, List.mem_cons]
      exact Or.inr (ih hl)

/-- A lookup that starts in a hidden frame finds its binding in a hidden frame, and the
value bound there is storable. -/
theorem Get_good {P : Nat → Prop} {h : Heap} (hg : Good P h) :
    ∀ (fuel : Nat) (scope : Ptr) (name : String) (owner : Nat) (v : Ptr),
      (∀ a, scope = some a → P a) →
      NameSpace.Get fuel h scope name = .ok (owner, v) → P owner ∧ Val P h v := by
  intro fuel
  induction fuel with
  | zero =>
    intro scope name owner v _ hget
    cases scope <;> simp [NameSpace.Get] at hget
  | succ k ih =>
    intro scope name owner v hsc hget
    cases scope with
    | none => simp [NameSpace.Get] at hget
    | some cur =>
      simp only [NameSpace.Get] at hget
      split at hget
      · rename_i data_ upper_ ho
        split at hget
        · rename_i w hl
          simp only [Except.ok.injEq, Prod.mk.injEq] at hget
          obtain ⟨rfl, rfl⟩ := hget
          exact ⟨hsc _ rfl, Good_val_of_field hg (o := .NameSpace data_ upper_) ho
            (mem_of_lookup hl)⟩
        · refine ih upper_ name owner v ?_ hget
          intro a ha
          subst ha
          exact hg.upperIn cur data_ a ho
      · cases hget

theorem Grows_Set {P : Nat → Prop} {h h1 : Heap} (hg : Good P h) {a : Nat} {name : String}
    {v : Ptr} (ha : P a) (hv : Val P h v) (hset : NameSpace.Set h (some a) name v = .ok h1) :
    Grows P h P h1 := by
  have g := Good_Set hg ha hv hset
  obtain ⟨d, u, _, rfl⟩ := NameSpace.Set_eq hset
  exact Grows_step g (le_refl _)

theorem DefineHelper_good {P : Nat → Prop} {h h1 : Heap} {name obj scope : Ptr}
    (hg : Good P h) (hsc : ∀ a, scope = some a → P a) (hv : Val P h obj)
    (hd : DefineHelper h name obj scope = .ok h1) : Grows P h P h1 := by
  unfold DefineHelper at hd
  split at hd
  · cases scope with
    | none => simp [NameSpace.Set] at hd
    | some a => exact Grows_Set hg (hsc a rfl) hv hd
  · cases hd

/-- What a duplicate is, seen from outside: a storable value in a heap that grew. -/
theorem Copy_out {copy : CopyFn} (hcp : CopyGood copy) {P : Nat → Prop} {h h1 : Heap}
    {p q : Ptr} (hg : Good P h) (hc : copy h p = .ok (h1, q)) :
    Grows P h P h1 ∧ Val P h1 q := by
  obtain ⟨g1, x1, _, r1, _⟩ := hcp P h p h1 q hg hc
  refine ⟨Grows_step g1 x1.1, ?_⟩
  intro b hb
  obtain ⟨e, hlt⟩ := r1 b hb
  refine ⟨?_, hlt⟩
  intro hp
  have := hg.inHeap b hp
  omega

theorem MakeLambda_update {h : Heap} (hf : h.Fresh) (args body : List Ptr) (scope : Ptr) :
    (MakeLambda h args body scope).1 =
      ((h.Make (.Lambda args body none)).1.Make (.NameSpace [] scope)).1.update h.next
        (.Lambda args body (some (h.next + 1))) := by
  have hmap : h.data_.map (fun s => if s.addr = h.next then
      { s with obj := Object.Lambda args body (some (h.next + 1)) } else s) = h.data_ := by
    conv_rhs => rw [← List.map_id h.data_]
    apply List.map_congr_left
    intro s hs
    have := hf s hs
    rw [if_neg (by omega)]
    rfl
  simp only [MakeLambda, Heap.Make, Heap.update, List.map_append, List.map_cons, List.map_nil,
    hmap, List.append_assoc, List.cons_append, List.nil_append, if_true]
  simp

theorem Good_MakeLambda {P : Nat → Prop} {h : Heap} (hg : Good P h) (args body : List Ptr)
    {scope : Ptr} (ha : ∀ v ∈ args, Val P h v) (hb : ∀ v ∈ body, Val P h v)
    (hsc : ∀ a, scope = some a → P a) : Good P (MakeLambda h args body scope).1 := by
  rw [MakeLambda_update hg.fresh]
  have hvals : ∀ v ∈ (Object.Lambda args body none).vals, Val P h v := by
    intro v hv
    rcases List.mem_append.mp hv with hv | hv
    · exact ha v hv
    · exact hb v hv
  have g1 : Good P (h.Make (.Lambda args body none)).1 :=
    Good_Make hg _ rfl hvals (by intro d u e; cases e)
  have n1 : (h.Make (.Lambda args body none)).1.next = h.next + 1 := rfl
  have g2 : Good P ((h.Make (.Lambda args body none)).1.Make (.NameSpace [] scope)).1 := by
    refine Good_Make g1 _ rfl (by intro v hv; cases hv) ?_
    intro d u e
    cases e
    exact hsc u rfl
  have n2 : ((h.Make (.Lambda args body none)).1.Make (.NameSpace [] scope)).1.next =
      h.next + 2 := rfl
  have o1 : ((h.Make (.Lambda args body none)).1.Make (.NameSpace [] scope)).1.obj? h.next =
      some (.Lambda args body none) := by
    rw [obj?_Make_old _ _ (by rw [n1]; omega)]
    exact obj?_Make_new hg.fresh _
  have o2 : ((h.Make (.Lambda args body none)).1.Make (.NameSpace [] scope)).1.obj?
      (h.next + 1) = some (.NameSpace [] scope) := by
    have := obj?_Make_new g1.fresh (.NameSpace [] scope)
    rw [n1] at this
    exact this
  have old : ∀ a, a < h.next →
      ((h.Make (.Lambda args body none)).1.Make (.NameSpace [] scope)).1.obj? a =
        h.obj? a := by
    intro a hlt
    rw [obj?_Make_old _ _ (by rw [n1]; omega), obj?_Make_old _ _ (by omega)]
  have gr : Grows P h P ((h.Make (.Lambda args body none)).1.Make (.NameSpace [] scope)).1 :=
    Grows_step g2 (by rw [n2]; omega)
  obtain ⟨r, hr⟩ := g2.ranked
  refine Good_update g2 o1 ?_ (fun v hv => Val_mono (hvals v hv) gr) ?_
    (by intro hc; cases hc) (by intro d u e; cases e)
  · refine Ranked_update (S := fun x => x = h.next) hr ?_ rfl ?_
    · intro a o y hoa hy hyn
      by_contra hne
      by_cases h1 : a = h.next + 1
      · subst h1
        rw [o2] at hoa
        cases hoa
        rcases mem_dups.mp hy with he | hm
        · cases he
        · cases hm
      · have hlt : a < h.next := by
          have := obj?_lt_next g2.fresh hoa
          rw [n2] at this
          omega
        rw [old a hlt] at hoa
        have := hg.below a o y hoa hy
        omega
    · intro y hy
      left
      rw [n2]
      rcases mem_dups.mp hy with he | hm
      · simp only [Object.own, Option.some.injEq] at he
        omega
      · have := (hvals _ hm y rfl).2
        omega
  · intro y hy
    simp only [Object.own, Option.some.injEq] at hy
    subst hy
    refine ⟨?_, by rw [n2]; omega, by omega, ?_⟩
    · intro hp
      have := hg.inHeap _ hp
      omega
    · intro f s hcell
      rw [o2] at hcell
      cases hcell

theorem CreateLambdaHelper_good {P : Nat → Prop} {h h1 : Heap} {args body : List Ptr}
    {scope v : Ptr} (hg : Good P h) (ha : ∀ x ∈ args, Val P h x)
    (hb : ∀ x ∈ body, Val P h x) (hsc : ∀ a, scope = some a → P a)
    (hc : CreateLambdaHelper h args body scope = .ok (h1, v)) :
    Grows P h P h1 ∧ Val P h1 v := by
  unfold CreateLambdaHelper at hc
  split at hc
  · simp only [Except.ok.injEq, Prod.mk.injEq] at hc
    obtain ⟨rfl, rfl⟩ := hc
    have g := Good_MakeLambda hg args body ha hb hsc
    have n : (MakeLambda h args body scope).1.next = h.next + 2 := rfl
    exact ⟨Grows_step g (by rw [n]; omega),
      Val_new hg.inHeap (le_refl _) (by rw [n]; exact Nat.lt_add_of_pos_right (by omega))⟩
  · cases hc

theorem CreateLambda_good {P : Nat → Prop} {fuel : Nat} {h h1 : Heap} {obj scope v : Ptr}
    (hg : Good P h) (hsc : ∀ a, scope = some a → P a)
    (hres : CreateLambda.call fuel h obj scope = .ok (h1, v)) : Out P h h1 v := by
  unfold CreateLambda.call at hres
  obtain ⟨body, hbody, hres⟩ := bind_ok hres
  obtain ⟨_, _, hres⟩ := bind_ok hres
  have hxs := ToVector_val hg fuel obj body hbody
  split at hres
  · obtain ⟨args, hargs, hres⟩ := bind_ok hres
    obtain ⟨_, _, hres⟩ := bind_ok hres
    obtain ⟨g1, hv⟩ := CreateLambdaHelper_good hg (ToVector_val hg fuel _ args hargs)
      (fun x hx => hxs x (List.mem_cons_of_mem _ hx)) hsc hres
    exact ⟨P, g1, hv⟩
  · cases hres

theorem Define_good {eval : CalcFn} {copy : CopyFn} (he : EvalGood eval)
    (hcp : CopyGood copy) {P : Nat → Prop} {fuel : Nat} {h h1 : Heap} {obj scope v : Ptr}
    (hg : Good P h) (hsc : ∀ a, scope = some a → P a)
    (hres : Define.call eval copy fuel h obj scope = .ok (h1, v)) : Out P h h1 v := by
  unfold Define.call at hres
  obtain ⟨vec, hvec, hres⟩ := bind_ok hres
  obtain ⟨_, _, hres⟩ := bind_ok hres
  have hxs := ToVector_val hg fuel obj vec hvec
  split at hres
  · split at hres
    · obtain ⟨_, _, hres⟩ := bind_ok hres
      split at hres
      · rename_i back hlast
        have hback : Val P h back :=
          hxs _ (List.mem_cons_of_mem _ (List.mem_of_mem_getLast? hlast))
        obtain ⟨⟨h2, w⟩, hev, hres⟩ := bind_ok hres
        obtain ⟨P1, g1, _⟩ := he P h back scope h2 w hg hback hsc hev
        simp only at hres
        obtain ⟨⟨h3, c⟩, hco, hres⟩ := bind_ok hres
        obtain ⟨g2, hc⟩ := Copy_out hcp g1.1 hco
        simp only at hres
        obtain ⟨h4, hdh, hres⟩ := bind_ok hres
        have g3 := DefineHelper_good g2.1 (fun a ha => g1.2.1 a (hsc a ha)) hc hdh
        simp only [pure, Except.pure, Except.ok.injEq, Prod.mk.injEq] at hres
        obtain ⟨rfl, rfl⟩ := hres
        have g := Grows_seq g1 (Grows_seq g2 g3)
        exact ⟨P1, g, Val_mono (hxs _ (List.mem_cons_self _ _)) g⟩
      · cases hres
    · obtain ⟨isList, _, hres⟩ := bind_ok hres
      split at hres
      · obtain ⟨names, hnames, hres⟩ := bind_ok hres
        have hns := ToVector_val hg fuel _ names hnames
        split at hres
        · rename_i name params
          obtain ⟨⟨h2, lam⟩, hcl, hres⟩ := bind_ok hres
          obtain ⟨g1, hlam⟩ := CreateLambdaHelper_good hg
            (fun x hx => hns x (List.mem_cons_of_mem _ hx))
            (fun x hx => hxs x (List.mem_cons_of_mem _ hx)) hsc hcl
          simp only at hres
          obtain ⟨h3, hdh, hres⟩ := bind_ok hres
          have g2 := DefineHelper_good g1.1 hsc hlam hdh
          simp only [pure, Except.pure, Except.ok.injEq, Prod.mk.injEq] at hres
          obtain ⟨rfl, rfl⟩ := hres
          have g := Grows_seq g1 g2
          exact ⟨P, g, Val_mono (hns _ (List.mem_cons_self _ _)) g⟩
        · cases hres
      · cases hres
  · cases hres

theorem Set_good {eval : CalcFn} {copy : CopyFn} (he : EvalGood eval)
    (hcp : CopyGood copy) {P : Nat → Prop} {fuel : Nat} {h h1 : Heap} {obj scope v : Ptr}
    (hg : Good P h) (hsc : ∀ a, scope = some a → P a)
    (hres : Set.call eval copy fuel h obj scope = .ok (h1, v)) : Out P h h1 v := by
  unfold Set.call at hres
  obtain ⟨vec, hvec, hres⟩ := bind_ok hres
  obtain ⟨_, _, hres⟩ := bind_ok hres
  have hxs := ToVector_val hg fuel obj vec hvec
  split at hres
  · obtain ⟨name, _, hres⟩ := bind_ok hres
    obtain ⟨⟨o0, prev⟩, hget0, hres⟩ := bind_ok hres
    have hprev := (Get_good hg fuel scope name o0 prev hsc hget0).2
    simp only at hres
    obtain ⟨⟨h2, w⟩, hev, hres⟩ := bind_ok hres
    obtain ⟨P1, g1, _⟩ := he P h _ scope h2 w hg
      (hxs _ (List.mem_cons_of_mem _ (List.mem_singleton.mpr rfl))) hsc hev
    simp only at hres
    obtain ⟨⟨h3, c⟩, hco, hres⟩ := bind_ok hres
    obtain ⟨g2, hc⟩ := Copy_out hcp g1.1 hco
    simp only at hres
    obtain ⟨name2, _, hres⟩ := bind_ok hres
    obtain ⟨⟨owner, cur⟩, hget, hres⟩ := bind_ok hres
    simp only at hres
    obtain ⟨h4, hset, hres⟩ := bind_ok hres
    have hown := (Get_good g2.1 fuel scope name2 owner cur
      (fun a ha => g1.2.1 a (hsc a ha)) hget).1
    have g3 := Grows_Set g2.1 hown hc hset
    simp only [pure, Except.pure, Except.ok.injEq, Prod.mk.injEq] at hres
    obtain ⟨rfl, rfl⟩ := hres
    have g := Grows_seq g1 (Grows_seq g2 g3)
    exact ⟨P1, g, Val_mono hprev g⟩
  · cases hres

/-- Overwriting a field of the pair at `a` by the pair itself. -/
theorem Good_update_self {P : Nat → Prop} {h : Heap} (hg : Good P h) {a : Nat}
    {f s f1 s1 : Ptr} (ho : h.obj? a = some (.Cell f s))
    (hf : f1 = f ∨ f1 = some a) (hs : s1 = s ∨ s1 = some a) (hv : Val P h (some a)) :
    Good P (h.update a (.Cell f1 s1)) := by
  obtain ⟨r, hr⟩ := hg.ranked
  have hold : ∀ y, some y ∈ (Object.Cell f s).dups → r y < r a ∨ y = a := by
    intro y hy
    rcases hr a _ y ho hy with h1 | h1
    · exact Or.inl h1
    · exact Or.inr h1.1
  have hnew : ∀ y, some y ∈ (Object.Cell f1 s1).dups → some y ∈ (Object.Cell f s).dups ∨
      y = a := by
    intro y hy
    rcases mem_dups.mp hy with he | hm
    · cases he
    · simp only [Object.vals, List.mem_cons, List.mem_singleton, List.not_mem_nil,
        or_false] at hm
      rcases hm with hm | hm
      · rcases hf with e | e
        · left
          rw [hm, e]
          exact mem_dups.mpr (Or.inr (by simp [Object.vals]))
        · right
          rw [e] at hm
          exact Option.some.inj hm
      · rcases hs with e | e
        · left
          rw [hm, e]
          exact mem_dups.mpr (Or.inr (by simp [Object.vals]))
        · right
          rw [e] at hm
          exact Option.some.inj hm
  refine Good_update hg ho ?_ ?_ (by intro y hy; cases hy) (fun _ => rfl)
    (by intro d u e; cases e)
  · refine Ranked_update (S := fun _ => True) hr (fun _ _ _ _ _ _ => trivial) trivial ?_
    intro y hy
    right
    rcases hnew y hy with h1 | h1
    · rcases hold y h1 with h2 | h2
      · exact Or.inl h2
      · exact Or.inr ⟨h2, rfl⟩
    · exact Or.inr ⟨h1, rfl⟩
  · intro w hw
    have hw1 : w ∈ (Object.Cell f1 s1).dups := mem_dups.mpr (Or.inr hw)
    cases w with
    | none => exact Val_null P h
    | some y =>
      rcases hnew y hw1 with h1 | h1
      · rcases mem_dups.mp h1 with he | hm
        · cases he
        · exact Good_val_of_field hg ho hm
      · rw [h1]
        exact hv

/-- Overwriting a field of the pair at `a` by a structure duplicated after everything that
was in the heap at `N`. -/
theorem Good_update_copy {P : Nat → Prop} {h : Heap} {N : Nat} (hg : Good P h)
    (hi : AddrInc N h) {a : Nat} (ha : a < N) {f s f1 s1 : Ptr}
    (ho : h.obj? a = some (.Cell f s))
    (hf : f1 = f ∨ ∀ y, f1 = some y → N ≤ y ∧ y < h.next ∧ ¬ P y)
    (hs : s1 = s ∨ ∀ y, s1 = some y → N ≤ y ∧ y < h.next ∧ ¬ P y) :
    Good P (h.update a (.Cell f1 s1)) := by
  obtain ⟨r, hr⟩ := hg.ranked
  have hnew : ∀ y, some y ∈ (Object.Cell f1 s1).dups → some y ∈ (Object.Cell f s).dups ∨
      (N ≤ y ∧ y < h.next ∧ ¬ P y) := by
    intro y hy
    rcases mem_dups.mp hy with he | hm
    · cases he
    · simp only [Object.vals, List.mem_cons, List.mem_singleton, List.not_mem_nil,
        or_false] at hm
      rcases hm with hm | hm
      · rcases hf with e | e
        · left
          rw [hm, e]
          exact mem_dups.mpr (Or.inr (by simp [Object.vals]))
        · exact Or.inr (e y hm.symm)
      · rcases hs with e | e
        · left
          rw [hm, e]
          exact mem_dups.mpr (Or.inr (by simp [Object.vals]))
        · exact Or.inr (e y hm.symm)
  refine Good_update hg ho ?_ ?_ (by intro y hy; cases hy) (fun _ => rfl)
    (by intro d u e; cases e)
  · refine Ranked_update (S := fun x => x < N) hr (AddrInc_hidden_closed hi) ha ?_
    intro y hy
    rcases hnew y hy with h1 | h1
    · right
      rcases hr a _ y ho h1 with h2 | h2
      · exact Or.inl h2
      · exact Or.inr ⟨h2.1, rfl⟩
    · left
      exact ⟨by omega, h1.2.1⟩
  · intro w hw
    have hw1 : w ∈ (Object.Cell f1 s1).dups := mem_dups.mpr (Or.inr hw)
    cases w with
    | none => exact Val_null P h
    | some y =>
      rcases hnew y hw1 with h1 | h1
      · rcases mem_dups.mp h1 with he | hm
        · cases he
        · exact Good_val_of_field hg ho hm
      · intro b hb
        cases hb
        exact ⟨h1.2.2, h1.2.1⟩

/-- The duplicate that `set-car!` and `set-cdr!` store lies after everything that was in
the heap before the duplication. -/
theorem Copy_fresh_field {copy : CopyFn} (hcp : CopyGood copy) {P : Nat → Prop}
    {h h1 : Heap} {p q : Ptr} (hg : Good P h) (hc : copy h p = .ok (h1, q)) :
    Good P h1 ∧ Ext h h1 ∧ AddrInc h.next h1 ∧
      ∀ y, q = some y → h.next ≤ y ∧ y < h1.next ∧ ¬ P y := by
  obtain ⟨g1, x1, i1, r1, _⟩ := hcp P h p h1 q hg hc
  refine ⟨g1, x1, i1, ?_⟩
  intro y hy
  obtain ⟨e, hlt⟩ := r1 y hy
  refine ⟨by omega, hlt, ?_⟩
  intro hp
  have := hg.inHeap y hp
  omega

theorem SetCar_good {eval : CalcFn} {copy : CopyFn} (he : EvalGood eval)
    (hcp : CopyGood copy) {P : Nat → Prop} {fuel : Nat} {h h1 : Heap} {obj scope v : Ptr}
    (hg : Good P h) (hsc : ∀ a, scope = some a → P a)
    (hres : SetCar.call eval copy fuel h obj scope = .ok (h1, v)) : Out P h h1 v := by
  unfold SetCar.call at hres
  obtain ⟨vec, hvec, hres⟩ := bind_ok hres
  obtain ⟨_, _, hres⟩ := bind_ok hres
  obtain ⟨⟨h2, vals⟩, hcv, hres⟩ := bind_ok hres
  obtain ⟨P1, g1, hvals⟩ := operands_good he hg hsc hvec hcv
  simp only at hres
  split at hres
  · rename_i front back
    have hfv : Val P1 h2 front := hvals _ (List.mem_cons_self _ _)
    obtain ⟨⟨a, prev, second_⟩, hgc, hres⟩ := bind_ok hres
    obtain ⟨hfa, hoa⟩ := GetCell_ok hgc
    have hprev : Val P1 h2 prev := Good_val_of_field g1.1 hoa (by simp [Object.vals])
    simp only at hres
    split at hres
    · rename_i hfb
      simp only [pure, Except.pure, Except.ok.injEq, Prod.mk.injEq] at hres
      obtain ⟨rfl, rfl⟩ := hres
      have g2 : Good P1 (h2.update a (.Cell back second_)) :=
        Good_update_self g1.1 hoa (Or.inr (by rw [← hfb, hfa])) (Or.inl rfl)
          (by rw [← hfa]; exact hfv)
      have gr : Grows P1 h2 P1 (h2.update a (.Cell back second_)) :=
        Grows_step g2 (le_refl _)
      exact ⟨P1, Grows_seq g1 gr, Val_mono hprev gr⟩
    · obtain ⟨⟨h3, c⟩, hco, hres⟩ := bind_ok hres
      obtain ⟨g2, x2, i2, r2⟩ := Copy_fresh_field hcp g1.1 hco
      simp only at hres
      obtain ⟨⟨a2, f2, second2⟩, hgc2, hres⟩ := bind_ok hres
      obtain ⟨hfa2, hoa2⟩ := GetCell_ok hgc2
      rw [hfa] at hfa2
      cases hfa2
      simp only [pure, Except.pure, Except.ok.injEq, Prod.mk.injEq] at hres
      obtain ⟨rfl, rfl⟩ := hres
      have halt : a < h2.next := obj?_lt_next g1.1.fresh hoa
      have g3 : Good P1 (h3.update a (.Cell c second2)) :=
        Good_update_copy g2 i2 halt hoa2 (Or.inr r2) (Or.inl rfl)
      have gr : Grows P1 h2 P1 (h3.update a (.Cell c second2)) := Grows_step g3 x2.1
      exact ⟨P1, Grows_seq g1 gr, Val_mono hprev gr⟩
  · cases hres

theorem SetCdr_good {eval : CalcFn} {copy : CopyFn} (he : EvalGood eval)
    (hcp : CopyGood copy) {P : Nat → Prop} {fuel : Nat} {h h1 : Heap} {obj scope v : Ptr}
    (hg : Good P h) (hsc : ∀ a, scope = some a → P a)
    (hres : SetCdr.call eval copy fuel h obj scope = .ok (h1, v)) : Out P h h1 v := by
  unfold SetCdr.call at hres
  obtain ⟨vec, hvec, hres⟩ := bind_ok hres
  obtain ⟨_, _, hres⟩ := bind_ok hres
  obtain ⟨⟨h2, vals⟩, hcv, hres⟩ := bind_ok hres
  obtain ⟨P1, g1, hvals⟩ := operands_good he hg hsc hvec hcv
  simp only at hres
  split at hres
  · rename_i front back
    have hfv : Val P1 h2 front := hvals _ (List.mem_cons_self _ _)
    obtain ⟨⟨a, first_, prev⟩, hgc, hres⟩ := bind_ok hres
    obtain ⟨hfa, hoa⟩ := GetCell_ok hgc
    have hprev : Val P1 h2 prev := Good_val_of_field g1.1 hoa (by simp [Object.vals])
    simp only at hres
    split at hres
    · rename_i hfb
      simp only [pure, Except.pure, Except.ok.injEq, Prod.mk.injEq] at hres
      obtain ⟨rfl, rfl⟩ := hres
      have g2 : Good P1 (h2.update a (.Cell first_ back)) :=
        Good_update_self g1.1 hoa (Or.inl rfl) (Or.inr (by rw [← hfb, hfa]))
          (by rw [← hfa]; exact hfv)
      have gr : Grows P1 h2 P1 (h2.update a (.Cell first_ back)) :=
        Grows_step g2 (le_refl _)
      exact ⟨P1, Grows_seq g1 gr, Val_mono hprev gr⟩
    · obtain ⟨⟨h3, c⟩, hco, hres⟩ := bind_ok hres
      obtain ⟨g2, x2, i2, r2⟩ := Copy_fresh_field hcp g1.1 hco
      simp only at hres
      obtain ⟨⟨a2, first2, s2⟩, hgc2, hres⟩ := bind_ok hres
      obtain ⟨hfa2, hoa2⟩ := GetCell_ok hgc2
      rw [hfa] at hfa2
      cases hfa2
      simp only [pure, Except.pure, Except.ok.injEq, Prod.mk.injEq] at hres
      obtain ⟨rfl, rfl⟩ := hres
      have halt : a < h2.next := obj?_lt_next g1.1.fresh hoa
      have g3 : Good P1 (h3.update a (.Cell first2 c)) :=
        Good_update_copy g2 i2 halt hoa2 (Or.inl rfl) (Or.inr r2)
      have gr : Grows P1 h2 P1 (h3.update a (.Cell first2 c)) := Grows_step g3 x2.1
      exact ⟨P1, Grows_seq g1 gr, Val_mono hprev gr⟩
  · cases hres

theorem bindArgs_good {P : Nat → Prop} {newscope : Ptr}
    (hsc : ∀ a, newscope = some a → P a) :
    ∀ (names vals : List Ptr) (h h1 : Heap), Good P h → (∀ v ∈ vals, Val P h v) →
      bindArgs newscope h names vals = .ok h1 → Grows P h P h1 := by
  intro names
  induction names with
  | nil =>
    intro vals h h1 hg _ hb
    simp only [bindArgs, Except.ok.injEq] at hb
    subst hb
    exact Grows_same hg
  | cons n names ih =>
    intro vals h h1 hg hvs hb
    cases vals with
    | nil =>
      simp only [bindArgs, Except.ok.injEq] at hb
      subst hb
      exact Grows_same hg
    | cons x vals =>
      simp only [bindArgs] at hb
      split at hb
      · rename_i h2 e1
        have g1 := DefineHelper_good hg hsc (hvs x (List.mem_cons_self _ _)) e1
        exact Grows_seq g1 (ih vals h2 h1 g1.1
          (fun y hy => Val_mono (hvs y (List.mem_cons_of_mem _ hy)) g1) hb)
      · cases hb

theorem Lambda_good {eval : CalcFn} {copy : CopyFn} (he : EvalGood eval)
    (hcp : CopyGood copy) {P : Nat → Prop} {fuel : Nat} {h h1 : Heap} {self : Nat}
    {obj scope v : Ptr} (hg : Good P h) (hsc : ∀ a, scope = some a → P a)
    (hown : ∀ names body c, h.obj? self = some (.Lambda names body (some c)) → P c)
    (hres : Lambda.call eval copy fuel h self obj scope = .ok (h1, v)) : Out P h h1 v := by
  unfold Lambda.call at hres
  split at hres
  · rename_i names body sc ho
    have hnew : ∀ a, sc = some a → P a := by
      intro a ha
      subst ha
      exact hown names body a ho
    obtain ⟨args, hargs, hres⟩ := bind_ok hres
    obtain ⟨_, _, hres⟩ := bind_ok hres
    obtain ⟨⟨h2, vals⟩, hcv, hres⟩ := bind_ok hres
    obtain ⟨P1, g1, hvals⟩ := operands_good he hg hsc hargs hcv
    have hnew1 : ∀ a, sc = some a → P1 a := fun a ha => g1.2.1 a (hnew a ha)
    simp only at hres
    obtain ⟨h3, hb, hres⟩ := bind_ok hres
    have g2 := bindArgs_good hnew1 names vals h2 h3 g1.1 hvals hb
    obtain ⟨⟨h4, cb⟩, hcc, hres⟩ := bind_ok hres
    have o3 : Outs P1 h3 h4 cb := by
      unfold CopyAndCalcVector at hcc
      split at hcc
      · rename_i h5 qs e1
        obtain ⟨g4, x4, _, r4⟩ := CopyVector_good hcp body h3 h5 qs g2.1 e1
        have gr4 : Grows P1 h3 P1 h5 := Grows_step g4 x4.1
        refine Outs_seq gr4 (CalcVector_good he qs P1 h5 h4 cb g4 ?_ hnew1 hcc)
        intro x hx
        cases x with
        | none => exact Val_null P1 h5
        | some b =>
          obtain ⟨hb1, hb2⟩ := r4 b hx
          exact Val_new g2.1.inHeap hb1 hb2
      · cases hcc
    simp only at hres
    split at hres
    · rename_i r hlast
      simp only [pure, Except.pure, Except.ok.injEq, Prod.mk.injEq] at hres
      obtain ⟨rfl, rfl⟩ := hres
      obtain ⟨P2, g3, hcb⟩ := o3
      exact ⟨P2, Grows_seq g1 (Grows_seq g2 g3), hcb _ (List.mem_of_mem_getLast? hlast)⟩
    · cases hres
  · cases hres

theorem Builtin_good {eval : CalcFn} {copy : CopyFn} (he : EvalGood eval)
    (hcp : CopyGood copy) (kind : Builtin) {P : Nat → Prop} {fuel : Nat} {h h1 : Heap}
    {obj scope v : Ptr} (hg : Good P h) (hsc : ∀ a, scope = some a → P a)
    (hres : kind.call eval copy fuel h obj scope = .ok (h1, v)) : Out P h h1 v := by
  cases kind <;> simp only [Builtin.call] at hres
  case Quote => exact Quote_good hg hres
  case IsPair => exact predicate_good he hg hsc hres
  case IsNull => exact predicate_good he hg hsc hres
  case IsList => exact IsList_good he hg hsc hres
  case List => exact List_good he hg hsc hres
  case Cons => exact Cons_good he hg hsc hres
  case Car => exact Car_good he hg hsc hres
  case Cdr => exact Cdr_good he hg hsc hres
  case ListRef => exact ListRef_good he hg hsc hres
  case ListTail => exact ListTail_good he hg hsc hres
  case IsNumber => exact predicate_good he hg hsc hres
  case EqualTo => exact compare_good he hg hsc hres
  case Greater => exact compare_good he hg hsc hres
  case Less => exact compare_good he hg hsc hres
  case GreaterEqual => exact compare_good he hg hsc hres
  case LessEqual => exact compare_good he hg hsc hres
  case Plus => exact fold_good he hg hsc hres
  case Minus => exact irrev_good he hg hsc hres
  case Multiplies => exact fold_good he hg hsc hres
  case Divides => exact irrev_good he hg hsc hres
  case Max => exact fold1_good he hg hsc hres
  case Min => exact fold1_good he hg hsc hres
  case Abs => exact Abs_good he hg hsc hres
  case IsBoolean => exact predicate_good he hg hsc hres
  case Not => exact Not_good he hg hsc hres
  case And => exact And_good he hg hsc hres
  case Or => exact Or_good he hg hsc hres
  case Define => exact Define_good he hcp hg hsc hres
  case IsSymbol => exact predicate_good he hg hsc hres
  case Set => exact Set_good he hcp hg hsc hres
  case SetCar => exact SetCar_good he hcp hg hsc hres
  case SetCdr => exact SetCdr_good he hcp hg hsc hres
  case If => exact If_good he hg hsc hres
  case CreateLambda => exact CreateLambda_good hg hsc hres

end Scheme
namespace Scheme

/-! ## The evaluator keeps the invariant -/

set_option maxRecDepth 100000

theorem isCell_inv {o : Object} (hc : o.isCell = true) : ∃ f s, o = .Cell f s := by
  cases o with
  | Cell f s => exact ⟨f, s, rfl⟩
  | _ => simp [Object.isCell] at hc

/-- The own frame of a closure that `Copy` returns was made during that call, nothing but
the closure refers to it, and it is not among the closure's parameters and body. -/
theorem Copy_closure_own {fuel : Nat} {P : Nat → Prop} {h h1 : Heap} {p : Ptr} {f1 : Nat}
    {names body : List Ptr} {sc : Ptr} (hg : Good P h)
    (hc : Copy fuel h p = .ok (h1, some f1))
    (ho : h1.obj? f1 = some (.Lambda names body sc)) :
    ∃ s1, sc = some s1 ∧ h.next < s1 ∧ s1 < h1.next ∧
      (∀ a o y, h1.obj? a = some o → some y ∈ o.dups → y = s1 → a = f1) ∧
      (∀ v ∈ names ++ body, v ≠ some s1) := by
  have hf := hg.fresh
  cases p with
  | none =>
    cases fuel <;> simp [Copy] at hc
  | some a =>
    cases fuel with
    | zero => simp [Copy] at hc
    | succ k =>
      rw [Copy] at hc
      split at hc
      · cases hc
      · simp only [Except.ok.injEq, Prod.mk.injEq, Option.some.injEq, Make_snd] at hc
        obtain ⟨rfl, rfl⟩ := hc
        rw [obj?_Make_new hf] at ho
        cases ho
      · simp only [Except.ok.injEq, Prod.mk.injEq, Option.some.injEq, Make_snd] at hc
        obtain ⟨rfl, rfl⟩ := hc
        rw [obj?_Make_new hf] at ho
        cases ho
      · simp only [Except.ok.injEq, Prod.mk.injEq, Option.some.injEq, Make_snd] at hc
        obtain ⟨rfl, rfl⟩ := hc
        rw [obj?_Make_new hf] at ho
        cases ho
      · simp only [Except.ok.injEq, Prod.mk.injEq, Option.some.injEq, Make_snd] at hc
        obtain ⟨rfl, rfl⟩ := hc
        rw [obj?_Make_new hf] at ho
        cases ho
      · simp only at hc
        split at hc
        · cases hc
        · split at hc
          · cases hc
          · simp only [Except.ok.injEq, Prod.mk.injEq, Option.some.injEq, Make_snd] at hc
            obtain ⟨rfl, rfl⟩ := hc
            rw [obj?_update] at ho
            simp only [if_true] at ho
            rename_i h3 s _
            cases hx : h3.obj? h.next with
            | none => rw [hx] at ho; cases ho
            | some o => rw [hx] at ho; cases ho
      · rename_i data_ upper_ hoa
        simp only at hc
        split at hc
        · cases hc
        · rename_i h2 e1
          simp only [Except.ok.injEq, Prod.mk.injEq, Option.some.injEq, Make_snd] at hc
          obtain ⟨rfl, rfl⟩ := hc
          obtain ⟨acc1, hacc, _⟩ := copyBindings_frame k h.next upper_ data_ _ h2 []
            (Fresh_Make hf _) (obj?_Make_new hf _) e1
          rw [hacc] at ho
          cases ho
      · rename_i names0 body0 scope0 hoa
        simp only [Make_snd] at hc
        have g0 : Good P (h.Make (.Lambda [] [] none)).1 :=
          Good_Make hg _ rfl (by intro v hv; cases hv) (fun d u e => by cases e)
        have x0 : Ext h (h.Make (.Lambda [] [] none)).1 := Ext.alloc hg.fresh _
        have n0 : (h.Make (.Lambda [] [] none)).1.next = h.next + 1 := rfl
        split at hc
        · cases hc
        · rename_i hA names1 e1
          obtain ⟨gA, xA, iA, rA⟩ := CopyVector_good (Copy_good k) names0 _ hA names1 g0 e1
          rw [n0] at rA
          split at hc
          · cases hc
          · rename_i hB body1 e2
            obtain ⟨gB, xB, iB, rB⟩ := CopyVector_good (Copy_good k) body0 hA hB body1 gA e2
            split at hc
            · cases hc
            · rename_i sc0
              split at hc
              · cases hc
              · rename_i hC sc1 e3
                obtain ⟨gC, xC, iC, rC, kC⟩ := Copy_good k P hB (some sc0) hC sc1 gB e3
                simp only [Except.ok.injEq, Prod.mk.injEq, Option.some.injEq] at hc
                obtain ⟨rfl, rfl⟩ := hc
                have hA1 : h.next + 1 ≤ hA.next := by
                  have := xA.1
                  omega
                have hAB : hA.next ≤ hB.next := xB.1
                have hBC : hB.next ≤ hC.next := xC.1
                have oC : hC.obj? h.next = some (.Lambda [] [] none) :=
                  (((xA.andThen xB).andThen xC).2.2 h.next (by rw [n0]; omega)).trans
                    (obj?_Make_new hg.fresh _)
                rw [obj?_update_self _ (by rw [oC]; rfl)] at ho
                simp only [Option.some.injEq, Object.Lambda.injEq] at ho
                obtain ⟨rfl, rfl, rfl⟩ := ho
                have cC := Copy_ok_post gB.fresh e3
                cases sc1 with
                | none => exact absurd (cC.2.2.2 rfl) (by simp)
                | some s1 =>
                  obtain ⟨rfl, hs1lt⟩ := rC s1 rfl
                  have hnc : ∀ f s, hC.obj? hB.next ≠ some (.Cell f s) := by
                    intro f s hcell
                    obtain ⟨f0, s0, hsc⟩ := kC sc0 hB.next f s rfl rfl hcell
                    have hlt : sc0 < h.next :=
                      hg.below a _ sc0 hoa (mem_dups.mpr (Or.inl rfl))
                    rw [((x0.andThen xA).andThen xB).2.2 sc0 hlt] at hsc
                    exact hg.ownNotCell a _ sc0 hoa rfl f0 s0 hsc
                  refine ⟨hB.next, rfl, by omega, (by show hB.next < hC.next; exact hs1lt),
                    ?_, ?_⟩
                  · intro a1 o y ho1 hy hys
                    subst hys
                    by_contra hne
                    rw [obj?_update_other _ _ hne] at ho1
                    by_cases hlt : a1 < hB.next
                    · rw [xC.2.2 a1 hlt] at ho1
                      have := gB.below a1 o _ ho1 hy
                      omega
                    · rcases iC a1 o _ ho1 (by omega) hy with h1 | ⟨h1, h2⟩
                      · omega
                      · obtain ⟨f, s, rfl⟩ := isCell_inv h2
                        rw [← h1] at ho1
                        exact hnc f s ho1
                  · intro v hv
                    rcases List.mem_append.mp hv with hv | hv
                    · intro e
                      subst e
                      have := (rA _ hv).2
                      omega
                    · intro e
                      subst e
                      have := (rB _ hv).2
                      omega

/-- Hiding the duplicate of a closure that is about to be invoked, together with its own
frame, keeps the invariant. -/
theorem Grows_closure {fuel : Nat} {P : Nat → Prop} {h h1 : Heap} {p : Ptr} {f1 : Nat}
    {names body : List Ptr} {sc : Ptr} (hg : Good P h)
    (hc : Copy fuel h p = .ok (h1, some f1))
    (ho : h1.obj? f1 = some (.Lambda names body sc)) :
    ∃ s1, sc = some s1 ∧ Grows P h (fun x => P x ∨ x = f1 ∨ x = s1) h1 := by
  obtain ⟨g1, x1, i1, r1, _⟩ := Copy_good fuel P h p h1 (some f1) hg hc
  obtain ⟨hf1, hlt⟩ := r1 f1 rfl
  obtain ⟨s1, rfl, hs1, hs1lt, hA, hB⟩ := Copy_closure_own hg hc ho
  have hroot : ∀ a o y, h1.obj? a = some o → some y ∈ o.dups → y ≠ f1 := by
    intro a o y hoa hy hyf
    by_cases hlt1 : a < h.next
    · rw [x1.2.2 a hlt1] at hoa
      have := hg.below a o y hoa hy
      omega
    · rcases i1 a o y hoa (by omega) hy with h2 | ⟨h2, h3⟩
      · omega
      · have haf : a = f1 := by rw [← h2, hyf]
        rw [haf, ho] at hoa
        cases hoa
        simp [Object.isCell] at h3
  refine ⟨s1, rfl, ⟨?_, fun a ha => Or.inl ha, ?_, x1.1⟩⟩
  · refine ⟨g1.fresh, g1.distinct, g1.below, g1.ranked, ?_, ?_, g1.ownNotCell, ?_, ?_⟩
    · intro a o y hoa hy hp
      rcases hp with hp | hp | hp
      · exact g1.noRef a o y hoa hy hp
      · exact hroot a o y hoa (mem_dups.mpr (Or.inr hy)) hp
      · have ha := hA a o y hoa (mem_dups.mpr (Or.inr hy)) hp
        rw [ha, ho] at hoa
        cases hoa
        exact hB _ hy (by rw [hp])
    · intro a o y hoa hown hp
      rcases hp with hp | hp | hp
      · exact Or.inl (g1.ownClosed a o y hoa hown hp)
      · exact absurd hp (hroot a o y hoa (mem_dups.mpr (Or.inl hown.symm)))
      · exact Or.inr (Or.inl (hA a o y hoa (mem_dups.mpr (Or.inl hown.symm)) hp))
    · intro a d u hoa
      exact Or.inl (g1.upperIn a d u hoa)
    · intro a hp
      rcases hp with hp | hp | hp
      · exact g1.inHeap a hp
      · rw [hp]
        exact hlt
      · rw [hp]
        exact hs1lt
  · intro a hp
    rcases hp with hp | hp | hp
    · exact Or.inl hp
    · exact Or.inr (by omega)
    · exact Or.inr (by omega)

theorem Calc_good : ∀ fuel : Nat, EvalGood (Calc fuel) := by
  intro fuel
  induction fuel with
  | zero =>
    intro P h obj scope h1 v _ _ _ hc
    simp [Calc] at hc
  | succ k ih =>
    intro P h obj scope h1 v hg hobj hsc hc
    cases obj with
    | none => simp [Calc] at hc
    | some a =>
      rw [Calc] at hc
      split at hc
      · simp only [Except.ok.injEq, Prod.mk.injEq] at hc
        obtain ⟨rfl, rfl⟩ := hc
        exact Out_of_val hg hobj
      · simp only [Except.ok.injEq, Prod.mk.injEq] at hc
        obtain ⟨rfl, rfl⟩ := hc
        exact Out_of_val hg hobj
      · split at hc
        · rename_i owner res e
          simp only [Except.ok.injEq, Prod.mk.injEq] at hc
          obtain ⟨rfl, rfl⟩ := hc
          exact Out_of_val hg (Get_good hg _ scope _ owner _ hsc e).2
        · cases hc
      · rename_i first_ second_ hoa
        split at hc
        · rename_i h2 func e1
          obtain ⟨P1, g1, _⟩ := ih P h first_ scope h2 func hg
            (Good_val_of_field hg hoa (by simp [Object.vals])) hsc e1
          have hsc1 : ∀ b, scope = some b → P1 b := fun b hb => g1.2.1 b (hsc b hb)
          split at hc
          · rename_i f0 args hoa2
            split at hc
            · cases hc
            · split at hc
              · rename_i h3 func1 e2
                obtain ⟨g2, x2, _, _, _⟩ := Copy_good k P1 h2 func h3 func1 g1.1 e2
                have gr2 : Grows P1 h2 P1 h3 := Grows_step g2 x2.1
                unfold Apply at hc
                split at hc
                · rename_i f
                  split at hc
                  · exact Out_seq g1 (Out_seq gr2
                      (Builtin_good ih (Copy_good k) _ g2 hsc1 hc))
                  · rename_i names body sc hof
                    obtain ⟨s1, hs1, g3⟩ := Grows_closure g1.1 e2 hof
                    refine Out_seq g1 (Out_seq g3 (Lambda_good ih (Copy_good k) g3.1
                      (fun b hb => Or.inl (hsc1 b hb)) ?_ hc))
                    intro names1 body1 c ho1
                    rw [hof] at ho1
                    simp only [Option.some.injEq, Object.Lambda.injEq] at ho1
                    have : some s1 = some c := hs1.symm.trans ho1.2.2
                    exact Or.inr (Or.inr (Option.some.inj this).symm)
                  · cases hc
                · cases hc
              · cases hc
          · cases hc
        · cases hc
      · cases hc

end Scheme
namespace Scheme

/-! ## The parser, the collector and the constructor keep the invariant -/

set_option maxRecDepth 100000

theorem ReadListLoop_good {read : ReadFn}
    (hr : ∀ P h t h1 t1 x, Good P h → read h t = .ok (h1, t1, x) → Out P h h1 x) :
    ∀ (fuel : Nat) (P : Nat → Prop) (h : Heap) (t : Tokenizer) (list : List Ptr) (h1 : Heap)
      (t1 : Tokenizer) (list1 : List Ptr) (b : Bool), Good P h → (∀ x ∈ list, Val P h x) →
      ReadListLoop read fuel h t list = .ok (h1, t1, list1, b) → Outs P h h1 list1 := by
  intro fuel
  induction fuel with
  | zero =>
    intro P h t list h1 t1 list1 b _ _ hl
    simp [ReadListLoop] at hl
  | succ k ih =>
    intro P h t list h1 t1 list1 b hg hxs hl
    simp only [ReadListLoop] at hl
    split at hl
    · cases hl
    · split at hl
      · simp only [Except.ok.injEq, Prod.mk.injEq] at hl
        obtain ⟨rfl, _, rfl, _⟩ := hl
        exact ⟨P, Grows_same hg, hxs⟩
      · split at hl
        · split at hl
          · cases hl
          · split at hl
            · cases hl
            · rename_i h2 t2 x e1
              split at hl
              · cases hl
              · simp only [Except.ok.injEq, Prod.mk.injEq] at hl
                obtain ⟨rfl, _, rfl, _⟩ := hl
                obtain ⟨P1, g1, hx⟩ := hr P h _ h2 t2 x hg e1
                refine ⟨P1, g1, ?_⟩
                intro y hy
                rcases List.mem_append.mp hy with hy | hy
                · exact Val_mono (hxs y hy) g1
                · rw [List.mem_singleton.mp hy]
                  exact hx
        · split at hl
          · cases hl
          · rename_i h2 t2 x e1
            obtain ⟨P1, g1, hx⟩ := hr P h _ h2 t2 x hg e1
            refine Outs_seq g1 (ih P1 h2 t2 (list ++ [x]) h1 t1 list1 b g1.1 ?_ hl)
            intro y hy
            rcases List.mem_append.mp hy with hy | hy
            · exact Val_mono (hxs y hy) g1
            · rw [List.mem_singleton.mp hy]
              exact hx

theorem Outs_fromBack {P : Nat → Prop} {h h2 : Heap} {list : List Ptr} {xs : List Ptr}
    {right : Ptr} (o : Outs P h h2 list) (hxs : ∀ x ∈ xs, x ∈ list)
    (hright : right = none ∨ right ∈ list) :
    Out P h (fromBack h2 xs right).1 (fromBack h2 xs right).2 := by
  obtain ⟨P1, g1, hv⟩ := o
  refine Out_seq g1 (fromBack_good xs h2 right g1.1 (fun x hx => hv x (hxs x hx)) ?_)
  rcases hright with e | e
  · rw [e]
    exact Val_null P1 h2
  · exact hv _ e

theorem ReadList_good {read : ReadFn}
    (hr : ∀ P h t h1 t1 x, Good P h → read h t = .ok (h1, t1, x) → Out P h h1 x)
    {fuel : Nat} {P : Nat → Prop} {h h1 : Heap} {t t1 : Tokenizer} {x : Ptr} (hg : Good P h)
    (hres : ReadList read fuel h t = .ok (h1, t1, x)) : Out P h h1 x := by
  unfold ReadList at hres
  obtain ⟨cur_token, _, hres⟩ := bind_ok hres
  split at hres
  · obtain ⟨t2, _, hres⟩ := bind_ok hres
    simp only [pure, Except.pure, Except.ok.injEq, Prod.mk.injEq] at hres
    obtain ⟨rfl, _, rfl⟩ := hres
    exact Out_of_val hg (Val_null P h)
  · obtain ⟨⟨h2, t2, y⟩, e1, hres⟩ := bind_ok hres
    simp only at hres
    obtain ⟨⟨h3, t3, list, is_pair⟩, e2, hres⟩ := bind_ok hres
    simp only at hres
    obtain ⟨cur, _, hres⟩ := bind_ok hres
    obtain ⟨P1, g1, hy⟩ := hr P h t h2 t2 y hg e1
    have o2 : Outs P h h3 list := Outs_seq g1 (ReadListLoop_good hr fuel P1 h2 t2 [y] h3 t3
      list is_pair g1.1 (by intro z hz; rw [List.mem_singleton.mp hz]; exact hy) e2)
    split at hres
    · cases hres
    · obtain ⟨t4, _, hres⟩ := bind_ok hres
      split at hres
      · split at hres
        · rename_i right revInit hrev
          simp only [pure, Except.pure, Except.ok.injEq, Prod.mk.injEq] at hres
          obtain ⟨rfl, _, rfl⟩ := hres
          have hmem : ∀ z, z ∈ right :: revInit → z ∈ list := by
            intro z hz
            rw [← hrev] at hz
            exact List.mem_reverse.mp hz
          exact Outs_fromBack o2 (fun z hz => hmem z (List.mem_cons_of_mem _ hz))
            (Or.inr (hmem right (List.mem_cons_self _ _)))
        · cases hres
      · simp only [pure, Except.pure, Except.ok.injEq, Prod.mk.injEq] at hres
        obtain ⟨rfl, _, rfl⟩ := hres
        exact Outs_fromBack o2 (fun z hz => List.mem_reverse.mp hz) (Or.inl rfl)

theorem Read_good : ∀ (fuel : Nat) (P : Nat → Prop) (h : Heap) (t : Tokenizer) (h1 : Heap)
    (t1 : Tokenizer) (x : Ptr), Good P h → Read fuel h t = .ok (h1, t1, x) → Out P h h1 x := by
  intro fuel
  induction fuel with
  | zero =>
    intro P h t h1 t1 x _ hres
    simp [Read] at hres
  | succ k ih =>
    intro P h t h1 t1 x hg hres
    simp only [Read] at hres
    split at hres
    · cases hres
    · split at hres
      · cases hres
      · split at hres
        · exact ReadList_good (ih) hg hres
        · cases hres
        · split at hres
          · cases hres
          · rename_i h2 t2 obj e1
            simp only [Except.ok.injEq, Prod.mk.injEq] at hres
            obtain ⟨rfl, _, rfl⟩ := hres
            have o0 : Out P h (h.Make (.Symbol "quote")).1 (some (h.Make (.Symbol "quote")).2) :=
              Out_atom hg _ rfl rfl (by intro d u e; cases e)
            obtain ⟨P0, g0, hq⟩ := o0
            obtain ⟨P1, g1, hobj⟩ := ih P0 _ _ h2 t2 obj g0.1 e1
            have hq1 := Val_mono hq g1
            have o2 : Out P1 h2 (h2.Make (.Cell obj none)).1
                (some (h2.Make (.Cell obj none)).2) := by
              refine Out_Make g1.1 _ rfl ?_ (by intro d u e; cases e)
              intro w hw
              simp only [Object.vals, List.mem_cons, List.mem_singleton, List.not_mem_nil,
                or_false] at hw
              rcases hw with rfl | rfl
              · exact hobj
              · exact Val_null P1 h2
            obtain ⟨P2, g2, hs⟩ := o2
            have hq2 := Val_mono hq1 g2
            refine Out_seq g0 (Out_seq g1 (Out_seq g2 (Out_Make g2.1 _ rfl ?_
              (by intro d u e; cases e))))
            intro w hw
            simp only [Object.vals, List.mem_cons, List.mem_singleton, List.not_mem_nil,
              or_false] at hw
            rcases hw with rfl | rfl
            · exact hq2
            · exact hs
        · cases hres
        · simp only [Except.ok.injEq, Prod.mk.injEq] at hres
          obtain ⟨rfl, _, rfl⟩ := hres
          exact Out_atom hg _ rfl rfl (by intro d u e; cases e)
        · simp only [Except.ok.injEq, Prod.mk.injEq] at hres
          obtain ⟨rfl, _, rfl⟩ := hres
          exact Out_atom hg _ rfl rfl (by intro d u e; cases e)
        · simp only [Except.ok.injEq, Prod.mk.injEq] at hres
          obtain ⟨rfl, _, rfl⟩ := hres
          exact Out_atom hg _ rfl rfl (by intro d u e; cases e)
        · cases hres

/-- The collector only removes objects: what is left is where it was. -/
theorem RemoveTrash_sub {fuel : Nat} {h h3 : Heap} {root : Nat} (hd : h.Distinct)
    (hf : h.Fresh) (hr : h.RemoveTrash fuel root = .ok h3) :
    h3.next = h.next ∧ h3.Fresh ∧ h3.Distinct ∧
      ∀ a o, h3.obj? a = some o → h.obj? a = some o := by
  have hr1 : (match Mark fuel
        { h with data_ := h.data_.map (fun s => { s with used_ := false }) } root with
      | .ok h1 => Except.ok { h1 with data_ := sweep h1.data_.length 0 h1.data_ }
      | .error e => .error e) = .ok h3 := hr
  split at hr1
  · rename_i h1 e1
    simp only [Except.ok.injEq] at hr1
    subst hr1
    have m0 : MarkLE { h with data_ := h.data_.map (fun s => { s with used_ := false }) } h :=
      ⟨rfl, forall₂_unmarkAll _⟩
    have post := Mark_post fuel _ root h1 e1
    have m1 : MarkLE { h with data_ := h.data_.map (fun s => { s with used_ := false }) } h1 :=
      post.1.1
    have haddr : h1.data_.map Slot.addr = h.data_.map Slot.addr := by
      rw [forall₂_addr m1.2, ← forall₂_addr m0.2]
    have hn1 : (h1.data_.map Slot.addr).Nodup := by
      rw [haddr]
      exact hd
    have hsweep := sweep_perm h1.data_.length 0 h1.data_ (by omega) (by simp)
    have hfind := find_of_perm_filter hn1 hsweep
    have hnext : h1.next = h.next := m1.1
    refine ⟨hnext, ?_, ?_, ?_⟩
    · intro s hs
      have hs1 : s ∈ h1.data_ := (List.mem_filter.mp ((hsweep.mem_iff).mp hs)).1
      have : s.addr ∈ h.data_.map Slot.addr := by
        rw [← haddr]
        exact List.mem_map_of_mem _ hs1
      obtain ⟨s0, hs0, e0⟩ := List.mem_map.mp this
      have := hf s0 hs0
      show s.addr < h1.next
      rw [hnext, ← e0]
      exact this
    · show ((sweep h1.data_.length 0 h1.data_).map Slot.addr).Nodup
      rw [(hsweep.map Slot.addr).nodup_iff]
      exact hn1.sublist ((List.filter_sublist _).map Slot.addr)
    · intro a o ho
      have e2 : h.obj? a = h1.obj? a := by rw [m1.obj?, m0.obj?]
      rw [e2]
      have e := hfind a
      unfold Heap.obj? Heap.find at ho ⊢
      simp only at ho
      rw [e] at ho
      cases hx : h1.data_.find? (fun s => s.addr == a) with
      | none => rw [hx] at ho; cases ho
      | some s =>
        rw [hx] at ho
        simp only at ho
        split at ho
        · exact ho
        · cases ho
  · cases hr1

theorem Good_of_sub {P : Nat → Prop} {h h3 : Heap} (hg : Good P h) (hn : h3.next = h.next)
    (hf : h3.Fresh) (hd : h3.Distinct) (hs : ∀ a o, h3.obj? a = some o → h.obj? a = some o) :
    Good P h3 := by
  obtain ⟨r, hr⟩ := hg.ranked
  refine ⟨hf, hd, ?_, ⟨r, fun a o y ho hy => hr a o y (hs a o ho) hy⟩, ?_, ?_, ?_, ?_, ?_⟩
  · intro a o y ho hy
    rw [hn]
    exact hg.below a o y (hs a o ho) hy
  · intro a o y ho hy
    exact hg.noRef a o y (hs a o ho) hy
  · intro a o y ho hy hp
    exact hg.ownClosed a o y (hs a o ho) hy hp
  · intro a o y ho hy f s hc
    exact hg.ownNotCell a o y (hs a o ho) hy f s (hs y _ hc)
  · intro a d u ho
    exact hg.upperIn a d u (hs a _ ho)
  · intro a hp
    rw [hn]
    exact hg.inHeap a hp

theorem RemoveTrash_good {P : Nat → Prop} {fuel : Nat} {h h3 : Heap} {root : Nat}
    (hg : Good P h) (hr : h.RemoveTrash fuel root = .ok h3) : Good P h3 := by
  obtain ⟨hn, hf, hd, hs⟩ := RemoveTrash_sub hg.distinct hg.fresh hr
  exact Good_of_sub hg hn hf hd hs

theorem seedGlobal_good {P : Nat → Prop} {h : Heap} {g : Nat} (hg : Good P h) (hp : P g)
    (b : String × Builtin) : Good P (seedGlobal g h b) := by
  unfold seedGlobal
  split
  · rename_i h1 e
    have g1 : Good P (h.Make (.Functor b.2)).1 :=
      Good_Make hg _ rfl (by intro v hv; cases hv) (by intro d u e; cases e)
    exact Good_Set g1 hp (Val_new hg.inHeap (le_refl _) (Nat.lt_succ_self _)) e
  · exact hg

theorem foldl_seedGlobal_good {P : Nat → Prop} {g : Nat} (hp : P g) :
    ∀ (l : List (String × Builtin)) (h : Heap), Good P h →
      Good P (l.foldl (seedGlobal g) h) := by
  intro l
  induction l with
  | nil => intro h hg; exact hg
  | cons b l ih => intro h hg; exact ih _ (seedGlobal_good hg hp b)

theorem emptyFrame_obj {a : Nat} {o : Object}
    (ho : ((Heap.mk [] 0).Make (.NameSpace [] none)).1.obj? a = some o) :
    a = 0 ∧ o = .NameSpace [] none := by
  by_cases ha : a = 0
  · subst ha
    rw [obj?_Make_new (by intro s hs; cases hs)] at ho
    exact ⟨rfl, (Option.some.inj ho).symm⟩
  · rw [obj?_Make_old _ _ ha] at ho
    simp [Heap.obj?, Heap.find] at ho

/-- The heap of a fresh interpreter satisfies the invariant, with the global frame as the
only hidden object. -/
theorem Interpreter_new_good :
    Good (fun x => x = Interpreter.new.global_namespace_) Interpreter.new.heap := by
  have g0 : Good (fun x => x = 0) ((Heap.mk [] 0).Make (.NameSpace [] none)).1 := by
    refine ⟨by decide, by decide, ?_, ⟨fun _ => 0, ?_⟩, ?_, ?_, ?_, ?_, ?_⟩
    · intro a o y ho hy
      obtain ⟨_, rfl⟩ := emptyFrame_obj ho
      rcases mem_dups.mp hy with he | hm
      · cases he
      · cases hm
    · intro a o y ho hy
      obtain ⟨_, rfl⟩ := emptyFrame_obj ho
      rcases mem_dups.mp hy with he | hm
      · cases he
      · cases hm
    · intro a o y ho hy
      obtain ⟨_, rfl⟩ := emptyFrame_obj ho
      cases hy
    · intro a o y ho hy
      obtain ⟨_, rfl⟩ := emptyFrame_obj ho
      cases hy
    · intro a o y ho hy
      obtain ⟨_, rfl⟩ := emptyFrame_obj ho
      cases hy
    · intro a d u ho
      obtain ⟨_, e⟩ := emptyFrame_obj ho
      cases e
    · intro a ha
      rw [ha]
      exact Nat.zero_lt_one
  have key := foldl_seedGlobal_good (P := fun x => x = 0) (g := 0) rfl globalBindings _ g0
  unfold Interpreter.new
  dsimp only
  exact key

end Scheme
namespace Scheme

/-! ## `Copy` and `GetString` return on a heap whose only cycles are self-references -/

set_option maxRecDepth 100000

theorem Set_ne_OutOfFuel (h : Heap) (scope : Ptr) (name : String) (obj : Ptr) :
    NameSpace.Set h scope name obj ≠ .error .OutOfFuel := by
  intro hX
  unfold NameSpace.Set at hX
  split at hX
  · cases hX
  · split at hX <;> cases hX

theorem CopyVector_ne_OutOfFuel {copy : CopyFn} {h0 : Heap} {Q : Ptr → Prop}
    (hc : ∀ h p, Ext h0 h → Q p → copy h p ≠ .error .OutOfFuel)
    (he : ∀ h p h1 q, h.Fresh → copy h p = .ok (h1, q) → Ext h h1) :
    ∀ (ps : List Ptr) (h : Heap), Ext h0 h → (∀ p ∈ ps, Q p) →
      CopyVector copy h ps ≠ .error .OutOfFuel := by
  intro ps
  induction ps with
  | nil =>
    intro h _ _ hX
    simp [CopyVector] at hX
  | cons p ps ih =>
    intro h x hq hX
    simp only [CopyVector] at hX
    split at hX
    · rename_i h1 q e1
      have x1 : Ext h0 h1 := x.andThen (he h p h1 q x.2.1 e1)
      split at hX
      · cases hX
      · rename_i e e2
        cases hX
        exact ih h1 x1 (fun y hy => hq y (List.mem_cons_of_mem _ hy)) e2
    · rename_i e e1
      cases hX
      exact hc h p x (hq p (List.mem_cons_self _ _)) e1

theorem copyBindings_ne_OutOfFuel {copy : CopyFn} {h0 : Heap} {Q : Ptr → Prop}
    (hc : ∀ h p, Ext h0 h → Q p → copy h p ≠ .error .OutOfFuel)
    (he : ∀ h p h1 q, h.Fresh → copy h p = .ok (h1, q) → Ext h h1) (res : Nat)
    (hres : h0.next ≤ res) :
    ∀ (data : List (String × Ptr)) (h : Heap), Ext h0 h → (∀ kv ∈ data, Q kv.2) →
      copyBindings copy res h data ≠ .error .OutOfFuel := by
  intro data
  induction data with
  | nil =>
    intro h _ _ hX
    simp [copyBindings] at hX
  | cons kv data ih =>
    intro h x hq hX
    obtain ⟨key, value_⟩ := kv
    cases value_ with
    | none => simp [copyBindings] at hX
    | some v =>
      simp only [copyBindings] at hX
      split at hX
      · rename_i h1 q e1
        have x1 : Ext h0 h1 := x.andThen (he h _ h1 q x.2.1 e1)
        split at hX
        · rename_i h2 e2
          obtain ⟨d, u, _, rfl⟩ := NameSpace.Set_eq e2
          exact ih _ (x1.write hres _) (fun y hy => hq y (List.mem_cons_of_mem _ hy)) hX
        · rename_i e e2
          cases hX
          exact Set_ne_OutOfFuel _ _ _ _ e2
      · rename_i e e1
        cases hX
        exact hc h _ x (hq (key, some v) (List.mem_cons_self _ _)) e1

/-- With fuel above the rank of `p`, `Copy` does not run out of fuel, in any heap that
extends the ranked one.  Only the objects in `R`, a set closed under duplication edges,
are looked at. -/
theorem Copy_ne_OutOfFuel_on {h0 : Heap} {R : Nat → Prop} (hcl : h0.DupClosed R)
    (hbel : h0.DupsBelowOn R) {r : Nat → Nat} (hr : RankedOn r h0 R) :
    ∀ (F : Nat) (h : Heap) (p : Ptr), Ext h0 h →
      (∀ a, p = some a → R a ∧ a < h0.next ∧ r a < F) → Copy F h p ≠ .error .OutOfFuel := by
  intro F
  induction F with
  | zero =>
    intro h p _ hp hX
    cases p with
    | none => simp [Copy] at hX
    | some a =>
      have := (hp a rfl).2.2
      omega
  | succ k ih =>
    intro h p x hp hX
    cases p with
    | none => simp [Copy] at hX
    | some a =>
      obtain ⟨hRa, ha, hra⟩ := hp a rfl
      have hoa : h.obj? a = h0.obj? a := x.2.2 a ha
      have hle : h0.next ≤ h.next := x.1
      have hpost : ∀ (h : Heap) (p : Ptr) (h1 : Heap) (q : Ptr), h.Fresh →
          Copy k h p = .ok (h1, q) → Ext h h1 :=
        fun h p h1 q hf hc => (Copy_ok_post hf hc).1
      have hfield : ∀ (o : Object), h0.obj? a = some o → ∀ b, some b ∈ o.dups → b ≠ a →
          R b ∧ b < h0.next ∧ r b < k := by
        intro o ho b hb hne
        refine ⟨hcl a o b hRa ho hb, hbel a o b hRa ho hb, ?_⟩
        rcases hr a o b hRa ho hb with h1 | h1
        · omega
        · exact absurd h1.1 hne
      have hfield1 : ∀ (o : Object), h0.obj? a = some o → o.isCell = false →
          ∀ b, some b ∈ o.dups → R b ∧ b < h0.next ∧ r b < k := by
        intro o ho hc b hb
        refine ⟨hcl a o b hRa ho hb, hbel a o b hRa ho hb, ?_⟩
        rcases hr a o b hRa ho hb with h1 | h1
        · omega
        · rw [hc] at h1
          cases h1.2
      rw [Copy] at hX
      split at hX
      · cases hX
      · cases hX
      · cases hX
      · cases hX
      · cases hX
      · rename_i first_ second_ ho
        rw [hoa] at ho
        have x0 : Ext h0 (h.Make (.Cell none none)).1 := x.andThen (Ext.alloc x.2.1 _)
        simp only at hX
        split at hX
        · rename_i e e1
          cases hX
          split at e1
          · cases e1
          · rename_i hne
            refine ih _ first_ x0 ?_ e1
            intro b hb
            subst hb
            exact hfield _ ho b (mem_dups.mpr (Or.inr (by simp [Object.vals])))
              (fun e => hne (by rw [e]))
        · rename_i h1 f1 e1
          have x1 : Ext h0 h1 := by
            split at e1
            · simp only [Except.ok.injEq, Prod.mk.injEq] at e1
              rw [← e1.1]
              exact x0
            · exact x0.andThen (hpost _ _ _ _ x0.2.1 e1)
          have x2 : Ext h0 (h1.update (h.Make (.Cell none none)).2 (.Cell f1 none)) :=
            x1.write hle _
          split at hX
          · rename_i e e2
            cases hX
            split at e2
            · cases e2
            · rename_i hne
              refine ih _ second_ x2 ?_ e2
              intro b hb
              subst hb
              exact hfield _ ho b (mem_dups.mpr (Or.inr (by simp [Object.vals])))
                (fun e => hne (by rw [e]))
          · cases hX
      · rename_i data_ upper_ ho
        rw [hoa] at ho
        have x0 : Ext h0 (h.Make (.NameSpace [] upper_)).1 := x.andThen (Ext.alloc x.2.1 _)
        simp only at hX
        split at hX
        · rename_i e e1
          cases hX
          refine copyBindings_ne_OutOfFuel
            (Q := fun p => ∀ b, p = some b → R b ∧ b < h0.next ∧ r b < k)
            (fun h p xh hq => ih h p xh hq) hpost _ hle data_ _ x0 ?_ e1
          intro kv hkv b hb
          refine hfield1 _ ho rfl b (mem_dups.mpr (Or.inr ?_))
          rw [← hb]
          exact List.mem_map_of_mem _ hkv
        · cases hX
      · rename_i names0 body0 scope0 ho
        rw [hoa] at ho
        have x0 : Ext h0 (h.Make (.Lambda [] [] none)).1 := x.andThen (Ext.alloc x.2.1 _)
        have hvec : ∀ (ps : List Ptr) (h : Heap), Ext h0 h →
            (∀ p ∈ ps, p ∈ (Object.Lambda names0 body0 scope0).vals) →
            CopyVector (Copy k) h ps ≠ .error .OutOfFuel := by
          intro ps h xh hps
          refine CopyVector_ne_OutOfFuel
            (Q := fun p => ∀ b, p = some b → R b ∧ b < h0.next ∧ r b < k)
            (fun h p xh hq => ih h p xh hq) hpost ps h xh ?_
          intro p hp1 b hb
          subst hb
          exact hfield1 _ ho rfl b (mem_dups.mpr (Or.inr (hps _ hp1)))
        have hcv : ∀ (ps : List Ptr) (h h1 : Heap) (qs : List Ptr), Ext h0 h →
            CopyVector (Copy k) h ps = .ok (h1, qs) → Ext h0 h1 := by
          intro ps h h1 qs xh e
          exact xh.andThen (CopyVector_post
            (fun h p h1 q hf hc => Copy_ok_post hf hc) ps h h1 qs xh.2.1 e).1
        simp only at hX
        split at hX
        · rename_i e e1
          cases hX
          exact hvec names0 _ x0 (fun p hp1 => List.mem_append_left _ hp1) e1
        · rename_i hA names1 e1
          have xA := hcv _ _ _ _ x0 e1
          split at hX
          · rename_i e e2
            cases hX
            exact hvec body0 _ xA (fun p hp1 => List.mem_append_right _ hp1) e2
          · rename_i hB body1 e2
            have xB := hcv _ _ _ _ xA e2
            split at hX
            · cases hX
            · rename_i sc
              split at hX
              · rename_i e e3
                cases hX
                refine ih _ (some sc) xB ?_ e3
                intro b hb
                cases hb
                exact hfield1 _ ho rfl _ (mem_dups.mpr (Or.inl rfl))
              · cases hX

/-- On a heap whose only cycles are self-references of pairs `Copy` does not run out of
fuel, for any pointer, whatever it points to. -/
theorem Copy_returns {h : Heap} (hf : h.Fresh)
    (hbel : ∀ a o y, h.obj? a = some o → some y ∈ o.dups → y < h.next) (hs : h.SelfRefOnly)
    (p : Ptr) : ∃ F, ∀ fuel, F ≤ fuel → Copy fuel h p ≠ .error .OutOfFuel := by
  obtain ⟨r, hr⟩ := hs
  cases p with
  | none =>
    refine ⟨0, fun fuel _ hX => ?_⟩
    cases fuel <;> simp [Copy] at hX
  | some a =>
    by_cases ha : a < h.next
    · refine ⟨r a + 1, fun fuel hfuel => ?_⟩
      refine Copy_ne_OutOfFuel_on (R := fun _ => True) (fun _ _ _ _ _ _ => trivial)
        (fun a o y _ ho hy => hbel a o y ho hy) (fun a o y _ ho hy => hr a o y ho hy)
        fuel h (some a) (Ext.self hf) ?_
      intro b hb
      cases hb
      exact ⟨trivial, ha, by omega⟩
    · refine ⟨1, fun fuel hfuel hX => ?_⟩
      obtain ⟨k, rfl⟩ : ∃ k, fuel = k + 1 := ⟨fuel - 1, by omega⟩
      have hnone : h.obj? a = none := by
        unfold Heap.obj?
        rw [find_none_of_fresh hf (not_lt.mp ha)]
        rfl
      simp [Copy, hnone] at hX

theorem IsCell_of_obj {h : Heap} {a : Nat} {f s : Ptr} (ho : h.obj? a = some (.Cell f s)) :
    IsCell h (some a) = true := by
  simp [IsCell, ho]

theorem isSelfTail_of_obj {h : Heap} {a : Nat} {f : Ptr}
    (ho : h.obj? a = some (.Cell f (some a))) : isSelfTail h (some a) = true := by
  simp [isSelfTail, ho]

theorem GetStringLoop_ne_OutOfFuel {h : Heap} {r : Nat → Nat} (hr : Ranked r h) {F : Nat}
    (ih : ∀ p, (∀ a, p = some a → r a < F) → GetString F h p ≠ .error .OutOfFuel) :
    ∀ (n a : Nat) (res : String), r a < n → r a ≤ F →
      GetStringLoop (GetString F h) h n a res ≠ .error .OutOfFuel := by
  intro n
  induction n with
  | zero =>
    intro a res hn _
    omega
  | succ m ihm =>
    intro a res hn hF hX
    simp only [GetStringLoop] at hX
    split at hX
    · rename_i first_ second_ ho
      have hfield : ∀ b, some b ∈ (Object.Cell first_ second_).dups → b ≠ a → r b < r a := by
        intro b hb hne
        rcases hr a _ b ho hb with h1 | h1
        · exact h1
        · exact absurd h1.1 hne
      split at hX
      · rename_i e e1
        cases hX
        split at e1
        · cases e1
        · rename_i hne
          cases hfs : GetString F h first_ with
          | ok s => rw [hfs] at e1; cases e1
          | error e2 =>
            rw [hfs] at e1
            simp only [Except.map] at e1
            cases e1
            refine ih first_ ?_ hfs
            intro b hb
            subst hb
            have := hfield b (mem_dups.mpr (Or.inr (by simp [Object.vals])))
              (fun e => hne (by rw [e]))
            omega
      · rename_i res1 e1
        split at hX
        · rename_i hcond
          split at hX
          · rename_i b
            have hne : b ≠ a := by
              intro e
              subst e
              rw [isSelfTail_of_obj ho] at hcond
              simp at hcond
            have := hfield b (mem_dups.mpr (Or.inr (by simp [Object.vals]))) hne
            exact ihm b res1 (by omega) (by omega) hX
          · cases hX
        · rename_i hcond
          split at hX
          · split at hX
            · cases hX
            · rename_i hcond2
              split at hX
              · cases hX
              · rename_i e e2
                cases hX
                refine ih second_ ?_ e2
                intro b hb
                subst hb
                have hne : b ≠ a := by
                  intro e
                  subst e
                  rw [IsCell_of_obj ho, isSelfTail_of_obj ho] at hcond2
                  simp at hcond2
                have := hfield b (mem_dups.mpr (Or.inr (by simp [Object.vals]))) hne
                omega
          · cases hX
    · cases hX

/-- With fuel above the rank of `p`, `GetString` does not run out of fuel. -/
theorem GetString_ne_OutOfFuel {h : Heap} {r : Nat → Nat} (hr : Ranked r h) :
    ∀ (F : Nat) (p : Ptr), (∀ a, p = some a → r a < F) →
      GetString F h p ≠ .error .OutOfFuel := by
  intro F
  induction F with
  | zero =>
    intro p hp hX
    cases p with
    | none => simp [GetString] at hX
    | some a =>
      have := hp a rfl
      omega
  | succ k ih =>
    intro p hp hX
    cases p with
    | none => simp [GetString] at hX
    | some a =>
      have hra := hp a rfl
      rw [GetString] at hX
      split at hX
      · cases hX
      · cases hX
      · cases hX
      · cases hX
      · exact GetStringLoop_ne_OutOfFuel hr ih (k + 1) a "(" hra (by omega) hX
      · cases hX
      · cases hX
      · cases hX

theorem GetString_returns {P : Nat → Prop} {h : Heap} (hg : Good P h) (p : Ptr) :
    ∃ F, ∀ fuel, F ≤ fuel → GetString fuel h p ≠ .error .OutOfFuel := by
  obtain ⟨r, hr⟩ := hg.ranked
  cases p with
  | none =>
    refine ⟨0, fun fuel _ hX => ?_⟩
    cases fuel <;> simp [GetString] at hX
  | some a =>
    refine ⟨r a + 1, fun fuel hfuel => ?_⟩
    refine GetString_ne_OutOfFuel hr fuel (some a) ?_
    intro b hb
    cases hb
    omega

/-- Both traversals return on a heap that satisfies the invariant. -/
theorem Good_returns {P : Nat → Prop} {h : Heap} (hg : Good P h) (p : Ptr) :
    ∃ F, ∀ fuel, F ≤ fuel →
      Copy fuel h p ≠ .error .OutOfFuel ∧ GetString fuel h p ≠ .error .OutOfFuel := by
  obtain ⟨F1, h1⟩ := Copy_returns hg.fresh hg.below hg.ranked p
  obtain ⟨F2, h2⟩ := GetString_returns hg p
  exact ⟨max F1 F2, fun fuel hfuel =>
    ⟨h1 fuel (le_trans (le_max_left _ _) hfuel), h2 fuel (le_trans (le_max_right _ _) hfuel)⟩⟩

end Scheme
namespace Scheme

/-! ## C9: duplication of a value without larger cycles -/

set_option maxRecDepth 100000

theorem DupClosed_reach (h : Heap) (p : Ptr) : h.DupClosed (h.DupReach p) := by
  intro a o y ⟨a0, hp, hpath⟩ ho hy
  exact ⟨a0, hp, Relation.ReflTransGen.tail hpath ⟨o, ho, hy⟩⟩

theorem DupReach_sub {h : Heap} {R : Nat → Prop} {p : Ptr} (hcl : h.DupClosed R)
    (hp : ∀ a, p = some a → R a) : ∀ a, h.DupReach p a → R a := by
  intro a ⟨a0, hp0, hpath⟩
  induction hpath with
  | refl => exact hp a0 hp0
  | tail _ e ih =>
    obtain ⟨o, ho, hy⟩ := e
    exact hcl _ o _ ih ho hy

/-- A rank on a set closed under duplication edges leaves no cycle there other than the
self-reference of a pair. -/
theorem OnlySelfCyclesOn_of_ranked {h : Heap} {R : Nat → Prop} (hcl : h.DupClosed R)
    {r : Nat → Nat} (hr : RankedOn r h R) : h.OnlySelfCyclesOn R := by
  have hle : ∀ a y, R a → h.DupEdge a y → r y ≤ r a := by
    intro a y hRa ⟨o, ho, hy⟩
    rcases hr a o y hRa ho hy with h1 | h1
    · omega
    · rw [h1.1]
  have hpath : ∀ a y, Relation.ReflTransGen h.DupEdge a y → R a → R y ∧ r y ≤ r a := by
    intro a y hp hRa
    induction hp with
    | refl => exact ⟨hRa, le_refl _⟩
    | tail _ e ih =>
      obtain ⟨o, ho, hy⟩ := e
      exact ⟨hcl _ o _ ih.1 ho hy, le_trans (hle _ _ ih.1 ⟨o, ho, hy⟩) ih.2⟩
  refine ⟨?_, ?_⟩
  · intro a y hRa ⟨o, ho, hy⟩ hne hp
    have h1 := (hpath y a hp (hcl a o y hRa ho hy)).2
    rcases hr a o y hRa ho hy with h2 | h2
    · omega
    · exact hne h2.1
  · intro a hRa ⟨o, ho, hy⟩
    rcases hr a o a hRa ho hy with h2 | h2
    · omega
    · obtain ⟨f, s, rfl⟩ := isCell_inv h2.2
      exact ⟨f, s, ho⟩

theorem OnlySelfCycles_of_ranked {h : Heap} (hs : h.SelfRefOnly) : h.OnlySelfCycles := by
  obtain ⟨r, hr⟩ := hs
  have key := OnlySelfCyclesOn_of_ranked (h := h) (R := fun _ => True)
    (fun _ _ _ _ _ _ => trivial) (r := r) (fun a o y _ ho hy => hr a o y ho hy)
  exact ⟨fun a y e hne => key.1 a y trivial e hne, fun a e => key.2 a trivial e⟩

/-- Conversely, where the duplication edges stay below `next` and lie on no cycle other
than the self-reference of a pair there is a rank: the number of other objects that can be
reached. -/
theorem RankedOn_of_cycles {h : Heap} {R : Nat → Prop} (hb : h.DupsBelowOn R)
    (hc : h.OnlySelfCyclesOn R) : ∃ r, RankedOn r h R := by
  classical
  refine ⟨fun a => ((Finset.range h.next).filter
    (fun b => b ≠ a ∧ Relation.TransGen h.DupEdge a b)).card, ?_⟩
  intro a o y hRa ho hy
  have hedge : h.DupEdge a y := ⟨o, ho, hy⟩
  by_cases hya : y = a
  · right
    subst hya
    obtain ⟨f, s, hcell⟩ := hc.2 y hRa hedge
    rw [ho] at hcell
    cases hcell
    exact ⟨rfl, rfl⟩
  · left
    apply Finset.card_lt_card
    have hsub : (Finset.range h.next).filter
          (fun b => b ≠ y ∧ Relation.TransGen h.DupEdge y b) ⊆
        (Finset.range h.next).filter
          (fun b => b ≠ a ∧ Relation.TransGen h.DupEdge a b) := by
      intro b hb1
      simp only [Finset.mem_filter, Finset.mem_range] at hb1 ⊢
      obtain ⟨hlt, _, hp⟩ := hb1
      refine ⟨hlt, ?_, Relation.TransGen.head hedge hp⟩
      intro hba
      rw [hba] at hp
      exact hc.1 a y hRa hedge hya hp.to_reflTransGen
    refine (Finset.ssubset_iff_of_subset hsub).mpr ⟨y, ?_, ?_⟩
    · simp only [Finset.mem_filter, Finset.mem_range]
      exact ⟨hb a o y hRa ho hy, hya, Relation.TransGen.single hedge⟩
    · simp

theorem checkPart_spec {R : Nat → Bool} {r : Nat → Nat} {h : Heap}
    (hc : h.checkPart R r = true) :
    h.DupClosed (fun a => R a = true) ∧ h.DupsBelowOn (fun a => R a = true) ∧
      RankedOn r h (fun a => R a = true) ∧ h.CopySafeOn (fun a => R a = true) := by
  have key : ∀ a o, R a = true → h.obj? a = some o →
      (∀ y, some y ∈ o.dups → R y = true ∧ y < h.next ∧ (h.obj? y).isSome = true ∧
        (r y < r a ∨ (y = a ∧ o.isCell = true))) ∧
      (∀ d u, o = .NameSpace d u → ∀ kv ∈ d, kv.2 ≠ none) ∧
      ∀ names body, o ≠ .Lambda names body none := by
    intro a o hRa ho
    obtain ⟨s, hs, rfl, rfl⟩ := obj?_some_mem ho
    unfold Heap.checkPart at hc
    have h1 := List.all_eq_true.mp hc s hs
    rw [hRa] at h1
    simp only [Bool.not_true, Bool.false_or, Bool.and_eq_true] at h1
    obtain ⟨h2, h3⟩ := h1
    refine ⟨?_, ?_, ?_⟩
    · intro y hy
      have h4 := List.all_eq_true.mp h2 (some y) hy
      simp only [Bool.and_eq_true, Bool.or_eq_true, decide_eq_true_eq, beq_iff_eq] at h4
      exact ⟨h4.1.1.1, h4.1.1.2, h4.1.2, h4.2⟩
    · intro d u e kv hkv hnone
      rw [e] at h3
      have := List.all_eq_true.mp h3 kv hkv
      rw [hnone] at this
      cases this
    · intro names body e
      rw [e] at h3
      cases h3
  refine ⟨?_, ?_, ?_, ?_⟩
  · intro a o y hRa ho hy
    exact ((key a o hRa ho).1 y hy).1
  · intro a o y hRa ho hy
    exact ((key a o hRa ho).1 y hy).2.1
  · intro a o y hRa ho hy
    exact ((key a o hRa ho).1 y hy).2.2.2
  · intro a o hRa ho
    exact ⟨fun y hy => ((key a o hRa ho).1 y hy).2.2.1, (key a o hRa ho).2⟩

theorem CopyVector_ok {copy : CopyFn} {h0 : Heap} {Q : Ptr → Prop}
    (hc : ∀ h p, Ext h0 h → Q p → ∃ h1 q, copy h p = .ok (h1, q))
    (he : ∀ h p h1 q, h.Fresh → copy h p = .ok (h1, q) → Ext h h1) :
    ∀ (ps : List Ptr) (h : Heap), Ext h0 h → (∀ p ∈ ps, Q p) →
      ∃ h1 qs, CopyVector copy h ps = .ok (h1, qs) ∧ Ext h0 h1 := by
  intro ps
  induction ps with
  | nil =>
    intro h x _
    exact ⟨h, [], rfl, x⟩
  | cons p ps ih =>
    intro h x hq
    obtain ⟨h1, q, e1⟩ := hc h p x (hq p (List.mem_cons_self _ _))
    have x1 : Ext h0 h1 := x.andThen (he h p h1 q x.2.1 e1)
    obtain ⟨h2, qs, e2, x2⟩ := ih h1 x1 (fun y hy => hq y (List.mem_cons_of_mem _ hy))
    refine ⟨h2, q :: qs, ?_, x2⟩
    simp only [CopyVector, e1, e2]

theorem copyBindings_ok {copy : CopyFn} {h0 : Heap} {Q : Ptr → Prop}
    (hc : ∀ h p, Ext h0 h → Q p → ∃ h1 q, copy h p = .ok (h1, q))
    (he : ∀ h p h1 q, h.Fresh → copy h p = .ok (h1, q) → Ext h h1) (res : Nat)
    (hres : h0.next ≤ res) (u : Ptr) :
    ∀ (data : List (String × Ptr)) (h : Heap) (acc : List (String × Ptr)), Ext h0 h →
      h.obj? res = some (.NameSpace acc u) → (∀ kv ∈ data, kv.2 ≠ none ∧ Q kv.2) →
      ∃ h1, copyBindings copy res h data = .ok h1 := by
  intro data
  induction data with
  | nil =>
    intro h acc _ _ _
    exact ⟨h, rfl⟩
  | cons kv data ih =>
    intro h acc x ho hq
    obtain ⟨key, value_⟩ := kv
    obtain ⟨hne, hqv⟩ := hq (key, value_) (List.mem_cons_self _ _)
    cases value_ with
    | none => exact absurd rfl hne
    | some v =>
      obtain ⟨h1, q, e1⟩ := hc h (some v) x hqv
      have xe := he h _ h1 q x.2.1 e1
      have x1 : Ext h0 h1 := x.andThen xe
      have hlt : res < h.next := obj?_lt_next x.2.1 ho
      have ho1 : h1.obj? res = some (.NameSpace acc u) := (xe.2.2 res hlt).trans ho
      have hset : NameSpace.Set h1 (some res) key q =
          .ok (h1.update res (.NameSpace (mapSet acc key q) u)) := by
        simp only [NameSpace.Set, ho1]
      have ho2 : (h1.update res (.NameSpace (mapSet acc key q) u)).obj? res =
          some (.NameSpace (mapSet acc key q) u) :=
        obj?_update_self _ (by rw [ho1]; rfl)
      obtain ⟨h3, e3⟩ := ih _ _ (x1.write hres _) ho2
        (fun y hy => hq y (List.mem_cons_of_mem _ hy))
      refine ⟨h3, ?_⟩
      simp only [copyBindings, e1, hset, e3]

/-- With fuel above the rank of `p`, `Copy` returns on a heap that extends a ranked heap in
which nothing that is dereferenced is null or dangling.  Only the objects in `R`, a set
closed under duplication edges, are looked at. -/
theorem Copy_ok_of_ranked {h0 : Heap} (hf0 : h0.Fresh) {R : Nat → Prop}
    (hcl : h0.DupClosed R) (hsafe : h0.CopySafeOn R) {r : Nat → Nat} (hr : RankedOn r h0 R) :
    ∀ (F : Nat) (h : Heap) (p : Ptr), Ext h0 h →
      (∀ a, p = some a → R a ∧ (h0.obj? a).isSome = true ∧ r a < F) →
      ∃ h1 q, Copy F h p = .ok (h1, q) := by
  intro F
  induction F with
  | zero =>
    intro h p _ hp
    cases p with
    | none => exact ⟨h, none, rfl⟩
    | some a =>
      have := (hp a rfl).2.2
      omega
  | succ k ih =>
    intro h p x hp
    cases p with
    | none => exact ⟨h, none, rfl⟩
    | some a =>
      obtain ⟨hRa, ha, hra⟩ := hp a rfl
      obtain ⟨o, ho⟩ := Option.isSome_iff_exists.mp ha
      have halt : a < h0.next := obj?_lt_next hf0 ho
      have hoa : h.obj? a = some o := (x.2.2 a halt).trans ho
      have hle : h0.next ≤ h.next := x.1
      have hpost : ∀ (h : Heap) (p : Ptr) (h1 : Heap) (q : Ptr), h.Fresh →
          Copy k h p = .ok (h1, q) → Ext h h1 :=
        fun h p h1 q hf hc => (Copy_ok_post hf hc).1
      obtain ⟨hlive, hbind, hown⟩ := hsafe a o hRa ho
      have hfield : ∀ b, some b ∈ o.dups → b ≠ a →
          R b ∧ (h0.obj? b).isSome = true ∧ r b < k := by
        intro b hb hne
        refine ⟨hcl a o b hRa ho hb, hlive b hb, ?_⟩
        rcases hr a o b hRa ho hb with h1 | h1
        · omega
        · exact absurd h1.1 hne
      have hfield1 : o.isCell = false → ∀ b, some b ∈ o.dups →
          R b ∧ (h0.obj? b).isSome = true ∧ r b < k := by
        intro hc b hb
        refine ⟨hcl a o b hRa ho hb, hlive b hb, ?_⟩
        rcases hr a o b hRa ho hb with h1 | h1
        · omega
        · rw [hc] at h1
          cases h1.2
      rw [Copy, hoa]
      cases o with
      | Number v => exact ⟨_, _, rfl⟩
      | Boolean v => exact ⟨_, _, rfl⟩
      | Symbol n => exact ⟨_, _, rfl⟩
      | Functor kind => exact ⟨_, _, rfl⟩
      | Cell first_ second_ =>
        have x0 : Ext h0 (h.Make (.Cell none none)).1 := x.andThen (Ext.alloc x.2.1 _)
        have s1 : ∃ h1 f1, (if first_ = some a then
              Except.ok ((h.Make (.Cell none none)).1, some (h.Make (.Cell none none)).2)
            else Copy k (h.Make (.Cell none none)).1 first_) = .ok (h1, f1) ∧ Ext h0 h1 := by
          by_cases hs : first_ = some a
          · rw [if_pos hs]
            exact ⟨_, _, rfl, x0⟩
          · rw [if_neg hs]
            obtain ⟨h1, f1, e1⟩ := ih _ first_ x0 (by
              intro b hb
              subst hb
              exact hfield b (mem_dups.mpr (Or.inr (by simp [Object.vals])))
                (fun e => hs (by rw [e])))
            exact ⟨h1, f1, e1, x0.andThen (hpost _ _ _ _ x0.2.1 e1)⟩
        obtain ⟨h1, f1, e1, x1⟩ := s1
        have x2 : Ext h0 (h1.update (h.Make (.Cell none none)).2 (.Cell f1 none)) :=
          x1.write hle _
        have s2 : ∃ h3 f3, (if second_ = some a then
              Except.ok (h1.update (h.Make (.Cell none none)).2 (.Cell f1 none),
                some (h.Make (.Cell none none)).2)
            else Copy k (h1.update (h.Make (.Cell none none)).2 (.Cell f1 none)) second_) =
              .ok (h3, f3) := by
          by_cases hs : second_ = some a
          · rw [if_pos hs]
            exact ⟨_, _, rfl⟩
          · rw [if_neg hs]
            exact ih _ second_ x2 (by
              intro b hb
              subst hb
              exact hfield b (mem_dups.mpr (Or.inr (by simp [Object.vals])))
                (fun e => hs (by rw [e])))
        obtain ⟨h3, f3, e3⟩ := s2
        simp only [e1, e3]
        exact ⟨_, _, rfl⟩
      | NameSpace data_ upper_ =>
        have x0 : Ext h0 (h.Make (.NameSpace [] upper_)).1 := x.andThen (Ext.alloc x.2.1 _)
        obtain ⟨h1, e1⟩ := copyBindings_ok
          (Q := fun p => ∀ b, p = some b → R b ∧ (h0.obj? b).isSome = true ∧ r b < k)
          (fun h p xh hq => ih h p xh hq) hpost h.next hle upper_ data_ _ [] x0
          (obj?_Make_new x.2.1 _) (by
            intro kv hkv
            refine ⟨hbind data_ upper_ rfl kv hkv, ?_⟩
            intro b hb
            refine hfield1 rfl b (mem_dups.mpr (Or.inr ?_))
            rw [← hb]
            exact List.mem_map_of_mem _ hkv)
        simp only [Make_snd, e1]
        exact ⟨_, _, rfl⟩
      | Lambda names0 body0 scope0 =>
        have x0 : Ext h0 (h.Make (.Lambda [] [] none)).1 := x.andThen (Ext.alloc x.2.1 _)
        have hvec : ∀ (ps : List Ptr) (h : Heap), Ext h0 h →
            (∀ p ∈ ps, p ∈ (Object.Lambda names0 body0 scope0).vals) →
            ∃ h1 qs, CopyVector (Copy k) h ps = .ok (h1, qs) ∧ Ext h0 h1 := by
          intro ps h xh hps
          refine CopyVector_ok
            (Q := fun p => ∀ b, p = some b → R b ∧ (h0.obj? b).isSome = true ∧ r b < k)
            (fun h p xh hq => ih h p xh hq) hpost ps h xh ?_
          intro p hp1 b hb
          subst hb
          exact hfield1 rfl b (mem_dups.mpr (Or.inr (hps _ hp1)))
        obtain ⟨hA, names1, e1, xA⟩ := hvec names0 _ x0
          (fun p hp1 => List.mem_append_left _ hp1)
        obtain ⟨hB, body1, e2, xB⟩ := hvec body0 _ xA
          (fun p hp1 => List.mem_append_right _ hp1)
        cases scope0 with
        | none => exact absurd rfl (hown names0 body0)
        | some sc =>
          obtain ⟨hC, sc1, e3⟩ := ih hB (some sc) xB (by
            intro b hb
            cases hb
            exact hfield1 rfl _ (mem_dups.mpr (Or.inl rfl)))
          simp only [e1, e2, e3]
          exact ⟨_, _, rfl⟩

/-- **C9 (amended).** Look at the objects a duplication of `p` can reach along the
pointers `Copy` follows (a pair's fields, a closure's parameters, body and own frame, a
frame's bindings).  If those pointers were handed out by the allocator (every object of the
heap and every such pointer lies below `next`) and their only cycles are direct
self-references of pairs, then `Copy` does not run out of fuel on `p` once the fuel is
large enough, which is how the model renders a duplication that ends.  If moreover nothing
that `Copy` dereferences there is null or dangling, `Copy` returns: the heap is extended,
and the result is null exactly when `p` is and otherwise the address of an object made
during the call.  Closures and frames are covered like pairs, and what the heap holds
elsewhere does not matter. -/
theorem Copy_terminates_on_self_references (h : Heap) (p : Ptr) (hf : h.Fresh)
    (hb : h.DupsBelowOn (h.DupReach p)) (hc : h.OnlySelfCyclesOn (h.DupReach p)) :
    (∃ F, ∀ fuel, F ≤ fuel → Copy fuel h p ≠ .error .OutOfFuel) ∧
      (h.CopySafeOn (h.DupReach p) → (∀ a, p = some a → (h.obj? a).isSome = true) →
        ∃ F, ∀ fuel, F ≤ fuel → ∃ h1 q, Copy fuel h p = .ok (h1, q) ∧ CopyPost h p h1 q) := by
  obtain ⟨r, hr⟩ := RankedOn_of_cycles hb hc
  have hcl := DupClosed_reach h p
  refine ⟨?_, ?_⟩
  · cases p with
    | none =>
      refine ⟨0, fun fuel _ hX => ?_⟩
      cases fuel <;> simp [Copy] at hX
    | some a =>
      by_cases ha : a < h.next
      · refine ⟨r a + 1, fun fuel hfuel => ?_⟩
        refine Copy_ne_OutOfFuel_on hcl hb hr fuel h (some a) (Ext.self hf) ?_
        intro b hb1
        cases hb1
        exact ⟨⟨a, rfl, Relation.ReflTransGen.refl⟩, ha, by omega⟩
      · refine ⟨1, fun fuel hfuel hX => ?_⟩
        obtain ⟨k, rfl⟩ : ∃ k, fuel = k + 1 := ⟨fuel - 1, by omega⟩
        have hnone : h.obj? a = none := by
          unfold Heap.obj?
          rw [find_none_of_fresh hf (not_lt.mp ha)]
          rfl
        simp [Copy, hnone] at hX
  · intro hsafe hlive
    cases p with
    | none =>
      refine ⟨0, fun fuel _ => ⟨h, none, Copy_null fuel h, ?_⟩⟩
      exact Copy_ok_post hf (Copy_null fuel h)
    | some a =>
      refine ⟨r a + 1, fun fuel hfuel => ?_⟩
      obtain ⟨h1, q, e⟩ := Copy_ok_of_ranked hf hcl hsafe hr fuel h (some a) (Ext.self hf) (by
        intro b hb1
        cases hb1
        exact ⟨⟨a, rfl, Relation.ReflTransGen.refl⟩, hlive a rfl, by omega⟩)
      exact ⟨h1, q, e, Copy_ok_post hf e⟩

/-- What the check of `mixedHeap` gives for the value at address 0. -/
theorem mixedHeap_part :
    mixedHeap.DupsBelowOn (mixedHeap.DupReach (some 0)) ∧
      mixedHeap.OnlySelfCyclesOn (mixedHeap.DupReach (some 0)) ∧
      mixedHeap.CopySafeOn (mixedHeap.DupReach (some 0)) := by
  obtain ⟨hcl, hb, hr, hs⟩ :=
    checkPart_spec (R := mixedPart) (r := mixedRank) (h := mixedHeap) (by decide)
  have hsub : ∀ a, mixedHeap.DupReach (some 0) a → mixedPart a = true :=
    DupReach_sub hcl (by intro a ha; cases ha; decide)
  have hc := OnlySelfCyclesOn_of_ranked hcl hr
  refine ⟨?_, ⟨?_, ?_⟩, ?_⟩
  · intro a o y hRa ho hy
    exact hb a o y (hsub a hRa) ho hy
  · intro a y hRa e hne
    exact hc.1 a y (hsub a hRa) e hne
  · intro a hRa e
    exact hc.2 a (hsub a hRa) e
  · intro a o hRa ho
    exact hs a o (hsub a hRa) ho

/-- Witness for C9 (amended): the frame at address 0 of `mixedHeap`.  It reaches a pair
that is its own second field (address 1) and a closure (address 4) whose own frame binds
that pair, while two pairs it does not reach point at each other. -/
theorem Copy_terminates_on_self_references_witness :
    mixedHeap.Fresh ∧
      (mixedHeap.DupsBelowOn (mixedHeap.DupReach (some 0)) ∧
        mixedHeap.OnlySelfCyclesOn (mixedHeap.DupReach (some 0)) ∧
        mixedHeap.CopySafeOn (mixedHeap.DupReach (some 0))) ∧
      (mixedHeap.obj? 0 = some (.NameSpace [("p", some 1), ("f", some 4)] none) ∧
        mixedHeap.obj? 1 = some (.Cell (some 2) (some 1)) ∧
        mixedHeap.obj? 4 = some (.Lambda [some 3] [some 2] (some 5)) ∧
        mixedHeap.obj? 6 = some (.Cell none (some 7)) ∧
        mixedHeap.obj? 7 = some (.Cell none (some 6))) ∧
      (∃ F, ∀ fuel, F ≤ fuel → Copy fuel mixedHeap (some 0) ≠ .error .OutOfFuel) ∧
      ∃ F, ∀ fuel, F ≤ fuel → ∃ h1 q, Copy fuel mixedHeap (some 0) = .ok (h1, q) ∧
        CopyPost mixedHeap (some 0) h1 q :=
  have key := Copy_terminates_on_self_references mixedHeap (some 0) (by decide)
    mixedHeap_part.1 mixedHeap_part.2.1
  ⟨by decide, mixedHeap_part, by decide, key.1,
    key.2 mixedHeap_part.2.2 (by intro a ha; cases ha; decide)⟩

end Scheme
namespace Scheme

/-! ## The invariant holds wherever an evaluation stops -/

set_option maxRecDepth 100000

theorem Out_here {P : Nat → Prop} {h : Heap} (hg : Good P h) : Out P h h none :=
  Out_of_val hg (Val_null P h)

theorem Outs_drop {P : Nat → Prop} {h h1 : Heap} {vs : List Ptr} (o : Outs P h h1 vs) :
    Out P h h1 none := by
  obtain ⟨P1, g1, _⟩ := o
  exact ⟨P1, g1, Val_null P1 h1⟩

theorem heapOr_good {α : Type} {P : Nat → Prop} {h0 h : Heap} (r : Except Err (Heap × α))
    (o : Out P h0 h none) (hr : ∀ h1 x, r = .ok (h1, x) → Out P h0 h1 none) :
    Out P h0 (heapOr r h) none := by
  unfold heapOr
  split
  · rename_i h1 x
    exact hr h1 x rfl
  · exact o

theorem evalExit_good {evalH : ExitFn} {eval : CalcFn} (he : EvalGood eval)
    (heh : ExitGood evalH) {P : Nat → Prop} {h : Heap} {obj scope : Ptr} (hg : Good P h)
    (hobj : Val P h obj) (hsc : ∀ a, scope = some a → P a) :
    Out P h (evalExit evalH eval h obj scope) none := by
  unfold evalExit
  split
  · rename_i h1 v e1
    exact Out_drop (he P h obj scope h1 v hg hobj hsc e1)
  · exact heh P h obj scope hg hobj hsc

theorem CalcVector_exit_good {evalH : ExitFn} {eval : CalcFn} (he : EvalGood eval)
    (heh : ExitGood evalH) {scope : Ptr} :
    ∀ (xs : List Ptr) (P : Nat → Prop) (h : Heap), Good P h → (∀ x ∈ xs, Val P h x) →
      (∀ a, scope = some a → P a) →
      Out P h (CalcVector.exitHeap evalH eval h xs scope) none := by
  intro xs
  induction xs with
  | nil =>
    intro P h hg _ _
    exact Out_here hg
  | cons x xs ih =>
    intro P h hg hxs hsc
    simp only [CalcVector.exitHeap]
    split
    · rename_i h1 v e1
      obtain ⟨P1, g1, _⟩ := he P h x scope h1 v hg (hxs x (List.mem_cons_self _ _)) hsc e1
      exact Out_seq g1 (ih P1 h1 g1.1
        (fun y hy => Val_mono (hxs y (List.mem_cons_of_mem _ hy)) g1)
        (fun a ha => g1.2.1 a (hsc a ha)))
    · exact heh P h x scope hg (hxs x (List.mem_cons_self _ _)) hsc

theorem operandsExit_good {evalH : ExitFn} {eval : CalcFn} (he : EvalGood eval)
    (heh : ExitGood evalH) {P : Nat → Prop} {fuel : Nat} {h : Heap} {obj scope : Ptr}
    {check : List Ptr → Except Err Unit} (call : Except Err (Heap × Ptr)) (hg : Good P h)
    (hsc : ∀ a, scope = some a → P a) (hcall : ∀ h2 v, call = .ok (h2, v) → Out P h h2 v) :
    Out P h (operandsExit evalH eval fuel h obj scope check call) none := by
  unfold operandsExit
  split
  · rename_i h2 v
    exact Out_drop (hcall h2 v rfl)
  · split
    · exact Out_here hg
    · rename_i vec hvec
      split
      · exact Out_here hg
      · split
        · rename_i h1 vals hcv
          exact Outs_drop (operands_good he hg hsc hvec hcv)
        · exact CalcVector_exit_good he heh vec P h hg (ToVector_val hg fuel obj vec hvec) hsc

theorem numberListToBoolLoop_exit_good {evalH : ExitFn} {eval : CalcFn} (he : EvalGood eval)
    (heh : ExitGood evalH) (func : Int → Int → Bool) {scope : Ptr} :
    ∀ (xs : List Ptr) (P : Nat → Prop) (h : Heap) (prev : Int), Good P h →
      (∀ x ∈ xs, Val P h x) → (∀ a, scope = some a → P a) →
      Out P h (numberListToBoolLoop.exitHeap evalH eval func scope h prev xs) none := by
  intro xs
  induction xs with
  | nil =>
    intro P h prev hg _ _
    exact Out_here hg
  | cons x xs ih =>
    intro P h prev hg hxs hsc
    simp only [numberListToBoolLoop.exitHeap]
    split
    · rename_i h1 cur e1
      obtain ⟨P1, g1, _⟩ :=
        CalcAndGetNumber_good he hg (hxs x (List.mem_cons_self _ _)) hsc e1
      split
      · exact ⟨P1, g1, Val_null _ _⟩
      · exact Out_seq g1 (ih P1 h1 cur g1.1
          (fun y hy => Val_mono (hxs y (List.mem_cons_of_mem _ hy)) g1)
          (fun a ha => g1.2.1 a (hsc a ha)))
    · exact evalExit_good he heh hg (hxs x (List.mem_cons_self _ _)) hsc

theorem CalcNumberListToBool_exit_good {evalH : ExitFn} {eval : CalcFn} (he : EvalGood eval)
    (heh : ExitGood evalH) (func : Int → Int → Bool) {scope : Ptr} {P : Nat → Prop}
    {h : Heap} (vec : List Ptr) (hg : Good P h) (hxs : ∀ x ∈ vec, Val P h x)
    (hsc : ∀ a, scope = some a → P a) :
    Out P h (CalcNumberListToBool.exitHeap evalH eval func h vec scope) none := by
  unfold CalcNumberListToBool.exitHeap
  split
  · exact Out_here hg
  · rename_i x xs
    split
    · rename_i h1 prev e1
      obtain ⟨P1, g1, _⟩ :=
        CalcAndGetNumber_good he hg (hxs x (List.mem_cons_self _ _)) hsc e1
      exact Out_seq g1 (numberListToBoolLoop_exit_good he heh func xs P1 h1 prev g1.1
        (fun y hy => Val_mono (hxs y (List.mem_cons_of_mem _ hy)) g1)
        (fun a ha => g1.2.1 a (hsc a ha)))
    · exact evalExit_good he heh hg (hxs x (List.mem_cons_self _ _)) hsc

theorem compare_exit_good {evalH : ExitFn} {eval : CalcFn} (he : EvalGood eval)
    (heh : ExitGood evalH) {func : Int → Int → Bool} {P : Nat → Prop} {fuel : Nat} {h : Heap}
    {obj scope : Ptr} (hg : Good P h) (hsc : ∀ a, scope = some a → P a) :
    Out P h (compareCall.exitHeap func evalH eval fuel h obj scope) none := by
  unfold compareCall.exitHeap
  split
  · rename_i h2 v e
    exact Out_drop (compare_good he hg hsc e)
  · split
    · exact Out_here hg
    · rename_i args hargs
      exact CalcNumberListToBool_exit_good he heh func args hg
        (ToVector_val hg fuel obj args hargs) hsc

theorem Abs_exit_good {evalH : ExitFn} {eval : CalcFn} (he : EvalGood eval)
    (heh : ExitGood evalH) {P : Nat → Prop} {fuel : Nat} {h : Heap}
    {obj scope : Ptr} (hg : Good P h) (hsc : ∀ a, scope = some a → P a) :
    Out P h (Abs.exitHeap evalH eval fuel h obj scope) none := by
  unfold Abs.exitHeap
  split
  · rename_i h2 v e
    exact Out_drop (Abs_good he hg hsc e)
  · split
    · exact Out_here hg
    · rename_i args hargs
      split
      · exact Out_here hg
      · split
        · exact evalExit_good he heh hg
            (ToVector_val hg fuel obj _ hargs _ (List.mem_singleton.mpr rfl)) hsc
        · exact Out_here hg

theorem andLoop_exit_good {evalH : ExitFn} {eval : CalcFn} (he : EvalGood eval)
    (heh : ExitGood evalH) {scope : Ptr} :
    ∀ (xs : List Ptr) (P : Nat → Prop) (h : Heap), Good P h → (∀ x ∈ xs, Val P h x) →
      (∀ a, scope = some a → P a) →
      Out P h (andLoop.exitHeap evalH eval scope h xs) none := by
  intro xs
  induction xs with
  | nil =>
    intro P h hg _ _
    exact Out_here hg
  | cons x xs ih =>
    intro P h hg hxs hsc
    simp only [andLoop.exitHeap]
    split
    · rename_i h1 v e1
      obtain ⟨P1, g1, _⟩ := he P h x scope h1 v hg (hxs x (List.mem_cons_self _ _)) hsc e1
      split
      · exact Out_seq g1 (Out_drop (Out_Boolean g1.1 false))
      · exact Out_seq g1 (ih P1 h1 g1.1
          (fun y hy => Val_mono (hxs y (List.mem_cons_of_mem _ hy)) g1)
          (fun a ha => g1.2.1 a (hsc a ha)))
    · exact heh P h x scope hg (hxs x (List.mem_cons_self _ _)) hsc

theorem And_exit_good {evalH : ExitFn} {eval : CalcFn} (he : EvalGood eval)
    (heh : ExitGood evalH) {P : Nat → Prop} {fuel : Nat} {h : Heap}
    {obj scope : Ptr} (hg : Good P h) (hsc : ∀ a, scope = some a → P a) :
    Out P h (And.exitHeap evalH eval fuel h obj scope) none := by
  unfold And.exitHeap
  split
  · rename_i h2 v e
    exact Out_drop (And_good he hg hsc e)
  · split
    · exact Out_here hg
    · rename_i args hargs
      exact andLoop_exit_good he heh args P h hg (ToVector_val hg fuel obj args hargs) hsc

theorem orLoop_exit_good {evalH : ExitFn} {eval : CalcFn} (he : EvalGood eval)
    (heh : ExitGood evalH) {scope : Ptr} (size : Nat) :
    ∀ (xs : List Ptr) (P : Nat → Prop) (h : Heap) (temp : Nat), Good P h →
      (∀ x ∈ xs, Val P h x) → (∀ a, scope = some a → P a) →
      Out P h (orLoop.exitHeap evalH eval scope size h temp xs) none := by
  intro xs
  induction xs with
  | nil =>
    intro P h temp hg _ _
    exact Out_drop (Out_Boolean hg false)
  | cons x xs ih =>
    intro P h temp hg hxs hsc
    simp only [orLoop.exitHeap]
    split
    · rename_i h1 v e1
      obtain ⟨P1, g1, _⟩ := he P h x scope h1 v hg (hxs x (List.mem_cons_self _ _)) hsc e1
      split
      · split
        · exact ⟨P1, g1, Val_null _ _⟩
        · exact Out_seq g1 (Out_drop (Out_Boolean g1.1 true))
      · exact Out_seq g1 (ih P1 h1 (temp + 1) g1.1
          (fun y hy => Val_mono (hxs y (List.mem_cons_of_mem _ hy)) g1)
          (fun a ha => g1.2.1 a (hsc a ha)))
    · exact heh P h x scope hg (hxs x (List.mem_cons_self _ _)) hsc

theorem Or_exit_good {evalH : ExitFn} {eval : CalcFn} (he : EvalGood eval)
    (heh : ExitGood evalH) {P : Nat → Prop} {fuel : Nat} {h : Heap}
    {obj scope : Ptr} (hg : Good P h) (hsc : ∀ a, scope = some a → P a) :
    Out P h (Or.exitHeap evalH eval fuel h obj scope) none := by
  unfold Or.exitHeap
  split
  · rename_i h2 v e
    exact Out_drop (Or_good he hg hsc e)
  · split
    · exact Out_here hg
    · rename_i args hargs
      exact orLoop_exit_good he heh _ args P h 0 hg (ToVector_val hg fuel obj args hargs) hsc

/-- An evaluation followed by the duplication of its value. -/
theorem eval_copy_exit_good {evalH : ExitFn} {eval : CalcFn} {copy : CopyFn}
    (he : EvalGood eval) (heh : ExitGood evalH) (hcp : CopyGood copy) {P : Nat → Prop}
    {h : Heap} {obj scope : Ptr} (hg : Good P h) (hobj : Val P h obj)
    (hsc : ∀ a, scope = some a → P a) :
    Out P h (match eval h obj scope with
      | .error _ => evalH h obj scope
      | .ok (h1, v) => heapOr (copy h1 v) h1) none := by
  split
  · exact heh P h obj scope hg hobj hsc
  · rename_i h1 v e1
    obtain ⟨P1, g1, _⟩ := he P h obj scope h1 v hg hobj hsc e1
    refine heapOr_good _ ⟨P1, g1, Val_null _ _⟩ ?_
    intro h2 c hco
    obtain ⟨g2, _⟩ := Copy_out hcp g1.1 hco
    exact ⟨P1, Grows_seq g1 g2, Val_null _ _⟩

theorem Define_exit_good {evalH : ExitFn} {eval : CalcFn} {copy : CopyFn}
    (he : EvalGood eval) (heh : ExitGood evalH) (hcp : CopyGood copy) {P : Nat → Prop}
    {fuel : Nat} {h : Heap} {obj scope : Ptr} (hg : Good P h)
    (hsc : ∀ a, scope = some a → P a) :
    Out P h (Define.exitHeap evalH eval copy fuel h obj scope) none := by
  unfold Define.exitHeap
  split
  · rename_i h2 v e
    exact Out_drop (Define_good he hcp hg hsc e)
  · split
    · exact Out_here hg
    · rename_i args hargs
      have hxs := ToVector_val hg fuel obj args hargs
      split
      · exact Out_here hg
      · split
        · split
          · split
            · exact Out_here hg
            · split
              · rename_i back hlast
                exact eval_copy_exit_good he heh hcp hg
                  (hxs _ (List.mem_cons_of_mem _ (List.mem_of_mem_getLast? hlast))) hsc
              · exact Out_here hg
          · split
            · split
              · rename_i name names hnames
                have hns := ToVector_val hg fuel _ _ hnames
                refine heapOr_good _ (Out_here hg) ?_
                intro h1 lam hcl
                obtain ⟨g1, _⟩ := CreateLambdaHelper_good hg
                  (fun x hx => hns x (List.mem_cons_of_mem _ hx))
                  (fun x hx => hxs x (List.mem_cons_of_mem _ hx)) hsc hcl
                exact ⟨P, g1, Val_null _ _⟩
              · exact Out_here hg
            · exact Out_here hg
        · exact Out_here hg

theorem Set_exit_good {evalH : ExitFn} {eval : CalcFn} {copy : CopyFn}
    (he : EvalGood eval) (heh : ExitGood evalH) (hcp : CopyGood copy) {P : Nat → Prop}
    {fuel : Nat} {h : Heap} {obj scope : Ptr} (hg : Good P h)
    (hsc : ∀ a, scope = some a → P a) :
    Out P h (Set.exitHeap evalH eval copy fuel h obj scope) none := by
  unfold Set.exitHeap
  split
  · rename_i h2 v e
    exact Out_drop (Set_good he hcp hg hsc e)
  · split
    · exact Out_here hg
    · rename_i args hargs
      have hxs := ToVector_val hg fuel obj args hargs
      split
      · exact Out_here hg
      · split
        · split
          · exact Out_here hg
          · split
            · exact Out_here hg
            · exact eval_copy_exit_good he heh hcp hg
                (hxs _ (List.mem_cons_of_mem _ (List.mem_singleton.mpr rfl))) hsc
        · exact Out_here hg

theorem setFieldExit_good {evalH : ExitFn} {eval : CalcFn} {copy : CopyFn}
    (he : EvalGood eval) (heh : ExitGood evalH) (hcp : CopyGood copy) {P : Nat → Prop}
    {fuel : Nat} {h : Heap} {obj scope : Ptr} (call : Except Err (Heap × Ptr))
    (hg : Good P h) (hsc : ∀ a, scope = some a → P a)
    (hcall : ∀ h2 v, call = .ok (h2, v) → Out P h h2 v) :
    Out P h (setFieldExit evalH eval copy fuel h obj scope call) none := by
  unfold setFieldExit
  split
  · rename_i h2 v
    exact Out_drop (hcall h2 v rfl)
  · split
    · exact Out_here hg
    · rename_i args hargs
      split
      · exact Out_here hg
      · split
        · exact CalcVector_exit_good he heh args P h hg (ToVector_val hg fuel obj args hargs)
            hsc
        · rename_i h1 vals hcv
          obtain ⟨P1, g1, _⟩ := operands_good he hg hsc hargs hcv
          have o1 : Out P h h1 none := ⟨P1, g1, Val_null _ _⟩
          split
          · split
            · exact o1
            · split
              · exact o1
              · refine heapOr_good _ o1 ?_
                intro h2 c hco
                obtain ⟨g2, _⟩ := Copy_out hcp g1.1 hco
                exact ⟨P1, Grows_seq g1 g2, Val_null _ _⟩
          · exact o1

theorem If_exit_good {evalH : ExitFn} {eval : CalcFn} (he : EvalGood eval)
    (heh : ExitGood evalH) {P : Nat → Prop} {fuel : Nat} {h : Heap}
    {obj scope : Ptr} (hg : Good P h) (hsc : ∀ a, scope = some a → P a) :
    Out P h (If.exitHeap evalH eval fuel h obj scope) none := by
  unfold If.exitHeap
  split
  · rename_i h2 v e
    exact Out_drop (If_good he hg hsc e)
  · split
    · exact Out_here hg
    · rename_i args hargs
      have hxs := ToVector_val hg fuel obj args hargs
      split
      · exact Out_here hg
      · split
        · split
          · exact heh P h _ scope hg (hxs _ (List.mem_cons_self _ _)) hsc
          · rename_i h1 c e1
            obtain ⟨P1, g1, _⟩ := he P h _ scope h1 c hg (hxs _ (List.mem_cons_self _ _)) hsc e1
            have hsc1 : ∀ a, scope = some a → P1 a := fun a ha => g1.2.1 a (hsc a ha)
            split
            · exact Out_seq g1 (evalExit_good he heh g1.1
                (Val_mono (hxs _ (List.mem_cons_of_mem _ (List.mem_cons_self _ _))) g1) hsc1)
            · split
              · exact Out_seq g1 (evalExit_good he heh g1.1
                  (Val_mono (hxs _ (List.mem_cons_of_mem _ (List.mem_cons_of_mem _
                    (List.mem_singleton.mpr rfl)))) g1) hsc1)
              · exact ⟨P1, g1, Val_null _ _⟩
        · exact Out_here hg

theorem bindArgs_exit_good {P : Nat → Prop} {newscope : Ptr}
    (hsc : ∀ a, newscope = some a → P a) :
    ∀ (names vals : List Ptr) (h : Heap), Good P h → (∀ v ∈ vals, Val P h v) →
      Grows P h P (bindArgs.exitHeap newscope h names vals) := by
  intro names
  induction names with
  | nil =>
    intro vals h hg _
    simp only [bindArgs.exitHeap]
    exact Grows_same hg
  | cons n names ih =>
    intro vals h hg hvs
    cases vals with
    | nil =>
      simp only [bindArgs.exitHeap]
      exact Grows_same hg
    | cons x vals =>
      simp only [bindArgs.exitHeap]
      split
      · rename_i h1 e1
        have g1 := DefineHelper_good hg hsc (hvs x (List.mem_cons_self _ _)) e1
        exact Grows_seq g1 (ih vals h1 g1.1
          (fun y hy => Val_mono (hvs y (List.mem_cons_of_mem _ hy)) g1))
      · exact Grows_same hg

theorem CopyAndCalcVector_exit_good {evalH : ExitFn} {eval : CalcFn} {copy : CopyFn}
    (he : EvalGood eval) (heh : ExitGood evalH) (hcp : CopyGood copy) {P : Nat → Prop}
    {h : Heap} {scope : Ptr} (a : List Ptr) (hg : Good P h)
    (hsc : ∀ b, scope = some b → P b) :
    Out P h (CopyAndCalcVector.exitHeap evalH eval copy h a scope) none := by
  unfold CopyAndCalcVector.exitHeap
  split
  · rename_i h1 qs e1
    obtain ⟨g4, x4, _, r4⟩ := CopyVector_good hcp a h h1 qs hg e1
    have gr4 : Grows P h P h1 := Grows_step g4 x4.1
    refine Out_seq gr4 (CalcVector_exit_good he heh qs P h1 g4 ?_ hsc)
    intro x hx
    cases x with
    | none => exact Val_null P h1
    | some b =>
      obtain ⟨hb1, hb2⟩ := r4 b hx
      exact Val_new hg.inHeap hb1 hb2
  · exact Out_here hg

theorem Lambda_exit_good {evalH : ExitFn} {eval : CalcFn} {copy : CopyFn}
    (he : EvalGood eval) (heh : ExitGood evalH) (hcp : CopyGood copy) {P : Nat → Prop}
    {fuel : Nat} {h : Heap} {self : Nat} {obj scope : Ptr} (hg : Good P h)
    (hsc : ∀ a, scope = some a → P a)
    (hown : ∀ names body c, h.obj? self = some (.Lambda names body (some c)) → P c) :
    Out P h (Lambda.exitHeap evalH eval copy fuel h self obj scope) none := by
  unfold Lambda.exitHeap
  split
  · rename_i h2 v e
    exact Out_drop (Lambda_good he hcp hg hsc hown e)
  · split
    · rename_i names body sc ho
      have hnew : ∀ a, sc = some a → P a := by
        intro a ha
        subst ha
        exact hown names body a ho
      split
      · exact Out_here hg
      · rename_i args hargs
        split
        · exact Out_here hg
        · split
          · exact CalcVector_exit_good he heh args P h hg
              (ToVector_val hg fuel obj args hargs) hsc
          · rename_i h1 vals hcv
            obtain ⟨P1, g1, hvals⟩ := operands_good he hg hsc hargs hcv
            have hnew1 : ∀ a, sc = some a → P1 a := fun a ha => g1.2.1 a (hnew a ha)
            split
            · exact Out_seq g1 ⟨P1, bindArgs_exit_good hnew1 names vals h1 g1.1 hvals,
                Val_null _ _⟩
            · rename_i h2 hb
              have g2 := bindArgs_good hnew1 names vals h1 h2 g1.1 hvals hb
              exact Out_seq g1 (Out_seq g2
                (CopyAndCalcVector_exit_good he heh hcp body g2.1 hnew1))
    · exact Out_here hg

theorem Builtin_exit_good {evalH : ExitFn} {eval : CalcFn} {copy : CopyFn}
    (he : EvalGood eval) (heh : ExitGood evalH) (hcp : CopyGood copy) (kind : Builtin)
    {P : Nat → Prop} {fuel : Nat} {h : Heap} {obj scope : Ptr} (hg : Good P h)
    (hsc : ∀ a, scope = some a → P a) :
    Out P h (kind.exitHeap evalH eval copy fuel h obj scope) none := by
  have hcall : ∀ h2 v, kind.call eval copy fuel h obj scope = .ok (h2, v) → Out P h h2 v :=
    fun h2 v e => Builtin_good he hcp kind hg hsc e
  cases kind <;> simp only [Builtin.exitHeap]
  case Quote =>
    exact heapOr_good _ (Out_here hg) (fun h1 x e => Out_drop (Quote_good hg e))
  case CreateLambda =>
    exact heapOr_good _ (Out_here hg) (fun h1 x e => Out_drop (CreateLambda_good hg hsc e))
  case EqualTo => exact compare_exit_good he heh hg hsc
  case Greater => exact compare_exit_good he heh hg hsc
  case Less => exact compare_exit_good he heh hg hsc
  case GreaterEqual => exact compare_exit_good he heh hg hsc
  case LessEqual => exact compare_exit_good he heh hg hsc
  case Abs => exact Abs_exit_good he heh hg hsc
  case And => exact And_exit_good he heh hg hsc
  case Or => exact Or_exit_good he heh hg hsc
  case Define => exact Define_exit_good he heh hcp hg hsc
  case Set => exact Set_exit_good he heh hcp hg hsc
  case If => exact If_exit_good he heh hg hsc
  case SetCar => exact setFieldExit_good he heh hcp _ hg hsc hcall
  case SetCdr => exact setFieldExit_good he heh hcp _ hg hsc hcall
  all_goals exact operandsExit_good he heh _ hg hsc hcall

theorem Calc_exit_good : ∀ fuel : Nat, ExitGood (Calc.exitHeap fuel) := by
  intro fuel
  induction fuel with
  | zero =>
    intro P h obj scope hg _ _
    exact Out_here hg
  | succ k ih =>
    intro P h obj scope hg hobj hsc
    cases obj with
    | none => exact Out_here hg
    | some a =>
      rw [Calc.exitHeap]
      split
      · rename_i first_ second_ hoa
        split
        · rename_i h2 func e1
          obtain ⟨P1, g1, _⟩ := Calc_good k P h first_ scope h2 func hg
            (Good_val_of_field hg hoa (by simp [Object.vals])) hsc e1
          have hsc1 : ∀ b, scope = some b → P1 b := fun b hb => g1.2.1 b (hsc b hb)
          have o1 : Out P h h2 none := ⟨P1, g1, Val_null _ _⟩
          split
          · rename_i f0 args hoa2
            split
            · exact o1
            · split
              · rename_i h3 func1 e2
                obtain ⟨g2, x2, _, _, _⟩ := Copy_good k P1 h2 func h3 func1 g1.1 e2
                have gr2 : Grows P1 h2 P1 h3 := Grows_step g2 x2.1
                unfold Apply.exitHeap
                split
                · rename_i f
                  split
                  · exact Out_seq g1 (Out_seq gr2
                      (Builtin_exit_good (Calc_good k) ih (Copy_good k) _ g2 hsc1))
                  · rename_i names body sc hof
                    obtain ⟨s1, hs1, g3⟩ := Grows_closure g1.1 e2 hof
                    refine Out_seq g1 (Out_seq g3 (Lambda_exit_good (Calc_good k) ih
                      (Copy_good k) g3.1 (fun b hb => Or.inl (hsc1 b hb)) ?_))
                    intro names1 body1 c ho1
                    rw [hof] at ho1
                    simp only [Option.some.injEq, Object.Lambda.injEq] at ho1
                    have : some s1 = some c := hs1.symm.trans ho1.2.2
                    exact Or.inr (Or.inr (Option.some.inj this).symm)
                  · exact Out_seq g1 ⟨P1, gr2, Val_null _ _⟩
                · exact Out_seq g1 ⟨P1, gr2, Val_null _ _⟩
              · exact o1
          · exact o1
        · exact ih P h first_ scope hg (Good_val_of_field hg hoa (by simp [Object.vals])) hsc
      · exact Out_here hg

/-! ## The parser -/

theorem readExit_good {readH : ReadExitFn} {read : ReadFn}
    (hr : ∀ P h t h1 t1 x, Good P h → read h t = .ok (h1, t1, x) → Out P h h1 x)
    (hrh : ∀ P h t, Good P h → Out P h (readH h t) none) {P : Nat → Prop} {h : Heap}
    {t : Tokenizer} (hg : Good P h) : Out P h (readExit readH read h t) none := by
  unfold readExit
  split
  · rename_i h1 t1 x e1
    exact Out_drop (hr P h t h1 t1 x hg e1)
  · exact hrh P h t hg

theorem ReadListLoop_exit_good {readH : ReadExitFn} {read : ReadFn}
    (hr : ∀ P h t h1 t1 x, Good P h → read h t = .ok (h1, t1, x) → Out P h h1 x)
    (hrh : ∀ P h t, Good P h → Out P h (readH h t) none) :
    ∀ (fuel : Nat) (P : Nat → Prop) (h : Heap) (t : Tokenizer) (list : List Ptr), Good P h →
      Out P h (ReadListLoop.exitHeap readH read fuel h t list) none := by
  intro fuel
  induction fuel with
  | zero =>
    intro P h t list hg
    exact Out_here hg
  | succ k ih =>
    intro P h t list hg
    simp only [ReadListLoop.exitHeap]
    split
    · exact Out_here hg
    · split
      · exact Out_here hg
      · split
        · split
          · exact Out_here hg
          · exact readExit_good hr hrh hg
        · split
          · exact hrh P h t hg
          · rename_i h1 t1 x e1
            obtain ⟨P1, g1, _⟩ := hr P h t h1 t1 x hg e1
            exact Out_seq g1 (ih P1 h1 t1 _ g1.1)

theorem ReadList_exit_good {readH : ReadExitFn} {read : ReadFn}
    (hr : ∀ P h t h1 t1 x, Good P h → read h t = .ok (h1, t1, x) → Out P h h1 x)
    (hrh : ∀ P h t, Good P h → Out P h (readH h t) none) {fuel : Nat} {P : Nat → Prop}
    {h : Heap} {t : Tokenizer} (hg : Good P h) :
    Out P h (ReadList.exitHeap readH read fuel h t) none := by
  unfold ReadList.exitHeap
  split
  · rename_i h3 t3 x e
    exact Out_drop (ReadList_good hr hg e)
  · split
    · exact Out_here hg
    · split
      · exact Out_here hg
      · split
        · exact hrh P h t hg
        · rename_i h1 t1 x e1
          obtain ⟨P1, g1, _⟩ := hr P h t h1 t1 x hg e1
          exact Out_seq g1 (ReadListLoop_exit_good hr hrh fuel P1 h1 t1 _ g1.1)

theorem Read_exit_good : ∀ (fuel : Nat) (P : Nat → Prop) (h : Heap) (t : Tokenizer),
    Good P h → Out P h (Read.exitHeap fuel h t) none := by
  intro fuel
  induction fuel with
  | zero =>
    intro P h t hg
    exact Out_here hg
  | succ k ih =>
    intro P h t hg
    rw [Read.exitHeap]
    split
    · rename_i h1 t1 x e
      exact Out_drop (Read_good (k + 1) P h t h1 t1 x hg e)
    · split
      · exact Out_here hg
      · split
        · exact Out_here hg
        · split
          · exact ReadList_exit_good (Read_good k) ih hg
          · have o0 : Out P h (h.Make (.Symbol "quote")).1 (some (h.Make (.Symbol "quote")).2) :=
              Out_atom hg _ rfl rfl (by intro d u e; cases e)
            obtain ⟨P0, g0, _⟩ := o0
            exact Out_seq g0 (ih P0 _ _ g0.1)
          · exact Out_here hg

/-! ## The interpreter -/

/-- Whatever a run does, the heap it exits with satisfies the invariant, with the global
frame hidden. -/
theorem Interpreter_exit_good {P : Nat → Prop} {self : Interpreter} (hg : Good P self.heap)
    (hp : P self.global_namespace_) (fuel : Nat) (str : String) :
    ∃ P1, Good P1 (self.exitHeap fuel str) ∧ P1 self.global_namespace_ := by
  have fin : ∀ {h1 : Heap}, Out P self.heap h1 none → ∃ P1, Good P1 h1 ∧
      P1 self.global_namespace_ := by
    intro h1 o
    obtain ⟨P1, g1, _⟩ := o
    exact ⟨P1, g1.1, g1.2.1 _ hp⟩
  unfold Interpreter.exitHeap
  split
  · exact ⟨P, hg, hp⟩
  · rename_i tokenizer _
    split
    · exact fin (Read_exit_good fuel P self.heap tokenizer hg)
    · rename_i h1 t1 object hread
      obtain ⟨P1, g1, hobj⟩ := Read_good fuel P self.heap tokenizer h1 t1 object hg hread
      have hp1 : ∀ a, some self.global_namespace_ = some a → P1 a := by
        intro a ha
        cases ha
        exact g1.2.1 _ hp
      split
      · exact fin ⟨P1, g1, Val_null _ _⟩
      · split
        · exact fin (Out_seq g1 (Calc_exit_good fuel P1 h1 object _ g1.1 hobj hp1))
        · rename_i h2 v hcalc
          obtain ⟨P2, g2, _⟩ := Calc_good fuel P1 h1 object _ h2 v g1.1 hobj hp1 hcalc
          have o2 : Out P self.heap h2 none := ⟨P2, Grows_seq g1 g2, Val_null _ _⟩
          split
          · exact fin o2
          · split
            · rename_i h3 hrt
              exact ⟨P2, RemoveTrash_good g2.1 hrt, g2.2.1 _ (g1.2.1 _ hp)⟩
            · exact fin o2

/-- Every state of the interpreter between two inputs satisfies the invariant, with the
global frame hidden. -/
theorem Reachable_good {self : Interpreter} (hr : self.Reachable) :
    ∃ P, Good P self.heap ∧ P self.global_namespace_ := by
  induction hr with
  | fresh => exact ⟨_, Interpreter_new_good, rfl⟩
  | @run self self1 fuel str answer _ hrun ih =>
    obtain ⟨P, hg, hp⟩ := ih
    unfold Interpreter.Run at hrun
    obtain ⟨tokenizer, _, hrun⟩ := bind_ok hrun
    obtain ⟨⟨h1, t1, object⟩, hread, hrun⟩ := bind_ok hrun
    simp only at hrun
    split at hrun
    · cases hrun
    · obtain ⟨⟨h2, v⟩, hcalc, hrun⟩ := bind_ok hrun
      simp only at hrun
      obtain ⟨ans, _, hrun⟩ := bind_ok hrun
      obtain ⟨h3, hrt, hrun⟩ := bind_ok hrun
      simp only [pure, Except.pure, Except.ok.injEq, Prod.mk.injEq] at hrun
      obtain ⟨rfl, _⟩ := hrun
      obtain ⟨P1, g1, hobj⟩ := Read_good fuel P self.heap tokenizer h1 t1 object hg hread
      obtain ⟨P2, g2, _⟩ := Calc_good fuel P1 h1 object (some self.global_namespace_) h2 v g1.1
        hobj (by intro a ha; cases ha; exact g1.2.1 _ hp) hcalc
      exact ⟨P2, RemoveTrash_good g2.1 hrt, g2.2.1 _ (g1.2.1 _ hp)⟩
  | @caught self fuel str e _ _ _ ih =>
    obtain ⟨P, hg, hp⟩ := ih
    exact Interpreter_exit_good hg hp fuel str

/-- The heap and the value right after the evaluation of a further input, before the
collection. -/
theorem Reachable_value_good {self : Interpreter} (hr : self.Reachable) {fuel : Nat}
    {tokenizer t1 : Tokenizer} {h1 h2 : Heap} {object v : Ptr}
    (hread : Read fuel self.heap tokenizer = .ok (h1, t1, object))
    (hcalc : Calc fuel h1 object (some self.global_namespace_) = .ok (h2, v)) :
    ∃ P, Good P h2 ∧ Val P h2 v := by
  obtain ⟨P, hg, hp⟩ := Reachable_good hr
  obtain ⟨P1, g1, hobj⟩ := Read_good fuel P self.heap tokenizer h1 t1 object hg hread
  obtain ⟨P2, g2, hv⟩ := Calc_good fuel P1 h1 object (some self.global_namespace_) h2 v g1.1
    hobj (by intro a ha; cases ha; exact g1.2.1 _ hp) hcalc
  exact ⟨P2, g2.1, hv⟩

/-- A turn of the loop of `main` leads from a reachable state to a reachable state. -/
theorem Reachable_turn {self : Interpreter} (hr : self.Reachable) (fuel : Nat) (s : String) :
    (self.turn fuel s).Reachable := by
  unfold Interpreter.turn
  split
  · rename_i self1 answer e
    exact Interpreter.Reachable.run hr e
  · rename_i e
    exact Interpreter.Reachable.caught hr e (Or.inl rfl)
  · rename_i e
    exact Interpreter.Reachable.caught hr e (Or.inr (Or.inl rfl))
  · rename_i e
    exact Interpreter.Reachable.caught hr e (Or.inr (Or.inr rfl))
  · exact hr

end Scheme
namespace Scheme

/-! ## C33: the cycles of a reachable heap -/

set_option maxRecDepth 100000

/-- What the invariant gives for one heap: its only cycles are self-references of pairs,
and both traversals return on every pointer. -/
theorem Good_cycles {P : Nat → Prop} {h : Heap} (hg : Good P h) :
    h.OnlySelfCycles ∧ ∀ p, ∃ F, ∀ fuel, F ≤ fuel →
      Copy fuel h p ≠ .error .OutOfFuel ∧ GetString fuel h p ≠ .error .OutOfFuel :=
  ⟨OnlySelfCycles_of_ranked hg.ranked, Good_returns hg⟩

/-- The third line of `cyclicSession` throws `RuntimeError`, and the heap it leaves holds
the pair that is its own second field, the duplicate of the closure that was being invoked,
and the own frame of that duplicate with the parameter bound. -/
theorem cyclicSession_heap :
    ((Interpreter.new.turn 40 "(define p (list 1))").turn 40 "(set-cdr! p p)").Run 40
        "((lambda (x) (car x)) 1)" = .error .RuntimeError ∧
      cyclicSession.heap.obj? 47 = some (.Cell (some 48) (some 47)) ∧
      cyclicSession.heap.obj? 72 = some (.Lambda [some 73] [some 74] (some 78)) ∧
      cyclicSession.heap.obj? 78 = some (.NameSpace [("x", some 66)] (some 0)) :=
  ⟨by rfl, by rfl, by rfl, by rfl⟩

/-- C33: in every state the interpreter of `main` can be in between two inputs (the fresh
interpreter, the state a run that returns leaves, and the state after a run that threw an
exception `main` catches, on the heap as the throw left it), the only cycles of the heap
along duplication edges (a pair's first and second, a closure's parameters, body and own
frame, a frame's local bindings) are direct self-references of pairs, and `Copy` and
`GetString` return on every pointer once the fuel is large enough (they never run out of
fuel, which is how the model renders a traversal that does not end).  The same holds for
the heap right after a further input was parsed, for the heap and the value right after
that input was evaluated, before the collection, and for the heap a further run exits with,
whether it returns or throws and wherever it throws. -/
theorem reachable_heap_cycles_are_pair_self_references (self : Interpreter)
    (hr : self.Reachable) :
    (self.heap.OnlySelfCycles ∧
      ∀ p, ∃ F, ∀ fuel, F ≤ fuel →
        Copy fuel self.heap p ≠ .error .OutOfFuel ∧
          GetString fuel self.heap p ≠ .error .OutOfFuel) ∧
    (∀ (fuel : Nat) (tokenizer t1 : Tokenizer) (h1 : Heap) (object : Ptr),
      Read fuel self.heap tokenizer = .ok (h1, t1, object) →
      h1.OnlySelfCycles ∧
        ∀ p, ∃ F, ∀ fuel1, F ≤ fuel1 →
          Copy fuel1 h1 p ≠ .error .OutOfFuel ∧ GetString fuel1 h1 p ≠ .error .OutOfFuel) ∧
    (∀ (fuel : Nat) (tokenizer t1 : Tokenizer) (h1 h2 : Heap) (object v : Ptr),
      Read fuel self.heap tokenizer = .ok (h1, t1, object) →
      Calc fuel h1 object (some self.global_namespace_) = .ok (h2, v) →
      h2.OnlySelfCycles ∧
        ∀ p, ∃ F, ∀ fuel1, F ≤ fuel1 →
          Copy fuel1 h2 p ≠ .error .OutOfFuel ∧ GetString fuel1 h2 p ≠ .error .OutOfFuel) ∧
    ∀ (fuel : Nat) (str : String),
      (self.exitHeap fuel str).OnlySelfCycles ∧
        ∀ p, ∃ F, ∀ fuel1, F ≤ fuel1 →
          Copy fuel1 (self.exitHeap fuel str) p ≠ .error .OutOfFuel ∧
            GetString fuel1 (self.exitHeap fuel str) p ≠ .error .OutOfFuel := by
  refine ⟨?_, ?_, ?_, ?_⟩
  · obtain ⟨P, hg, _⟩ := Reachable_good hr
    exact Good_cycles hg
  · intro fuel tokenizer t1 h1 object hread
    obtain ⟨P, hg, _⟩ := Reachable_good hr
    obtain ⟨P1, g1, _⟩ := Read_good fuel P self.heap tokenizer h1 t1 object hg hread
    exact Good_cycles g1.1
  · intro fuel tokenizer t1 h1 h2 object v hread hcalc
    obtain ⟨P, hg, _⟩ := Reachable_value_good hr hread hcalc
    exact Good_cycles hg
  · intro fuel str
    obtain ⟨P, hg, hp⟩ := Reachable_good hr
    obtain ⟨P1, g1, _⟩ := Interpreter_exit_good hg hp fuel str
    exact Good_cycles g1

/-- Witness for C33: the state after the three lines of `cyclicSession`, the last of which
throws inside the body of a closure.  Its heap holds a pair that is its own second field
and, uncollected, the duplicate of the closure with its frame. -/
theorem reachable_heap_cycles_are_pair_self_references_witness :
    cyclicSession.Reachable ∧
      (((Interpreter.new.turn 40 "(define p (list 1))").turn 40 "(set-cdr! p p)").Run 40
          "((lambda (x) (car x)) 1)" = .error .RuntimeError ∧
        cyclicSession.heap.obj? 47 = some (.Cell (some 48) (some 47)) ∧
        cyclicSession.heap.obj? 72 = some (.Lambda [some 73] [some 74] (some 78)) ∧
        cyclicSession.heap.obj? 78 = some (.NameSpace [("x", some 66)] (some 0))) ∧
      cyclicSession.heap.OnlySelfCycles ∧
      (∀ p, ∃ F, ∀ fuel, F ≤ fuel →
        Copy fuel cyclicSession.heap p ≠ .error .OutOfFuel ∧
          GetString fuel cyclicSession.heap p ≠ .error .OutOfFuel) ∧
      ∀ (fuel : Nat) (str : String), (cyclicSession.exitHeap fuel str).OnlySelfCycles :=
  have hr : cyclicSession.Reachable :=
    Reachable_turn (Reachable_turn (Reachable_turn Interpreter.Reachable.fresh _ _) _ _) _ _
  ⟨hr, cyclicSession_heap,
    (reachable_heap_cycles_are_pair_self_references cyclicSession hr).1.1,
    (reachable_heap_cycles_are_pair_self_references cyclicSession hr).1.2,
    fun fuel str =>
      ((reachable_heap_cycles_are_pair_self_references cyclicSession hr).2.2.2 fuel str).1⟩

end Scheme
